import Mathlib

/-!
# arith: bit-field packing and the 2x2 block codec

A shallow embedding of `bitpack.c`, `compressmath.c`, `compress40.c`, `decompressmath.c` and
the stream reader of `decompress40.c`.

Machine integers are natural numbers or integers with explicit reduction:
* `uint64_t` is a `Nat` below `2 ^ 64`, with results reduced `% 2 ^ 64`;
* `unsigned` is a `Nat` below `2 ^ 32`, with sums and differences reduced `% 2 ^ 32`;
* `int64_t` / `int` are `Int`s, and the conversions between the signed and the
  unsigned types are the two's-complement ones (`toU64`, `toS64`, `toUnsigned`, `toInt`).

A failed `assert`, a raised `Bitpack_Overflow` and the decoder's two `exit(EXIT_FAILURE)` paths
are the errors of `Except Err`.

A `float` or `double` value is a rational number. The functions that compute with them are
given twice: with every rounding left out (the reading "arithmetic taken as exact" of the
claims that say so), and, with the suffix `_f32`, in IEEE 754 binary32 and binary64 arithmetic
as the compiled code evaluates them (see the section on binary floating point).
-/

namespace Arith

/-- The ways a call can end without returning: a failed `assert` (Hanson's `Assert_Failed`),
`RAISE(Bitpack_Overflow)`, and the two reported fatal errors of the decoder. -/
inductive Err where
  | Assert_Failed
  | Bitpack_Overflow
  /-- The message "Invalid compressed image file." on `stderr` followed by `exit(EXIT_FAILURE)`. -/
  | Invalid_File
  /-- The message "Invalid compressed image dimensions." on `stderr` followed by
  `exit(EXIT_FAILURE)`. -/
  | Invalid_Dimensions
  deriving DecidableEq, Repr

/-- The constant `~(uint64_t)0`. -/
def allOnes : Nat := 2 ^ 64 - 1

/-- Bitwise complement `~x` of a `uint64_t`. -/
def not64 (x : Nat) : Nat := 2 ^ 64 - 1 - x % 2 ^ 64

/-- Conversion of an `int64_t` to `uint64_t` (reduction modulo `2 ^ 64`). -/
def toU64 (v : Int) : Nat := (v % 2 ^ 64).toNat

/-- Conversion of a `uint64_t` to `int64_t` (two's complement). -/
def toS64 (u : Nat) : Int :=
  if u % 2 ^ 64 < 2 ^ 63 then (u % 2 ^ 64 : Nat) else (u % 2 ^ 64 : Nat) - 2 ^ 64

/-- Unsigned 32-bit addition `a + b`. -/
def uadd (a b : Nat) : Nat := (a + b) % 2 ^ 32

/-- Unsigned 32-bit subtraction `a - b`. -/
def usub (a b : Nat) : Nat := (a + 2 ^ 32 - b % 2 ^ 32) % 2 ^ 32

/-- Source function `static uint64_t rshift(uint64_t val, unsigned shift_amt)`. -/
def rshift (val shift_amt : Nat) : Nat :=
  if shift_amt ≥ 64 then 0 else val >>> shift_amt

/-- Source function `static uint64_t lshift(uint64_t val, unsigned shift_amt)`. -/
def lshift (val shift_amt : Nat) : Nat :=
  if shift_amt ≥ 64 then 0 else (val <<< shift_amt) % 2 ^ 64

/-- Source function `static uint64_t pow2(unsigned exp)`. -/
def pow2 (exp : Nat) : Nat := lshift 1 exp

/-- Source function `bool Bitpack_fitsu(uint64_t n, unsigned width)`. -/
def Bitpack_fitsu (n width : Nat) : Bool :=
  if width ≥ 64 then true
  else
    let num_vals := pow2 width
    if num_vals > n then true else false

/-- Source function `bool Bitpack_fitss(int64_t n, unsigned width)`. -/
def Bitpack_fitss (n : Int) (width : Nat) : Bool :=
  if width = 0 then false
  else if width ≥ 64 then true
  else
    let num_vals := pow2 (usub width 1)
    if -1 * toS64 num_vals ≤ n ∧ toS64 num_vals > n then true else false

/-- The check `assert(width <= 64 && width + lsb <= 64)`; the sum is an `unsigned` sum. -/
def descriptor_ok (width lsb : Nat) : Bool :=
  decide (width ≤ 64) && decide (uadd width lsb ≤ 64)

/-- The mask both the getters and the setters build: `rshift(~0, 64 - width)` moved up by `lsb`.
`sizeof(uint64_t) * 8 - width` is a `size_t` difference that is then narrowed to `unsigned`. -/
def field_mask (width lsb : Nat) : Nat :=
  let mask := rshift allOnes ((64 + 2 ^ 64 - width) % 2 ^ 64 % 2 ^ 32)
  lshift mask lsb

/-- Source function `uint64_t Bitpack_getu(uint64_t word, unsigned width, unsigned lsb)`. -/
def Bitpack_getu (word width lsb : Nat) : Except Err Nat :=
  if descriptor_ok width lsb then
    let mask := field_mask width lsb
    .ok (rshift (mask &&& word) lsb)
  else .error .Assert_Failed

/-- Source function `int64_t Bitpack_gets(uint64_t word, unsigned width, unsigned lsb)`. The sum in the negative
branch mixes `int64_t` and `uint64_t`, so it is computed as a `uint64_t` and converted back. -/
def Bitpack_gets (word width lsb : Nat) : Except Err Int :=
  if descriptor_ok width lsb then
    if width = 0 then .ok 0
    else do
      let top ← Bitpack_getu word 1 (usub (uadd lsb width) 1)
      if top = 1 then
        if width = 64 then .ok (toS64 word)
        else do
          let low ← Bitpack_getu word (usub width 1) lsb
          .ok (toS64 ((toU64 (-1 * toS64 (pow2 (usub width 1))) + low) % 2 ^ 64))
      else do
        let r ← Bitpack_getu word width lsb
        .ok (toS64 r)
  else .error .Assert_Failed

/-- Source function `uint64_t Bitpack_newu(uint64_t word, unsigned width, unsigned lsb, uint64_t value)`. -/
def Bitpack_newu (word width lsb value : Nat) : Except Err Nat :=
  if descriptor_ok width lsb then
    if !Bitpack_fitsu value width then .error .Bitpack_Overflow
    else
      let mask := field_mask width lsb
      let updated_word := word &&& not64 mask
      .ok (lshift value lsb ||| updated_word)
  else .error .Assert_Failed

/-- Source function `uint64_t Bitpack_news(uint64_t word, unsigned width, unsigned lsb, int64_t value)`. -/
def Bitpack_news (word width lsb : Nat) (value : Int) : Except Err Nat :=
  if descriptor_ok width lsb then
    if !Bitpack_fitss value width then .error .Bitpack_Overflow
    else
      let mask := field_mask width lsb
      let updated_word := word &&& not64 mask
      .ok ((mask &&& lshift (toU64 value) lsb) ||| updated_word)
  else .error .Assert_Failed

/-- Two's-complement value of the `w` bits `u` (`u < 2 ^ w`): the reading that the
specification gives for a sign-extended field. -/
def twos_complement (u w : Nat) : Int :=
  if u ≥ 2 ^ (w - 1) then (u : Int) - 2 ^ w else (u : Int)

/-! ## `compressinfo.h`, `compressmath.c` and `compress40.c`

In this part and the next ones `float` values are rationals and their arithmetic is exact;
the same functions in binary32 arithmetic follow in the section on binary floating point. -/

/-- Conversion of an `int` to `unsigned` (reduction modulo `2 ^ 32`), as in
`unsigned b = quantize_dct(...)`. -/
def toUnsigned (v : Int) : Nat := (v % 2 ^ 32).toNat

/-- Conversion of an `unsigned` to `int` (two's complement), as when an `unsigned` argument is
passed for an `int` parameter. -/
def toInt (u : Nat) : Int :=
  if u % 2 ^ 32 < 2 ^ 31 then (u % 2 ^ 32 : Nat) else (u % 2 ^ 32 : Nat) - 2 ^ 32

/-- The C library function `round`: to the nearest integer, halfway cases away from zero. -/
def c_round (x : ℚ) : Int :=
  if 0 ≤ x then ⌊x + 1 / 2⌋ else -⌊-x + 1 / 2⌋

/-- Field width constant `A_WIDTH` of `compressinfo.h`. -/
def A_WIDTH : Nat := 6

/-- Field width constant `B_WIDTH` of `compressinfo.h`. -/
def B_WIDTH : Nat := 6

/-- Field width constant `C_WIDTH` of `compressinfo.h`. -/
def C_WIDTH : Nat := 6

/-- Field width constant `D_WIDTH` of `compressinfo.h`. -/
def D_WIDTH : Nat := 6

/-- Field width constant `PB_WIDTH` of `compressinfo.h`. -/
def PB_WIDTH : Nat := 4

/-- Field width constant `PR_WIDTH` of `compressinfo.h`. -/
def PR_WIDTH : Nat := 4

/-- Member `a_lsb` of `enum LSBS`. -/
def a_lsb : Nat := 26

/-- Member `b_lsb` of `enum LSBS`. -/
def b_lsb : Nat := 20

/-- Member `c_lsb` of `enum LSBS`. -/
def c_lsb : Nat := 14

/-- Member `d_lsb` of `enum LSBS`. -/
def d_lsb : Nat := 8

/-- Member `pb_lsb` of `enum LSBS`. -/
def pb_lsb : Nat := 4

/-- Member `pr_lsb` of `enum LSBS`. -/
def pr_lsb : Nat := 0

/-- The pixel type `struct Pnm_rgb` of `pnm.h`: three `unsigned` samples. -/
structure Pnm_rgb where
  red : Nat
  green : Nat
  blue : Nat

/-- Modelled from the spec: the external grid `UArray2_T` (allocate a `width` by `height` grid,
random access by `(col, row)`); the cells hold the packed 32-bit words. -/
structure UArray2 where
  width : Nat
  height : Nat
  elems : Nat → Nat → Nat

/-- Modelled from the spec: the assignment `*(uint32_t *)UArray2_at(a, col, row) = v`. The
external accessor treats an index outside the grid as a checked runtime error. -/
def UArray2_store (a : UArray2) (col row v : Nat) : Except Err UArray2 :=
  if col < a.width ∧ row < a.height then
    .ok { a with elems := fun c r => if c = col ∧ r = row then v else a.elems c r }
  else .error .Assert_Failed

/-- Source function `void scale_rgb(Pnm_rgb pixel, unsigned denominator, float normalized_rgbs[3])`
with exact arithmetic; the filled array is returned as `(r, g, b)`. In binary32:
`scale_rgb_f32`. -/
def scale_rgb (pixel : Pnm_rgb) (denominator : Nat) : ℚ × ℚ × ℚ :=
  let denom : ℚ := denominator
  (pixel.red / denom, pixel.green / denom, pixel.blue / denom)

/-- Source function `void rgb_to_cv(float normalized_rgbs[3], float chromas[3])` with exact
arithmetic and the decimal constants as exact numbers; the filled array is returned as
`(y, pb, pr)`. In floating point: `rgb_to_cv_f32`. -/
def rgb_to_cv (normalized_rgbs : ℚ × ℚ × ℚ) : ℚ × ℚ × ℚ :=
  let red := normalized_rgbs.1
  let green := normalized_rgbs.2.1
  let blue := normalized_rgbs.2.2
  let y := 299 / 1000 * red + 587 / 1000 * green + 114 / 1000 * blue
  let pb := -(168736 / 1000000) * red - 331264 / 1000000 * green + 5 / 10 * blue
  let pr := 5 / 10 * red - 418688 / 1000000 * green - 81312 / 1000000 * blue
  (y, pb, pr)

/-- Source function `unsigned quantize_avg_brightness(float a)` with exact arithmetic: the
product `a * 63` is not rounded. In binary32: `quantize_avg_brightness_f32`. -/
def quantize_avg_brightness (a : ℚ) : Except Err Nat :=
  if a ≥ 0 ∧ a ≤ 1 then .ok (toUnsigned (c_round (a * 63)))
  else .error .Assert_Failed

/-- Source function `int quantize_dct(float dct_val)` with exact arithmetic: the constants are
`3 / 10` and the product `dct_val * 50` is not rounded. In floating point:
`quantize_dct_f32`. -/
def quantize_dct (dct_val : ℚ) : Int :=
  if dct_val ≤ -(3 / 10) then -15
  else if dct_val ≥ 3 / 10 then 15
  else c_round (dct_val * 50)

/-- Source function `void pix_to_dct(float y_vals[4], float dcts[4])` with exact arithmetic;
the filled array is returned as `(dcts[0], dcts[1], dcts[2], dcts[3])`. In floating point:
`pix_to_dct_f32`. -/
def pix_to_dct (y_vals : Nat → ℚ) : ℚ × ℚ × ℚ × ℚ :=
  ((y_vals 3 + y_vals 2 + y_vals 1 + y_vals 0) / 4,
   (y_vals 3 + y_vals 2 - y_vals 1 - y_vals 0) / 4,
   (y_vals 3 - y_vals 2 + y_vals 1 - y_vals 0) / 4,
   (y_vals 3 - y_vals 2 - y_vals 1 + y_vals 0) / 4)

/-- Source function `static uint32_t bitpack_pixels(unsigned a, int b, int c, int d,
unsigned pb_ind, unsigned pr_ind)`; the returned `uint64_t` word is narrowed to `uint32_t`. -/
def bitpack_pixels (a : Nat) (b c d : Int) (pb_ind pr_ind : Nat) : Except Err Nat := do
  let word := 0
  let word ← Bitpack_newu word A_WIDTH a_lsb a
  let word ← Bitpack_news word B_WIDTH b_lsb b
  let word ← Bitpack_news word C_WIDTH c_lsb c
  let word ← Bitpack_news word D_WIDTH d_lsb d
  let word ← Bitpack_newu word PB_WIDTH pb_lsb pb_ind
  let word ← Bitpack_newu word PR_WIDTH pr_lsb pr_ind
  .ok (word % 2 ^ 32)

/-- The mapping closure `struct Compression_Info`. -/
structure Compression_Info where
  compressed : UArray2
  y_vals : Nat → ℚ
  avg_pr : ℚ
  avg_pb : ℚ
  denominator : Nat
  orig_width : Nat
  orig_height : Nat

/-- Source function `static void pack_pixel(Compression_Info c_info, int col, int row)` with
exact arithmetic. The external table lookup `Arith40_index_of_chroma` is the parameter
`index_of`. The three detail codes are held in `unsigned` variables and passed on as `int`.
In floating point: `pack_pixel_f32`. -/
def pack_pixel (index_of : ℚ → Nat) (c_info : Compression_Info) (col row : Nat) :
    Except Err Compression_Info := do
  let dcts := pix_to_dct c_info.y_vals
  let a ← quantize_avg_brightness dcts.1
  let b := toUnsigned (quantize_dct dcts.2.1)
  let c := toUnsigned (quantize_dct dcts.2.2.1)
  let d := toUnsigned (quantize_dct dcts.2.2.2)
  let avg_pb := c_info.avg_pb / 4
  let avg_pr := c_info.avg_pr / 4
  let bitpacked_data ← bitpack_pixels a (toInt b) (toInt c) (toInt d)
    (index_of avg_pb) (index_of avg_pr)
  let compressed ← UArray2_store c_info.compressed (col / 2) (row / 2) bitpacked_data
  .ok { c_info with compressed := compressed, avg_pb := 0, avg_pr := 0 }

/-- Source function `static void compress_cb(int col, int row, A2Methods_UArray2 image,
void *elem, void *cl)` with exact arithmetic; `elem` is the pixel at `(col, row)` and the
closure is threaded through. In binary32: `compress_cb_f32`. -/
def compress_cb (index_of : ℚ → Nat) (col row : Nat) (elem : Pnm_rgb) (cl : Compression_Info) :
    Except Err Compression_Info :=
  if col ≥ cl.orig_width - cl.orig_width % 2 ∨ row ≥ cl.orig_height - cl.orig_height % 2 then
    .ok cl
  else
    let chromas := rgb_to_cv (scale_rgb elem cl.denominator)
    let cl := { cl with avg_pb := cl.avg_pb + chromas.2.1, avg_pr := cl.avg_pr + chromas.2.2 }
    let y_val_pos := (row % 2) * 2 + (col % 2)
    let cl := { cl with y_vals := fun i => if i = y_val_pos then chromas.1 else cl.y_vals i }
    if row % 2 = 1 ∧ col % 2 = 1 then pack_pixel index_of cl col row
    else .ok cl

/-- The 64-bit `word` that `bitpack_pixels` holds at its `return`, before the narrowing to
`uint32_t`. -/
def bitpack_pixels_word (a : Nat) (b c d : Int) (pb_ind pr_ind : Nat) : Except Err Nat := do
  let word := 0
  let word ← Bitpack_newu word A_WIDTH a_lsb a
  let word ← Bitpack_news word B_WIDTH b_lsb b
  let word ← Bitpack_news word C_WIDTH c_lsb c
  let word ← Bitpack_news word D_WIDTH d_lsb d
  let word ← Bitpack_newu word PB_WIDTH pb_lsb pb_ind
  Bitpack_newu word PR_WIDTH pr_lsb pr_ind

/-! ## `decompressmath.c` -/

/-- Source function `void cv_to_rgb(float chromas[3], float normalized_rgbs[3])` with exact
arithmetic and the decimal constants as exact numbers; the filled array is returned as
`(r, g, b)`. In floating point: `cv_to_rgb_f32`. -/
def cv_to_rgb (chromas : ℚ × ℚ × ℚ) : ℚ × ℚ × ℚ :=
  (1 * chromas.1 + 0 * chromas.2.1 + 1402 / 1000 * chromas.2.2,
   1 * chromas.1 - 344136 / 1000000 * chromas.2.1 - 714136 / 1000000 * chromas.2.2,
   1 * chromas.1 + 1772 / 1000 * chromas.2.1 + 0 * chromas.2.2)

/-- Source function `void dct_to_brightness(float dcts[4], float y_vals[4])`; the filled array
`y_vals` is returned as a function of the index. -/
def dct_to_brightness (dcts : ℚ × ℚ × ℚ × ℚ) : Nat → ℚ :=
  let a := dcts.1
  let b := dcts.2.1
  let c := dcts.2.2.1
  let d := dcts.2.2.2
  fun i =>
    if i = 0 then a - b - c + d
    else if i = 1 then a - b + c - d
    else if i = 2 then a + b - c - d
    else if i = 3 then a + b + c + d
    else 0

/-! ## Writing and reading the compressed stream

`stdout` is the list of bytes written so far; an input `FILE` is the list of bytes not yet
read together with its end-of-file indicator. -/

/-- The C library call `putchar(c)`: the byte `(unsigned char)c` is appended to `stdout`. -/
def putchar (c : Int) (out : List Nat) : List Nat := out ++ [(c % 256).toNat]

/-- The loop `for (int i = (int)(sizeof word) - 1; i >= 0; i--)` of `print_big_endian`, with
`n = i + 1` iterations left. -/
def print_big_endian_loop : Nat → Nat → List Nat → Except Err (List Nat)
  | 0, _, out => .ok out
  | n + 1, word, out => do
    let b ← Bitpack_getu word 8 (n * 8)
    print_big_endian_loop n word (putchar (toInt b) out)

/-- Source function `static void print_big_endian(uint32_t word)`. -/
def print_big_endian (word : Nat) (out : List Nat) : Except Err (List Nat) :=
  print_big_endian_loop 4 word out

/-- Source function `static void print_compress_cb(int col, int row, UArray2_T compressed,
void *elem, void *cl)`; `elem` is the word at `(col, row)`. -/
def print_compress_cb (_col _row : Nat) (elem : Nat) (out : List Nat) : Except Err (List Nat) :=
  print_big_endian elem out

/-- Modelled from the spec: the inner loop of the external traversal `UArray2_map_row_major`,
over the columns `col, col + 1, ...` of one row, `k` columns left. -/
def map_row_major_cols {σ : Type} (a : UArray2) (apply : Nat → Nat → Nat → σ → Except Err σ)
    (row : Nat) : Nat → Nat → σ → Except Err σ
  | 0, _, cl => .ok cl
  | k + 1, col, cl => do
    let cl ← apply col row (a.elems col row) cl
    map_row_major_cols a apply row k (col + 1) cl

/-- Modelled from the spec: the outer loop of the external traversal `UArray2_map_row_major`,
over the rows `row, row + 1, ...`, `k` rows left. -/
def map_row_major_rows {σ : Type} (a : UArray2) (apply : Nat → Nat → Nat → σ → Except Err σ) :
    Nat → Nat → σ → Except Err σ
  | 0, _, cl => .ok cl
  | k + 1, row, cl => do
    let cl ← map_row_major_cols a apply row a.width 0 cl
    map_row_major_rows a apply k (row + 1) cl

/-- Modelled from the spec: the external traversal `UArray2_map_row_major`, which visits all
elements in row-major order (column index varying fastest). -/
def UArray2_map_row_major {σ : Type} (a : UArray2)
    (apply : Nat → Nat → Nat → σ → Except Err σ) (cl : σ) : Except Err σ :=
  map_row_major_rows a apply a.height 0 cl

/-- The literal that opens the format string of `write_compressed`, up to its first newline. -/
def tag_string : String := "COMP40 Compressed image format 2"

/-- The `%u` conversion of `printf`: the decimal digits of `n` as bytes. -/
def decimal (n : Nat) : List Nat := (Nat.toDigits 10 n).map Char.toNat

/-- The bytes of `printf("COMP40 Compressed image format 2\n%u %u\n", width, height)`; `10` is
the newline and `32` the space. -/
def printf_header (width height : Nat) : List Nat :=
  tag_string.toList.map Char.toNat ++ [10] ++ decimal width ++ [32] ++ decimal height ++ [10]

/-- Source function `static void write_compressed(UArray2_T compressed)`. -/
def write_compressed (compressed : UArray2) (out : List Nat) : Except Err (List Nat) :=
  let out := out ++ printf_header compressed.width compressed.height
  UArray2_map_row_major compressed print_compress_cb out

/-- An input stream: the bytes not yet read and the end-of-file indicator that `feof` tests. -/
structure FILE where
  rest : List Nat
  eof : Bool

/-- The C library call `getc(input)`: the next byte, or `EOF = -1` with the end-of-file
indicator set when no byte is left. -/
def getc (input : FILE) : Int × FILE :=
  match input.rest with
  | [] => (-1, { input with eof := true })
  | b :: bs => ((b : Int), { input with rest := bs })

/-- Modelled from the spec: the external allocator `UArray2_new(width, height, size)`. -/
def UArray2_new (width height : Nat) : UArray2 :=
  { width := width, height := height, elems := fun _ _ => 0 }

/-- The loop `for (int byte = 3; byte >= 0 && !feof(input); c = getc(input))` of
`read_compressed`, with `n = byte + 1`; `word` is a `uint32_t`. -/
def read_word_loop : Nat → Nat → Int → FILE → Except Err (Nat × Int × FILE)
  | 0, word, c, input => .ok (word, c, input)
  | n + 1, word, c, input =>
    if input.eof then .ok (word, c, input)
    else do
      let w ← Bitpack_newu word 8 (n * 8) (toU64 c)
      let next := getc input
      read_word_loop n (w % 2 ^ 32) next.1 next.2

/-- The loop `for (unsigned col = 0; col < width; col++)` of `read_compressed`, `k` columns
left. -/
def read_col_loop (width height row : Nat) :
    Nat → Nat → Int → FILE → UArray2 → Except Err (Int × FILE × UArray2)
  | 0, _, c, input, compressed => .ok (c, input, compressed)
  | k + 1, col, c, input, compressed => do
    let r ← read_word_loop 4 0 c input
    if r.2.2.eof && !(row == usub height 1 && col == usub width 1) then
      .error .Invalid_File
    else do
      let compressed ← UArray2_store compressed col row r.1
      read_col_loop width height row k (col + 1) r.2.1 r.2.2 compressed

/-- The loop `for (unsigned row = 0; row < height; row++)` of `read_compressed`, `k` rows
left. -/
def read_row_loop (width height : Nat) :
    Nat → Nat → Int → FILE → UArray2 → Except Err (Int × FILE × UArray2)
  | 0, _, c, input, compressed => .ok (c, input, compressed)
  | k + 1, row, c, input, compressed => do
    let r ← read_col_loop width height row width 0 c input compressed
    read_row_loop width height k (row + 1) r.1 r.2.1 r.2.2

/-- Source function `static UArray2_T read_compressed(FILE *input)` after its call of
`read_header`, which has stored `width` and `height` and left `input` at the first body
byte. -/
def read_compressed_words (width height : Nat) (input : FILE) : Except Err UArray2 := do
  let compressed := UArray2_new width height
  let first := getc input
  let r ← read_row_loop width height height 0 first.1 first.2 compressed
  .ok r.2.2

/-- Big-endian value of a list of four bytes (and `0` for any other list). -/
def be_value : List Nat → Nat
  | [b0, b1, b2, b3] => b0 * 2 ^ 24 + b1 * 2 ^ 16 + b2 * 2 ^ 8 + b3
  | _ => 0

/-- The four bytes of a 32-bit word, most significant first. -/
def be_bytes (x : Nat) : List Nat :=
  [x / 2 ^ 24 % 256, x / 2 ^ 16 % 256, x / 2 ^ 8 % 256, x % 256]

/-! ## The decoder: `decompressmath.c` and `decompress40.c` -/

/-- Source function `float dequantize_avg_brightness(unsigned a)`. -/
def dequantize_avg_brightness (a : Nat) : Except Err ℚ :=
  if a ≤ 511 then .ok ((a : ℚ) / 63) else .error .Assert_Failed

/-- Source function `float dequantize_dct(int quantized_dct)`. -/
def dequantize_dct (quantized_dct : Int) : Except Err ℚ :=
  if quantized_dct ≥ -15 ∧ quantized_dct ≤ 15 then .ok ((quantized_dct : ℚ) / 50)
  else .error .Assert_Failed

/-- Conversion of a `float` to `unsigned`, as in the initialisers of `unscale_rgb`: the
fractional part is discarded. -/
def float_to_unsigned (x : ℚ) : Nat := ⌊x⌋.toNat % 2 ^ 32

/-- Source function `struct Pnm_rgb unscale_rgb(float normalized_rgbs[3],
unsigned denominator)` with exact products. In binary32: `unscale_rgb_f32`. -/
def unscale_rgb (normalized_rgbs : ℚ × ℚ × ℚ) (denominator : Nat) : Pnm_rgb :=
  { red := float_to_unsigned (normalized_rgbs.1 * denominator)
    green := float_to_unsigned (normalized_rgbs.2.1 * denominator)
    blue := float_to_unsigned (normalized_rgbs.2.2 * denominator) }

/-- The two assignments of the loop body of `trim_normalized_rgbs` on one component. -/
def trim_one (x : ℚ) : ℚ :=
  let x := if x < 0 then 0 else x
  if x > 1 then 1 else x

/-- Source function `static void trim_normalized_rgbs(float normalized_rgbs[3])`; the updated
array is returned. -/
def trim_normalized_rgbs (normalized_rgbs : ℚ × ℚ × ℚ) : ℚ × ℚ × ℚ :=
  (trim_one normalized_rgbs.1, trim_one normalized_rgbs.2.1, trim_one normalized_rgbs.2.2)

/-- The image type `struct Pnm_ppm` of `pnm.h`, without its method suite: dimensions,
denominator and the pixel at each `(col, row)`. -/
structure Pnm_ppm where
  width : Nat
  height : Nat
  denominator : Nat
  pixels : Nat → Nat → Pnm_rgb

/-- Modelled from the spec: the assignment `*dest_elem = pixel` through the external accessor
`pixmap->methods->at(pixmap->pixels, col, row)`, which treats an index outside the grid as a
checked runtime error. -/
def Pnm_store (pixmap : Pnm_ppm) (col row : Nat) (pixel : Pnm_rgb) : Except Err Pnm_ppm :=
  if col < pixmap.width ∧ row < pixmap.height then
    .ok { pixmap with pixels := fun c r => if c = col ∧ r = row then pixel else pixmap.pixels c r }
  else .error .Assert_Failed

/-- The destination `((col * 2) + i % 2, (row * 2) + i / 2)` of sample `i` in
`decompress_pixel`. -/
def sample_position (col row i : Nat) : Nat × Nat := (col * 2 + i % 2, row * 2 + i / 2)

/-- The index `(row % 2) * 2 + (col % 2)` at which `compress_cb` stores the luma of the pixel
at `(col, row)`. -/
def y_val_pos (col row : Nat) : Nat := (row % 2) * 2 + (col % 2)

/-- The pixel that one pass of the loop of `decompress_pixel` computes from a luma and the two
chromas, with exact arithmetic. In floating point: `sample_pixel_f32`. -/
def sample_pixel (avg_pb avg_pr y : ℚ) (denominator : Nat) : Pnm_rgb :=
  unscale_rgb (trim_normalized_rgbs (cv_to_rgb (y, avg_pb, avg_pr))) denominator

/-- The loop `for (int i = 0; i < 4; i++)` of `decompress_pixel` with exact arithmetic, `n`
passes left. -/
def decompress_pixel_loop (avg_pb avg_pr : ℚ) (y_vals : Nat → ℚ) (col row : Nat) :
    Nat → Nat → Pnm_ppm → Except Err Pnm_ppm
  | 0, _, pixmap => .ok pixmap
  | n + 1, i, pixmap =>
    (Pnm_store pixmap (sample_position col row i).1 (sample_position col row i).2
      (sample_pixel avg_pb avg_pr (y_vals i) pixmap.denominator)).bind fun pixmap =>
        decompress_pixel_loop avg_pb avg_pr y_vals col row n (i + 1) pixmap

/-- Source function `static void decompress_pixel(float avg_pb, float avg_pr,
float y_vals[4], Pnm_ppm pixmap, int col, int row)` with exact arithmetic. In floating point:
`decompress_pixel_f32`. -/
def decompress_pixel (avg_pb avg_pr : ℚ) (y_vals : Nat → ℚ) (pixmap : Pnm_ppm)
    (col row : Nat) : Except Err Pnm_ppm :=
  decompress_pixel_loop avg_pb avg_pr y_vals col row 4 0 pixmap

/-- The statements of `decompress_cb` before its call of `decompress_pixel`: the six
extractions, the dequantizations and `dct_to_brightness`; returns `(avg_pb, avg_pr, y_vals)`.
The external table lookup `Arith40_chroma_of_index` is the parameter `chroma_of`. -/
def unpack_block (chroma_of : Nat → ℚ) (elem : Nat) : Except Err (ℚ × ℚ × (Nat → ℚ)) := do
  let word := elem % 2 ^ 32
  let a ← Bitpack_getu word A_WIDTH a_lsb
  let dq_a ← dequantize_avg_brightness (a % 2 ^ 32)
  let b ← Bitpack_gets word B_WIDTH b_lsb
  let dq_b ← dequantize_dct (toInt (toUnsigned b))
  let c ← Bitpack_gets word C_WIDTH c_lsb
  let dq_c ← dequantize_dct (toInt (toUnsigned c))
  let d ← Bitpack_gets word D_WIDTH d_lsb
  let dq_d ← dequantize_dct (toInt (toUnsigned d))
  let pb_index ← Bitpack_getu word PB_WIDTH pb_lsb
  let pr_index ← Bitpack_getu word PR_WIDTH pr_lsb
  let avg_pb := chroma_of (pb_index % 2 ^ 32)
  let avg_pr := chroma_of (pr_index % 2 ^ 32)
  .ok (avg_pb, avg_pr, dct_to_brightness (dq_a, dq_b, dq_c, dq_d))

/-- Source function `static void decompress_cb(int col, int row, UArray2_T image, void *elem,
void *cl)`; `elem` is the word at `(col, row)` and the closure is the destination image. -/
def decompress_cb (chroma_of : Nat → ℚ) (col row : Nat) (elem : Nat) (pixmap : Pnm_ppm) :
    Except Err Pnm_ppm :=
  (unpack_block chroma_of elem).bind fun r =>
    decompress_pixel r.1 r.2.1 r.2.2 pixmap col row

/-- The pixel that the decoder is specified to give to position `(x, y)` of the output: sample
`(y % 2) * 2 + x % 2` of the word at `(x / 2, y / 2)` of the packed grid (black if the word
does not decode). -/
def decoded_pixel (chroma_of : Nat → ℚ) (compressed : UArray2) (denominator x y : Nat) :
    Pnm_rgb :=
  match unpack_block chroma_of (compressed.elems (x / 2) (y / 2)) with
  | .ok r => sample_pixel r.1 r.2.1 (r.2.2 (y_val_pos x y)) denominator
  | .error _ => { red := 0, green := 0, blue := 0 }

/-- The C library predicate `isspace` on a byte. -/
def isspace (c : Nat) : Bool := c == 32 || (9 ≤ c && c ≤ 13)

/-- The C library predicate `isdigit` on a byte. -/
def isdigit (c : Nat) : Bool := 48 ≤ c && c ≤ 57

/-- Input white space skipped by a white-space directive or before a conversion. -/
def skip_space : List Nat → List Nat
  | [] => []
  | c :: rest => if isspace c then skip_space rest else c :: rest

/-- The literal part of a `fscanf` format: a white-space character of the format matches any
amount of input white space, any other character matches itself; `none` is a matching or
input failure. -/
def scan_literal : List Nat → List Nat → Option (List Nat)
  | [], input => some input
  | f :: fmt, input =>
    if isspace f then scan_literal fmt (skip_space input)
    else
      match input with
      | [] => none
      | c :: rest => if c = f then scan_literal fmt rest else none

/-- The digits of a `%u` conversion, accumulated onto `acc`. -/
def scan_digits : Nat → List Nat → Nat × List Nat
  | acc, [] => (acc, [])
  | acc, c :: rest =>
    if isdigit c then scan_digits (acc * 10 + (c - 48)) rest else (acc, c :: rest)

/-- The `%u` conversion of `fscanf`: white space is skipped, then an optional sign and a
non-empty run of digits are read. A numeral too large for `unsigned` is reduced modulo
`2 ^ 32`. -/
def scan_unsigned (input : List Nat) : Option (Nat × List Nat) :=
  match skip_space input with
  | [] => none
  | c :: rest =>
    if isdigit c then
      let r := scan_digits 0 (c :: rest)
      some (r.1 % 2 ^ 32, r.2)
    else if c = 43 ∨ c = 45 then
      match rest with
      | [] => none
      | d :: rest' =>
        if isdigit d then
          let r := scan_digits 0 (d :: rest')
          some (if c = 45 then (2 ^ 32 - r.1 % 2 ^ 32) % 2 ^ 32 else r.1 % 2 ^ 32, r.2)
        else none
    else none

/-- The call `fscanf(input, "COMP40 Compressed image format 2\n%u %u", width, height)`:
`some (width, height, rest)` when both conversions succeed (`read == 2`), else `none`. -/
def fscanf_header (input : List Nat) : Option (Nat × Nat × List Nat) :=
  (scan_literal (tag_string.toList.map Char.toNat ++ [10]) input).bind fun rest =>
    (scan_unsigned rest).bind fun w =>
      (scan_literal [32] w.2).bind fun rest =>
        (scan_unsigned rest).bind fun h => some (w.1, h.1, h.2)

/-- Source function `static void read_header(FILE *input, unsigned *width, unsigned *height)`;
returns the two stored numbers and the stream after the newline. -/
def read_header (input : FILE) : Except Err (Nat × Nat × FILE) :=
  match fscanf_header input.rest with
  | none => .error .Assert_Failed
  | some (width, height, rest) =>
    if width = 0 ∨ height = 0 then .error .Invalid_Dimensions
    else
      let r := getc { input with rest := rest }
      if r.1 = 10 then .ok (width, height, r.2) else .error .Assert_Failed

/-- Source function `static UArray2_T read_compressed(FILE *input)`. -/
def read_compressed (input : FILE) : Except Err UArray2 :=
  (read_header input).bind fun r => read_compressed_words r.1 r.2.1 r.2.2

/-- Source function `void decompress40(FILE *input)`; returns the image handed to the external
`Pnm_ppmwrite`. The products `UArray2_width(compressed) * 2` are taken without overflow. -/
def decompress40 (chroma_of : Nat → ℚ) (input : FILE) : Except Err Pnm_ppm :=
  (read_compressed input).bind fun compressed =>
    let pixmap : Pnm_ppm :=
      { width := compressed.width * 2, height := compressed.height * 2, denominator := 255,
        pixels := fun _ _ => { red := 0, green := 0, blue := 0 } }
    UArray2_map_row_major compressed (decompress_cb chroma_of) pixmap

/-! ## The encoder driver -/

/-- Modelled from the spec: the external traversal `map_block_major`, as the list of cells
`(col, row)` in the order in which it visits them. -/
def map_cells {σ : Type} (pixels : Nat → Nat → Pnm_rgb)
    (apply : Nat → Nat → Pnm_rgb → σ → Except Err σ) : List (Nat × Nat) → σ → Except Err σ
  | [], cl => .ok cl
  | p :: rest, cl =>
    (apply p.1 p.2 (pixels p.1 p.2) cl).bind fun cl => map_cells pixels apply rest cl

/-- The closure `c_info` that `compress40` sets up; `y_vals` is the content of the
uninitialised array. -/
def initial_info (image : Pnm_ppm) (y_vals : Nat → ℚ) : Compression_Info :=
  { compressed := UArray2_new (image.width / 2) (image.height / 2)
    y_vals := y_vals
    avg_pr := 0
    avg_pb := 0
    denominator := image.denominator
    orig_width := image.width
    orig_height := image.height }

/-- The part of `compress40` between `Pnm_ppmread` and `write_compressed`: the packed grid
after `map_block_major` has applied `compress_cb` to the cells in the order `cells`. -/
def compress_image (index_of : ℚ → Nat) (image : Pnm_ppm) (cells : List (Nat × Nat))
    (y_vals : Nat → ℚ) : Except Err UArray2 :=
  (map_cells image.pixels (compress_cb index_of) cells (initial_info image y_vals)).bind
    fun cl => .ok cl.compressed

/-- Source function `void compress40(FILE *input)` on the image that the external
`Pnm_ppmread` returns; the result is the byte stream written to `stdout`. -/
def compress40 (index_of : ℚ → Nat) (image : Pnm_ppm) (cells : List (Nat × Nat))
    (y_vals : Nat → ℚ) : Except Err (List Nat) :=
  (compress_image index_of image cells y_vals).bind fun compressed =>
    write_compressed compressed []

/-- Modelled from the spec: the cells of the 2 by 2 block `(bi, bj)` that lie in a `width` by
`height` image, row by row. -/
def block_cells (width height bi bj : Nat) : List (Nat × Nat) :=
  [(2 * bi, 2 * bj), (2 * bi + 1, 2 * bj), (2 * bi, 2 * bj + 1), (2 * bi + 1, 2 * bj + 1)].filter
    fun p => decide (p.1 < width) && decide (p.2 < height)

/-- Modelled from the spec: a 2 by 2 block-major order of the cells of a `width` by `height`
image, the blocks row by row and the cells of a block together. -/
def block_major_cells (width height : Nat) : List (Nat × Nat) :=
  (List.range ((height + 1) / 2)).flatMap fun bj =>
    (List.range ((width + 1) / 2)).flatMap fun bi => block_cells width height bi bj

/-- The six orders in which the four cells of block `(i, j)` can be visited with the cell at
odd column and odd row last. -/
def block_orders (i j : Nat) : List (List (Nat × Nat)) :=
  [[(2 * i, 2 * j), (2 * i + 1, 2 * j), (2 * i, 2 * j + 1), (2 * i + 1, 2 * j + 1)],
   [(2 * i, 2 * j), (2 * i, 2 * j + 1), (2 * i + 1, 2 * j), (2 * i + 1, 2 * j + 1)],
   [(2 * i + 1, 2 * j), (2 * i, 2 * j), (2 * i, 2 * j + 1), (2 * i + 1, 2 * j + 1)],
   [(2 * i + 1, 2 * j), (2 * i, 2 * j + 1), (2 * i, 2 * j), (2 * i + 1, 2 * j + 1)],
   [(2 * i, 2 * j + 1), (2 * i, 2 * j), (2 * i + 1, 2 * j), (2 * i + 1, 2 * j + 1)],
   [(2 * i, 2 * j + 1), (2 * i + 1, 2 * j), (2 * i, 2 * j), (2 * i + 1, 2 * j + 1)]]

/-- The block encoding in the words of the specification, with exact arithmetic: normalize
the four pixels, transform each to `(y, pb, pr)`, sum and average the chromas, run the forward
block transform on the four lumas, quantize, and pack the six codes. In floating point:
`encode_block_f32`. -/
def encode_block (index_of : ℚ → Nat) (D : Nat) (p0 p1 p2 p3 : Pnm_rgb) : Except Err Nat :=
  let cv0 := rgb_to_cv (scale_rgb p0 D)
  let cv1 := rgb_to_cv (scale_rgb p1 D)
  let cv2 := rgb_to_cv (scale_rgb p2 D)
  let cv3 := rgb_to_cv (scale_rgb p3 D)
  let avg_pb := (cv0.2.1 + cv1.2.1 + cv2.2.1 + cv3.2.1) / 4
  let avg_pr := (cv0.2.2 + cv1.2.2 + cv2.2.2 + cv3.2.2) / 4
  let a := (cv3.1 + cv2.1 + cv1.1 + cv0.1) / 4
  let b := (cv3.1 + cv2.1 - cv1.1 - cv0.1) / 4
  let c := (cv3.1 - cv2.1 + cv1.1 - cv0.1) / 4
  let d := (cv3.1 - cv2.1 - cv1.1 + cv0.1) / 4
  (quantize_avg_brightness a).bind fun qa =>
    bitpack_pixels qa (quantize_dct b) (quantize_dct c) (quantize_dct d)
      (index_of avg_pb) (index_of avg_pr)

/-- The luma array after the four pixels of a block have been visited: the lumas of
`p0, p1, p2, p3` at the indices `0, 1, 2, 3`. -/
def block_y_vals (D : Nat) (p0 p1 p2 p3 : Pnm_rgb) (old : Nat → ℚ) : Nat → ℚ := fun k =>
  if k = 0 then (rgb_to_cv (scale_rgb p0 D)).1
  else if k = 1 then (rgb_to_cv (scale_rgb p1 D)).1
  else if k = 2 then (rgb_to_cv (scale_rgb p2 D)).1
  else if k = 3 then (rgb_to_cv (scale_rgb p3 D)).1
  else old k

/-- The encoder in the words of the specification, block by block: the word of block `(i, j)`
is the block encoding of the pixels at `(2i, 2j)`, `(2i + 1, 2j)`, `(2i, 2j + 1)` and
`(2i + 1, 2j + 1)`, stored at `(i, j)` of the packed grid; the chroma accumulators are zero
after each block. -/
def encode_blocks (index_of : ℚ → Nat) (pixels : Nat → Nat → Pnm_rgb) :
    List (Nat × Nat) → Compression_Info → Except Err Compression_Info
  | [], cl => .ok cl
  | b :: bs, cl =>
    (encode_block index_of cl.denominator (pixels (2 * b.1) (2 * b.2))
        (pixels (2 * b.1 + 1) (2 * b.2)) (pixels (2 * b.1) (2 * b.2 + 1))
        (pixels (2 * b.1 + 1) (2 * b.2 + 1))).bind fun word =>
      (UArray2_store cl.compressed b.1 b.2 word).bind fun compressed =>
        encode_blocks index_of pixels bs
          { cl with
            compressed := compressed
            avg_pb := 0
            avg_pr := 0
            y_vals := block_y_vals cl.denominator (pixels (2 * b.1) (2 * b.2))
              (pixels (2 * b.1 + 1) (2 * b.2)) (pixels (2 * b.1) (2 * b.2 + 1))
              (pixels (2 * b.1 + 1) (2 * b.2 + 1)) cl.y_vals }

/-- The cells of the top-left crop to even dimensions of a `width` by `height` image. -/
def in_crop (width height : Nat) (p : Nat × Nat) : Bool :=
  decide (p.1 < width - width % 2) && decide (p.2 < height - height % 2)

/-- The closure with the dimensions of the image replaced by those of its even crop. -/
def crop_info (cl : Compression_Info) : Compression_Info :=
  { cl with
    orig_width := cl.orig_width - cl.orig_width % 2
    orig_height := cl.orig_height - cl.orig_height % 2 }

/-- The blocks of a packed grid of `w` by `h` words, row by row. -/
def block_list (w h : Nat) : List (Nat × Nat) :=
  (List.range h).flatMap fun bj => (List.range w).map fun bi => (bi, bj)

/-! ## Binary floating point

The C types `float` and `double` are IEEE 754 binary32 and binary64. A finite value of either
type is a rational number, and an operation is the exact operation on rationals followed by
one rounding to the type of the operation, to nearest with ties to even. The type of an
operation is the one that the usual arithmetic conversions give it (`FLT_EVAL_METHOD` 0, no
contraction into a fused multiply-add): the product of two `float`s is a `float`; an
expression with a `double` constant is evaluated in `double` and rounded once more when it is
stored in a `float`; a decimal constant is the nearest `double`. Overflow to infinity, NaN
and the sign of zero are not represented, so a division by a zero denominator is outside the
model; no other operation of the codec leaves the finite range.

The definitions with the suffix `_f32` are the functions of `compressmath.c`, `compress40.c`,
`decompressmath.c` and `decompress40.c` in this arithmetic. The definitions of the same
functions without the suffix, above, leave every rounding out; they are the reading
"arithmetic taken as exact". -/

/-- The power `2 ^ e` of two with an integer exponent. -/
def pow2q (e : Int) : ℚ :=
  if 0 ≤ e then ((2 ^ e.toNat : Nat) : ℚ) else 1 / ((2 ^ (-e).toNat : Nat) : ℚ)

/-- The number of halvings that take `n` below 2, with `f` halvings allowed. -/
def nlog2_aux : Nat → Nat → Nat
  | 0, _ => 0
  | f + 1, n => if n < 2 then 0 else nlog2_aux f (n / 2) + 1

/-- The binary logarithm of a natural number, rounded down (and `0` at `0`). -/
def nlog2 (n : Nat) : Nat := nlog2_aux n n

/-- The binary exponent of a rational `x ≠ 0`: the integer `e` with `2 ^ e ≤ |x| < 2 ^ (e + 1)`. -/
def ilog2 (x : ℚ) : Int :=
  let e : Int := (nlog2 x.num.natAbs : Int) - (nlog2 x.den : Int)
  if pow2q e ≤ |x| then e else e - 1

/-- Rounding to the nearest integer, a tie to the even neighbour. -/
def rne (x : ℚ) : Int :=
  if x - ⌊x⌋ < 1 / 2 then ⌊x⌋
  else if x - ⌊x⌋ > 1 / 2 then ⌊x⌋ + 1
  else if ⌊x⌋ % 2 = 0 then ⌊x⌋ else ⌊x⌋ + 1

/-- Rounding to the binary format with `p` significant bits and least normal exponent `emin`:
the nearest multiple of `2 ^ (e - (p - 1))`, where `e` is the binary exponent of `x` or `emin`
if that is larger (the subnormal range), a tie to the even multiple. -/
def round_to (p : Nat) (emin : Int) (x : ℚ) : ℚ :=
  if x = 0 then 0
  else
    let q := pow2q (max (ilog2 x) emin - ((p : Int) - 1))
    (rne (x / q) : ℚ) * q

/-- Rounding to `float` (binary32: 24 significant bits, least normal exponent `-126`), as in a
conversion to `float` or the result of a `float` operation. -/
def to_float (x : ℚ) : ℚ := round_to 24 (-126) x

/-- Rounding to `double` (binary64: 53 significant bits, least normal exponent `-1022`), as in
a decimal constant or the result of a `double` operation. -/
def to_double (x : ℚ) : ℚ := round_to 53 (-1022) x

/-- Source function `void scale_rgb(Pnm_rgb pixel, unsigned denominator, float
normalized_rgbs[3])` in binary32: `float denom = (float)denominator` and the three quotients
`pixel->red / denom`, each sample converted to `float` first. -/
def scale_rgb_f32 (pixel : Pnm_rgb) (denominator : Nat) : ℚ × ℚ × ℚ :=
  let denom : ℚ := to_float denominator
  (to_float (to_float pixel.red / denom), to_float (to_float pixel.green / denom),
    to_float (to_float pixel.blue / denom))

/-- Source function `void rgb_to_cv(float normalized_rgbs[3], float chromas[3])` in floating
point: each of `y`, `pb`, `pr` is a `double` expression (constants, products, then sums from
left to right) stored in a `float`. -/
def rgb_to_cv_f32 (normalized_rgbs : ℚ × ℚ × ℚ) : ℚ × ℚ × ℚ :=
  let red := normalized_rgbs.1
  let green := normalized_rgbs.2.1
  let blue := normalized_rgbs.2.2
  let y := to_float (to_double (to_double (to_double (to_double (299 / 1000) * red)
    + to_double (to_double (587 / 1000) * green)) + to_double (to_double (114 / 1000) * blue)))
  let pb := to_float (to_double (to_double (to_double (-to_double (168736 / 1000000) * red)
    - to_double (to_double (331264 / 1000000) * green)) + to_double (to_double (5 / 10) * blue)))
  let pr := to_float (to_double (to_double (to_double (to_double (5 / 10) * red)
    - to_double (to_double (418688 / 1000000) * green))
    - to_double (to_double (81312 / 1000000) * blue)))
  (y, pb, pr)

/-- Source function `unsigned quantize_avg_brightness(float a)` in binary32: the product
`a * 63` is a `float` before `round` is applied. -/
def quantize_avg_brightness_f32 (a : ℚ) : Except Err Nat :=
  if a ≥ 0 ∧ a ≤ 1 then .ok (toUnsigned (c_round (to_float (a * 63))))
  else .error .Assert_Failed

/-- Source function `int quantize_dct(float dct_val)` in floating point: the comparisons are
with the `double` constants `-0.3` and `0.3`, and the product `dct_val * 50` is a `float`
before `round` is applied. -/
def quantize_dct_f32 (dct_val : ℚ) : Int :=
  if dct_val ≤ -to_double (3 / 10) then -15
  else if dct_val ≥ to_double (3 / 10) then 15
  else c_round (to_float (dct_val * 50))

/-- Source function `void pix_to_dct(float y_vals[4], float dcts[4])` in floating point: the
sums and differences of the lumas are `float` operations from left to right, the division by
`4.0` is a `double` operation, and the quotient is stored in a `float`. -/
def pix_to_dct_f32 (y_vals : Nat → ℚ) : ℚ × ℚ × ℚ × ℚ :=
  (to_float (to_double
      (to_float (to_float (to_float (y_vals 3 + y_vals 2) + y_vals 1) + y_vals 0) / 4)),
   to_float (to_double
      (to_float (to_float (to_float (y_vals 3 + y_vals 2) - y_vals 1) - y_vals 0) / 4)),
   to_float (to_double
      (to_float (to_float (to_float (y_vals 3 - y_vals 2) + y_vals 1) - y_vals 0) / 4)),
   to_float (to_double
      (to_float (to_float (to_float (y_vals 3 - y_vals 2) - y_vals 1) + y_vals 0) / 4)))

/-- Source function `static void pack_pixel(Compression_Info c_info, int col, int row)` in
floating point: `float avg_pb = c_info->avg_pb / 4.0` is a `double` quotient stored in a
`float`. -/
def pack_pixel_f32 (index_of : ℚ → Nat) (c_info : Compression_Info) (col row : Nat) :
    Except Err Compression_Info := do
  let dcts := pix_to_dct_f32 c_info.y_vals
  let a ← quantize_avg_brightness_f32 dcts.1
  let b := toUnsigned (quantize_dct_f32 dcts.2.1)
  let c := toUnsigned (quantize_dct_f32 dcts.2.2.1)
  let d := toUnsigned (quantize_dct_f32 dcts.2.2.2)
  let avg_pb := to_float (to_double (c_info.avg_pb / 4))
  let avg_pr := to_float (to_double (c_info.avg_pr / 4))
  let bitpacked_data ← bitpack_pixels a (toInt b) (toInt c) (toInt d)
    (index_of avg_pb) (index_of avg_pr)
  let compressed ← UArray2_store c_info.compressed (col / 2) (row / 2) bitpacked_data
  .ok { c_info with compressed := compressed, avg_pb := 0, avg_pr := 0 }

/-- Source function `static void compress_cb(int col, int row, A2Methods_UArray2 image,
void *elem, void *cl)` in binary32: `c_info->avg_pb += chromas[1]` is a `float` sum. -/
def compress_cb_f32 (index_of : ℚ → Nat) (col row : Nat) (elem : Pnm_rgb)
    (cl : Compression_Info) : Except Err Compression_Info :=
  if col ≥ cl.orig_width - cl.orig_width % 2 ∨ row ≥ cl.orig_height - cl.orig_height % 2 then
    .ok cl
  else
    let chromas := rgb_to_cv_f32 (scale_rgb_f32 elem cl.denominator)
    let cl := { cl with avg_pb := to_float (cl.avg_pb + chromas.2.1),
                        avg_pr := to_float (cl.avg_pr + chromas.2.2) }
    let y_val_pos := (row % 2) * 2 + (col % 2)
    let cl := { cl with y_vals := fun i => if i = y_val_pos then chromas.1 else cl.y_vals i }
    if row % 2 = 1 ∧ col % 2 = 1 then pack_pixel_f32 index_of cl col row
    else .ok cl

/-- Source function `void cv_to_rgb(float chromas[3], float normalized_rgbs[3])` in floating
point: each channel is a `double` expression (products, then sums from left to right) stored
in a `float`. -/
def cv_to_rgb_f32 (chromas : ℚ × ℚ × ℚ) : ℚ × ℚ × ℚ :=
  (to_float (to_double (to_double (to_double (1 * chromas.1) + to_double (0 * chromas.2.1))
      + to_double (to_double (1402 / 1000) * chromas.2.2))),
   to_float (to_double (to_double (to_double (1 * chromas.1)
      - to_double (to_double (344136 / 1000000) * chromas.2.1))
      - to_double (to_double (714136 / 1000000) * chromas.2.2))),
   to_float (to_double (to_double (to_double (1 * chromas.1)
      + to_double (to_double (1772 / 1000) * chromas.2.1)) + to_double (0 * chromas.2.2))))

/-- Source function `struct Pnm_rgb unscale_rgb(float normalized_rgbs[3],
unsigned denominator)` in binary32: the denominator is converted to `float`, the product is a
`float`, and the conversion to `unsigned` discards its fractional part. -/
def unscale_rgb_f32 (normalized_rgbs : ℚ × ℚ × ℚ) (denominator : Nat) : Pnm_rgb :=
  { red := float_to_unsigned (to_float (normalized_rgbs.1 * to_float denominator))
    green := float_to_unsigned (to_float (normalized_rgbs.2.1 * to_float denominator))
    blue := float_to_unsigned (to_float (normalized_rgbs.2.2 * to_float denominator)) }

/-- The pixel that one pass of the loop of `decompress_pixel` computes from a luma and the two
chromas, in floating point. The comparisons and assignments of `trim_normalized_rgbs` involve
no rounding. -/
def sample_pixel_f32 (avg_pb avg_pr y : ℚ) (denominator : Nat) : Pnm_rgb :=
  unscale_rgb_f32 (trim_normalized_rgbs (cv_to_rgb_f32 (y, avg_pb, avg_pr))) denominator

/-- The loop `for (int i = 0; i < 4; i++)` of `decompress_pixel` in floating point, `n` passes
left. -/
def decompress_pixel_loop_f32 (avg_pb avg_pr : ℚ) (y_vals : Nat → ℚ) (col row : Nat) :
    Nat → Nat → Pnm_ppm → Except Err Pnm_ppm
  | 0, _, pixmap => .ok pixmap
  | n + 1, i, pixmap =>
    (Pnm_store pixmap (sample_position col row i).1 (sample_position col row i).2
      (sample_pixel_f32 avg_pb avg_pr (y_vals i) pixmap.denominator)).bind fun pixmap =>
        decompress_pixel_loop_f32 avg_pb avg_pr y_vals col row n (i + 1) pixmap

/-- Source function `static void decompress_pixel(float avg_pb, float avg_pr,
float y_vals[4], Pnm_ppm pixmap, int col, int row)` in floating point. -/
def decompress_pixel_f32 (avg_pb avg_pr : ℚ) (y_vals : Nat → ℚ) (pixmap : Pnm_ppm)
    (col row : Nat) : Except Err Pnm_ppm :=
  decompress_pixel_loop_f32 avg_pb avg_pr y_vals col row 4 0 pixmap

/-- The value of a `float` accumulator after the values `xs` have been added to it with `+=`
in this order, starting from zero. -/
def block_sum_f32 (xs : List ℚ) : ℚ := xs.foldl (fun acc x => to_float (acc + x)) 0

/-- The block encoding in the words of the specification, in floating point: normalize the
four pixels `p0, p1, p2, p3` (by position, row by row), transform each to `(y, pb, pr)`,
accumulate the chromas of the pixels in the order `visit` in which they are met, average them,
run the forward block transform on the four lumas, quantize, and pack the six codes. -/
def encode_block_f32 (index_of : ℚ → Nat) (D : Nat) (p0 p1 p2 p3 : Pnm_rgb)
    (visit : List Pnm_rgb) : Except Err Nat :=
  let cv0 := rgb_to_cv_f32 (scale_rgb_f32 p0 D)
  let cv1 := rgb_to_cv_f32 (scale_rgb_f32 p1 D)
  let cv2 := rgb_to_cv_f32 (scale_rgb_f32 p2 D)
  let cv3 := rgb_to_cv_f32 (scale_rgb_f32 p3 D)
  let sum_pb := block_sum_f32 (visit.map fun p => (rgb_to_cv_f32 (scale_rgb_f32 p D)).2.1)
  let sum_pr := block_sum_f32 (visit.map fun p => (rgb_to_cv_f32 (scale_rgb_f32 p D)).2.2)
  let avg_pb := to_float (to_double (sum_pb / 4))
  let avg_pr := to_float (to_double (sum_pr / 4))
  let a := to_float (to_double (to_float (to_float (to_float (cv3.1 + cv2.1) + cv1.1) + cv0.1) / 4))
  let b := to_float (to_double (to_float (to_float (to_float (cv3.1 + cv2.1) - cv1.1) - cv0.1) / 4))
  let c := to_float (to_double (to_float (to_float (to_float (cv3.1 - cv2.1) + cv1.1) - cv0.1) / 4))
  let d := to_float (to_double (to_float (to_float (to_float (cv3.1 - cv2.1) - cv1.1) + cv0.1) / 4))
  (quantize_avg_brightness_f32 a).bind fun qa =>
    bitpack_pixels qa (quantize_dct_f32 b) (quantize_dct_f32 c) (quantize_dct_f32 d)
      (index_of avg_pb) (index_of avg_pr)

/-- The luma array after the four pixels of a block have been visited, in floating point: the
lumas of `p0, p1, p2, p3` at the indices `0, 1, 2, 3`. -/
def block_y_vals_f32 (D : Nat) (p0 p1 p2 p3 : Pnm_rgb) (old : Nat → ℚ) : Nat → ℚ := fun k =>
  if k = 0 then (rgb_to_cv_f32 (scale_rgb_f32 p0 D)).1
  else if k = 1 then (rgb_to_cv_f32 (scale_rgb_f32 p1 D)).1
  else if k = 2 then (rgb_to_cv_f32 (scale_rgb_f32 p2 D)).1
  else if k = 3 then (rgb_to_cv_f32 (scale_rgb_f32 p3 D)).1
  else old k

/-- The encoder in the words of the specification, block by block and in floating point: the
word of block `(i, j)` is the block encoding of the pixels at `(2i, 2j)`, `(2i + 1, 2j)`,
`(2i, 2j + 1)` and `(2i + 1, 2j + 1)` with the chromas accumulated in the order `ord (i, j)`
of the cells, stored at `(i, j)` of the packed grid; the chroma accumulators are zero after
each block. -/
def encode_blocks_f32 (index_of : ℚ → Nat) (pixels : Nat → Nat → Pnm_rgb)
    (ord : Nat × Nat → List (Nat × Nat)) :
    List (Nat × Nat) → Compression_Info → Except Err Compression_Info
  | [], cl => .ok cl
  | b :: bs, cl =>
    (encode_block_f32 index_of cl.denominator (pixels (2 * b.1) (2 * b.2))
        (pixels (2 * b.1 + 1) (2 * b.2)) (pixels (2 * b.1) (2 * b.2 + 1))
        (pixels (2 * b.1 + 1) (2 * b.2 + 1))
        ((ord b).map fun c => pixels c.1 c.2)).bind fun word =>
      (UArray2_store cl.compressed b.1 b.2 word).bind fun compressed =>
        encode_blocks_f32 index_of pixels ord bs
          { cl with
            compressed := compressed
            avg_pb := 0
            avg_pr := 0
            y_vals := block_y_vals_f32 cl.denominator (pixels (2 * b.1) (2 * b.2))
              (pixels (2 * b.1 + 1) (2 * b.2)) (pixels (2 * b.1) (2 * b.2 + 1))
              (pixels (2 * b.1 + 1) (2 * b.2 + 1)) cl.y_vals }

/-- The word at `(i, j)` of the packed grid of a closure that a traversal returned, if it
returned. -/
def stored_word (r : Except Err Compression_Info) (i j : Nat) : Option Nat :=
  match r with
  | .ok cl => some (cl.compressed.elems i j)
  | .error _ => none

/-- The returned value of a call, if it returned. -/
def returned {α : Type} (r : Except Err α) : Option α :=
  match r with
  | .ok a => some a
  | .error _ => none

/-! ## Sequences of sets, for the order of packing -/

/-- One call of a setter: `Bitpack_newu` (constructor `u`) or `Bitpack_news` (constructor
`s`) with its width, lsb and value. -/
inductive FieldSet where
  | u (width lsb value : Nat)
  | s (width lsb : Nat) (value : Int)

/-- Width of the field a set writes. -/
def FieldSet.width : FieldSet → Nat
  | .u w _ _ => w
  | .s w _ _ => w

/-- Least significant bit of the field a set writes. -/
def FieldSet.lsb : FieldSet → Nat
  | .u _ l _ => l
  | .s _ l _ => l

/-- The value of a set as a `uint64_t`. -/
def FieldSet.ubits : FieldSet → Nat
  | .u _ _ v => v
  | .s _ _ v => toU64 v

/-- A set is well formed: valid descriptor, a `uint64_t` value for `Bitpack_newu`, and the
value fits. -/
def FieldSet.wf : FieldSet → Prop
  | .u w l v => w ≤ 64 ∧ w + l ≤ 64 ∧ v < 2 ^ 64 ∧ Bitpack_fitsu v w = true
  | .s w l v => w ≤ 64 ∧ w + l ≤ 64 ∧ Bitpack_fitss v w = true

/-- The bit ranges `[lsb, lsb + width)` of two sets are disjoint. -/
def FieldSet.disjoint (s1 s2 : FieldSet) : Prop :=
  s1.lsb + s1.width ≤ s2.lsb ∨ s2.lsb + s2.width ≤ s1.lsb

/-- The call of the setter that a `FieldSet` stands for. -/
def apply_set (s : FieldSet) (word : Nat) : Except Err Nat :=
  match s with
  | .u w l v => Bitpack_newu word w l v
  | .s w l v => Bitpack_news word w l v

/-- A sequence of sets `word = Bitpack_new?(word, ...)`, applied from left to right. -/
def apply_sets : List FieldSet → Nat → Except Err Nat
  | [], word => .ok word
  | s :: rest, word => (apply_set s word).bind fun w => apply_sets rest w

/-- The six sets of `bitpack_pixels` in the order of the source. -/
def pixel_sets (a : Nat) (b c d : Int) (pb_ind pr_ind : Nat) : List FieldSet :=
  [.u A_WIDTH a_lsb a, .s B_WIDTH b_lsb b, .s C_WIDTH c_lsb c, .s D_WIDTH d_lsb d,
   .u PB_WIDTH pb_lsb pb_ind, .u PR_WIDTH pr_lsb pr_ind]

/-! ## Concrete inputs used by the witnesses -/

/-- A closure whose four lumas are those of the pixel `(255, 128, 0)` at denominator `255`,
over a 1 by 1 packed grid. -/
def orange_block : Compression_Info :=
  { compressed := { width := 1, height := 1, elems := fun _ _ => 0 }
    y_vals := fun _ => (rgb_to_cv (scale_rgb ⟨255, 128, 0⟩ 255)).1
    avg_pr := 0
    avg_pb := 0
    denominator := 255
    orig_width := 2
    orig_height := 2 }

/-- A chroma index function with the constant value `7`. -/
def const_index : ℚ → Nat := fun _ => 7

/-- Four copies of the pixel `(255, 128, 0)`. -/
def orange_pixels : Nat → Pnm_rgb := fun _ => ⟨255, 128, 0⟩

/-- A 2 by 1 packed grid holding the words `0x01020304` and `0xAABBCCDD`. -/
def sample_grid : UArray2 :=
  { width := 2, height := 1, elems := fun c _ => if c = 0 then 16909060 else 2864434397 }

/-- A 3 by 3 image at denominator `255` whose pixel at `(c, r)` is
`(80 c + 10 r, 30 c + 100, 90 r + 5)`. -/
def sample_image : Pnm_ppm :=
  { width := 3, height := 3, denominator := 255,
    pixels := fun c r => ⟨80 * c + 10 * r, 30 * c + 100, 90 * r + 5⟩ }

/-- The top-left 2 by 2 crop of `sample_image`. -/
def sample_crop : Pnm_ppm :=
  { width := 2, height := 2, denominator := 255,
    pixels := fun c r => ⟨80 * c + 10 * r, 30 * c + 100, 90 * r + 5⟩ }

/-- An image of one black pixel at denominator `255`. -/
def one_pixel_image : Pnm_ppm :=
  { width := 1, height := 1, denominator := 255, pixels := fun _ _ => ⟨0, 0, 0⟩ }

/-- The `float` nearest to `0.01`. -/
def float_0_01 : ℚ := 5368709 / 536870912

/-- The `float` nearest to `0.29`. -/
def float_0_29 : ℚ := 9730785 / 33554432

/-- The `float` with bit pattern `0x3f041041`, just below `33 / 64`. -/
def float_3f041041 : ℚ := 8654913 / 16777216

/-- A 2 by 2 image at denominator `10`: `(7, 4, 5)` and `(8, 5, 5)` in the top row,
`(7, 4, 4)` and `(8, 5, 6)` in the bottom row. -/
def tie_image : Pnm_ppm :=
  { width := 2, height := 2, denominator := 10,
    pixels := fun c r =>
      if r = 0 then (if c = 0 then ⟨7, 4, 5⟩ else ⟨8, 5, 5⟩)
      else (if c = 0 then ⟨7, 4, 4⟩ else ⟨8, 5, 6⟩) }

/-- A 2 by 2 image at denominator `3`: `(2, 0, 1)` and `(0, 2, 1)` in the top row,
`(2, 1, 2)` and `(1, 2, 1)` in the bottom row. -/
def order_image : Pnm_ppm :=
  { width := 2, height := 2, denominator := 3,
    pixels := fun c r =>
      if r = 0 then (if c = 0 then ⟨2, 0, 1⟩ else ⟨0, 2, 1⟩)
      else (if c = 0 then ⟨2, 1, 2⟩ else ⟨1, 2, 1⟩) }

/-- A chroma index function that tells the sign: `7` below zero and `8` from zero on. -/
def sign_index : ℚ → Nat := fun x => if x < 0 then 7 else 8

/-- The column-by-column order of the four cells of a block. -/
def col_order (b : Nat × Nat) : List (Nat × Nat) :=
  [(2 * b.1, 2 * b.2), (2 * b.1, 2 * b.2 + 1), (2 * b.1 + 1, 2 * b.2),
    (2 * b.1 + 1, 2 * b.2 + 1)]

/-- The row-by-row order of the four cells of a block. -/
def row_order (b : Nat × Nat) : List (Nat × Nat) :=
  [(2 * b.1, 2 * b.2), (2 * b.1 + 1, 2 * b.2), (2 * b.1, 2 * b.2 + 1),
    (2 * b.1 + 1, 2 * b.2 + 1)]

/-! ## Bit-level facts about the helpers -/

theorem testBit_small {x n i : Nat} (hx : x < 2 ^ n) (hi : n ≤ i) : x.testBit i = false :=
  Nat.testBit_lt_two_pow (lt_of_lt_of_le hx (Nat.pow_le_pow_right (by decide) hi))

theorem testBit_rshift (v s i : Nat) :
    (rshift v s).testBit i = (decide (s < 64) && v.testBit (s + i)) := by
  unfold rshift
  by_cases h : s ≥ 64
  · have : ¬ s < 64 := by omega
    simp [h, this]
  · have : s < 64 := by omega
    simp [h, this]

theorem testBit_lshift (v s i : Nat) :
    (lshift v s).testBit i
      = (decide (s < 64) && (decide (i < 64) && (decide (s ≤ i) && v.testBit (i - s)))) := by
  unfold lshift
  by_cases h : s ≥ 64
  · have : ¬ s < 64 := by omega
    simp [h, this]
  · have : s < 64 := by omega
    rw [if_neg h, Nat.testBit_mod_two_pow, Nat.testBit_shiftLeft]
    simp [this]

theorem testBit_not64 (x i : Nat) :
    (not64 x).testBit i = (decide (i < 64) && !x.testBit i) := by
  unfold not64
  have hlt : x % 2 ^ 64 < 2 ^ 64 := Nat.mod_lt _ (by positivity)
  have e : 2 ^ 64 - 1 - x % 2 ^ 64 = 2 ^ 64 - (x % 2 ^ 64 + 1) := by omega
  rw [e, Nat.testBit_two_pow_sub_succ hlt, Nat.testBit_mod_two_pow]
  by_cases hi : i < 64 <;> simp [hi]

theorem mask_shift_eq {width : Nat} (hw : width ≤ 64) :
    (64 + 2 ^ 64 - width) % 2 ^ 64 % 2 ^ 32 = 64 - width := by
  omega

theorem testBit_field_mask {width lsb : Nat} (hw : width ≤ 64) (hl : width + lsb ≤ 64) (i : Nat) :
    (field_mask width lsb).testBit i = (decide (lsb ≤ i) && decide (i < lsb + width)) := by
  unfold field_mask
  simp only [mask_shift_eq hw, testBit_lshift, testBit_rshift]
  unfold allOnes
  rw [Nat.testBit_two_pow_sub_one]
  by_cases h1 : lsb ≤ i <;> by_cases h2 : i < lsb + width <;> simp [h1, h2] <;> omega

theorem descriptor_ok_of_valid {width lsb : Nat} (hw : width ≤ 64) (hl : width + lsb ≤ 64) :
    descriptor_ok width lsb = true := by
  unfold descriptor_ok uadd
  have : (width + lsb) % 2 ^ 32 = width + lsb := Nat.mod_eq_of_lt (by omega)
  rw [this]
  simp [hw, hl]

theorem pow2_eq {e : Nat} (he : e < 64) : pow2 e = 2 ^ e := by
  unfold pow2 lshift
  have h : ¬ e ≥ 64 := by omega
  simp only [h, if_false, Nat.shiftLeft_eq, one_mul]
  exact Nat.mod_eq_of_lt (Nat.pow_lt_pow_right (by decide) he)

theorem getu_eq {word width lsb : Nat} (hw : width ≤ 64) (hl : width + lsb ≤ 64) :
    Bitpack_getu word width lsb = .ok (word / 2 ^ lsb % 2 ^ width) := by
  unfold Bitpack_getu
  rw [descriptor_ok_of_valid hw hl]
  simp only [if_true]
  congr 1
  apply Nat.eq_of_testBit_eq
  intro i
  rw [testBit_rshift, Nat.testBit_and, testBit_field_mask hw hl, Nat.testBit_mod_two_pow,
    ← Nat.shiftRight_eq_div_pow, Nat.testBit_shiftRight]
  by_cases h1 : i < width <;> by_cases h2 : lsb < 64 <;> simp [h1, h2]
  all_goals omega


theorem usub_one {w : Nat} (h0 : 0 < w) (hw : w ≤ 64) : usub w 1 = w - 1 := by
  unfold usub
  omega

theorem toS64_of_lt {u : Nat} (h : u < 2 ^ 63) : toS64 u = (u : Int) := by
  unfold toS64
  have e : u % 2 ^ 64 = u := Nat.mod_eq_of_lt (by omega)
  rw [e, if_pos h]

theorem toS64_of_ge {u : Nat} (h : 2 ^ 63 ≤ u) (h2 : u < 2 ^ 64) :
    toS64 u = (u : Int) - 2 ^ 64 := by
  unfold toS64
  have e : u % 2 ^ 64 = u := Nat.mod_eq_of_lt h2
  rw [e, if_neg (by omega)]

theorem two_pow_le_of_le {a b : Nat} (h : a ≤ b) : 2 ^ a ≤ 2 ^ b :=
  Nat.pow_le_pow_right (by decide) h

theorem fitsu_iff {v w : Nat} (hv : v < 2 ^ 64) : Bitpack_fitsu v w = true ↔ v < 2 ^ w := by
  unfold Bitpack_fitsu
  by_cases h : w ≥ 64
  · have := two_pow_le_of_le h
    simp only [h, if_true, true_iff]
    omega
  · have hlt : w < 64 := by omega
    simp only [h, if_false, pow2_eq hlt]
    by_cases h2 : 2 ^ w > v <;> simp [h2]

theorem fitss_iff {v : Int} {w : Nat} (h0 : 0 < w) (hw : w < 64) :
    Bitpack_fitss v w = true ↔ -(2 : Int) ^ (w - 1) ≤ v ∧ v < 2 ^ (w - 1) := by
  unfold Bitpack_fitss
  have h1 : ¬ w = 0 := by omega
  have h2 : ¬ w ≥ 64 := by omega
  have hp : (2 : Nat) ^ (w - 1) < 2 ^ 63 := Nat.pow_lt_pow_right (by decide) (by omega)
  simp only [h1, h2, if_false, usub_one h0 (le_of_lt hw), pow2_eq (show w - 1 < 64 by omega),
    toS64_of_lt hp]
  push_cast
  by_cases h3 : -1 * (2 : Int) ^ (w - 1) ≤ v ∧ (2 : Int) ^ (w - 1) > v
  · rw [if_pos h3]
    exact ⟨fun _ => ⟨by linarith [h3.1], by linarith [h3.2]⟩, fun _ => rfl⟩
  · rw [if_neg h3]
    exact ⟨fun h => (by cases h), fun h => absurd ⟨by linarith [h.1], by linarith [h.2]⟩ h3⟩

theorem newu_ok {W w lsb v : Nat} (hw : w ≤ 64) (hl : w + lsb ≤ 64)
    (hf : Bitpack_fitsu v w = true) :
    Bitpack_newu W w lsb v = .ok (lshift v lsb ||| (W &&& not64 (field_mask w lsb))) := by
  unfold Bitpack_newu
  rw [descriptor_ok_of_valid hw hl, hf]
  rfl

theorem news_ok {W w lsb : Nat} {sv : Int} (hw : w ≤ 64) (hl : w + lsb ≤ 64)
    (hf : Bitpack_fitss sv w = true) :
    Bitpack_news W w lsb sv
      = .ok ((field_mask w lsb &&& lshift (toU64 sv) lsb) ||| (W &&& not64 (field_mask w lsb))) := by
  unfold Bitpack_news
  rw [descriptor_ok_of_valid hw hl, hf]
  rfl

/-- Bits of the word `Bitpack_newu` builds, for a value below `2 ^ w`. -/
theorem testBit_newu_word {W w lsb v : Nat} (hw : w ≤ 64) (hl : w + lsb ≤ 64) (hv : v < 2 ^ w)
    (i : Nat) :
    (lshift v lsb ||| (W &&& not64 (field_mask w lsb))).testBit i
      = if lsb ≤ i ∧ i < lsb + w then v.testBit (i - lsb) else (decide (i < 64) && W.testBit i) := by
  rw [Nat.testBit_or, Nat.testBit_and, testBit_not64, testBit_lshift, testBit_field_mask hw hl]
  by_cases h1 : lsb ≤ i
  · by_cases h2 : i < lsb + w
    · have h3 : lsb < 64 := by omega
      have h4 : i < 64 := by omega
      simp [h1, h2, h3, h4]
    · have h5 : v.testBit (i - lsb) = false := testBit_small hv (by omega)
      simp [h1, h2, h5, Bool.and_comm]
  · simp [h1, Bool.and_comm]

/-- Bits of the word `Bitpack_news` builds. -/
theorem testBit_news_word {W w lsb : Nat} (u : Nat) (hw : w ≤ 64) (hl : w + lsb ≤ 64) (i : Nat) :
    ((field_mask w lsb &&& lshift u lsb) ||| (W &&& not64 (field_mask w lsb))).testBit i
      = if lsb ≤ i ∧ i < lsb + w then u.testBit (i - lsb) else (decide (i < 64) && W.testBit i) := by
  rw [Nat.testBit_or, Nat.testBit_and, Nat.testBit_and, testBit_not64, testBit_lshift,
    testBit_field_mask hw hl]
  by_cases h1 : lsb ≤ i
  · by_cases h2 : i < lsb + w
    · have h3 : lsb < 64 := by omega
      have h4 : i < 64 := by omega
      simp [h1, h2, h3, h4]
    · simp [h1, h2, Bool.and_comm]
  · simp [h1, Bool.and_comm]

theorem testBit_field (W lsb w i : Nat) :
    (W / 2 ^ lsb % 2 ^ w).testBit i = (decide (i < w) && W.testBit (lsb + i)) := by
  rw [Nat.testBit_mod_two_pow, ← Nat.shiftRight_eq_div_pow, Nat.testBit_shiftRight]

theorem field_of_newu_word {W w lsb v : Nat} (hw : w ≤ 64) (hl : w + lsb ≤ 64) (hv : v < 2 ^ w) :
    (lshift v lsb ||| (W &&& not64 (field_mask w lsb))) / 2 ^ lsb % 2 ^ w = v := by
  apply Nat.eq_of_testBit_eq
  intro i
  rw [testBit_field, testBit_newu_word hw hl hv]
  by_cases h : i < w
  · have h2 : lsb ≤ lsb + i ∧ lsb + i < lsb + w := ⟨by omega, by omega⟩
    simp [h]
  · have h5 : v.testBit i = false := testBit_small hv (by omega)
    simp [h, h5]

theorem field_of_news_word {W w lsb : Nat} (u : Nat) (hw : w ≤ 64) (hl : w + lsb ≤ 64) :
    ((field_mask w lsb &&& lshift u lsb) ||| (W &&& not64 (field_mask w lsb))) / 2 ^ lsb % 2 ^ w
      = u % 2 ^ w := by
  apply Nat.eq_of_testBit_eq
  intro i
  rw [testBit_field, testBit_news_word u hw hl, Nat.testBit_mod_two_pow]
  by_cases h : i < w
  · simp [h]
  · simp [h]

theorem word_lt_of_testBit {x : Nat} (h : ∀ i, 64 ≤ i → x.testBit i = false) : x < 2 ^ 64 :=
  Nat.lt_pow_two_of_testBit x h

theorem newu_word_lt {W w lsb v : Nat} (hW : W < 2 ^ 64) :
    (lshift v lsb ||| (W &&& not64 (field_mask w lsb))) < 2 ^ 64 := by
  apply word_lt_of_testBit
  intro i hi
  have h1 : ¬ i < 64 := by omega
  rw [Nat.testBit_or, Nat.testBit_and, testBit_lshift, testBit_small hW hi]
  simp [h1]

theorem news_word_lt {W w lsb u : Nat} (hW : W < 2 ^ 64) :
    ((field_mask w lsb &&& lshift u lsb) ||| (W &&& not64 (field_mask w lsb))) < 2 ^ 64 := by
  apply word_lt_of_testBit
  intro i hi
  have h1 : ¬ i < 64 := by omega
  rw [Nat.testBit_or, Nat.testBit_and, Nat.testBit_and, testBit_lshift, testBit_small hW hi]
  simp [h1]

theorem toU64_neg {n : Nat} (h0 : 0 < n) (hn : n ≤ 2 ^ 64) : toU64 (-1 * (n : Int)) = 2 ^ 64 - n := by
  unfold toU64
  omega

theorem gets_eq {W w lsb : Nat} (h0 : 0 < w) (hw : w ≤ 64) (hl : w + lsb ≤ 64) :
    Bitpack_gets W w lsb = .ok (twos_complement (W / 2 ^ lsb % 2 ^ w) w) := by
  obtain ⟨k, rfl⟩ : ∃ k, w = k + 1 := ⟨w - 1, by omega⟩
  have e1 : usub (uadd lsb (k + 1)) 1 = lsb + k := by unfold usub uadd; omega
  have e2 : usub (k + 1) 1 = k := by unfold usub; omega
  have hP : (2 : Nat) ^ k ≤ 2 ^ 63 := two_pow_le_of_le (by omega)
  have hP0 : 0 < (2 : Nat) ^ k := by positivity
  have hdiv : W / 2 ^ (lsb + k) = W / 2 ^ lsb / 2 ^ k := by
    rw [Nat.pow_add, Nat.div_div_eq_div_mul]
  have hu : W / 2 ^ lsb % 2 ^ (k + 1)
      = W / 2 ^ lsb % 2 ^ k + 2 ^ k * (W / 2 ^ lsb / 2 ^ k % 2) := Nat.mod_pow_succ
  have hlow : W / 2 ^ lsb % 2 ^ k < 2 ^ k := Nat.mod_lt _ hP0
  have ht : W / 2 ^ lsb / 2 ^ k % 2 < 2 := Nat.mod_lt _ (by decide)
  unfold Bitpack_gets
  rw [descriptor_ok_of_valid hw hl, e1, e2,
    getu_eq (show 1 ≤ 64 by omega) (show 1 + (lsb + k) ≤ 64 by omega),
    getu_eq (show k ≤ 64 by omega) (show k + lsb ≤ 64 by omega), getu_eq hw hl, hdiv]
  simp only [bind, Except.bind, if_true, pow_one, Nat.succ_ne_zero, if_false]
  have htc : twos_complement (W / 2 ^ lsb % 2 ^ (k + 1)) (k + 1)
      = if W / 2 ^ lsb / 2 ^ k % 2 = 1 then ((W / 2 ^ lsb % 2 ^ k : Nat) : Int) - 2 ^ k
        else ((W / 2 ^ lsb % 2 ^ k : Nat) : Int) := by
    unfold twos_complement
    rw [hu, Nat.add_sub_cancel]
    by_cases h1 : W / 2 ^ lsb / 2 ^ k % 2 = 1
    · rw [h1, if_pos rfl, if_pos (by omega), pow_succ]
      push_cast
      ring
    · have h0 : W / 2 ^ lsb / 2 ^ k % 2 = 0 := by omega
      simp [h0, not_le.mpr hlow]
  rw [htc]
  by_cases h1 : W / 2 ^ lsb / 2 ^ k % 2 = 1
  · rw [if_pos h1, if_pos h1]
    by_cases h64 : k + 1 = 64
    · rw [if_pos h64]
      have hk : k = 63 := by omega
      subst hk
      have hl0 : lsb = 0 := by omega
      subst hl0
      simp only [pow_zero, Nat.div_one] at h1 ⊢
      have hW : W % 2 ^ 64 = W % 2 ^ 63 + 2 ^ 63 := by omega
      have hge : ¬ W % 2 ^ 64 < 2 ^ 63 := by omega
      unfold toS64
      rw [if_neg hge, hW]
      refine congrArg Except.ok ?_
      omega
    · rw [if_neg h64]
      have hk : k < 63 := by omega
      have hP2 : (2 : Nat) ^ k ≤ 2 ^ 62 := two_pow_le_of_le (by omega)
      have hs1 : toS64 (2 ^ k) = ((2 ^ k : Nat) : Int) := toS64_of_lt (by omega)
      have hs2 : toU64 (-1 * ((2 ^ k : Nat) : Int)) = 2 ^ 64 - 2 ^ k := toU64_neg hP0 (by omega)
      have hs : (2 ^ 64 - 2 ^ k + W / 2 ^ lsb % 2 ^ k) % 2 ^ 64
          = 2 ^ 64 - 2 ^ k + W / 2 ^ lsb % 2 ^ k := Nat.mod_eq_of_lt (by omega)
      have hs3 : toS64 (2 ^ 64 - 2 ^ k + W / 2 ^ lsb % 2 ^ k)
          = ((2 ^ 64 - 2 ^ k + W / 2 ^ lsb % 2 ^ k : Nat) : Int) - 2 ^ 64 :=
        toS64_of_ge (by omega) (by omega)
      rw [pow2_eq (show k < 64 by omega), hs1, hs2, hs, hs3]
      refine congrArg Except.ok ?_
      have hc : ((2 : Int) ^ k) = ((2 ^ k : Nat) : Int) := by push_cast; rfl
      rw [hc]
      omega
  · rw [if_neg h1, if_neg h1]
    have h0 : W / 2 ^ lsb / 2 ^ k % 2 = 0 := by omega
    have hs1 : toS64 (W / 2 ^ lsb % 2 ^ k) = ((W / 2 ^ lsb % 2 ^ k : Nat) : Int) :=
      toS64_of_lt (by omega)
    rw [hu, h0, Nat.mul_zero, Nat.add_zero, hs1]

theorem toU64_field_cast (sv : Int) {w : Nat} (hw : w ≤ 64) :
    ((toU64 sv % 2 ^ w : Nat) : Int) = sv % 2 ^ w := by
  unfold toU64
  have hnn : 0 ≤ sv % 2 ^ 64 := Int.emod_nonneg _ (by norm_num)
  rw [Int.natCast_mod, Int.toNat_of_nonneg hnn]
  push_cast
  exact Int.emod_emod_of_dvd _ (pow_dvd_pow 2 hw)

theorem twos_complement_of_fits {sv : Int} {w : Nat} (h0 : 0 < w) (hw : w ≤ 64)
    (hlo : -(2 : Int) ^ (w - 1) ≤ sv) (hhi : sv < 2 ^ (w - 1)) :
    twos_complement (toU64 sv % 2 ^ w) w = sv := by
  obtain ⟨k, rfl⟩ : ∃ k, w = k + 1 := ⟨w - 1, by omega⟩
  have hu := toU64_field_cast sv hw
  rw [Nat.add_sub_cancel] at hlo hhi
  have hP0 : (0 : Int) < 2 ^ k := by positivity
  have h2 : (2 : Int) ^ (k + 1) = 2 * 2 ^ k := by rw [pow_succ]; ring
  have hc : (((2 : Nat) ^ k : Nat) : Int) = (2 : Int) ^ k := by push_cast; rfl
  unfold twos_complement
  rw [Nat.add_sub_cancel]
  by_cases hs : 0 ≤ sv
  · have hm : sv % 2 ^ (k + 1) = sv := Int.emod_eq_of_lt hs (by rw [h2]; linarith)
    rw [hm] at hu
    have hlt : ¬ (toU64 sv % 2 ^ (k + 1) ≥ 2 ^ k) := by
      intro hge
      have : ((2 ^ k : Nat) : Int) ≤ ((toU64 sv % 2 ^ (k + 1) : Nat) : Int) := by exact_mod_cast hge
      rw [hu, hc] at this
      linarith
    rw [if_neg hlt, hu]
  · have hm : sv % 2 ^ (k + 1) = sv + 2 ^ (k + 1) := by
      rw [← Int.add_mul_emod_self_left sv (2 ^ (k + 1)) 1, mul_one]
      exact Int.emod_eq_of_lt (by rw [h2]; linarith) (by linarith)
    rw [hm] at hu
    have hge : toU64 sv % 2 ^ (k + 1) ≥ 2 ^ k := by
      have : ((2 ^ k : Nat) : Int) ≤ ((toU64 sv % 2 ^ (k + 1) : Nat) : Int) := by
        rw [hu, hc, h2]; linarith
      exact_mod_cast this
    rw [if_pos hge, hu]
    ring

theorem newu_getu {W w lsb v : Nat} (hv : v < 2 ^ 64) (hw : w ≤ 64) (hl : w + lsb ≤ 64)
    (hf : Bitpack_fitsu v w = true) :
    ∃ W', Bitpack_newu W w lsb v = .ok W' ∧ Bitpack_getu W' w lsb = .ok v := by
  refine ⟨_, newu_ok hw hl hf, ?_⟩
  rw [getu_eq hw hl, field_of_newu_word hw hl ((fitsu_iff hv).mp hf)]

theorem fitss_bounds {sv : Int} {w : Nat} (hs : -(2 : Int) ^ 63 ≤ sv ∧ sv < 2 ^ 63) (hw : w ≤ 64)
    (hf : Bitpack_fitss sv w = true) :
    0 < w ∧ -(2 : Int) ^ (w - 1) ≤ sv ∧ sv < 2 ^ (w - 1) := by
  have h0 : 0 < w := by
    rcases Nat.eq_zero_or_pos w with h | h
    · subst h
      simp [Bitpack_fitss] at hf
    · exact h
  refine ⟨h0, ?_⟩
  by_cases h64 : w = 64
  · subst h64
    exact hs
  · exact (fitss_iff h0 (by omega)).mp hf

theorem news_gets {W w lsb : Nat} {sv : Int} (hs : -(2 : Int) ^ 63 ≤ sv ∧ sv < 2 ^ 63)
    (hw : w ≤ 64) (hl : w + lsb ≤ 64) (hf : Bitpack_fitss sv w = true) :
    ∃ W', Bitpack_news W w lsb sv = .ok W' ∧ Bitpack_gets W' w lsb = .ok sv := by
  obtain ⟨h0, hlo, hhi⟩ := fitss_bounds hs hw hf
  refine ⟨_, news_ok hw hl hf, ?_⟩
  rw [gets_eq h0 hw hl, field_of_news_word _ hw hl, twos_complement_of_fits h0 hw hlo hhi]

theorem newu_overflow_iff {W w lsb v : Nat} (hw : w ≤ 64) (hl : w + lsb ≤ 64) :
    Bitpack_newu W w lsb v = .error .Bitpack_Overflow ↔ Bitpack_fitsu v w = false := by
  unfold Bitpack_newu
  rw [descriptor_ok_of_valid hw hl]
  cases Bitpack_fitsu v w <;> simp

theorem news_overflow_iff {W w lsb : Nat} {sv : Int} (hw : w ≤ 64) (hl : w + lsb ≤ 64) :
    Bitpack_news W w lsb sv = .error .Bitpack_Overflow ↔ Bitpack_fitss sv w = false := by
  unfold Bitpack_news
  rw [descriptor_ok_of_valid hw hl]
  cases Bitpack_fitss sv w <;> simp

theorem int_two_pow_le {a b : Nat} (h : a ≤ b) : (2 : Int) ^ a ≤ 2 ^ b :=
  pow_le_pow_right₀ (by norm_num) h

/-! ## Ranges of the quantizers and the packing of one block -/

theorem c_round_bounds {x : ℚ} {n : Int} (hn : 0 ≤ n) (hlo : -(n : ℚ) ≤ x) (hhi : x ≤ n) :
    -n ≤ c_round x ∧ c_round x ≤ n := by
  unfold c_round
  by_cases h : 0 ≤ x
  · rw [if_pos h]
    have h1 : 0 ≤ ⌊x + 1 / 2⌋ := Int.floor_nonneg.mpr (by linarith)
    have h2 : ⌊x + 1 / 2⌋ < n + 1 := Int.floor_lt.mpr (by push_cast; linarith)
    constructor <;> omega
  · rw [if_neg h]
    have hx : x < 0 := lt_of_not_ge h
    have h1 : 0 ≤ ⌊-x + 1 / 2⌋ := Int.floor_nonneg.mpr (by linarith)
    have h2 : ⌊-x + 1 / 2⌋ < n + 1 := Int.floor_lt.mpr (by push_cast; linarith)
    constructor <;> omega

theorem c_round_nonneg {x : ℚ} (h : 0 ≤ x) : 0 ≤ c_round x := by
  unfold c_round
  rw [if_pos h]
  exact Int.floor_nonneg.mpr (by linarith)

theorem quantize_dct_bounds (x : ℚ) : -15 ≤ quantize_dct x ∧ quantize_dct x ≤ 15 := by
  unfold quantize_dct
  by_cases h1 : x ≤ -(3 / 10)
  · rw [if_pos h1]
    constructor <;> norm_num
  · rw [if_neg h1]
    by_cases h2 : x ≥ 3 / 10
    · rw [if_pos h2]
      constructor <;> norm_num
    · rw [if_neg h2]
      have hlo : -(3 / 10) < x := lt_of_not_ge h1
      have hhi : x < 3 / 10 := lt_of_not_ge h2
      exact c_round_bounds (n := 15) (by norm_num) (by push_cast; linarith) (by push_cast; linarith)

theorem toInt_toUnsigned {q : Int} (hlo : -(2 ^ 31) ≤ q) (hhi : q < 2 ^ 31) :
    toInt (toUnsigned q) = q := by
  unfold toInt toUnsigned
  split <;> omega

theorem toUnsigned_of_nonneg {q : Int} (hlo : 0 ≤ q) (hhi : q < 2 ^ 32) :
    toUnsigned q = q.toNat := by
  unfold toUnsigned
  omega

theorem quantize_avg_brightness_ok {a : ℚ} (h0 : 0 ≤ a) (h1 : a ≤ 1) :
    ∃ q, quantize_avg_brightness a = .ok q ∧ q ≤ 63 ∧ (q : Int) = c_round (a * 63) := by
  have hb := c_round_bounds (x := a * 63) (n := 63) (by norm_num) (by push_cast; linarith)
    (by push_cast; linarith)
  have hnn : 0 ≤ c_round (a * 63) := c_round_nonneg (by linarith)
  refine ⟨toUnsigned (c_round (a * 63)), ?_, ?_, ?_⟩
  · unfold quantize_avg_brightness
    rw [if_pos ⟨h0, h1⟩]
  · rw [toUnsigned_of_nonneg hnn (by omega)]
    omega
  · rw [toUnsigned_of_nonneg hnn (by omega)]
    omega

theorem scale_rgb_bounds {pixel : Pnm_rgb} {D : Nat} (hD : 0 < D)
    (hp : pixel.red ≤ D ∧ pixel.green ≤ D ∧ pixel.blue ≤ D) :
    (0 ≤ (scale_rgb pixel D).1 ∧ (scale_rgb pixel D).1 ≤ 1) ∧
    (0 ≤ (scale_rgb pixel D).2.1 ∧ (scale_rgb pixel D).2.1 ≤ 1) ∧
    (0 ≤ (scale_rgb pixel D).2.2 ∧ (scale_rgb pixel D).2.2 ≤ 1) := by
  have hDq : (0 : ℚ) < D := by exact_mod_cast hD
  have key : ∀ n : Nat, n ≤ D → 0 ≤ (n : ℚ) / D ∧ (n : ℚ) / D ≤ 1 := by
    intro n hn
    have hnq : (n : ℚ) ≤ D := by exact_mod_cast hn
    exact ⟨div_nonneg (Nat.cast_nonneg n) hDq.le, (div_le_one hDq).mpr hnq⟩
  exact ⟨key _ hp.1, key _ hp.2.1, key _ hp.2.2⟩

theorem luma_bounds {n : ℚ × ℚ × ℚ} (hr : 0 ≤ n.1 ∧ n.1 ≤ 1) (hg : 0 ≤ n.2.1 ∧ n.2.1 ≤ 1)
    (hb : 0 ≤ n.2.2 ∧ n.2.2 ≤ 1) : 0 ≤ (rgb_to_cv n).1 ∧ (rgb_to_cv n).1 ≤ 1 := by
  unfold rgb_to_cv
  simp only
  constructor <;> linarith [hr.1, hr.2, hg.1, hg.2, hb.1, hb.2]

theorem pixel_luma_bounds {pixel : Pnm_rgb} {D : Nat} (hD : 0 < D)
    (hp : pixel.red ≤ D ∧ pixel.green ≤ D ∧ pixel.blue ≤ D) :
    0 ≤ (rgb_to_cv (scale_rgb pixel D)).1 ∧ (rgb_to_cv (scale_rgb pixel D)).1 ≤ 1 := by
  obtain ⟨hr, hg, hb⟩ := scale_rgb_bounds hD hp
  exact luma_bounds hr hg hb

theorem fitss_six {q : Int} (hlo : -15 ≤ q) (hhi : q ≤ 15) : Bitpack_fitss q 6 = true := by
  rw [fitss_iff (by norm_num) (by norm_num)]
  constructor <;> norm_num <;> omega

theorem bitpack_pixels_ok {a pb_ind pr_ind : Nat} {b c d : Int} (ha : a ≤ 63)
    (hb : Bitpack_fitss b 6 = true) (hc : Bitpack_fitss c 6 = true)
    (hd : Bitpack_fitss d 6 = true) (hpb : pb_ind ≤ 15) (hpr : pr_ind ≤ 15) :
    ∃ word, bitpack_pixels a b c d pb_ind pr_ind = .ok word := by
  have fa : Bitpack_fitsu a 6 = true := (fitsu_iff (by omega)).mpr (by norm_num; omega)
  have fpb : Bitpack_fitsu pb_ind 4 = true := (fitsu_iff (by omega)).mpr (by norm_num; omega)
  have fpr : Bitpack_fitsu pr_ind 4 = true := (fitsu_iff (by omega)).mpr (by norm_num; omega)
  unfold bitpack_pixels A_WIDTH B_WIDTH C_WIDTH D_WIDTH PB_WIDTH PR_WIDTH a_lsb b_lsb c_lsb d_lsb
    pb_lsb pr_lsb
  simp only [newu_ok (show 6 ≤ 64 by norm_num) (show 6 + 26 ≤ 64 by norm_num) fa,
    news_ok (show 6 ≤ 64 by norm_num) (show 6 + 20 ≤ 64 by norm_num) hb,
    news_ok (show 6 ≤ 64 by norm_num) (show 6 + 14 ≤ 64 by norm_num) hc,
    news_ok (show 6 ≤ 64 by norm_num) (show 6 + 8 ≤ 64 by norm_num) hd,
    newu_ok (show 4 ≤ 64 by norm_num) (show 4 + 4 ≤ 64 by norm_num) fpb,
    newu_ok (show 4 ≤ 64 by norm_num) (show 4 + 0 ≤ 64 by norm_num) fpr,
    bind, Except.bind]
  exact ⟨_, rfl⟩

/-! ## The claims about `bitpack.c` -/

/-- C1: unsigned set/get round trip. For every 64-bit word `W`, every descriptor with
`w ≤ 64` and `w + lsb ≤ 64` and every 64-bit value `v` with `Bitpack_fitsu v w`,
`Bitpack_newu W w lsb v` returns a 64-bit word, and `Bitpack_getu` reads `v` back from it
with the same descriptor. -/
theorem C1_newu_getu_roundtrip (W w lsb v : Nat) (hW : W < 2 ^ 64) (hv : v < 2 ^ 64)
    (hw : w ≤ 64) (hl : w + lsb ≤ 64) (hf : Bitpack_fitsu v w = true) :
    ∃ W', Bitpack_newu W w lsb v = .ok W' ∧ W' < 2 ^ 64 ∧ Bitpack_getu W' w lsb = .ok v := by
  obtain ⟨W', h1, h2⟩ := newu_getu (W := W) hv hw hl hf
  refine ⟨W', h1, ?_, h2⟩
  rw [newu_ok hw hl hf] at h1
  cases h1
  exact newu_word_lt hW

/-- Witness for C1: a full-width field (`w = 64`, `lsb = 0`) over an all-ones word. -/
theorem C1_newu_getu_roundtrip_witness :
    (2 ^ 64 - 1 < 2 ^ 64 ∧ 12345 < 2 ^ 64 ∧ 64 ≤ 64 ∧ 64 + 0 ≤ 64
      ∧ Bitpack_fitsu 12345 64 = true)
    ∧ ∃ W', Bitpack_newu (2 ^ 64 - 1) 64 0 12345 = .ok W' ∧ W' < 2 ^ 64
        ∧ Bitpack_getu W' 64 0 = .ok 12345 :=
  ⟨⟨by norm_num, by norm_num, by norm_num, by norm_num, rfl⟩,
    C1_newu_getu_roundtrip (2 ^ 64 - 1) 64 0 12345 (by norm_num) (by norm_num) (by norm_num)
      (by norm_num) rfl⟩

/-- C2: signed set/get round trip. For every 64-bit word `W`, every descriptor with `w ≤ 64`
and `w + lsb ≤ 64` and every `int64_t` value `v` with `Bitpack_fitss v w`,
`Bitpack_news W w lsb v` returns a 64-bit word from which `Bitpack_gets` reads `v` back,
negative values and `w = 64` included. -/
theorem C2_news_gets_roundtrip (W w lsb : Nat) (v : Int) (hW : W < 2 ^ 64)
    (hv : -(2 : Int) ^ 63 ≤ v ∧ v < 2 ^ 63) (hw : w ≤ 64) (hl : w + lsb ≤ 64)
    (hf : Bitpack_fitss v w = true) :
    ∃ W', Bitpack_news W w lsb v = .ok W' ∧ W' < 2 ^ 64 ∧ Bitpack_gets W' w lsb = .ok v := by
  obtain ⟨W', h1, h2⟩ := news_gets (W := W) hv hw hl hf
  refine ⟨W', h1, ?_, h2⟩
  rw [news_ok hw hl hf] at h1
  cases h1
  exact news_word_lt hW

/-- Witness for C2: the negative value `-3` in a 6-bit field at bit 20. -/
theorem C2_news_gets_roundtrip_witness :
    ((2 ^ 32 - 1 < 2 ^ 64) ∧ (-(2 : Int) ^ 63 ≤ -3 ∧ (-3 : Int) < 2 ^ 63) ∧ 6 ≤ 64 ∧ 6 + 20 ≤ 64
      ∧ Bitpack_fitss (-3) 6 = true)
    ∧ ∃ W', Bitpack_news (2 ^ 32 - 1) 6 20 (-3) = .ok W' ∧ W' < 2 ^ 64
        ∧ Bitpack_gets W' 6 20 = .ok (-3) :=
  ⟨⟨by norm_num, by norm_num, by norm_num, by norm_num, by decide⟩,
    C2_news_gets_roundtrip (2 ^ 32 - 1) 6 20 (-3) (by norm_num) (by norm_num) (by norm_num)
      (by norm_num) (by decide)⟩

/-- C3: frame of a set. For a valid descriptor, a successful `Bitpack_newu` (value fits
unsigned) and a successful `Bitpack_news` (value fits signed) both return a word whose bit `i`
equals bit `i` of `W` for every `i < 64` with `i < lsb` or `lsb + w ≤ i`. -/
theorem C3_set_frame (W w lsb v : Nat) (sv : Int) (hv : v < 2 ^ 64) (hw : w ≤ 64)
    (hl : w + lsb ≤ 64) :
    (Bitpack_fitsu v w = true →
      ∃ W', Bitpack_newu W w lsb v = .ok W' ∧
        ∀ i, i < 64 → (i < lsb ∨ lsb + w ≤ i) → W'.testBit i = W.testBit i) ∧
    (Bitpack_fitss sv w = true →
      ∃ W', Bitpack_news W w lsb sv = .ok W' ∧
        ∀ i, i < 64 → (i < lsb ∨ lsb + w ≤ i) → W'.testBit i = W.testBit i) := by
  constructor
  · intro hf
    refine ⟨_, newu_ok hw hl hf, ?_⟩
    intro i hi hout
    have hn : ¬ (lsb ≤ i ∧ i < lsb + w) := by omega
    rw [testBit_newu_word hw hl ((fitsu_iff hv).mp hf), if_neg hn]
    simp [hi]
  · intro hf
    refine ⟨_, news_ok hw hl hf, ?_⟩
    intro i hi hout
    have hn : ¬ (lsb ≤ i ∧ i < lsb + w) := by omega
    rw [testBit_news_word _ hw hl, if_neg hn]
    simp [hi]

/-- Witness for C3: a 6-bit field at bit 14 of an all-ones 32-bit word, set to `5` by
`Bitpack_newu` and to `-7` by `Bitpack_news`. -/
theorem C3_set_frame_witness :
    (5 < 2 ^ 64 ∧ 6 ≤ 64 ∧ 6 + 14 ≤ 64 ∧ Bitpack_fitsu 5 6 = true ∧ Bitpack_fitss (-7) 6 = true) ∧
    (∃ W', Bitpack_newu (2 ^ 32 - 1) 6 14 5 = .ok W' ∧
      ∀ i, i < 64 → (i < 14 ∨ 14 + 6 ≤ i) → W'.testBit i = (2 ^ 32 - 1).testBit i) ∧
    (∃ W', Bitpack_news (2 ^ 32 - 1) 6 14 (-7) = .ok W' ∧
      ∀ i, i < 64 → (i < 14 ∨ 14 + 6 ≤ i) → W'.testBit i = (2 ^ 32 - 1).testBit i) :=
  ⟨⟨by norm_num, by norm_num, by norm_num, rfl, by decide⟩,
    (C3_set_frame (2 ^ 32 - 1) 6 14 5 (-7) (by norm_num) (by norm_num) (by norm_num)).1 rfl,
    (C3_set_frame (2 ^ 32 - 1) 6 14 5 (-7) (by norm_num) (by norm_num) (by norm_num)).2
      (by decide)⟩

/-- C4: overflow exactly when the value does not fit. For a valid descriptor,
`Bitpack_newu` raises `Bitpack_Overflow` iff `Bitpack_fitsu` is false and `Bitpack_news` raises
it iff `Bitpack_fitss` is false. At the boundaries: for `w < 64`, `2 ^ w - 1` is stored (and read
back) while `2 ^ w` overflows; for `0 < w < 64`, `-2 ^ (w - 1)` is stored (and read back) while
`-2 ^ (w - 1) - 1` overflows. -/
theorem C4_overflow_iff_not_fits (W w lsb v : Nat) (sv : Int) (hw : w ≤ 64)
    (hl : w + lsb ≤ 64) :
    (Bitpack_newu W w lsb v = .error .Bitpack_Overflow ↔ Bitpack_fitsu v w = false) ∧
    (Bitpack_news W w lsb sv = .error .Bitpack_Overflow ↔ Bitpack_fitss sv w = false) ∧
    (w < 64 →
      (∃ W', Bitpack_newu W w lsb (2 ^ w - 1) = .ok W' ∧ Bitpack_getu W' w lsb = .ok (2 ^ w - 1)) ∧
      Bitpack_newu W w lsb (2 ^ w) = .error .Bitpack_Overflow) ∧
    (0 < w → w < 64 →
      (∃ W', Bitpack_news W w lsb (-(2 : Int) ^ (w - 1)) = .ok W' ∧
        Bitpack_gets W' w lsb = .ok (-(2 : Int) ^ (w - 1))) ∧
      Bitpack_news W w lsb (-(2 : Int) ^ (w - 1) - 1) = .error .Bitpack_Overflow) := by
  refine ⟨newu_overflow_iff hw hl, news_overflow_iff hw hl, ?_, ?_⟩
  · intro h64
    have hp : (2 : Nat) ^ w < 2 ^ 64 := Nat.pow_lt_pow_right (by decide) h64
    have hp0 : 0 < (2 : Nat) ^ w := by positivity
    constructor
    · exact newu_getu (by omega) hw hl ((fitsu_iff (by omega)).mpr (by omega))
    · rw [newu_overflow_iff hw hl]
      have hn : ¬ (Bitpack_fitsu (2 ^ w) w = true) := fun h => by
        have := (fitsu_iff hp).mp h
        omega
      simpa using hn
  · intro h0 h64
    have hp : (2 : Int) ^ (w - 1) ≤ 2 ^ 63 := int_two_pow_le (by omega)
    have hp0 : (0 : Int) < 2 ^ (w - 1) := by positivity
    constructor
    · exact news_gets ⟨by linarith, by linarith⟩ hw hl
        ((fitss_iff h0 h64).mpr ⟨le_refl _, by linarith⟩)
    · rw [news_overflow_iff hw hl]
      have hn : ¬ (Bitpack_fitss (-(2 : Int) ^ (w - 1) - 1) w = true) := fun h => by
        have := ((fitss_iff h0 h64).mp h).1
        linarith
      simpa using hn

/-- Witness for C4: the 6-bit field at bit 20, where `63` and `-32` are stored and `64` and
`-33` overflow. -/
theorem C4_overflow_iff_not_fits_witness :
    (6 ≤ 64 ∧ 6 + 20 ≤ 64 ∧ 0 < 6 ∧ 6 < 64) ∧
    ((Bitpack_newu 0 6 20 64 = .error .Bitpack_Overflow ↔ Bitpack_fitsu 64 6 = false) ∧
    (Bitpack_news 0 6 20 (-33) = .error .Bitpack_Overflow ↔ Bitpack_fitss (-33) 6 = false)) ∧
    ((∃ W', Bitpack_newu 0 6 20 (2 ^ 6 - 1) = .ok W' ∧ Bitpack_getu W' 6 20 = .ok (2 ^ 6 - 1)) ∧
      Bitpack_newu 0 6 20 (2 ^ 6) = .error .Bitpack_Overflow) ∧
    ((∃ W', Bitpack_news 0 6 20 (-(2 : Int) ^ (6 - 1)) = .ok W' ∧
        Bitpack_gets W' 6 20 = .ok (-(2 : Int) ^ (6 - 1))) ∧
      Bitpack_news 0 6 20 (-(2 : Int) ^ (6 - 1) - 1) = .error .Bitpack_Overflow) :=
  ⟨⟨by norm_num, by norm_num, by norm_num, by norm_num⟩,
    ⟨(C4_overflow_iff_not_fits 0 6 20 64 (-33) (by norm_num) (by norm_num)).1,
      (C4_overflow_iff_not_fits 0 6 20 64 (-33) (by norm_num) (by norm_num)).2.1⟩,
    (C4_overflow_iff_not_fits 0 6 20 64 (-33) (by norm_num) (by norm_num)).2.2.1 (by norm_num),
    (C4_overflow_iff_not_fits 0 6 20 64 (-33) (by norm_num) (by norm_num)).2.2.2 (by norm_num)
      (by norm_num)⟩

/-- C5: `Bitpack_fitsu v w` is true iff `v < 2 ^ w` (and `0 ≤ v`, which every unsigned value
satisfies), for every 64-bit `v` and every width `w`; it is true for every `v` when `w ≥ 64`,
and for `w = 0` it is true only for `v = 0`. -/
theorem C5_fitsu_iff_lt_two_pow (v w : Nat) (hv : v < 2 ^ 64) :
    (Bitpack_fitsu v w = true ↔ 0 ≤ v ∧ v < 2 ^ w) ∧
    (64 ≤ w → Bitpack_fitsu v w = true) ∧
    (w = 0 → (Bitpack_fitsu v w = true ↔ v = 0)) := by
  refine ⟨?_, ?_, ?_⟩
  · rw [fitsu_iff hv]
    exact ⟨fun h => ⟨Nat.zero_le _, h⟩, fun h => h.2⟩
  · intro h
    unfold Bitpack_fitsu
    rw [if_pos h]
  · intro h
    subst h
    rw [fitsu_iff hv]
    simp

/-- Witness for C5: the value `63` against width `6`. -/
theorem C5_fitsu_iff_lt_two_pow_witness :
    63 < 2 ^ 64 ∧ (Bitpack_fitsu 63 6 = true ↔ 0 ≤ 63 ∧ 63 < 2 ^ 6) :=
  ⟨by norm_num, (C5_fitsu_iff_lt_two_pow 63 6 (by norm_num)).1⟩

/-- C6: `Bitpack_fitss v w` is true iff `-2 ^ (w - 1) ≤ v ≤ 2 ^ (w - 1) - 1` for every `v` and
every width `0 < w < 64`; it is false for every `v` when `w = 0` and true for every `v` when
`w ≥ 64`. -/
theorem C6_fitss_iff_range (v : Int) (w : Nat) :
    (0 < w → w < 64 →
      (Bitpack_fitss v w = true ↔ -(2 : Int) ^ (w - 1) ≤ v ∧ v ≤ 2 ^ (w - 1) - 1)) ∧
    (w = 0 → Bitpack_fitss v w = false) ∧
    (64 ≤ w → Bitpack_fitss v w = true) := by
  refine ⟨?_, ?_, ?_⟩
  · intro h0 h64
    rw [fitss_iff h0 h64]
    constructor
    · intro h
      exact ⟨h.1, by linarith [h.2]⟩
    · intro h
      exact ⟨h.1, by linarith [h.2]⟩
  · intro h
    subst h
    rfl
  · intro h
    unfold Bitpack_fitss
    rw [if_neg (by omega), if_pos h]

/-- C7: `Bitpack_getu` extracts the field zero-extended. For a valid descriptor,
`Bitpack_getu W w lsb = W / 2 ^ lsb % 2 ^ w`; so it is `0` when `w = 0` (also at `lsb = 64`),
and it is `W` when `w = 64` and `W` is a 64-bit word. -/
theorem C7_getu_eq_div_mod (W w lsb : Nat) (hw : w ≤ 64) (hl : w + lsb ≤ 64) :
    Bitpack_getu W w lsb = .ok (W / 2 ^ lsb % 2 ^ w) ∧
    (w = 0 → Bitpack_getu W w lsb = .ok 0) ∧
    (w = 64 → W < 2 ^ 64 → Bitpack_getu W w lsb = .ok W) := by
  refine ⟨getu_eq hw hl, ?_, ?_⟩
  · intro h
    subst h
    rw [getu_eq hw hl]
    simp [Nat.mod_one]
  · intro h hW
    subst h
    have h0 : lsb = 0 := by omega
    subst h0
    rw [getu_eq hw hl, pow_zero, Nat.div_one, Nat.mod_eq_of_lt hW]

/-- Witness for C7: the empty field at `lsb = 64`, which reads as `0`. -/
theorem C7_getu_eq_div_mod_witness :
    (0 ≤ 64 ∧ 0 + 64 ≤ 64) ∧
    Bitpack_getu 12345 0 64 = .ok (12345 / 2 ^ 64 % 2 ^ 0) ∧ Bitpack_getu 12345 0 64 = .ok 0 :=
  ⟨⟨by norm_num, by norm_num⟩,
    (C7_getu_eq_div_mod 12345 0 64 (by norm_num) (by norm_num)).1,
    (C7_getu_eq_div_mod 12345 0 64 (by norm_num) (by norm_num)).2.1 rfl⟩

/-- C8: `Bitpack_gets` extracts the field sign-extended. For a valid descriptor with
`1 ≤ w`, writing `u = W / 2 ^ lsb % 2 ^ w`, the result is `u - 2 ^ w` if `u ≥ 2 ^ (w - 1)` and
`u` otherwise; for `w = 0` the result is `0`. -/
theorem C8_gets_eq_twos_complement (W w lsb : Nat) (hw : w ≤ 64) (hl : w + lsb ≤ 64) :
    (1 ≤ w →
      Bitpack_gets W w lsb
        = .ok (if W / 2 ^ lsb % 2 ^ w ≥ 2 ^ (w - 1)
            then ((W / 2 ^ lsb % 2 ^ w : Nat) : Int) - 2 ^ w
            else ((W / 2 ^ lsb % 2 ^ w : Nat) : Int))) ∧
    (w = 0 → Bitpack_gets W w lsb = .ok 0) := by
  constructor
  · intro h1
    rw [gets_eq h1 hw hl]
    rfl
  · intro h
    subst h
    unfold Bitpack_gets
    rw [descriptor_ok_of_valid hw hl]
    rfl

/-- Witness for C8: a 6-bit field at bit 8 holding the bit pattern `110001` of `-15`. -/
theorem C8_gets_eq_twos_complement_witness :
    (6 ≤ 64 ∧ 6 + 8 ≤ 64 ∧ 1 ≤ 6) ∧
    Bitpack_gets 12544 6 8
      = .ok (if 12544 / 2 ^ 8 % 2 ^ 6 ≥ 2 ^ (6 - 1)
          then ((12544 / 2 ^ 8 % 2 ^ 6 : Nat) : Int) - 2 ^ 6
          else ((12544 / 2 ^ 8 % 2 ^ 6 : Nat) : Int)) :=
  ⟨⟨by norm_num, by norm_num, by norm_num⟩,
    (C8_gets_eq_twos_complement 12544 6 8 (by norm_num) (by norm_num)).1 (by norm_num)⟩

/-- C9 (the code at the failing input): with `width = 1` and `lsb = 4294967295` the true sum
`width + lsb` is `2 ^ 32 > 64`, yet the `unsigned` sum in the assertion wraps to `0`, so all
four functions pass their assertion and return a value: the getters return `0`, the setters
return the word unchanged. -/
theorem C9_wrapped_sum_escapes_assert :
    1 + 4294967295 > 64 ∧
    Bitpack_getu 12 1 4294967295 = .ok 0 ∧
    Bitpack_gets 12 1 4294967295 = .ok 0 ∧
    Bitpack_newu 12 1 4294967295 1 = .ok 12 ∧
    Bitpack_news 12 1 4294967295 (-1) = .ok 12 :=
  ⟨by norm_num, rfl, rfl, rfl, rfl⟩

/-! ## The claims about the block encoder -/

/-- C10: block encoding has no error path. Take four pixels whose red, green and blue samples
are at most the denominator `D > 0`, a chroma index function with values in `[0, 15]`, and a
closure whose `y_vals` hold the four pixels' lumas, at a position whose block lies in the
packed grid. Then the luma average given to `quantize_avg_brightness` lies in `[0, 1]`; the
call returns a code `a ≤ 63` that fits 6 unsigned bits; every detail code of `quantize_dct` is
in `[-15, 15]`, survives being held in an `unsigned` and passed back as `int`, and fits 6
signed bits; `bitpack_pixels` returns a word on these codes; and `pack_pixel` returns (no
failed assertion, no `Bitpack_Overflow`). -/
theorem C10_block_encoding_no_error (index_of : ℚ → Nat) (hidx : ∀ x, index_of x ≤ 15)
    (D : Nat) (hD : 0 < D) (p : Nat → Pnm_rgb)
    (hp : ∀ i, i < 4 → (p i).red ≤ D ∧ (p i).green ≤ D ∧ (p i).blue ≤ D)
    (c_info : Compression_Info)
    (hy : ∀ i, i < 4 → c_info.y_vals i = (rgb_to_cv (scale_rgb (p i) D)).1)
    (col row : Nat) (hcol : col / 2 < c_info.compressed.width)
    (hrow : row / 2 < c_info.compressed.height) :
    (0 ≤ (pix_to_dct c_info.y_vals).1 ∧ (pix_to_dct c_info.y_vals).1 ≤ 1) ∧
    (∃ a, quantize_avg_brightness (pix_to_dct c_info.y_vals).1 = .ok a ∧ a ≤ 63 ∧
      Bitpack_fitsu a A_WIDTH = true ∧
      ∃ word, bitpack_pixels a
        (toInt (toUnsigned (quantize_dct (pix_to_dct c_info.y_vals).2.1)))
        (toInt (toUnsigned (quantize_dct (pix_to_dct c_info.y_vals).2.2.1)))
        (toInt (toUnsigned (quantize_dct (pix_to_dct c_info.y_vals).2.2.2)))
        (index_of (c_info.avg_pb / 4)) (index_of (c_info.avg_pr / 4)) = .ok word) ∧
    (∀ x : ℚ, -15 ≤ quantize_dct x ∧ quantize_dct x ≤ 15 ∧
      toInt (toUnsigned (quantize_dct x)) = quantize_dct x ∧
      Bitpack_fitss (toInt (toUnsigned (quantize_dct x))) B_WIDTH = true) ∧
    (∃ c_info', pack_pixel index_of c_info col row = .ok c_info') := by
  have hl : ∀ i, i < 4 → 0 ≤ c_info.y_vals i ∧ c_info.y_vals i ≤ 1 := by
    intro i hi
    rw [hy i hi]
    exact pixel_luma_bounds hD (hp i hi)
  have h0 := hl 0 (by norm_num)
  have h1 := hl 1 (by norm_num)
  have h2 := hl 2 (by norm_num)
  have h3 := hl 3 (by norm_num)
  have havg : 0 ≤ (pix_to_dct c_info.y_vals).1 ∧ (pix_to_dct c_info.y_vals).1 ≤ 1 := by
    unfold pix_to_dct
    simp only
    constructor
    · linarith [h0.1, h1.1, h2.1, h3.1]
    · linarith [h0.2, h1.2, h2.2, h3.2]
  have hdet : ∀ x : ℚ, -15 ≤ quantize_dct x ∧ quantize_dct x ≤ 15 ∧
      toInt (toUnsigned (quantize_dct x)) = quantize_dct x ∧
      Bitpack_fitss (toInt (toUnsigned (quantize_dct x))) B_WIDTH = true := by
    intro x
    obtain ⟨hlo, hhi⟩ := quantize_dct_bounds x
    have hrt : toInt (toUnsigned (quantize_dct x)) = quantize_dct x :=
      toInt_toUnsigned (by omega) (by omega)
    refine ⟨hlo, hhi, hrt, ?_⟩
    rw [hrt]
    exact fitss_six hlo hhi
  obtain ⟨a, hqa, ha63, -⟩ := quantize_avg_brightness_ok havg.1 havg.2
  obtain ⟨word, hword⟩ := bitpack_pixels_ok (a := a)
    (b := toInt (toUnsigned (quantize_dct (pix_to_dct c_info.y_vals).2.1)))
    (c := toInt (toUnsigned (quantize_dct (pix_to_dct c_info.y_vals).2.2.1)))
    (d := toInt (toUnsigned (quantize_dct (pix_to_dct c_info.y_vals).2.2.2)))
    ha63 (hdet _).2.2.2 (hdet _).2.2.2 (hdet _).2.2.2 (hidx (c_info.avg_pb / 4))
    (hidx (c_info.avg_pr / 4))
  refine ⟨havg, ⟨a, hqa, ha63, ?_, word, hword⟩, hdet, ?_⟩
  · exact (fitsu_iff (by omega)).mpr (by unfold A_WIDTH; norm_num; omega)
  · unfold pack_pixel
    simp only [hqa, hword, bind, Except.bind, UArray2_store, hcol, hrow, and_self, if_true]
    exact ⟨_, rfl⟩

/-- Witness for C10: the block of four `(255, 128, 0)` pixels at denominator `255`, packed at
position `(1, 1)`, with a constant chroma index. -/
theorem C10_block_encoding_no_error_witness :
    ((∀ x : ℚ, const_index x ≤ 15) ∧ 0 < 255 ∧
      (∀ i, i < 4 → (orange_pixels i).red ≤ 255 ∧ (orange_pixels i).green ≤ 255 ∧
        (orange_pixels i).blue ≤ 255) ∧
      (∀ i, i < 4 → orange_block.y_vals i = (rgb_to_cv (scale_rgb (orange_pixels i) 255)).1) ∧
      1 / 2 < orange_block.compressed.width ∧ 1 / 2 < orange_block.compressed.height) ∧
    ∃ c_info', pack_pixel const_index orange_block 1 1 = .ok c_info' :=
  have hidx : ∀ x : ℚ, const_index x ≤ 15 := fun _ => by
    show (7 : Nat) ≤ 15
    decide
  have hp : ∀ i, i < 4 → (orange_pixels i).red ≤ 255 ∧ (orange_pixels i).green ≤ 255 ∧
      (orange_pixels i).blue ≤ 255 := fun _ _ => by
    show (255 : Nat) ≤ 255 ∧ (128 : Nat) ≤ 255 ∧ (0 : Nat) ≤ 255
    decide
  ⟨⟨hidx, by decide, hp, fun _ _ => rfl, by decide, by decide⟩,
    (C10_block_encoding_no_error const_index hidx 255 (by decide) orange_pixels hp
      orange_block (fun _ _ => rfl) 1 1 (by decide) (by decide)).2.2.2⟩

/-! ## The set operations in arithmetic form -/

theorem word_decomp {R W w lsb v : Nat} (h_lo : R % 2 ^ lsb = W % 2 ^ lsb)
    (h_mid : R / 2 ^ lsb % 2 ^ w = v) (h_hi : R / 2 ^ (lsb + w) = W / 2 ^ (lsb + w)) :
    R = W % 2 ^ lsb + v * 2 ^ lsb + W / 2 ^ (lsb + w) * 2 ^ (lsb + w) := by
  have h1 : R % 2 ^ lsb + 2 ^ lsb * (R / 2 ^ lsb) = R := Nat.mod_add_div R (2 ^ lsb)
  have h2 : R / 2 ^ lsb % 2 ^ w + 2 ^ w * (R / 2 ^ lsb / 2 ^ w) = R / 2 ^ lsb :=
    Nat.mod_add_div (R / 2 ^ lsb) (2 ^ w)
  have h3 : R / 2 ^ lsb / 2 ^ w = R / 2 ^ (lsb + w) := by
    rw [Nat.div_div_eq_div_mul, ← Nat.pow_add]
  rw [h3, h_hi, h_mid] at h2
  rw [h_lo, ← h2] at h1
  rw [← h1]
  generalize W / 2 ^ (lsb + w) = H
  rw [Nat.pow_add]
  ring

theorem set_word_decomp {R W w lsb u : Nat} (hw : w ≤ 64) (hl : w + lsb ≤ 64) (hW : W < 2 ^ 64)
    (hbits : ∀ i, R.testBit i
      = if lsb ≤ i ∧ i < lsb + w then u.testBit (i - lsb) else (decide (i < 64) && W.testBit i))
    (hmid : R / 2 ^ lsb % 2 ^ w = u % 2 ^ w) :
    R = W % 2 ^ lsb + u % 2 ^ w * 2 ^ lsb + W / 2 ^ (lsb + w) * 2 ^ (lsb + w) := by
  apply word_decomp _ hmid
  · apply Nat.eq_of_testBit_eq
    intro i
    rw [← Nat.shiftRight_eq_div_pow, ← Nat.shiftRight_eq_div_pow, Nat.testBit_shiftRight,
      Nat.testBit_shiftRight, hbits]
    have hn : ¬ (lsb ≤ lsb + w + i ∧ lsb + w + i < lsb + w) := by omega
    rw [if_neg hn]
    by_cases h64 : lsb + w + i < 64
    · simp [h64]
    · rw [testBit_small hW (by omega)]
      simp
  · apply Nat.eq_of_testBit_eq
    intro i
    rw [Nat.testBit_mod_two_pow, Nat.testBit_mod_two_pow, hbits]
    by_cases h : i < lsb
    · have hn : ¬ (lsb ≤ i ∧ i < lsb + w) := by omega
      have h64 : i < 64 := by omega
      simp [h, hn, h64]
    · simp [h]

theorem newu_eq_arith {W w lsb v : Nat} (hW : W < 2 ^ 64) (hv : v < 2 ^ 64) (hw : w ≤ 64)
    (hl : w + lsb ≤ 64) (hf : Bitpack_fitsu v w = true) :
    Bitpack_newu W w lsb v
      = .ok (W % 2 ^ lsb + v * 2 ^ lsb + W / 2 ^ (lsb + w) * 2 ^ (lsb + w)) := by
  have hvw : v < 2 ^ w := (fitsu_iff hv).mp hf
  rw [newu_ok hw hl hf]
  refine congrArg Except.ok ?_
  have h := set_word_decomp (u := v) hw hl hW (testBit_newu_word hw hl hvw)
    (by rw [field_of_newu_word hw hl hvw, Nat.mod_eq_of_lt hvw])
  rw [Nat.mod_eq_of_lt hvw] at h
  exact h

theorem news_eq_arith {W w lsb : Nat} {sv : Int} (hW : W < 2 ^ 64) (hw : w ≤ 64)
    (hl : w + lsb ≤ 64) (hf : Bitpack_fitss sv w = true) :
    Bitpack_news W w lsb sv
      = .ok (W % 2 ^ lsb + toU64 sv % 2 ^ w * 2 ^ lsb + W / 2 ^ (lsb + w) * 2 ^ (lsb + w)) := by
  rw [news_ok hw hl hf]
  refine congrArg Except.ok ?_
  exact set_word_decomp hw hl hW (testBit_news_word _ hw hl) (field_of_news_word _ hw hl)

theorem toU64_mod_64 {b : Int} (hlo : -32 ≤ b) (hhi : b ≤ 31) :
    toU64 b % 2 ^ 6 = (b % 64).toNat ∧ (b % 64).toNat < 64 := by
  unfold toU64
  omega

theorem fitss_six_full {q : Int} (hlo : -32 ≤ q) (hhi : q ≤ 31) : Bitpack_fitss q 6 = true := by
  rw [fitss_iff (by norm_num) (by norm_num)]
  constructor <;> norm_num <;> omega

theorem fitsu_of_le {v w : Nat} (hv : v < 2 ^ w) (h64 : v < 2 ^ 64) :
    Bitpack_fitsu v w = true :=
  (fitsu_iff h64).mpr hv

/-- The word that the six sets of `bitpack_pixels` build, in closed form. -/
theorem bitpack_pixels_word_eq {a pb_ind pr_ind : Nat} {b c d : Int} (ha : a ≤ 63)
    (hb : -32 ≤ b ∧ b ≤ 31) (hc : -32 ≤ c ∧ c ≤ 31) (hd : -32 ≤ d ∧ d ≤ 31)
    (hpb : pb_ind ≤ 15) (hpr : pr_ind ≤ 15) :
    bitpack_pixels_word a b c d pb_ind pr_ind
      = .ok (a * 2 ^ 26 + (b % 64).toNat * 2 ^ 20 + (c % 64).toNat * 2 ^ 14
          + (d % 64).toNat * 2 ^ 8 + pb_ind * 2 ^ 4 + pr_ind) := by
  obtain ⟨hub, hub64⟩ := toU64_mod_64 hb.1 hb.2
  obtain ⟨huc, huc64⟩ := toU64_mod_64 hc.1 hc.2
  obtain ⟨hud, hud64⟩ := toU64_mod_64 hd.1 hd.2
  generalize (b % 64).toNat = ub at hub hub64 ⊢
  generalize (c % 64).toNat = uc at huc huc64 ⊢
  generalize (d % 64).toNat = ud at hud hud64 ⊢
  have e1 : Bitpack_newu 0 6 26 a = .ok (a * 2 ^ 26) := by
    rw [@newu_eq_arith 0 6 26 a (by norm_num) (by omega) (by norm_num) (by norm_num)
      (fitsu_of_le (by omega) (by omega))]
    refine congrArg Except.ok ?_
    omega
  have e2 : Bitpack_news (a * 2 ^ 26) 6 20 b = .ok (a * 2 ^ 26 + ub * 2 ^ 20) := by
    rw [@news_eq_arith (a * 2 ^ 26) 6 20 b (by omega) (by norm_num) (by norm_num)
      (fitss_six_full hb.1 hb.2), hub]
    refine congrArg Except.ok ?_
    omega
  have e3 : Bitpack_news (a * 2 ^ 26 + ub * 2 ^ 20) 6 14 c
      = .ok (a * 2 ^ 26 + ub * 2 ^ 20 + uc * 2 ^ 14) := by
    rw [@news_eq_arith (a * 2 ^ 26 + ub * 2 ^ 20) 6 14 c (by omega) (by norm_num) (by norm_num)
      (fitss_six_full hc.1 hc.2), huc]
    refine congrArg Except.ok ?_
    omega
  have e4 : Bitpack_news (a * 2 ^ 26 + ub * 2 ^ 20 + uc * 2 ^ 14) 6 8 d
      = .ok (a * 2 ^ 26 + ub * 2 ^ 20 + uc * 2 ^ 14 + ud * 2 ^ 8) := by
    rw [@news_eq_arith (a * 2 ^ 26 + ub * 2 ^ 20 + uc * 2 ^ 14) 6 8 d (by omega) (by norm_num)
      (by norm_num) (fitss_six_full hd.1 hd.2), hud]
    refine congrArg Except.ok ?_
    omega
  have e5 : Bitpack_newu (a * 2 ^ 26 + ub * 2 ^ 20 + uc * 2 ^ 14 + ud * 2 ^ 8) 4 4 pb_ind
      = .ok (a * 2 ^ 26 + ub * 2 ^ 20 + uc * 2 ^ 14 + ud * 2 ^ 8 + pb_ind * 2 ^ 4) := by
    rw [@newu_eq_arith (a * 2 ^ 26 + ub * 2 ^ 20 + uc * 2 ^ 14 + ud * 2 ^ 8) 4 4 pb_ind
      (by omega) (by omega) (by norm_num) (by norm_num) (fitsu_of_le (by omega) (by omega))]
    refine congrArg Except.ok ?_
    omega
  have e6 : Bitpack_newu
      (a * 2 ^ 26 + ub * 2 ^ 20 + uc * 2 ^ 14 + ud * 2 ^ 8 + pb_ind * 2 ^ 4) 4 0 pr_ind
      = .ok (a * 2 ^ 26 + ub * 2 ^ 20 + uc * 2 ^ 14 + ud * 2 ^ 8 + pb_ind * 2 ^ 4 + pr_ind) := by
    rw [@newu_eq_arith (a * 2 ^ 26 + ub * 2 ^ 20 + uc * 2 ^ 14 + ud * 2 ^ 8 + pb_ind * 2 ^ 4)
      4 0 pr_ind (by omega) (by omega) (by norm_num) (by norm_num)
      (fitsu_of_le (by omega) (by omega))]
    refine congrArg Except.ok ?_
    omega
  unfold bitpack_pixels_word A_WIDTH B_WIDTH C_WIDTH D_WIDTH PB_WIDTH PR_WIDTH a_lsb b_lsb c_lsb
    d_lsb pb_lsb pr_lsb
  simp only [e1, e2, e3, e4, e5, e6, bind, Except.bind]

theorem bitpack_pixels_eq_word (a : Nat) (b c d : Int) (pb_ind pr_ind : Nat) :
    bitpack_pixels a b c d pb_ind pr_ind
      = (bitpack_pixels_word a b c d pb_ind pr_ind).map (fun word => word % 2 ^ 32) := by
  unfold bitpack_pixels bitpack_pixels_word
  simp only [bind, Except.bind]
  cases Bitpack_newu 0 A_WIDTH a_lsb a with
  | error e => rfl
  | ok w1 =>
    simp only
    cases Bitpack_news w1 B_WIDTH b_lsb b with
    | error e => rfl
    | ok w2 =>
      simp only
      cases Bitpack_news w2 C_WIDTH c_lsb c with
      | error e => rfl
      | ok w3 =>
        simp only
        cases Bitpack_news w3 D_WIDTH d_lsb d with
        | error e => rfl
        | ok w4 =>
          simp only
          cases Bitpack_newu w4 PB_WIDTH pb_lsb pb_ind with
          | error e => rfl
          | ok w5 =>
            simp only
            cases Bitpack_newu w5 PR_WIDTH pr_lsb pr_ind with
            | error e => rfl
            | ok w6 => rfl

theorem gets_six_of_field {V lsb : Nat} {b : Int} (hl : 6 + lsb ≤ 64) (hlo : -32 ≤ b)
    (hhi : b ≤ 31) (hfield : V / 2 ^ lsb % 2 ^ 6 = (b % 64).toNat) :
    Bitpack_gets V 6 lsb = .ok b := by
  rw [gets_eq (by norm_num) (by norm_num) hl, hfield, ← (toU64_mod_64 hlo hhi).1,
    twos_complement_of_fits (by norm_num) (by norm_num) (by norm_num; omega) (by norm_num; omega)]

/-! ## The claims about the packed word -/

/-- C11: packed layout. For `a` in `[0, 63]`, `b, c, d` in `[-32, 31]` and `pb, pr` in
`[0, 15]`, the 64-bit word built by the six sets and the returned `uint32_t` are both
`a * 2^26 + (b mod 64) * 2^20 + (c mod 64) * 2^14 + (d mod 64) * 2^8 + pb * 2^4 + pr`, which is
below `2 ^ 32` (so the narrowing loses nothing); the six bit ranges are pairwise disjoint and
lie below bit 32. -/
theorem C11_packed_layout (a pb pr : Nat) (b c d : Int) (ha : a ≤ 63)
    (hb : -32 ≤ b ∧ b ≤ 31) (hc : -32 ≤ c ∧ c ≤ 31) (hd : -32 ≤ d ∧ d ≤ 31)
    (hpb : pb ≤ 15) (hpr : pr ≤ 15) :
    bitpack_pixels a b c d pb pr
      = .ok (a * 2 ^ 26 + (b % 64).toNat * 2 ^ 20 + (c % 64).toNat * 2 ^ 14
          + (d % 64).toNat * 2 ^ 8 + pb * 2 ^ 4 + pr) ∧
    bitpack_pixels_word a b c d pb pr
      = .ok (a * 2 ^ 26 + (b % 64).toNat * 2 ^ 20 + (c % 64).toNat * 2 ^ 14
          + (d % 64).toNat * 2 ^ 8 + pb * 2 ^ 4 + pr) ∧
    a * 2 ^ 26 + (b % 64).toNat * 2 ^ 20 + (c % 64).toNat * 2 ^ 14
      + (d % 64).toNat * 2 ^ 8 + pb * 2 ^ 4 + pr < 2 ^ 32 ∧
    (pr_lsb + PR_WIDTH ≤ pb_lsb ∧ pb_lsb + PB_WIDTH ≤ d_lsb ∧ d_lsb + D_WIDTH ≤ c_lsb ∧
      c_lsb + C_WIDTH ≤ b_lsb ∧ b_lsb + B_WIDTH ≤ a_lsb ∧ a_lsb + A_WIDTH ≤ 32) := by
  have hword := bitpack_pixels_word_eq ha hb hc hd hpb hpr
  have hlt : a * 2 ^ 26 + (b % 64).toNat * 2 ^ 20 + (c % 64).toNat * 2 ^ 14
      + (d % 64).toNat * 2 ^ 8 + pb * 2 ^ 4 + pr < 2 ^ 32 := by omega
  refine ⟨?_, hword, hlt, by decide⟩
  rw [bitpack_pixels_eq_word, hword]
  exact congrArg Except.ok (Nat.mod_eq_of_lt hlt)

/-- Witness for C11: the extreme codes `a = 63`, `b = -32`, `c = 31`, `d = -1`,
`pb = pr = 15`. -/
theorem C11_packed_layout_witness :
    (63 ≤ 63 ∧ (-32 ≤ (-32 : Int) ∧ (-32 : Int) ≤ 31) ∧ (-32 ≤ (31 : Int) ∧ (31 : Int) ≤ 31) ∧
      (-32 ≤ (-1 : Int) ∧ (-1 : Int) ≤ 31) ∧ 15 ≤ 15 ∧ 15 ≤ 15) ∧
    bitpack_pixels 63 (-32) 31 (-1) 15 15
      = .ok (63 * 2 ^ 26 + ((-32 : Int) % 64).toNat * 2 ^ 20 + ((31 : Int) % 64).toNat * 2 ^ 14
          + ((-1 : Int) % 64).toNat * 2 ^ 8 + 15 * 2 ^ 4 + 15) :=
  ⟨⟨by decide, by decide, by decide, by decide, by decide, by decide⟩,
    (C11_packed_layout 63 15 15 (-32) 31 (-1) (by decide) (by decide) (by decide) (by decide)
      (by decide) (by decide)).1⟩

/-- C12: the packed word round-trips field for field. For `a` in `[0, 63]`, `b, c, d` in
`[-15, 15]` and `pb, pr` in `[0, 15]`, `bitpack_pixels` returns a word from which the six
extractions of `decompress_cb` return exactly `a, b, c, d, pb, pr`. -/
theorem C12_packed_word_roundtrip (a pb pr : Nat) (b c d : Int) (ha : a ≤ 63)
    (hb : -15 ≤ b ∧ b ≤ 15) (hc : -15 ≤ c ∧ c ≤ 15) (hd : -15 ≤ d ∧ d ≤ 15)
    (hpb : pb ≤ 15) (hpr : pr ≤ 15) :
    ∃ word, bitpack_pixels a b c d pb pr = .ok word ∧
      Bitpack_getu word A_WIDTH a_lsb = .ok a ∧
      Bitpack_gets word B_WIDTH b_lsb = .ok b ∧
      Bitpack_gets word C_WIDTH c_lsb = .ok c ∧
      Bitpack_gets word D_WIDTH d_lsb = .ok d ∧
      Bitpack_getu word PB_WIDTH pb_lsb = .ok pb ∧
      Bitpack_getu word PR_WIDTH pr_lsb = .ok pr := by
  have hb' : -32 ≤ b ∧ b ≤ 31 := ⟨by omega, by omega⟩
  have hc' : -32 ≤ c ∧ c ≤ 31 := ⟨by omega, by omega⟩
  have hd' : -32 ≤ d ∧ d ≤ 31 := ⟨by omega, by omega⟩
  have hword := bitpack_pixels_word_eq ha hb' hc' hd' hpb hpr
  have hlt : a * 2 ^ 26 + (b % 64).toNat * 2 ^ 20 + (c % 64).toNat * 2 ^ 14
      + (d % 64).toNat * 2 ^ 8 + pb * 2 ^ 4 + pr < 2 ^ 32 := by omega
  refine ⟨a * 2 ^ 26 + (b % 64).toNat * 2 ^ 20 + (c % 64).toNat * 2 ^ 14
      + (d % 64).toNat * 2 ^ 8 + pb * 2 ^ 4 + pr, ?_, ?_, ?_, ?_, ?_, ?_, ?_⟩
  · rw [bitpack_pixels_eq_word, hword]
    exact congrArg Except.ok (Nat.mod_eq_of_lt hlt)
  · unfold A_WIDTH a_lsb
    rw [getu_eq (by norm_num) (by norm_num)]
    refine congrArg Except.ok ?_
    omega
  · unfold B_WIDTH b_lsb
    exact gets_six_of_field (by norm_num) hb'.1 hb'.2 (by omega)
  · unfold C_WIDTH c_lsb
    exact gets_six_of_field (by norm_num) hc'.1 hc'.2 (by omega)
  · unfold D_WIDTH d_lsb
    exact gets_six_of_field (by norm_num) hd'.1 hd'.2 (by omega)
  · unfold PB_WIDTH pb_lsb
    rw [getu_eq (by norm_num) (by norm_num)]
    refine congrArg Except.ok ?_
    omega
  · unfold PR_WIDTH pr_lsb
    rw [getu_eq (by norm_num) (by norm_num)]
    refine congrArg Except.ok ?_
    omega

/-- Witness for C12: the codes `a = 19`, `b = -15`, `c = 7`, `d = -7`, `pb = pr = 7`. -/
theorem C12_packed_word_roundtrip_witness :
    (19 ≤ 63 ∧ (-15 ≤ (-15 : Int) ∧ (-15 : Int) ≤ 15) ∧ (-15 ≤ (7 : Int) ∧ (7 : Int) ≤ 15) ∧
      (-15 ≤ (-7 : Int) ∧ (-7 : Int) ≤ 15) ∧ 7 ≤ 15 ∧ 7 ≤ 15) ∧
    ∃ word, bitpack_pixels 19 (-15) 7 (-7) 7 7 = .ok word ∧
      Bitpack_getu word A_WIDTH a_lsb = .ok 19 ∧
      Bitpack_gets word B_WIDTH b_lsb = .ok (-15) ∧
      Bitpack_gets word C_WIDTH c_lsb = .ok 7 ∧
      Bitpack_gets word D_WIDTH d_lsb = .ok (-7) ∧
      Bitpack_getu word PB_WIDTH pb_lsb = .ok 7 ∧
      Bitpack_getu word PR_WIDTH pr_lsb = .ok 7 :=
  ⟨⟨by decide, by decide, by decide, by decide, by decide, by decide⟩,
    C12_packed_word_roundtrip 19 7 7 (-15) 7 (-7) (by decide) (by decide) (by decide)
      (by decide) (by decide) (by decide)⟩

/-! ## The claims about the quantizers and the two transforms -/

theorem c_round_spec (y : ℚ) :
    (0 ≤ y → (c_round y : ℚ) ≤ y + 1 / 2 ∧ y + 1 / 2 < c_round y + 1) ∧
    (y < 0 → (c_round y : ℚ) - 1 < y - 1 / 2 ∧ y - 1 / 2 ≤ c_round y) := by
  unfold c_round
  constructor
  · intro h
    rw [if_pos h]
    exact ⟨Int.floor_le _, Int.lt_floor_add_one _⟩
  · intro h
    rw [if_neg (not_le.mpr h)]
    have h1 := Int.floor_le (-y + 1 / 2)
    have h2 := Int.lt_floor_add_one (-y + 1 / 2)
    push_cast
    constructor <;> linarith

theorem c_round_zero : c_round 0 = 0 := by
  unfold c_round
  rw [if_pos (le_refl 0)]
  rw [Int.floor_eq_iff]
  constructor <;> norm_num

theorem c_round_intCast (n : Int) : c_round (n : ℚ) = n := by
  unfold c_round
  by_cases h : (0 : ℚ) ≤ n
  · rw [if_pos h, Int.floor_eq_iff]
    constructor <;> linarith
  · rw [if_neg h]
    have : ⌊-(n : ℚ) + 1 / 2⌋ = -n := by
      rw [Int.floor_eq_iff]
      push_cast
      constructor <;> linarith
    rw [this, neg_neg]

/-- C15: the block transform inverse undoes the forward transform exactly. For every array of
four lumas, with exact arithmetic, `dct_to_brightness (pix_to_dct y_vals)` holds `y_vals`
again at each index `0 .. 3`. -/
theorem C15_dct_roundtrip (y_vals : Nat → ℚ) :
    dct_to_brightness (pix_to_dct y_vals) 0 = y_vals 0 ∧
    dct_to_brightness (pix_to_dct y_vals) 1 = y_vals 1 ∧
    dct_to_brightness (pix_to_dct y_vals) 2 = y_vals 2 ∧
    dct_to_brightness (pix_to_dct y_vals) 3 = y_vals 3 := by
  unfold dct_to_brightness pix_to_dct
  refine ⟨?_, ?_, ?_, ?_⟩ <;> norm_num <;> ring

theorem cv_to_rgb_rgb_to_cv (r g b : ℚ) :
    cv_to_rgb (rgb_to_cv (r, g, b))
      = (r + 9 / 15625000 * (b - g),
         g + (129 / 976562500 * r + 81 / 1953125000 * g - 339 / 1953125000 * b),
         b + 3 / 15625000 * (g - r)) := by
  unfold cv_to_rgb rgb_to_cv
  refine Prod.ext ?_ (Prod.ext ?_ ?_) <;> simp only <;> ring

/-- C16 (counterexample): on pure green `(0, 1, 0)` the composition `cv_to_rgb ∘ rgb_to_cv`
returns a red component of `-9/15625000`, so it is not the identity. -/
theorem C16_not_exact_inverse :
    cv_to_rgb (rgb_to_cv (0, 1, 0)) ≠ (0, 1, 0) := by
  rw [cv_to_rgb_rgb_to_cv]
  intro h
  have h1 := congrArg Prod.fst h
  norm_num at h1

/-- C16 (amended): with the decimal coefficients taken as exact numbers, the colour transform
back to RGB inverts the transform to luma/chroma up to the truncation of the coefficients:
`cv_to_rgb (rgb_to_cv (r, g, b))` is `(r, g, b)` plus the stated multiples of the channel
differences. Hence each channel is off by at most `10⁻⁶` when `r, g, b` are in `[0, 1]`, and
the round trip is exact on grays (`r = g = b`). -/
theorem C16_cv_roundtrip_approx (r g b : ℚ) :
    cv_to_rgb (rgb_to_cv (r, g, b))
      = (r + 9 / 15625000 * (b - g),
         g + (129 / 976562500 * r + 81 / 1953125000 * g - 339 / 1953125000 * b),
         b + 3 / 15625000 * (g - r)) ∧
    ((0 ≤ r ∧ r ≤ 1) → (0 ≤ g ∧ g ≤ 1) → (0 ≤ b ∧ b ≤ 1) →
      |(cv_to_rgb (rgb_to_cv (r, g, b))).1 - r| ≤ 1 / 1000000 ∧
      |(cv_to_rgb (rgb_to_cv (r, g, b))).2.1 - g| ≤ 1 / 1000000 ∧
      |(cv_to_rgb (rgb_to_cv (r, g, b))).2.2 - b| ≤ 1 / 1000000) ∧
    (r = g → g = b → cv_to_rgb (rgb_to_cv (r, g, b)) = (r, g, b)) := by
  refine ⟨cv_to_rgb_rgb_to_cv r g b, ?_, ?_⟩
  · intro hr hg hb
    rw [cv_to_rgb_rgb_to_cv]
    simp only
    refine ⟨?_, ?_, ?_⟩ <;> rw [abs_le] <;> constructor <;>
      linarith [hr.1, hr.2, hg.1, hg.2, hb.1, hb.2]
  · intro h1 h2
    subst h1
    subst h2
    rw [cv_to_rgb_rgb_to_cv]
    refine Prod.ext ?_ (Prod.ext ?_ ?_) <;> simp only <;> ring

/-! ## Writing the stream -/

theorem putchar_byte {b : Nat} (hb : b < 256) (out : List Nat) :
    putchar (toInt b) out = out ++ [b] := by
  unfold putchar toInt
  have h : (((if b % 2 ^ 32 < 2 ^ 31 then ((b % 2 ^ 32 : Nat) : Int)
      else ((b % 2 ^ 32 : Nat) : Int) - 2 ^ 32) % 256).toNat) = b := by
    split <;> omega
  rw [h]

theorem print_big_endian_loop_succ (n x : Nat) (out : List Nat) :
    print_big_endian_loop (n + 1) x out
      = ((Bitpack_getu x 8 (n * 8)).bind fun b =>
          print_big_endian_loop n x (putchar (toInt b) out)) := rfl

theorem print_big_endian_loop_zero (x : Nat) (out : List Nat) :
    print_big_endian_loop 0 x out = .ok out := rfl

theorem except_bind_ok {α β : Type} (a : α) (f : α → Except Err β) :
    (Except.ok a : Except Err α).bind f = f a := rfl

theorem print_big_endian_eq (x : Nat) (out : List Nat) :
    print_big_endian x out = .ok (out ++ be_bytes x) := by
  have g3 : Bitpack_getu x 8 (3 * 8) = .ok (x / 2 ^ 24 % 256) :=
    getu_eq (by norm_num) (by norm_num)
  have g2 : Bitpack_getu x 8 (2 * 8) = .ok (x / 2 ^ 16 % 256) :=
    getu_eq (by norm_num) (by norm_num)
  have g1 : Bitpack_getu x 8 (1 * 8) = .ok (x / 2 ^ 8 % 256) :=
    getu_eq (by norm_num) (by norm_num)
  have g0 : Bitpack_getu x 8 (0 * 8) = .ok (x % 256) := by
    rw [getu_eq (by norm_num) (by norm_num)]
    refine congrArg Except.ok ?_
    omega
  have m3 : x / 2 ^ 24 % 256 < 256 := Nat.mod_lt _ (by norm_num)
  have m2 : x / 2 ^ 16 % 256 < 256 := Nat.mod_lt _ (by norm_num)
  have m1 : x / 2 ^ 8 % 256 < 256 := Nat.mod_lt _ (by norm_num)
  have m0 : x % 256 < 256 := Nat.mod_lt _ (by norm_num)
  have e : print_big_endian x out
      = ((Bitpack_getu x 8 (3 * 8)).bind fun b3 =>
          (Bitpack_getu x 8 (2 * 8)).bind fun b2 =>
            (Bitpack_getu x 8 (1 * 8)).bind fun b1 =>
              (Bitpack_getu x 8 (0 * 8)).bind fun b0 =>
                .ok (putchar (toInt b0) (putchar (toInt b1) (putchar (toInt b2)
                  (putchar (toInt b3) out))))) := rfl
  rw [e, g3, g2, g1, g0, except_bind_ok, except_bind_ok, except_bind_ok, except_bind_ok,
    putchar_byte m3, putchar_byte m2, putchar_byte m1, putchar_byte m0]
  refine congrArg Except.ok ?_
  unfold be_bytes
  simp only [List.append_assoc, List.singleton_append, List.cons_append, List.nil_append]

theorem be_bytes_length (x : Nat) : (be_bytes x).length = 4 := rfl

theorem be_bytes_lt (x : Nat) : ∀ y ∈ be_bytes x, y < 256 := by
  intro y hy
  unfold be_bytes at hy
  simp only [List.mem_cons, List.mem_singleton, List.not_mem_nil, or_false] at hy
  rcases hy with h | h | h | h <;> rw [h] <;> exact Nat.mod_lt _ (by norm_num)

theorem be_value_be_bytes {x : Nat} (hx : x < 2 ^ 32) : be_value (be_bytes x) = x := by
  show x / 2 ^ 24 % 256 * 2 ^ 24 + x / 2 ^ 16 % 256 * 2 ^ 16 + x / 2 ^ 8 % 256 * 2 ^ 8 + x % 256 = x
  omega

theorem drop_four_cons {α : Type} (b0 b1 b2 b3 : α) (l : List α) (n : Nat) :
    (b0 :: b1 :: b2 :: b3 :: l).drop (n + 4) = l.drop n := rfl

theorem take_drop_chunk_append {α : Type} (A B : List α) (n : Nat) (hA : A.length = 4)
    : ((A ++ B).drop (4 * (n + 1))).take 4 = (B.drop (4 * n)).take 4 := by
  have e : 4 * (n + 1) = A.length + 4 * n := by omega
  rw [e, List.drop_append]

/-- Bytes that the column loop of the row-major traversal appends for one row. -/
theorem write_cols (a : UArray2) (row : Nat) :
    ∀ (k col : Nat) (out : List Nat),
      ∃ L, map_row_major_cols a print_compress_cb row k col out = .ok (out ++ L) ∧
        L.length = 4 * k ∧ (∀ y ∈ L, y < 256) ∧
        ∀ j, j < k → (L.drop (4 * j)).take 4 = be_bytes (a.elems (col + j) row) := by
  intro k
  induction k with
  | zero =>
    intro col out
    exact ⟨[], by simp [map_row_major_cols], rfl, by simp, by omega⟩
  | succ k ih =>
    intro col out
    obtain ⟨L, hL, hlen, hlt, hidx⟩ := ih (col + 1) (out ++ be_bytes (a.elems col row))
    refine ⟨be_bytes (a.elems col row) ++ L, ?_, ?_, ?_, ?_⟩
    · simp only [map_row_major_cols, print_compress_cb, print_big_endian_eq, bind, Except.bind]
      rw [hL, List.append_assoc]
    · rw [List.length_append, be_bytes_length, hlen]
      omega
    · intro y hy
      rcases List.mem_append.mp hy with h | h
      · exact be_bytes_lt _ y h
      · exact hlt y h
    · intro j hj
      cases j with
      | zero =>
        rw [Nat.mul_zero, List.drop_zero, List.take_append_of_le_length (by rw [be_bytes_length]),
          List.take_of_length_le (by rw [be_bytes_length]), Nat.add_zero]
      | succ j =>
        rw [take_drop_chunk_append _ _ _ (be_bytes_length _), hidx j (by omega)]
        congr 2
        omega

theorem map_row_major_rows_succ {σ : Type} (a : UArray2)
    (apply : Nat → Nat → Nat → σ → Except Err σ) (k row : Nat) (cl : σ) :
    map_row_major_rows a apply (k + 1) row cl
      = ((map_row_major_cols a apply row a.width 0 cl).bind fun cl1 =>
          map_row_major_rows a apply k (row + 1) cl1) := rfl

/-- Bytes that the row loop of the row-major traversal appends: `4 * width` bytes per row,
the word of column `c` of the `i`-th row at offset `4 * (i * width + c)`. -/
theorem write_rows (a : UArray2) :
    ∀ (k row : Nat) (out : List Nat),
      ∃ L, map_row_major_rows a print_compress_cb k row out = .ok (out ++ L) ∧
        L.length = 4 * (a.width * k) ∧ (∀ y ∈ L, y < 256) ∧
        ∀ i c, i < k → c < a.width →
          (L.drop (4 * (i * a.width + c))).take 4 = be_bytes (a.elems c (row + i)) := by
  intro k
  induction k with
  | zero =>
    intro row out
    exact ⟨[], by simp [map_row_major_rows], by simp, by simp, by omega⟩
  | succ k ih =>
    intro row out
    obtain ⟨Lr, hLr, hlenr, hltr, hidxr⟩ := write_cols a row a.width 0 out
    obtain ⟨L, hL, hlen, hlt, hidx⟩ := ih (row + 1) (out ++ Lr)
    refine ⟨Lr ++ L, ?_, ?_, ?_, ?_⟩
    · rw [map_row_major_rows_succ, hLr, except_bind_ok, hL, List.append_assoc]
    · rw [List.length_append, hlenr, hlen, Nat.mul_succ]
      omega
    · intro y hy
      rcases List.mem_append.mp hy with h | h
      · exact hltr y h
      · exact hlt y h
    · intro i c hi hc
      cases i with
      | zero =>
        have h1 := hidxr c hc
        have hle : 4 * c ≤ Lr.length := by omega
        have hlen4 : 4 ≤ (Lr.drop (4 * c)).length := by
          rw [List.length_drop]
          omega
        rw [Nat.zero_mul, Nat.zero_add, List.drop_append_of_le_length hle,
          List.take_append_of_le_length hlen4, h1, Nat.zero_add, Nat.add_zero]
      | succ i =>
        have e : 4 * ((i + 1) * a.width + c) = Lr.length + 4 * (i * a.width + c) := by
          rw [hlenr, Nat.add_mul, Nat.one_mul]
          omega
        rw [e, List.drop_append, hidx i c (by omega) hc]
        congr 2
        omega

theorem write_compressed_eq (compressed : UArray2) (out : List Nat) :
    ∃ body, write_compressed compressed out
        = .ok (out ++ printf_header compressed.width compressed.height ++ body) ∧
      body.length = 4 * (compressed.width * compressed.height) ∧ (∀ y ∈ body, y < 256) ∧
      ∀ c r, c < compressed.width → r < compressed.height →
        (body.drop (4 * (r * compressed.width + c))).take 4
          = be_bytes (compressed.elems c r) := by
  obtain ⟨L, hL, hlen, hlt, hidx⟩ := write_rows compressed compressed.height 0
    (out ++ printf_header compressed.width compressed.height)
  refine ⟨L, hL, hlen, hlt, ?_⟩
  intro c r hc hr
  rw [hidx r c hr hc, Nat.zero_add]

/-! ## Reading the stream -/

theorem usub_one_of_pos {h : Nat} (h0 : 0 < h) (h32 : h < 2 ^ 32) : usub h 1 = h - 1 := by
  unfold usub
  omega

theorem toU64_natCast {b : Nat} (hb : b < 2 ^ 64) : toU64 (b : Int) = b := by
  unfold toU64
  omega

theorem getc_cons (b : Nat) (l : List Nat) :
    getc { rest := b :: l, eof := false } = ((b : Int), { rest := l, eof := false }) := rfl

theorem getc_eof_nil : (getc { rest := [], eof := false }).2.eof = true := rfl

theorem getc_eof_cons (b : Nat) (l : List Nat) :
    (getc { rest := b :: l, eof := false }).2.eof = false := rfl

/-- One pass of the byte loop on four available bytes: the big-endian word, and the stream
advanced by `getc` past the fourth byte. -/
theorem read_word_four {b0 b1 b2 b3 : Nat} (l : List Nat) (h0 : b0 < 256) (h1 : b1 < 256)
    (h2 : b2 < 256) (h3 : b3 < 256) :
    read_word_loop 4 0 (b0 : Int) { rest := b1 :: b2 :: b3 :: l, eof := false }
      = .ok (b0 * 2 ^ 24 + b1 * 2 ^ 16 + b2 * 2 ^ 8 + b3,
          (getc { rest := l, eof := false }).1, (getc { rest := l, eof := false }).2) := by
  have e : read_word_loop 4 0 (b0 : Int) { rest := b1 :: b2 :: b3 :: l, eof := false }
      = ((Bitpack_newu 0 8 24 (toU64 (b0 : Int))).bind fun w3 =>
          (Bitpack_newu (w3 % 2 ^ 32) 8 16 (toU64 (b1 : Int))).bind fun w2 =>
            (Bitpack_newu (w2 % 2 ^ 32) 8 8 (toU64 (b2 : Int))).bind fun w1 =>
              (Bitpack_newu (w1 % 2 ^ 32) 8 0 (toU64 (b3 : Int))).bind fun w0 =>
                .ok (w0 % 2 ^ 32, (getc { rest := l, eof := false }).1,
                  (getc { rest := l, eof := false }).2)) := rfl
  have s3 : Bitpack_newu 0 8 24 b0 = .ok (b0 * 2 ^ 24) := by
    rw [@newu_eq_arith 0 8 24 b0 (by norm_num) (by omega) (by norm_num) (by norm_num)
      (fitsu_of_le (by omega) (by omega))]
    refine congrArg Except.ok ?_
    omega
  have s2 : Bitpack_newu (b0 * 2 ^ 24) 8 16 b1 = .ok (b0 * 2 ^ 24 + b1 * 2 ^ 16) := by
    rw [@newu_eq_arith (b0 * 2 ^ 24) 8 16 b1 (by omega) (by omega) (by norm_num) (by norm_num)
      (fitsu_of_le (by omega) (by omega))]
    refine congrArg Except.ok ?_
    omega
  have s1 : Bitpack_newu (b0 * 2 ^ 24 + b1 * 2 ^ 16) 8 8 b2
      = .ok (b0 * 2 ^ 24 + b1 * 2 ^ 16 + b2 * 2 ^ 8) := by
    rw [@newu_eq_arith (b0 * 2 ^ 24 + b1 * 2 ^ 16) 8 8 b2 (by omega) (by omega) (by norm_num)
      (by norm_num) (fitsu_of_le (by omega) (by omega))]
    refine congrArg Except.ok ?_
    omega
  have s0 : Bitpack_newu (b0 * 2 ^ 24 + b1 * 2 ^ 16 + b2 * 2 ^ 8) 8 0 b3
      = .ok (b0 * 2 ^ 24 + b1 * 2 ^ 16 + b2 * 2 ^ 8 + b3) := by
    rw [@newu_eq_arith (b0 * 2 ^ 24 + b1 * 2 ^ 16 + b2 * 2 ^ 8) 8 0 b3 (by omega) (by omega)
      (by norm_num) (by norm_num) (fitsu_of_le (by omega) (by omega))]
    refine congrArg Except.ok ?_
    omega
  have n3 : b0 * 2 ^ 24 % 2 ^ 32 = b0 * 2 ^ 24 := by omega
  have n2 : (b0 * 2 ^ 24 + b1 * 2 ^ 16) % 2 ^ 32 = b0 * 2 ^ 24 + b1 * 2 ^ 16 := by omega
  have n1 : (b0 * 2 ^ 24 + b1 * 2 ^ 16 + b2 * 2 ^ 8) % 2 ^ 32
      = b0 * 2 ^ 24 + b1 * 2 ^ 16 + b2 * 2 ^ 8 := by omega
  have n0 : (b0 * 2 ^ 24 + b1 * 2 ^ 16 + b2 * 2 ^ 8 + b3) % 2 ^ 32
      = b0 * 2 ^ 24 + b1 * 2 ^ 16 + b2 * 2 ^ 8 + b3 := by omega
  rw [e, toU64_natCast (by omega), toU64_natCast (by omega), toU64_natCast (by omega),
    toU64_natCast (by omega), s3, except_bind_ok, n3, s2, except_bind_ok, n2, s1,
    except_bind_ok, n1, s0, except_bind_ok, n0]

theorem read_col_loop_succ (width height row k col : Nat) (c : Int) (input : FILE)
    (compressed : UArray2) :
    read_col_loop width height row (k + 1) col c input compressed
      = ((read_word_loop 4 0 c input).bind fun r =>
          if (r.2.2.eof && !(row == usub height 1 && col == usub width 1)) = true then
            .error .Invalid_File
          else
            (UArray2_store compressed col row r.1).bind fun g1 =>
              read_col_loop width height row k (col + 1) r.2.1 r.2.2 g1) := rfl

theorem UArray2_store_ok {a : UArray2} {col row : Nat} (v : Nat) (hc : col < a.width)
    (hr : row < a.height) :
    UArray2_store a col row v
      = .ok { a with elems := fun c r => if c = col ∧ r = row then v else a.elems c r } := by
  unfold UArray2_store
  rw [if_pos ⟨hc, hr⟩]

theorem four_bytes_of_length {l : List Nat} (h : 4 ≤ l.length) :
    ∃ b0 b1 b2 b3 l', l = b0 :: b1 :: b2 :: b3 :: l' := by
  match l, h with
  | b0 :: b1 :: b2 :: b3 :: l', _ => exact ⟨b0, b1, b2, b3, l', rfl⟩

/-- The column loop of `read_compressed` on a stream that still holds at least `4 * k` bytes,
and more than that unless this is the last row: it stores the big-endian words of the next
`k` four-byte groups in columns `col .. col + k - 1` of `row`. -/
theorem read_cols {width height row : Nat} (hw32 : width < 2 ^ 32) (hh32 : height < 2 ^ 32)
    (hrow : row < height) :
    ∀ (k col : Nat) (l : List Nat) (g : UArray2),
      col + k = width → g.width = width → g.height = height → (∀ y ∈ l, y < 256) →
      4 * k ≤ l.length → (l.length = 4 * k → row + 1 = height) →
      ∃ g', read_col_loop width height row k col (getc { rest := l, eof := false }).1
            (getc { rest := l, eof := false }).2 g
          = .ok ((getc { rest := l.drop (4 * k), eof := false }).1,
              (getc { rest := l.drop (4 * k), eof := false }).2, g') ∧
        g'.width = width ∧ g'.height = height ∧
        ∀ c r, g'.elems c r
          = if r = row ∧ col ≤ c ∧ c < col + k
            then be_value ((l.drop (4 * (c - col))).take 4) else g.elems c r := by
  intro k
  induction k with
  | zero =>
    intro col l g _ hgw hgh _ _ _
    refine ⟨g, rfl, hgw, hgh, ?_⟩
    intro c r
    rw [if_neg (by omega)]
  | succ k ih =>
    intro col l g hck hgw hgh hbytes hlen hlast
    obtain ⟨b0, b1, b2, b3, l', rfl⟩ := four_bytes_of_length (l := l) (by omega)
    have hb0 : b0 < 256 := hbytes b0 (by simp)
    have hb1 : b1 < 256 := hbytes b1 (by simp)
    have hb2 : b2 < 256 := hbytes b2 (by simp)
    have hb3 : b3 < 256 := hbytes b3 (by simp)
    have hbytes' : ∀ y ∈ l', y < 256 := fun y hy => hbytes y (by simp [hy])
    have hlen' : l'.length + 4 = (b0 :: b1 :: b2 :: b3 :: l').length := by simp
    have hcond : ((getc { rest := l', eof := false }).2.eof
        && !(row == usub height 1 && col == usub width 1)) = false := by
      cases l' with
      | nil =>
        have hk : k = 0 := by
          simp only [List.length_cons, List.length_nil] at hlen
          omega
        have hr1 : row + 1 = height := hlast (by
          simp only [List.length_cons, List.length_nil]
          omega)
        have e1 : usub height 1 = row := by
          rw [usub_one_of_pos (by omega) hh32]
          omega
        have e2 : usub width 1 = col := by
          rw [usub_one_of_pos (by omega) hw32]
          omega
        rw [e1, e2]
        simp
      | cons b l'' =>
        rw [getc_eof_cons]
        rfl
    have hstore := @UArray2_store_ok g col row
      (b0 * 2 ^ 24 + b1 * 2 ^ 16 + b2 * 2 ^ 8 + b3) (by omega) (by omega)
    obtain ⟨g', hg', hgw', hgh', helems⟩ := ih (col + 1) l'
      { g with elems := fun c r =>
          if c = col ∧ r = row then b0 * 2 ^ 24 + b1 * 2 ^ 16 + b2 * 2 ^ 8 + b3
          else g.elems c r }
      (by omega) hgw hgh hbytes' (by omega) (fun h => hlast (by omega))
    refine ⟨g', ?_, hgw', hgh', ?_⟩
    · rw [getc_cons, read_col_loop_succ, read_word_four l' hb0 hb1 hb2 hb3, except_bind_ok]
      simp only
      rw [hcond, if_neg (by simp), hstore, except_bind_ok, hg']
      have e : 4 * (k + 1) = 4 * k + 4 := by omega
      rw [e, drop_four_cons]
    · intro c r
      rw [helems c r]
      by_cases h1 : r = row ∧ col + 1 ≤ c ∧ c < col + 1 + k
      · have h2 : r = row ∧ col ≤ c ∧ c < col + (k + 1) := by omega
        have e : 4 * (c - col) = 4 * (c - (col + 1)) + 4 := by omega
        rw [if_pos h1, if_pos h2, e, drop_four_cons]
      · rw [if_neg h1]
        by_cases h3 : c = col ∧ r = row
        · have h2 : r = row ∧ col ≤ c ∧ c < col + (k + 1) := by omega
          have e : 4 * (c - col) = 0 := by omega
          rw [if_pos h2, e]
          simp only [h3, and_self, if_true, List.drop_zero]
          rfl
        · have h2 : ¬ (r = row ∧ col ≤ c ∧ c < col + (k + 1)) := by omega
          rw [if_neg h2]
          simp only [h3, if_false]

theorem read_row_loop_succ (width height k row : Nat) (c : Int) (input : FILE)
    (compressed : UArray2) :
    read_row_loop width height (k + 1) row c input compressed
      = ((read_col_loop width height row width 0 c input compressed).bind fun r =>
          read_row_loop width height k (row + 1) r.1 r.2.1 r.2.2) := rfl

/-- The row loop of `read_compressed` on a stream holding exactly `4 * width * k` bytes for
the `k` rows left: every cell of those rows receives the big-endian word of its four-byte
group. -/
theorem read_rows {width height : Nat} (hw32 : width < 2 ^ 32) (hh32 : height < 2 ^ 32)
    (hw0 : 0 < width) :
    ∀ (k row : Nat) (l : List Nat) (g : UArray2),
      row + k = height → g.width = width → g.height = height → (∀ y ∈ l, y < 256) →
      l.length = 4 * (width * k) →
      ∃ g', read_row_loop width height k row (getc { rest := l, eof := false }).1
            (getc { rest := l, eof := false }).2 g
          = .ok ((getc { rest := l.drop (4 * (width * k)), eof := false }).1,
              (getc { rest := l.drop (4 * (width * k)), eof := false }).2, g') ∧
        g'.width = width ∧ g'.height = height ∧
        ∀ c r, g'.elems c r
          = if row ≤ r ∧ r < row + k ∧ c < width
            then be_value ((l.drop (4 * ((r - row) * width + c))).take 4)
            else g.elems c r := by
  intro k
  induction k with
  | zero =>
    intro row l g _ hgw hgh _ _
    refine ⟨g, rfl, hgw, hgh, ?_⟩
    intro c r
    rw [if_neg (by omega)]
  | succ k ih =>
    intro row l g hrk hgw hgh hbytes hlen
    have hmul : width * (k + 1) = width * k + width := Nat.mul_succ width k
    rw [hmul] at hlen
    obtain ⟨g1, hg1, hgw1, hgh1, helems1⟩ := read_cols hw32 hh32 (show row < height by omega)
      width 0 l g (by omega) hgw hgh hbytes (by omega) (by
        intro h4
        have hz : width * k = 0 := by omega
        rcases Nat.mul_eq_zero.mp hz with h | h
        · omega
        · omega)
    obtain ⟨g', hg', hgw', hgh', helems⟩ := ih (row + 1) (l.drop (4 * width)) g1 (by omega)
      hgw1 hgh1 (fun y hy => hbytes y (List.mem_of_mem_drop hy)) (by
        rw [List.length_drop]
        omega)
    refine ⟨g', ?_, hgw', hgh', ?_⟩
    · rw [read_row_loop_succ, hg1, except_bind_ok]
      simp only
      rw [hg', List.drop_drop, hmul]
      have e : 4 * width + 4 * (width * k) = 4 * (width * k + width) := by omega
      rw [e]
    · intro c r
      rw [helems c r, helems1 c r]
      by_cases h1 : row + 1 ≤ r ∧ r < row + 1 + k ∧ c < width
      · have h2 : row ≤ r ∧ r < row + (k + 1) ∧ c < width := by omega
        rw [if_pos h1, if_pos h2, List.drop_drop]
        have e : 4 * width + 4 * ((r - (row + 1)) * width + c)
            = 4 * ((r - row) * width + c) := by
          have hd : r - row = (r - (row + 1)) + 1 := by omega
          rw [hd, Nat.add_mul, Nat.one_mul]
          omega
        rw [e]
      · rw [if_neg h1]
        by_cases h3 : r = row ∧ 0 ≤ c ∧ c < 0 + width
        · have h2 : row ≤ r ∧ r < row + (k + 1) ∧ c < width := by omega
          have e : (r - row) * width + c = c - 0 := by
            have hz : r - row = 0 := by omega
            rw [hz, Nat.zero_mul]
            omega
          rw [if_pos h3, if_pos h2, e]
        · have h2 : ¬ (row ≤ r ∧ r < row + (k + 1) ∧ c < width) := by omega
          rw [if_neg h3, if_neg h2]

theorem read_compressed_words_eq (width height : Nat) (input : FILE) :
    read_compressed_words width height input
      = ((read_row_loop width height height 0 (getc input).1 (getc input).2
          (UArray2_new width height)).bind fun r => .ok r.2.2) := rfl

/-- Reading a body of exactly `4 * width * height` bytes succeeds, and the word stored at
`(col, row)` is the big-endian value of bytes `4 * (row * width + col) .. + 3`. -/
theorem read_exact_body {width height : Nat} (hw32 : width < 2 ^ 32) (hh32 : height < 2 ^ 32)
    (hw0 : 0 < width) {body : List Nat} (hbytes : ∀ y ∈ body, y < 256)
    (hlen : body.length = 4 * (width * height)) :
    ∃ g, read_compressed_words width height { rest := body, eof := false } = .ok g ∧
      g.width = width ∧ g.height = height ∧
      ∀ c r, c < width → r < height →
        g.elems c r = be_value ((body.drop (4 * (r * width + c))).take 4) := by
  obtain ⟨g, hg, hgw, hgh, helems⟩ := read_rows hw32 hh32 hw0 height 0 body
    (UArray2_new width height) (by omega) rfl rfl hbytes hlen
  refine ⟨g, ?_, hgw, hgh, ?_⟩
  · rw [read_compressed_words_eq, hg, except_bind_ok]
  · intro c r hc hr
    rw [helems c r, if_pos (by omega), Nat.sub_zero]

/-! ## The claims about the stream -/

theorem write_one_by_one :
    write_compressed (UArray2_new 1 1) []
      = .ok ([67, 79, 77, 80, 52, 48, 32, 67, 111, 109, 112, 114, 101, 115, 115, 101, 100, 32,
          105, 109, 97, 103, 101, 32, 102, 111, 114, 109, 97, 116, 32, 50]
          ++ [10, 49, 32, 49, 10, 0, 0, 0, 0]) := by
  rfl

theorem decimal_one : decimal 1 = [49] := by
  rfl

/-- C17 (counterexample): for the 1 by 1 packed grid the output of `write_compressed` is not
of the form `<tag> 1 1\n` followed by the four body bytes, whatever the tag: the byte before
the width is a newline (`10`), not a space (`32`). -/
theorem C17_no_space_after_tag :
    ¬ ∃ t body : List Nat, body.length = 4 * (1 * 1) ∧
      write_compressed (UArray2_new 1 1) []
        = .ok (t ++ [32] ++ decimal 1 ++ [32] ++ decimal 1 ++ [10] ++ body) := by
  rintro ⟨t, body, hlen, h⟩
  rw [write_one_by_one, decimal_one] at h
  have h2 := Except.ok.inj h
  match body, hlen with
  | [x0, x1, x2, x3], _ =>
    have h3 : [67, 79, 77, 80, 52, 48, 32, 67, 111, 109, 112, 114, 101, 115, 115, 101, 100, 32,
          105, 109, 97, 103, 101, 32, 102, 111, 114, 109, 97, 116, 32, 50]
          ++ [10, 49, 32, 49, 10, 0, 0, 0, 0] = t ++ [32, 49, 32, 49, 10, x0, x1, x2, x3] := by
      rw [h2]
      simp only [List.append_assoc, List.singleton_append, List.cons_append, List.nil_append]
    have h4 := List.append_inj_right' h3 rfl
    have h5 := List.head_eq_of_cons_eq h4
    exact absurd h5 (by decide)

/-- C17 (amended): for every packed grid, `write_compressed` emits the tag string
`COMP40 Compressed image format 2`, then one newline, then the grid's width in decimal, a
space, its height in decimal and one newline, and after this header the `4 * width * height`
body bytes; `decimal n` holds the character codes of the usual decimal numeral of `n`. -/
theorem C17_header_form (compressed : UArray2) :
    (∃ body, write_compressed compressed []
        = .ok (tag_string.toList.map Char.toNat ++ [10] ++ decimal compressed.width ++ [32]
            ++ decimal compressed.height ++ [10] ++ body) ∧
      body.length = 4 * (compressed.width * compressed.height)) ∧
    tag_string = "COMP40 Compressed image format 2" ∧
    (∀ n, decimal n = (Nat.repr n).toList.map Char.toNat) := by
  refine ⟨?_, rfl, fun _ => rfl⟩
  obtain ⟨body, h, hlen, -, -⟩ := write_compressed_eq compressed []
  refine ⟨body, ?_, hlen⟩
  rw [h, List.nil_append]
  rfl

/-- C18: big-endian word output. For every 32-bit word `x`, `print_big_endian` appends exactly
four bytes `B0, B1, B2, B3` to the output, each below `256`, with
`x = B0 * 2^24 + B1 * 2^16 + B2 * 2^8 + B3`; and after the header `write_compressed` emits a
body of exactly `4 * width * height` bytes in which bytes `4 * (row * width + col) .. + 3` are
the four big-endian bytes of the word at `(col, row)` (row-major order). -/
theorem C18_big_endian_output (x : Nat) (hx : x < 2 ^ 32) (out : List Nat)
    (compressed : UArray2) :
    (∃ B0 B1 B2 B3, print_big_endian x out = .ok (out ++ [B0, B1, B2, B3]) ∧
      B0 < 256 ∧ B1 < 256 ∧ B2 < 256 ∧ B3 < 256 ∧
      x = B0 * 2 ^ 24 + B1 * 2 ^ 16 + B2 * 2 ^ 8 + B3) ∧
    (∃ body, write_compressed compressed []
        = .ok (printf_header compressed.width compressed.height ++ body) ∧
      body.length = 4 * (compressed.width * compressed.height) ∧
      ∀ c r, c < compressed.width → r < compressed.height →
        (body.drop (4 * (r * compressed.width + c))).take 4
          = [compressed.elems c r / 2 ^ 24 % 256, compressed.elems c r / 2 ^ 16 % 256,
             compressed.elems c r / 2 ^ 8 % 256, compressed.elems c r % 256]) := by
  constructor
  · refine ⟨x / 2 ^ 24 % 256, x / 2 ^ 16 % 256, x / 2 ^ 8 % 256, x % 256,
      print_big_endian_eq x out, ?_, ?_, ?_, ?_, ?_⟩ <;> omega
  · obtain ⟨body, h, hlen, -, hidx⟩ := write_compressed_eq compressed []
    refine ⟨body, ?_, hlen, hidx⟩
    rw [h, List.nil_append]

/-- Witness for C18: the word `0x01020304` and a 1 by 1 grid. -/
theorem C18_big_endian_output_witness :
    16909060 < 2 ^ 32 ∧
    ∃ B0 B1 B2 B3, print_big_endian 16909060 [] = .ok ([] ++ [B0, B1, B2, B3]) ∧
      B0 < 256 ∧ B1 < 256 ∧ B2 < 256 ∧ B3 < 256 ∧
      16909060 = B0 * 2 ^ 24 + B1 * 2 ^ 16 + B2 * 2 ^ 8 + B3 :=
  ⟨by norm_num, (C18_big_endian_output 16909060 (by norm_num) [] (UArray2_new 1 1)).1⟩

/-- C19: stream round trip of the packed grid. For a packed grid of 32-bit words whose width
is positive and whose width and height are `unsigned` values, reading the body that `write_compressed` emits
succeeds and yields a grid of the same dimensions with the same word at every `(col, row)`.
In general, reading any body of exactly `4 * width * height` bytes succeeds and stores at
`(col, row)` the big-endian value of bytes `4 * (row * width + col) .. + 3`. -/
theorem C19_stream_roundtrip (compressed : UArray2) (hw0 : 0 < compressed.width)
    (hw32 : compressed.width < 2 ^ 32)
    (hh32 : compressed.height < 2 ^ 32)
    (hcells : ∀ c r, c < compressed.width → r < compressed.height →
      compressed.elems c r < 2 ^ 32) :
    (∃ body, write_compressed compressed []
        = .ok (printf_header compressed.width compressed.height ++ body) ∧
      ∃ g, read_compressed_words compressed.width compressed.height
          { rest := body, eof := false } = .ok g ∧
        g.width = compressed.width ∧ g.height = compressed.height ∧
        ∀ c r, c < compressed.width → r < compressed.height →
          g.elems c r = compressed.elems c r) ∧
    (∀ body : List Nat, (∀ y ∈ body, y < 256) →
      body.length = 4 * (compressed.width * compressed.height) →
      ∃ g, read_compressed_words compressed.width compressed.height
          { rest := body, eof := false } = .ok g ∧
        g.width = compressed.width ∧ g.height = compressed.height ∧
        ∀ c r, c < compressed.width → r < compressed.height →
          g.elems c r
            = be_value ((body.drop (4 * (r * compressed.width + c))).take 4)) := by
  constructor
  · obtain ⟨body, h, hlen, hlt, hidx⟩ := write_compressed_eq compressed []
    obtain ⟨g, hg, hgw, hgh, helems⟩ := read_exact_body hw32 hh32 hw0 hlt hlen
    refine ⟨body, by rw [h, List.nil_append], g, hg, hgw, hgh, ?_⟩
    intro c r hc hr
    rw [helems c r hc hr, hidx c r hc hr, be_value_be_bytes (hcells c r hc hr)]
  · intro body hlt hlen
    exact read_exact_body hw32 hh32 hw0 hlt hlen

/-- Witness for C19: the 2 by 1 grid `sample_grid`. -/
theorem C19_stream_roundtrip_witness :
    (0 < sample_grid.width ∧ sample_grid.width < 2 ^ 32 ∧ sample_grid.height < 2 ^ 32 ∧
      ∀ c r, c < sample_grid.width → r < sample_grid.height →
        sample_grid.elems c r < 2 ^ 32) ∧
    ∃ body, write_compressed sample_grid []
        = .ok (printf_header sample_grid.width sample_grid.height ++ body) ∧
      ∃ g, read_compressed_words sample_grid.width sample_grid.height
          { rest := body, eof := false } = .ok g ∧
        g.width = sample_grid.width ∧ g.height = sample_grid.height ∧
        ∀ c r, c < sample_grid.width → r < sample_grid.height →
          g.elems c r = sample_grid.elems c r :=
  have hcells : ∀ c r, c < sample_grid.width → r < sample_grid.height →
      sample_grid.elems c r < 2 ^ 32 := fun c _ _ _ => by
    show (if c = 0 then 16909060 else 2864434397) < 2 ^ 32
    split <;> norm_num
  ⟨⟨by decide, by decide, by decide, hcells⟩,
    (C19_stream_roundtrip sample_grid (by decide) (by decide) (by decide) hcells).1⟩

/-- C20 (the code at two failing inputs): a header promising one word followed by an empty
body, and a header promising two words followed by five body bytes, are both accepted; the
missing bytes of the last word read as zero. -/
theorem C20_truncated_last_word_accepted :
    (∃ g, read_compressed_words 1 1 { rest := [], eof := false } = .ok g ∧
      g.elems 0 0 = 0) ∧
    (∃ g, read_compressed_words 2 1 { rest := [1, 2, 3, 4, 5], eof := false } = .ok g ∧
      g.elems 0 0 = 16909060 ∧ g.elems 1 0 = 83886080) :=
  ⟨⟨_, rfl, rfl⟩, ⟨_, rfl, rfl, rfl⟩⟩

/-! ## Shifts, and the order of sets -/

/-- C28: shifts are defined at every amount. For every 64-bit `v` and every shift `s`,
`lshift v s = (v * 2 ^ s) mod 2 ^ 64` and `rshift v s = v / 2 ^ s`, both `0` when `s ≥ 64`;
and `pow2 e = 2 ^ e` for `e < 64`, `0` for `e ≥ 64`. -/
theorem C28_shifts_total (v s e : Nat) (hv : v < 2 ^ 64) :
    lshift v s = v * 2 ^ s % 2 ^ 64 ∧
    rshift v s = v / 2 ^ s ∧
    (64 ≤ s → lshift v s = 0 ∧ rshift v s = 0) ∧
    (e < 64 → pow2 e = 2 ^ e) ∧
    (64 ≤ e → pow2 e = 0) := by
  have hl0 : 64 ≤ s → lshift v s = 0 := fun h => by
    unfold lshift
    rw [if_pos h]
  have hr0 : 64 ≤ s → rshift v s = 0 := fun h => by
    unfold rshift
    rw [if_pos h]
  refine ⟨?_, ?_, fun h => ⟨hl0 h, hr0 h⟩, fun h => pow2_eq h, ?_⟩
  · by_cases h : 64 ≤ s
    · rw [hl0 h]
      have hd : 2 ^ 64 ∣ v * 2 ^ s := Dvd.dvd.mul_left (pow_dvd_pow 2 h) v
      exact (Nat.mod_eq_zero_of_dvd hd).symm
    · unfold lshift
      rw [if_neg h, Nat.shiftLeft_eq]
  · by_cases h : 64 ≤ s
    · rw [hr0 h]
      have hlt : v < 2 ^ s := lt_of_lt_of_le hv (two_pow_le_of_le h)
      exact (Nat.div_eq_of_lt hlt).symm
    · unfold rshift
      rw [if_neg h, Nat.shiftRight_eq_div_pow]
  · intro h
    unfold pow2 lshift
    rw [if_pos h]

/-- Witness for C28: the all-ones word shifted by exactly 64. -/
theorem C28_shifts_total_witness :
    2 ^ 64 - 1 < 2 ^ 64 ∧ lshift (2 ^ 64 - 1) 64 = 0 ∧ rshift (2 ^ 64 - 1) 64 = 0 ∧
      pow2 64 = 0 :=
  ⟨by norm_num,
    ((C28_shifts_total (2 ^ 64 - 1) 64 64 (by norm_num)).2.2.1 (by norm_num)).1,
    ((C28_shifts_total (2 ^ 64 - 1) 64 64 (by norm_num)).2.2.1 (by norm_num)).2,
    (C28_shifts_total (2 ^ 64 - 1) 64 64 (by norm_num)).2.2.2.2 (by norm_num)⟩

theorem apply_set_bits {s : FieldSet} (hs : s.wf) (W : Nat) :
    ∃ R, apply_set s W = .ok R ∧
      ∀ i, R.testBit i
        = if s.lsb ≤ i ∧ i < s.lsb + s.width then s.ubits.testBit (i - s.lsb)
          else (decide (i < 64) && W.testBit i) := by
  cases s with
  | u w l v =>
    obtain ⟨hw, hl, hv, hf⟩ := hs
    exact ⟨_, newu_ok hw hl hf, testBit_newu_word hw hl ((fitsu_iff hv).mp hf)⟩
  | s w l v =>
    obtain ⟨hw, hl, hf⟩ := hs
    exact ⟨_, news_ok hw hl hf, testBit_news_word _ hw hl⟩

theorem FieldSet.wf_bound {s : FieldSet} (hs : s.wf) : s.lsb + s.width ≤ 64 := by
  cases s with
  | u w l v =>
    obtain ⟨_, hl, _, _⟩ := hs
    show l + w ≤ 64
    omega
  | s w l v =>
    obtain ⟨_, hl, _⟩ := hs
    show l + w ≤ 64
    omega

/-- Two sets on disjoint fields commute. -/
theorem apply_set_comm {s1 s2 : FieldSet} (h1 : s1.wf) (h2 : s2.wf) (hd : s1.disjoint s2)
    (W : Nat) :
    ∃ R, (apply_set s1 W).bind (apply_set s2) = .ok R ∧
      (apply_set s2 W).bind (apply_set s1) = .ok R := by
  obtain ⟨R1, hR1, b1⟩ := apply_set_bits h1 W
  obtain ⟨R2, hR2, b2⟩ := apply_set_bits h2 W
  obtain ⟨R12, hR12, b12⟩ := apply_set_bits h2 R1
  obtain ⟨R21, hR21, b21⟩ := apply_set_bits h1 R2
  have e : R21 = R12 := by
    apply Nat.eq_of_testBit_eq
    intro i
    rw [b21, b12, b1, b2]
    have hb1 := FieldSet.wf_bound h1
    have hb2 := FieldSet.wf_bound h2
    unfold FieldSet.disjoint at hd
    by_cases c1 : s1.lsb ≤ i ∧ i < s1.lsb + s1.width
    · have c2 : ¬ (s2.lsb ≤ i ∧ i < s2.lsb + s2.width) := by omega
      have c3 : i < 64 := by omega
      simp [c1, c2, c3]
    · by_cases c2 : s2.lsb ≤ i ∧ i < s2.lsb + s2.width
      · have c3 : i < 64 := by omega
        simp [c1, c2, c3]
      · simp [c1, c2]
  refine ⟨R12, ?_, ?_⟩
  · rw [hR1, except_bind_ok, hR12]
  · rw [hR2, except_bind_ok, hR21, e]

theorem except_bind_assoc {α β γ : Type} (m : Except Err α) (f : α → Except Err β)
    (g : β → Except Err γ) :
    (m.bind f).bind g = m.bind fun a => (f a).bind g := by
  cases m <;> rfl

theorem apply_sets_perm {l l' : List FieldSet} (hp : l.Perm l') :
    (∀ s ∈ l, s.wf) → l.Pairwise FieldSet.disjoint →
      ∀ W, apply_sets l W = apply_sets l' W := by
  have hsymm : ∀ {x y : FieldSet}, x.disjoint y → y.disjoint x := fun h => Or.symm h
  induction hp with
  | nil => intro _ _ _; rfl
  | cons x _ ih =>
    intro hwf hpw W
    obtain ⟨R, hR, -⟩ := apply_set_bits (hwf x (List.mem_cons_self _ _)) W
    show (apply_set x W).bind _ = (apply_set x W).bind _
    rw [hR, except_bind_ok, except_bind_ok]
    exact ih (fun s hs => hwf s (List.mem_cons_of_mem _ hs)) (List.Pairwise.of_cons hpw) R
  | swap x y l =>
    intro hwf hpw W
    have hx : x.wf := hwf x (by simp)
    have hy : y.wf := hwf y (by simp)
    have hd : y.disjoint x := (List.pairwise_cons.mp hpw).1 x (by simp)
    obtain ⟨R, h1, h2⟩ := apply_set_comm hy hx hd W
    show (apply_set y W).bind (fun w => (apply_set x w).bind fun w2 => apply_sets l w2)
      = (apply_set x W).bind (fun w => (apply_set y w).bind fun w2 => apply_sets l w2)
    rw [← except_bind_assoc, ← except_bind_assoc, h1, h2]
  | trans p1 _ ih1 ih2 =>
    intro hwf hpw W
    rw [ih1 hwf hpw W]
    exact ih2 (fun s hs => hwf s (p1.mem_iff.mpr hs)) ((p1.pairwise_iff hsymm).mp hpw) W

theorem pixel_sets_wf {a pb_ind pr_ind : Nat} {b c d : Int} (ha : a ≤ 63)
    (hb : -32 ≤ b ∧ b ≤ 31) (hc : -32 ≤ c ∧ c ≤ 31) (hd : -32 ≤ d ∧ d ≤ 31)
    (hpb : pb_ind ≤ 15) (hpr : pr_ind ≤ 15) :
    ∀ s ∈ pixel_sets a b c d pb_ind pr_ind, s.wf := by
  intro s hs
  unfold pixel_sets A_WIDTH B_WIDTH C_WIDTH D_WIDTH PB_WIDTH PR_WIDTH a_lsb b_lsb c_lsb d_lsb
    pb_lsb pr_lsb at hs
  simp only [List.mem_cons, List.mem_singleton, List.not_mem_nil, or_false] at hs
  rcases hs with h | h | h | h | h | h <;> subst h
  · exact ⟨by norm_num, by norm_num, by omega, fitsu_of_le (by omega) (by omega)⟩
  · exact ⟨by norm_num, by norm_num, fitss_six_full hb.1 hb.2⟩
  · exact ⟨by norm_num, by norm_num, fitss_six_full hc.1 hc.2⟩
  · exact ⟨by norm_num, by norm_num, fitss_six_full hd.1 hd.2⟩
  · exact ⟨by norm_num, by norm_num, by omega, fitsu_of_le (by omega) (by omega)⟩
  · exact ⟨by norm_num, by norm_num, by omega, fitsu_of_le (by omega) (by omega)⟩

theorem pixel_sets_pairwise (a : Nat) (b c d : Int) (pb_ind pr_ind : Nat) :
    (pixel_sets a b c d pb_ind pr_ind).Pairwise FieldSet.disjoint := by
  unfold pixel_sets A_WIDTH B_WIDTH C_WIDTH D_WIDTH PB_WIDTH PR_WIDTH a_lsb b_lsb c_lsb d_lsb
    pb_lsb pr_lsb
  simp [List.pairwise_cons, FieldSet.disjoint, FieldSet.lsb, FieldSet.width]

theorem apply_sets_pixel_sets (a : Nat) (b c d : Int) (pb_ind pr_ind : Nat) :
    apply_sets (pixel_sets a b c d pb_ind pr_ind) 0
      = bitpack_pixels_word a b c d pb_ind pr_ind := by
  unfold bitpack_pixels_word pixel_sets apply_sets apply_sets apply_sets apply_sets apply_sets
    apply_sets apply_sets apply_set
  simp only [bind]
  cases Bitpack_newu 0 A_WIDTH a_lsb a with
  | error e => rfl
  | ok w1 =>
    simp only [Except.bind]
    cases Bitpack_news w1 B_WIDTH b_lsb b with
    | error e => rfl
    | ok w2 =>
      simp only
      cases Bitpack_news w2 C_WIDTH c_lsb c with
      | error e => rfl
      | ok w3 =>
        simp only
        cases Bitpack_news w3 D_WIDTH d_lsb d with
        | error e => rfl
        | ok w4 =>
          simp only
          cases Bitpack_newu w4 PB_WIDTH pb_lsb pb_ind with
          | error e => rfl
          | ok w5 =>
            simp only
            cases Bitpack_newu w5 PR_WIDTH pr_lsb pr_ind with
            | error e => rfl
            | ok w6 => rfl

/-- C27: packing order does not matter for disjoint fields. `apply_set` is `Bitpack_newu` or
`Bitpack_news`; for every word, two well-formed sets (valid descriptor, fitting value) on
disjoint bit ranges give the same word in either order, whatever the mix of the two setters.
Hence every permutation of the six sets of `bitpack_pixels`, applied to `0`, returns the word
that `bitpack_pixels` builds. -/
theorem C27_packing_order_irrelevant :
    (∀ (W w l v : Nat), apply_set (.u w l v) W = Bitpack_newu W w l v) ∧
    (∀ (W w l : Nat) (v : Int), apply_set (.s w l v) W = Bitpack_news W w l v) ∧
    (∀ (W : Nat) (s1 s2 : FieldSet), s1.wf → s2.wf → s1.disjoint s2 →
      ∃ R, (apply_set s1 W).bind (apply_set s2) = .ok R ∧
        (apply_set s2 W).bind (apply_set s1) = .ok R) ∧
    (∀ (a pb pr : Nat) (b c d : Int), a ≤ 63 → (-32 ≤ b ∧ b ≤ 31) → (-32 ≤ c ∧ c ≤ 31) →
      (-32 ≤ d ∧ d ≤ 31) → pb ≤ 15 → pr ≤ 15 →
      ∀ order : List FieldSet, order.Perm (pixel_sets a b c d pb pr) →
        apply_sets order 0 = bitpack_pixels_word a b c d pb pr) := by
  refine ⟨fun _ _ _ _ => rfl, fun _ _ _ _ => rfl, ?_, ?_⟩
  · intro W s1 s2 h1 h2 hd
    exact apply_set_comm h1 h2 hd W
  · intro a pb pr b c d ha hb hc hd hpb hpr order hperm
    rw [← apply_sets_pixel_sets]
    exact (apply_sets_perm hperm.symm (pixel_sets_wf ha hb hc hd hpb hpr)
      (pixel_sets_pairwise a b c d pb pr) 0).symm

/-! ## Reading a body of any length -/

theorem newu_byte3 {b0 : Nat} (h0 : b0 < 256) :
    Bitpack_newu 0 8 24 b0 = .ok (b0 * 2 ^ 24) := by
  rw [@newu_eq_arith 0 8 24 b0 (by norm_num) (by omega) (by norm_num) (by norm_num)
    (fitsu_of_le (by omega) (by omega))]
  refine congrArg Except.ok ?_
  omega

theorem newu_byte2 {b0 b1 : Nat} (h0 : b0 < 256) (h1 : b1 < 256) :
    Bitpack_newu (b0 * 2 ^ 24) 8 16 b1 = .ok (b0 * 2 ^ 24 + b1 * 2 ^ 16) := by
  rw [@newu_eq_arith (b0 * 2 ^ 24) 8 16 b1 (by omega) (by omega) (by norm_num) (by norm_num)
    (fitsu_of_le (by omega) (by omega))]
  refine congrArg Except.ok ?_
  omega

theorem newu_byte1 {b0 b1 b2 : Nat} (h0 : b0 < 256) (h1 : b1 < 256) (h2 : b2 < 256) :
    Bitpack_newu (b0 * 2 ^ 24 + b1 * 2 ^ 16) 8 8 b2
      = .ok (b0 * 2 ^ 24 + b1 * 2 ^ 16 + b2 * 2 ^ 8) := by
  rw [@newu_eq_arith (b0 * 2 ^ 24 + b1 * 2 ^ 16) 8 8 b2 (by omega) (by omega) (by norm_num)
    (by norm_num) (fitsu_of_le (by omega) (by omega))]
  refine congrArg Except.ok ?_
  omega

theorem read_word_zero_bytes :
    read_word_loop 4 0 (getc { rest := [], eof := false }).1
        (getc { rest := [], eof := false }).2
      = .ok (0, (getc { rest := [], eof := false }).1, (getc { rest := [], eof := false }).2) :=
  rfl

theorem read_word_one_byte {b0 : Nat} (h0 : b0 < 256) :
    read_word_loop 4 0 (b0 : Int) { rest := [], eof := false }
      = .ok (b0 * 2 ^ 24, (getc { rest := [], eof := false }).1,
          (getc { rest := [], eof := false }).2) := by
  have e : read_word_loop 4 0 (b0 : Int) { rest := [], eof := false }
      = ((Bitpack_newu 0 8 24 (toU64 (b0 : Int))).bind fun w3 =>
          .ok (w3 % 2 ^ 32, (getc { rest := [], eof := false }).1,
            (getc { rest := [], eof := false }).2)) := rfl
  have n3 : b0 * 2 ^ 24 % 2 ^ 32 = b0 * 2 ^ 24 := by omega
  rw [e, toU64_natCast (by omega), newu_byte3 h0, except_bind_ok, n3]

theorem read_word_two_bytes {b0 b1 : Nat} (h0 : b0 < 256) (h1 : b1 < 256) :
    read_word_loop 4 0 (b0 : Int) { rest := [b1], eof := false }
      = .ok (b0 * 2 ^ 24 + b1 * 2 ^ 16, (getc { rest := [], eof := false }).1,
          (getc { rest := [], eof := false }).2) := by
  have e : read_word_loop 4 0 (b0 : Int) { rest := [b1], eof := false }
      = ((Bitpack_newu 0 8 24 (toU64 (b0 : Int))).bind fun w3 =>
          (Bitpack_newu (w3 % 2 ^ 32) 8 16 (toU64 (b1 : Int))).bind fun w2 =>
            .ok (w2 % 2 ^ 32, (getc { rest := [], eof := false }).1,
              (getc { rest := [], eof := false }).2)) := rfl
  have n3 : b0 * 2 ^ 24 % 2 ^ 32 = b0 * 2 ^ 24 := by omega
  have n2 : (b0 * 2 ^ 24 + b1 * 2 ^ 16) % 2 ^ 32 = b0 * 2 ^ 24 + b1 * 2 ^ 16 := by omega
  rw [e, toU64_natCast (by omega), toU64_natCast (by omega), newu_byte3 h0, except_bind_ok,
    n3, newu_byte2 h0 h1, except_bind_ok, n2]

theorem read_word_three_bytes {b0 b1 b2 : Nat} (h0 : b0 < 256) (h1 : b1 < 256)
    (h2 : b2 < 256) :
    read_word_loop 4 0 (b0 : Int) { rest := [b1, b2], eof := false }
      = .ok (b0 * 2 ^ 24 + b1 * 2 ^ 16 + b2 * 2 ^ 8, (getc { rest := [], eof := false }).1,
          (getc { rest := [], eof := false }).2) := by
  have e : read_word_loop 4 0 (b0 : Int) { rest := [b1, b2], eof := false }
      = ((Bitpack_newu 0 8 24 (toU64 (b0 : Int))).bind fun w3 =>
          (Bitpack_newu (w3 % 2 ^ 32) 8 16 (toU64 (b1 : Int))).bind fun w2 =>
            (Bitpack_newu (w2 % 2 ^ 32) 8 8 (toU64 (b2 : Int))).bind fun w1 =>
              .ok (w1 % 2 ^ 32, (getc { rest := [], eof := false }).1,
                (getc { rest := [], eof := false }).2)) := rfl
  have n3 : b0 * 2 ^ 24 % 2 ^ 32 = b0 * 2 ^ 24 := by omega
  have n2 : (b0 * 2 ^ 24 + b1 * 2 ^ 16) % 2 ^ 32 = b0 * 2 ^ 24 + b1 * 2 ^ 16 := by omega
  have n1 : (b0 * 2 ^ 24 + b1 * 2 ^ 16 + b2 * 2 ^ 8) % 2 ^ 32
      = b0 * 2 ^ 24 + b1 * 2 ^ 16 + b2 * 2 ^ 8 := by omega
  rw [e, toU64_natCast (by omega), toU64_natCast (by omega), toU64_natCast (by omega),
    newu_byte3 h0, except_bind_ok, n3, newu_byte2 h0 h1, except_bind_ok, n2,
    newu_byte1 h0 h1 h2, except_bind_ok, n1]

/-- One pass of the byte loop on any stream: the word is the big-endian value of the next four
bytes, with zeros for the bytes that are not there, and the stream moves on by four bytes. -/
theorem read_word_any (l : List Nat) (hbytes : ∀ y ∈ l, y < 256) :
    read_word_loop 4 0 (getc { rest := l, eof := false }).1 (getc { rest := l, eof := false }).2
      = .ok (be_value ((l ++ [0, 0, 0, 0]).take 4),
          (getc { rest := l.drop 4, eof := false }).1,
          (getc { rest := l.drop 4, eof := false }).2) := by
  match l, hbytes with
  | [], _ => exact read_word_zero_bytes
  | [b0], hb =>
    have h0 : b0 < 256 := hb b0 (by simp)
    rw [getc_cons, read_word_one_byte h0]
    refine congrArg Except.ok ?_
    show (b0 * 2 ^ 24, _, _) = (b0 * 2 ^ 24 + 0 * 2 ^ 16 + 0 * 2 ^ 8 + 0, _, _)
    simp
  | [b0, b1], hb =>
    have h0 : b0 < 256 := hb b0 (by simp)
    have h1 : b1 < 256 := hb b1 (by simp)
    rw [getc_cons, read_word_two_bytes h0 h1]
    refine congrArg Except.ok ?_
    show (b0 * 2 ^ 24 + b1 * 2 ^ 16, _, _) = (b0 * 2 ^ 24 + b1 * 2 ^ 16 + 0 * 2 ^ 8 + 0, _, _)
    simp
  | [b0, b1, b2], hb =>
    have h0 : b0 < 256 := hb b0 (by simp)
    have h1 : b1 < 256 := hb b1 (by simp)
    have h2 : b2 < 256 := hb b2 (by simp)
    rw [getc_cons, read_word_three_bytes h0 h1 h2]
    refine congrArg Except.ok ?_
    show (b0 * 2 ^ 24 + b1 * 2 ^ 16 + b2 * 2 ^ 8, _, _)
      = (b0 * 2 ^ 24 + b1 * 2 ^ 16 + b2 * 2 ^ 8 + 0, _, _)
    simp
  | b0 :: b1 :: b2 :: b3 :: l', hb =>
    have h0 : b0 < 256 := hb b0 (by simp)
    have h1 : b1 < 256 := hb b1 (by simp)
    have h2 : b2 < 256 := hb b2 (by simp)
    have h3 : b3 < 256 := hb b3 (by simp)
    rw [getc_cons, read_word_four l' h0 h1 h2 h3]
    rfl

theorem getc_eof_iff (l : List Nat) :
    (getc { rest := l, eof := false }).2.eof = true ↔ l = [] := by
  cases l with
  | nil => exact ⟨fun _ => rfl, fun _ => rfl⟩
  | cons b l' =>
    rw [getc_eof_cons]
    simp

theorem last_word_iff {width height row col : Nat} (hw32 : width < 2 ^ 32)
    (hh32 : height < 2 ^ 32) (hrow : row < height) (hcol : col < width) :
    (row == usub height 1 && col == usub width 1) = true
      ↔ row + 1 = height ∧ col + 1 = width := by
  rw [usub_one_of_pos (by omega) hh32, usub_one_of_pos (by omega) hw32]
  simp only [Bool.and_eq_true, beq_iff_eq]
  omega

theorem bool_and_not_false {a b : Bool} (h : a = true → b = true) : (a && !b) = false := by
  cases a <;> cases b <;> simp_all

theorem drop_four_eq_nil_iff (l : List Nat) : l.drop 4 = [] ↔ l.length ≤ 4 := by
  rw [← List.length_eq_zero, List.length_drop]
  omega

theorem drop_four_pad {l : List Nat} (h4 : 4 ≤ l.length) (n : Nat) :
    (l.drop 4 ++ [0, 0, 0, 0]).drop n = (l ++ [0, 0, 0, 0]).drop (4 + n) := by
  rw [← List.drop_append_of_le_length h4, List.drop_drop]

/-- The column loop of `read_compressed` when no end of file is met before the last word of
the grid: every word is the big-endian value of its four bytes, with zeros for bytes of the
last word that the stream does not hold. -/
theorem read_cols_padded {width height row : Nat} (hw32 : width < 2 ^ 32)
    (hh32 : height < 2 ^ 32) (hrow : row < height) :
    ∀ (k col : Nat) (l : List Nat) (g : UArray2),
      col + k = width → g.width = width → g.height = height → (∀ y ∈ l, y < 256) →
      (if row + 1 = height then k ≤ 1 ∨ 4 * (k - 1) < l.length
        else k = 0 ∨ 4 * k < l.length) →
      ∃ g', read_col_loop width height row k col (getc { rest := l, eof := false }).1
            (getc { rest := l, eof := false }).2 g
          = .ok ((getc { rest := l.drop (4 * k), eof := false }).1,
              (getc { rest := l.drop (4 * k), eof := false }).2, g') ∧
        g'.width = width ∧ g'.height = height ∧
        ∀ c r, g'.elems c r
          = if r = row ∧ col ≤ c ∧ c < col + k
            then be_value (((l ++ [0, 0, 0, 0]).drop (4 * (c - col))).take 4)
            else g.elems c r := by
  intro k
  induction k with
  | zero =>
    intro col l g _ hgw hgh _ _
    refine ⟨g, rfl, hgw, hgh, ?_⟩
    intro c r
    rw [if_neg (by omega)]
  | succ k ih =>
    intro col l g hck hgw hgh hbytes hcond
    have hbytes' : ∀ y ∈ l.drop 4, y < 256 := fun y hy => hbytes y (List.mem_of_mem_drop hy)
    have hlen' : (l.drop 4).length = l.length - 4 := List.length_drop 4 l
    have hflag : ((getc { rest := l.drop 4, eof := false }).2.eof
        && !(row == usub height 1 && col == usub width 1)) = false := by
      apply bool_and_not_false
      intro heof
      have hle : l.length ≤ 4 := (drop_four_eq_nil_iff l).mp ((getc_eof_iff _).mp heof)
      rw [last_word_iff hw32 hh32 hrow (by omega)]
      by_cases hlast : row + 1 = height
      · rw [if_pos hlast] at hcond
        exact ⟨hlast, by omega⟩
      · rw [if_neg hlast] at hcond
        omega
    have hstore := @UArray2_store_ok g col row (be_value ((l ++ [0, 0, 0, 0]).take 4))
      (by omega) (by omega)
    have hcond' : if row + 1 = height then k ≤ 1 ∨ 4 * (k - 1) < (l.drop 4).length
        else k = 0 ∨ 4 * k < (l.drop 4).length := by
      rw [hlen']
      by_cases hlast : row + 1 = height
      · rw [if_pos hlast] at hcond ⊢
        omega
      · rw [if_neg hlast] at hcond ⊢
        omega
    obtain ⟨g', hg', hgw', hgh', helems⟩ := ih (col + 1) (l.drop 4)
      { g with elems := fun c r =>
          if c = col ∧ r = row then be_value ((l ++ [0, 0, 0, 0]).take 4) else g.elems c r }
      (by omega) hgw hgh hbytes' hcond'
    refine ⟨g', ?_, hgw', hgh', ?_⟩
    · rw [read_col_loop_succ, read_word_any l hbytes, except_bind_ok]
      simp only
      rw [hflag, if_neg (by simp), hstore, except_bind_ok, hg', List.drop_drop]
      have e : 4 + 4 * k = 4 * (k + 1) := by omega
      rw [e]
    · intro c r
      rw [helems c r]
      by_cases h1 : r = row ∧ col + 1 ≤ c ∧ c < col + 1 + k
      · have h2 : r = row ∧ col ≤ c ∧ c < col + (k + 1) := by omega
        have h4 : 4 ≤ l.length := by
          by_cases hlast : row + 1 = height
          · rw [if_pos hlast] at hcond
            omega
          · rw [if_neg hlast] at hcond
            omega
        have e : 4 + 4 * (c - (col + 1)) = 4 * (c - col) := by omega
        rw [if_pos h1, if_pos h2, drop_four_pad h4, e]
      · rw [if_neg h1]
        by_cases h3 : c = col ∧ r = row
        · have h2 : r = row ∧ col ≤ c ∧ c < col + (k + 1) := by omega
          have e : 4 * (c - col) = 0 := by omega
          rw [if_pos h2, e]
          simp only [h3, and_self, if_true, List.drop_zero]
        · have h2 : ¬ (r = row ∧ col ≤ c ∧ c < col + (k + 1)) := by omega
          rw [if_neg h2]
          simp only [h3, if_false]

/-- The column loop of `read_compressed` when the stream ends at or before the start of a word
that is not the last word of the grid: the invalid-file error. -/
theorem read_cols_error {width height row : Nat} (hw32 : width < 2 ^ 32)
    (hh32 : height < 2 ^ 32) (hrow : row < height) :
    ∀ (k col : Nat) (l : List Nat) (g : UArray2),
      col + k = width → g.width = width → g.height = height → (∀ y ∈ l, y < 256) → 1 ≤ k →
      (if row + 1 = height then 2 ≤ k ∧ l.length ≤ 4 * (k - 1) else l.length ≤ 4 * k) →
      read_col_loop width height row k col (getc { rest := l, eof := false }).1
          (getc { rest := l, eof := false }).2 g
        = .error .Invalid_File := by
  intro k
  induction k with
  | zero =>
    intro col l g _ _ _ _ hk _
    omega
  | succ k ih =>
    intro col l g hck hgw hgh hbytes _ hcond
    have hbytes' : ∀ y ∈ l.drop 4, y < 256 := fun y hy => hbytes y (List.mem_of_mem_drop hy)
    have hlen' : (l.drop 4).length = l.length - 4 := List.length_drop 4 l
    rw [read_col_loop_succ, read_word_any l hbytes, except_bind_ok]
    simp only
    by_cases hle : l.length ≤ 4
    · have heof : (getc { rest := l.drop 4, eof := false }).2.eof = true :=
        (getc_eof_iff _).mpr ((drop_four_eq_nil_iff l).mpr hle)
      have hnl : (row == usub height 1 && col == usub width 1) = false := by
        rw [Bool.eq_false_iff]
        intro hl
        have := (last_word_iff hw32 hh32 hrow (by omega)).mp hl
        by_cases hlast : row + 1 = height
        · rw [if_pos hlast] at hcond
          omega
        · exact hlast this.1
      rw [heof, hnl, if_pos (by simp)]
    · have heof : (getc { rest := l.drop 4, eof := false }).2.eof = false := by
        rw [Bool.eq_false_iff]
        intro h
        exact hle ((drop_four_eq_nil_iff l).mp ((getc_eof_iff _).mp h))
      have hstore := @UArray2_store_ok g col row (be_value ((l ++ [0, 0, 0, 0]).take 4))
        (by omega) (by omega)
      rw [heof, if_neg (by simp), hstore, except_bind_ok]
      refine ih (col + 1) (l.drop 4) _ (by omega) (show _ = width from hgw)
        (show _ = height from hgh) hbytes' ?_ ?_
      · by_cases hlast : row + 1 = height
        · rw [if_pos hlast] at hcond
          omega
        · rw [if_neg hlast] at hcond
          omega
      · rw [hlen']
        by_cases hlast : row + 1 = height
        · rw [if_pos hlast] at hcond ⊢
          omega
        · rw [if_neg hlast] at hcond ⊢
          omega

theorem except_bind_error {α β : Type} (e : Err) (f : α → Except Err β) :
    (Except.error e : Except Err α).bind f = .error e := rfl

/-- The row loop of `read_compressed` when the stream reaches into the last word of the grid
(or the grid has a single word): success, with zeros for the missing bytes of the last
word. -/
theorem read_rows_padded {width height : Nat} (hw32 : width < 2 ^ 32) (hh32 : height < 2 ^ 32)
    (hw0 : 0 < width) :
    ∀ (k row : Nat) (l : List Nat) (g : UArray2),
      row + k = height → g.width = width → g.height = height → (∀ y ∈ l, y < 256) →
      (width * k ≤ 1 ∨ 4 * (width * k - 1) < l.length) →
      ∃ g', read_row_loop width height k row (getc { rest := l, eof := false }).1
            (getc { rest := l, eof := false }).2 g
          = .ok ((getc { rest := l.drop (4 * (width * k)), eof := false }).1,
              (getc { rest := l.drop (4 * (width * k)), eof := false }).2, g') ∧
        g'.width = width ∧ g'.height = height ∧
        ∀ c r, g'.elems c r
          = if row ≤ r ∧ r < row + k ∧ c < width
            then be_value (((l ++ [0, 0, 0, 0]).drop (4 * ((r - row) * width + c))).take 4)
            else g.elems c r := by
  intro k
  induction k with
  | zero =>
    intro row l g _ hgw hgh _ _
    refine ⟨g, rfl, hgw, hgh, ?_⟩
    intro c r
    rw [if_neg (by omega)]
  | succ k ih =>
    intro row l g hrk hgw hgh hbytes hcond
    have hmul : width * (k + 1) = width * k + width := Nat.mul_succ width k
    rw [hmul] at hcond
    have hk1 : 1 ≤ k → 1 ≤ width * k := fun hk => Nat.mul_pos hw0 hk
    have hcolcond : if row + 1 = height then width ≤ 1 ∨ 4 * (width - 1) < l.length
        else width = 0 ∨ 4 * width < l.length := by
      by_cases hlast : row + 1 = height
      · have hk0 : k = 0 := by omega
        subst hk0
        rw [if_pos hlast]
        rw [Nat.mul_zero] at hcond
        omega
      · rw [if_neg hlast]
        have := hk1 (by omega)
        omega
    obtain ⟨g1, hg1, hgw1, hgh1, helems1⟩ := read_cols_padded hw32 hh32
      (show row < height by omega) width 0 l g (by omega) hgw hgh hbytes hcolcond
    have hlen' : (l.drop (4 * width)).length = l.length - 4 * width := List.length_drop _ l
    obtain ⟨g', hg', hgw', hgh', helems⟩ := ih (row + 1) (l.drop (4 * width)) g1 (by omega)
      hgw1 hgh1 (fun y hy => hbytes y (List.mem_of_mem_drop hy)) (by
        rw [hlen']
        rcases Nat.eq_zero_or_pos k with hk0 | hkpos
        · subst hk0
          left
          rw [Nat.mul_zero]
          omega
        · have := hk1 hkpos
          omega)
    refine ⟨g', ?_, hgw', hgh', ?_⟩
    · rw [read_row_loop_succ, hg1, except_bind_ok]
      simp only
      rw [hg', List.drop_drop, hmul]
      have e : 4 * width + 4 * (width * k) = 4 * (width * k + width) := by omega
      rw [e]
    · intro c r
      rw [helems c r, helems1 c r]
      by_cases h1 : row + 1 ≤ r ∧ r < row + 1 + k ∧ c < width
      · have h2 : row ≤ r ∧ r < row + (k + 1) ∧ c < width := by omega
        have hlw : 4 * width ≤ l.length := by
          have := hk1 (by omega)
          omega
        rw [if_pos h1, if_pos h2, ← List.drop_append_of_le_length hlw, List.drop_drop]
        have e : 4 * width + 4 * ((r - (row + 1)) * width + c)
            = 4 * ((r - row) * width + c) := by
          have hd : r - row = (r - (row + 1)) + 1 := by omega
          rw [hd, Nat.add_mul, Nat.one_mul]
          omega
        rw [e]
      · rw [if_neg h1]
        by_cases h3 : r = row ∧ 0 ≤ c ∧ c < 0 + width
        · have h2 : row ≤ r ∧ r < row + (k + 1) ∧ c < width := by omega
          have e : (r - row) * width + c = c - 0 := by
            have hz : r - row = 0 := by omega
            rw [hz, Nat.zero_mul]
            omega
          rw [if_pos h3, if_pos h2, e]
        · have h2 : ¬ (row ≤ r ∧ r < row + (k + 1) ∧ c < width) := by omega
          rw [if_neg h3, if_neg h2]

/-- The row loop of `read_compressed` when at least two words are expected and the stream ends
at or before the start of the last one: the invalid-file error. -/
theorem read_rows_error {width height : Nat} (hw32 : width < 2 ^ 32) (hh32 : height < 2 ^ 32)
    (hw0 : 0 < width) :
    ∀ (k row : Nat) (l : List Nat) (g : UArray2),
      row + k = height → g.width = width → g.height = height → (∀ y ∈ l, y < 256) →
      2 ≤ width * k → l.length ≤ 4 * (width * k - 1) →
      read_row_loop width height k row (getc { rest := l, eof := false }).1
          (getc { rest := l, eof := false }).2 g
        = .error .Invalid_File := by
  intro k
  induction k with
  | zero =>
    intro row l g _ _ _ _ h2 _
    rw [Nat.mul_zero] at h2
    omega
  | succ k ih =>
    intro row l g hrk hgw hgh hbytes h2 hlen
    have hmul : width * (k + 1) = width * k + width := Nat.mul_succ width k
    rw [hmul] at h2 hlen
    have hk1 : 1 ≤ k → 1 ≤ width * k := fun hk => Nat.mul_pos hw0 hk
    rw [read_row_loop_succ]
    by_cases hlast : row + 1 = height
    · have hk0 : k = 0 := by omega
      subst hk0
      rw [Nat.mul_zero] at h2 hlen
      rw [read_cols_error hw32 hh32 (show row < height by omega) width 0 l g (by omega) hgw hgh
        hbytes (by omega) (by
          rw [if_pos hlast]
          omega), except_bind_error]
    · by_cases hshort : l.length ≤ 4 * width
      · rw [read_cols_error hw32 hh32 (show row < height by omega) width 0 l g (by omega) hgw
          hgh hbytes (by omega) (by
            rw [if_neg hlast]
            exact hshort), except_bind_error]
      · obtain ⟨g1, hg1, hgw1, hgh1, -⟩ := read_cols_padded hw32 hh32
          (show row < height by omega) width 0 l g (by omega) hgw hgh hbytes (by
            rw [if_neg hlast]
            omega)
        have hlen' : (l.drop (4 * width)).length = l.length - 4 * width :=
          List.length_drop _ l
        rw [hg1, except_bind_ok]
        simp only
        exact ih (row + 1) (l.drop (4 * width)) g1 (by omega) hgw1 hgh1
          (fun y hy => hbytes y (List.mem_of_mem_drop hy)) (by omega) (by omega)

/-! ## The claim about the extent of truncation detection -/

/-- C30: how far truncation goes undetected. For a header promising `N = w * h` words
(`w > 0`, and so also for `h > 0`) and a body of `L` bytes, `read_compressed` reports the invalid-file error if and
only if `N ≥ 2` and `L ≤ 4 * (N - 1)`. In every other case it returns a `w` by `h` grid whose
word at `(col, row)` is the big-endian value of bytes `4 * (row * w + col) .. + 3` of the body
extended by zeros: missing bytes of the last word are zero, bytes beyond `4 * N` are
ignored. -/
theorem C30_truncation_extent (w h : Nat) (body : List Nat) (hw0 : 0 < w)
    (hw32 : w < 2 ^ 32) (hh32 : h < 2 ^ 32) (hbytes : ∀ y ∈ body, y < 256) :
    (read_compressed_words w h { rest := body, eof := false } = .error .Invalid_File
      ↔ 2 ≤ w * h ∧ body.length ≤ 4 * (w * h - 1)) ∧
    (¬ (2 ≤ w * h ∧ body.length ≤ 4 * (w * h - 1)) →
      ∃ g, read_compressed_words w h { rest := body, eof := false } = .ok g ∧
        g.width = w ∧ g.height = h ∧
        ∀ c r, c < w → r < h →
          g.elems c r
            = be_value (((body ++ [0, 0, 0, 0]).drop (4 * (r * w + c))).take 4)) := by
  have hok : ¬ (2 ≤ w * h ∧ body.length ≤ 4 * (w * h - 1)) →
      ∃ g, read_compressed_words w h { rest := body, eof := false } = .ok g ∧
        g.width = w ∧ g.height = h ∧
        ∀ c r, c < w → r < h →
          g.elems c r
            = be_value (((body ++ [0, 0, 0, 0]).drop (4 * (r * w + c))).take 4) := by
    intro hn
    obtain ⟨g, hg, hgw, hgh, helems⟩ := read_rows_padded hw32 hh32 hw0 h 0 body
      (UArray2_new w h) (by omega) rfl rfl hbytes (by omega)
    refine ⟨g, ?_, hgw, hgh, ?_⟩
    · rw [read_compressed_words_eq, hg, except_bind_ok]
    · intro c r hc hr
      rw [helems c r, if_pos (by omega), Nat.sub_zero]
  refine ⟨⟨?_, ?_⟩, hok⟩
  · intro herr
    by_contra hn
    obtain ⟨g, hg, -⟩ := hok hn
    rw [hg] at herr
    cases herr
  · intro hc
    rw [read_compressed_words_eq, read_rows_error hw32 hh32 hw0 h 0 body (UArray2_new w h)
      (by omega) rfl rfl hbytes hc.1 hc.2, except_bind_error]

/-- Witness for C30: two words promised, five bytes supplied. -/
theorem C30_truncation_extent_witness :
    (0 < 2 ∧ 2 < 2 ^ 32 ∧ 1 < 2 ^ 32 ∧ ∀ y ∈ [1, 2, 3, 4, 5], y < 256) ∧
    (read_compressed_words 2 1 { rest := [1, 2, 3, 4, 5], eof := false }
        = .error .Invalid_File
      ↔ 2 ≤ 2 * 1 ∧ [1, 2, 3, 4, 5].length ≤ 4 * (2 * 1 - 1)) :=
  ⟨⟨by decide, by decide, by decide, by decide⟩,
    (C30_truncation_extent 2 1 [1, 2, 3, 4, 5] (by decide) (by decide) (by decide)
      (by decide)).1⟩

/-! ## Decoding one word -/

theorem twos_complement_six_bounds (u : Nat) :
    -32 ≤ twos_complement (u % 2 ^ 6) 6 ∧ twos_complement (u % 2 ^ 6) 6 ≤ 31 := by
  unfold twos_complement
  have h : u % 2 ^ 6 < 2 ^ 6 := Nat.mod_lt _ (by norm_num)
  by_cases hc : u % 2 ^ 6 ≥ 2 ^ (6 - 1)
  · rw [if_pos hc]
    norm_num at hc h ⊢
    omega
  · rw [if_neg hc]
    norm_num at hc h ⊢
    omega

theorem dequantize_avg_brightness_six (u : Nat) :
    dequantize_avg_brightness (u % 2 ^ 6 % 2 ^ 32) = .ok (((u % 2 ^ 6 : Nat) : ℚ) / 63) := by
  have h : u % 2 ^ 6 < 2 ^ 6 := Nat.mod_lt _ (by norm_num)
  have h2 : u % 2 ^ 6 % 2 ^ 32 = u % 2 ^ 6 := Nat.mod_eq_of_lt (by omega)
  rw [h2]
  unfold dequantize_avg_brightness
  rw [if_pos (by omega)]

theorem toInt_toUnsigned_six (u : Nat) :
    toInt (toUnsigned (twos_complement (u % 2 ^ 6) 6)) = twos_complement (u % 2 ^ 6) 6 := by
  have h := twos_complement_six_bounds u
  exact toInt_toUnsigned (by omega) (by omega)

/-- The statements of `decompress_cb` before `decompress_pixel`, with the six extractions in
arithmetic form: the only calls that can fail are the three of `dequantize_dct`. -/
theorem unpack_block_eq (chroma_of : Nat → ℚ) (elem : Nat) :
    unpack_block chroma_of elem =
      (dequantize_dct (twos_complement (elem % 2 ^ 32 / 2 ^ 20 % 2 ^ 6) 6)).bind fun dq_b =>
      (dequantize_dct (twos_complement (elem % 2 ^ 32 / 2 ^ 14 % 2 ^ 6) 6)).bind fun dq_c =>
      (dequantize_dct (twos_complement (elem % 2 ^ 32 / 2 ^ 8 % 2 ^ 6) 6)).bind fun dq_d =>
        .ok (chroma_of (elem % 2 ^ 32 / 2 ^ 4 % 2 ^ 4 % 2 ^ 32),
          chroma_of (elem % 2 ^ 32 / 2 ^ 0 % 2 ^ 4 % 2 ^ 32),
          dct_to_brightness (((elem % 2 ^ 32 / 2 ^ 26 % 2 ^ 6 : Nat) : ℚ) / 63,
            dq_b, dq_c, dq_d)) := by
  unfold unpack_block A_WIDTH B_WIDTH C_WIDTH D_WIDTH PB_WIDTH PR_WIDTH a_lsb b_lsb c_lsb d_lsb
    pb_lsb pr_lsb
  simp only [getu_eq (show 6 ≤ 64 by norm_num) (show 6 + 26 ≤ 64 by norm_num),
    gets_eq (show 0 < 6 by norm_num) (show 6 ≤ 64 by norm_num) (show 6 + 20 ≤ 64 by norm_num),
    gets_eq (show 0 < 6 by norm_num) (show 6 ≤ 64 by norm_num) (show 6 + 14 ≤ 64 by norm_num),
    gets_eq (show 0 < 6 by norm_num) (show 6 ≤ 64 by norm_num) (show 6 + 8 ≤ 64 by norm_num),
    getu_eq (show 4 ≤ 64 by norm_num) (show 4 + 4 ≤ 64 by norm_num),
    getu_eq (show 4 ≤ 64 by norm_num) (show 4 + 0 ≤ 64 by norm_num),
    dequantize_avg_brightness_six, toInt_toUnsigned_six, bind, Except.bind]

theorem dequantize_dct_ok {q : Int} (hlo : -15 ≤ q) (hhi : q ≤ 15) :
    dequantize_dct q = .ok ((q : ℚ) / 50) := by
  unfold dequantize_dct
  rw [if_pos ⟨hlo, hhi⟩]

theorem dequantize_dct_error {q : Int} (h : ¬ (-15 ≤ q ∧ q ≤ 15)) :
    dequantize_dct q = .error .Assert_Failed := by
  unfold dequantize_dct
  rw [if_neg h]

theorem Pnm_store_ok {pixmap : Pnm_ppm} {col row : Nat} (pixel : Pnm_rgb)
    (hc : col < pixmap.width) (hr : row < pixmap.height) :
    Pnm_store pixmap col row pixel
      = .ok { pixmap with
          pixels := fun c r => if c = col ∧ r = row then pixel else pixmap.pixels c r } := by
  unfold Pnm_store
  rw [if_pos ⟨hc, hr⟩]

theorem decompress_pixel_loop_succ (avg_pb avg_pr : ℚ) (y_vals : Nat → ℚ) (col row n i : Nat)
    (pixmap : Pnm_ppm) :
    decompress_pixel_loop avg_pb avg_pr y_vals col row (n + 1) i pixmap
      = (Pnm_store pixmap (sample_position col row i).1 (sample_position col row i).2
          (sample_pixel avg_pb avg_pr (y_vals i) pixmap.denominator)).bind fun pixmap =>
            decompress_pixel_loop avg_pb avg_pr y_vals col row n (i + 1) pixmap := rfl

theorem decompress_pixel_step (avg_pb avg_pr : ℚ) (y_vals : Nat → ℚ) (col row n i w h D : Nat)
    (px : Nat → Nat → Pnm_rgb) (hc : col * 2 + i % 2 < w) (hr : row * 2 + i / 2 < h) :
    decompress_pixel_loop avg_pb avg_pr y_vals col row (n + 1) i ⟨w, h, D, px⟩
      = decompress_pixel_loop avg_pb avg_pr y_vals col row n (i + 1)
          ⟨w, h, D, fun c r =>
            if c = col * 2 + i % 2 ∧ r = row * 2 + i / 2 then
              sample_pixel avg_pb avg_pr (y_vals i) D
            else px c r⟩ := by
  rw [decompress_pixel_loop_succ]
  unfold Pnm_store sample_position
  simp only
  rw [if_pos ⟨hc, hr⟩]
  rfl

/-- The four stores of `decompress_pixel` on a block that lies in the image: the pixel at
`(x, y)` of the block receives the sample with index `(y % 2) * 2 + x % 2`, every other pixel
is kept. -/
theorem decompress_pixel_ok (avg_pb avg_pr : ℚ) (y_vals : Nat → ℚ) (pixmap : Pnm_ppm)
    (col row : Nat) (hc : col * 2 + 1 < pixmap.width) (hr : row * 2 + 1 < pixmap.height) :
    decompress_pixel avg_pb avg_pr y_vals pixmap col row
      = .ok { pixmap with
          pixels := fun x y =>
            if x / 2 = col ∧ y / 2 = row then
              sample_pixel avg_pb avg_pr (y_vals (y_val_pos x y)) pixmap.denominator
            else pixmap.pixels x y } := by
  obtain ⟨w, h, D, px⟩ := pixmap
  simp only at hc hr
  unfold decompress_pixel
  rw [decompress_pixel_step avg_pb avg_pr y_vals col row 3 0 w h D _ (by omega) (by omega),
    decompress_pixel_step avg_pb avg_pr y_vals col row 2 1 w h D _ (by omega) (by omega),
    decompress_pixel_step avg_pb avg_pr y_vals col row 1 2 w h D _ (by omega) (by omega),
    decompress_pixel_step avg_pb avg_pr y_vals col row 0 3 w h D _ (by omega) (by omega)]
  show Except.ok _ = Except.ok _
  refine congrArg Except.ok ?_
  show Pnm_ppm.mk _ _ _ _ = Pnm_ppm.mk _ _ _ _
  congr 1
  funext x y
  by_cases hb : x / 2 = col ∧ y / 2 = row
  · rw [if_pos hb]
    have hx : x = col * 2 ∨ x = col * 2 + 1 := by omega
    have hy : y = row * 2 ∨ y = row * 2 + 1 := by omega
    have e0 : y_val_pos (col * 2) (row * 2) = 0 := by unfold y_val_pos; omega
    have e1 : y_val_pos (col * 2 + 1) (row * 2) = 1 := by unfold y_val_pos; omega
    have e2 : y_val_pos (col * 2) (row * 2 + 1) = 2 := by unfold y_val_pos; omega
    have e3 : y_val_pos (col * 2 + 1) (row * 2 + 1) = 3 := by unfold y_val_pos; omega
    rcases hx with rfl | rfl <;> rcases hy with rfl | rfl
    · rw [e0]
      simp
    · rw [e2]
      simp
    · rw [e1]
      simp
    · rw [e3]
      simp
  · rw [if_neg hb]
    have h0 : ¬ (x = col * 2 + 0 % 2 ∧ y = row * 2 + 0 / 2) := by omega
    have h1 : ¬ (x = col * 2 + 1 % 2 ∧ y = row * 2 + 1 / 2) := by omega
    have h2 : ¬ (x = col * 2 + 2 % 2 ∧ y = row * 2 + 2 / 2) := by omega
    have h3 : ¬ (x = col * 2 + 3 % 2 ∧ y = row * 2 + 3 / 2) := by omega
    simp only [h0, h1, h2, h3, if_false]

theorem twos_complement_six_of_field {V lsb : Nat} {b : Int} (hlo : -32 ≤ b) (hhi : b ≤ 31)
    (hfield : V / 2 ^ lsb % 2 ^ 6 = (b % 64).toNat) :
    twos_complement (V / 2 ^ lsb % 2 ^ 6) 6 = b := by
  rw [hfield, ← (toU64_mod_64 hlo hhi).1,
    twos_complement_of_fits (by norm_num) (by norm_num) (by norm_num; omega) (by norm_num; omega)]

/-- What `decompress_cb` extracts from a word in the packed layout. -/
theorem unpack_block_packed (chroma_of : Nat → ℚ) {a pb pr : Nat} {b c d : Int} (ha : a ≤ 63)
    (hb : -15 ≤ b ∧ b ≤ 15) (hc : -15 ≤ c ∧ c ≤ 15) (hd : -15 ≤ d ∧ d ≤ 15)
    (hpb : pb ≤ 15) (hpr : pr ≤ 15) :
    unpack_block chroma_of (a * 2 ^ 26 + (b % 64).toNat * 2 ^ 20 + (c % 64).toNat * 2 ^ 14
        + (d % 64).toNat * 2 ^ 8 + pb * 2 ^ 4 + pr)
      = .ok (chroma_of pb, chroma_of pr,
          dct_to_brightness ((a : ℚ) / 63, (b : ℚ) / 50, (c : ℚ) / 50, (d : ℚ) / 50)) := by
  rw [unpack_block_eq,
    twos_complement_six_of_field (b := b) (by omega) (by omega) (by omega),
    twos_complement_six_of_field (b := c) (by omega) (by omega) (by omega),
    twos_complement_six_of_field (b := d) (by omega) (by omega) (by omega),
    dequantize_dct_ok hb.1 hb.2, dequantize_dct_ok hc.1 hc.2, dequantize_dct_ok hd.1 hd.2,
    except_bind_ok, except_bind_ok, except_bind_ok]
  have e1 : (a * 2 ^ 26 + (b % 64).toNat * 2 ^ 20 + (c % 64).toNat * 2 ^ 14
        + (d % 64).toNat * 2 ^ 8 + pb * 2 ^ 4 + pr) % 2 ^ 32 / 2 ^ 4 % 2 ^ 4 % 2 ^ 32 = pb := by
    omega
  have e2 : (a * 2 ^ 26 + (b % 64).toNat * 2 ^ 20 + (c % 64).toNat * 2 ^ 14
        + (d % 64).toNat * 2 ^ 8 + pb * 2 ^ 4 + pr) % 2 ^ 32 / 2 ^ 0 % 2 ^ 4 % 2 ^ 32 = pr := by
    omega
  have e3 : (a * 2 ^ 26 + (b % 64).toNat * 2 ^ 20 + (c % 64).toNat * 2 ^ 14
        + (d % 64).toNat * 2 ^ 8 + pb * 2 ^ 4 + pr) % 2 ^ 32 / 2 ^ 26 % 2 ^ 6 = a := by
    omega
  rw [e1, e2, e3]

theorem fitsu_four (v : Nat) : Bitpack_fitsu v 4 = true ↔ v < 16 := by
  unfold Bitpack_fitsu
  rw [if_neg (by norm_num), pow2_eq (by norm_num)]
  by_cases h : v < 16
  · simp [h]
  · simp [h]

/-- A word returned by `bitpack_pixels` on codes that fit carries chroma indices below 16. -/
theorem bitpack_pixels_index_le {a pb_ind pr_ind word : Nat} {b c d : Int} (ha : a ≤ 63)
    (hb : Bitpack_fitss b 6 = true) (hc : Bitpack_fitss c 6 = true)
    (hd : Bitpack_fitss d 6 = true)
    (h : bitpack_pixels a b c d pb_ind pr_ind = .ok word) : pb_ind ≤ 15 ∧ pr_ind ≤ 15 := by
  have fa : Bitpack_fitsu a 6 = true := (fitsu_iff (by omega)).mpr (by norm_num; omega)
  unfold bitpack_pixels A_WIDTH B_WIDTH C_WIDTH D_WIDTH PB_WIDTH PR_WIDTH a_lsb b_lsb c_lsb d_lsb
    pb_lsb pr_lsb at h
  simp only [newu_ok (show 6 ≤ 64 by norm_num) (show 6 + 26 ≤ 64 by norm_num) fa,
    news_ok (show 6 ≤ 64 by norm_num) (show 6 + 20 ≤ 64 by norm_num) hb,
    news_ok (show 6 ≤ 64 by norm_num) (show 6 + 14 ≤ 64 by norm_num) hc,
    news_ok (show 6 ≤ 64 by norm_num) (show 6 + 8 ≤ 64 by norm_num) hd,
    bind, Except.bind] at h
  by_cases hpb : pb_ind ≤ 15
  · have fpb : Bitpack_fitsu pb_ind 4 = true := (fitsu_four _).mpr (by omega)
    simp only [newu_ok (show 4 ≤ 64 by norm_num) (show 4 + 4 ≤ 64 by norm_num) fpb] at h
    by_cases hpr : pr_ind ≤ 15
    · exact ⟨hpb, hpr⟩
    · have fpr : Bitpack_fitsu pr_ind 4 = false := by
        cases hf : Bitpack_fitsu pr_ind 4
        · rfl
        · exact absurd ((fitsu_four _).mp hf) (by omega)
      rw [(newu_overflow_iff (show 4 ≤ 64 by norm_num) (show 4 + 0 ≤ 64 by norm_num)).mpr fpr]
        at h
      cases h
  · have fpb : Bitpack_fitsu pb_ind 4 = false := by
      cases hf : Bitpack_fitsu pb_ind 4
      · rfl
      · exact absurd ((fitsu_four _).mp hf) (by omega)
    rw [(newu_overflow_iff (show 4 ≤ 64 by norm_num) (show 4 + 4 ≤ 64 by norm_num)).mpr fpb]
      at h
    cases h

/-- Every word that `pack_pixel` stores is in the packed layout, with codes in the ranges of
the quantizers. -/
theorem pack_pixel_word {index_of : ℚ → Nat} {c_info c_info' : Compression_Info}
    {col row : Nat} (h : pack_pixel index_of c_info col row = .ok c_info') :
    ∃ (a pb pr : Nat) (b c d : Int), a ≤ 63 ∧ (-15 ≤ b ∧ b ≤ 15) ∧ (-15 ≤ c ∧ c ≤ 15) ∧
      (-15 ≤ d ∧ d ≤ 15) ∧ pb ≤ 15 ∧ pr ≤ 15 ∧
      c_info'.compressed.elems (col / 2) (row / 2)
        = a * 2 ^ 26 + (b % 64).toNat * 2 ^ 20 + (c % 64).toNat * 2 ^ 14
          + (d % 64).toNat * 2 ^ 8 + pb * 2 ^ 4 + pr := by
  have hrt : ∀ x : ℚ, toInt (toUnsigned (quantize_dct x)) = quantize_dct x := fun x =>
    toInt_toUnsigned (by have := quantize_dct_bounds x; omega)
      (by have := quantize_dct_bounds x; omega)
  unfold pack_pixel at h
  simp only [hrt] at h
  by_cases hq : (pix_to_dct c_info.y_vals).1 ≥ 0 ∧ (pix_to_dct c_info.y_vals).1 ≤ 1
  · obtain ⟨a, hqa, ha63, -⟩ := quantize_avg_brightness_ok hq.1 hq.2
    rw [hqa] at h
    simp only [bind, Except.bind] at h
    have hb := quantize_dct_bounds (pix_to_dct c_info.y_vals).2.1
    have hc := quantize_dct_bounds (pix_to_dct c_info.y_vals).2.2.1
    have hd := quantize_dct_bounds (pix_to_dct c_info.y_vals).2.2.2
    cases hw : bitpack_pixels a (quantize_dct (pix_to_dct c_info.y_vals).2.1)
        (quantize_dct (pix_to_dct c_info.y_vals).2.2.1)
        (quantize_dct (pix_to_dct c_info.y_vals).2.2.2)
        (index_of (c_info.avg_pb / 4)) (index_of (c_info.avg_pr / 4)) with
    | error e =>
      rw [hw] at h
      cases h
    | ok word =>
      rw [hw] at h
      obtain ⟨hpb, hpr⟩ := bitpack_pixels_index_le ha63 (fitss_six hb.1 hb.2)
        (fitss_six hc.1 hc.2) (fitss_six hd.1 hd.2) hw
      have hword := bitpack_pixels_word_eq ha63 (b := quantize_dct (pix_to_dct c_info.y_vals).2.1)
        (c := quantize_dct (pix_to_dct c_info.y_vals).2.2.1)
        (d := quantize_dct (pix_to_dct c_info.y_vals).2.2.2)
        ⟨by omega, by omega⟩ ⟨by omega, by omega⟩ ⟨by omega, by omega⟩ hpb hpr
      rw [bitpack_pixels_eq_word, hword] at hw
      have hweq : (a * 2 ^ 26 + (quantize_dct (pix_to_dct c_info.y_vals).2.1 % 64).toNat * 2 ^ 20
          + (quantize_dct (pix_to_dct c_info.y_vals).2.2.1 % 64).toNat * 2 ^ 14
          + (quantize_dct (pix_to_dct c_info.y_vals).2.2.2 % 64).toNat * 2 ^ 8
          + index_of (c_info.avg_pb / 4) * 2 ^ 4 + index_of (c_info.avg_pr / 4)) % 2 ^ 32
          = word := by
        injection hw
      dsimp only at h
      by_cases hst : col / 2 < c_info.compressed.width ∧ row / 2 < c_info.compressed.height
      · rw [UArray2_store_ok _ hst.1 hst.2] at h
        dsimp only at h
        injection h with h
        subst h
        refine ⟨a, _, _, _, _, _, ha63, hb, hc, hd, hpb, hpr, ?_⟩
        show (if col / 2 = col / 2 ∧ row / 2 = row / 2 then word else _) = _
        rw [if_pos ⟨rfl, rfl⟩, ← hweq]
        omega
      · unfold UArray2_store at h
        rw [if_neg hst] at h
        cases h
  · unfold quantize_avg_brightness at h
    rw [if_neg hq] at h
    cases h

theorem unpack_block_ok (chroma_of : Nat → ℚ) (elem : Nat)
    (hb : -15 ≤ twos_complement (elem % 2 ^ 32 / 2 ^ 20 % 2 ^ 6) 6 ∧
      twos_complement (elem % 2 ^ 32 / 2 ^ 20 % 2 ^ 6) 6 ≤ 15)
    (hc : -15 ≤ twos_complement (elem % 2 ^ 32 / 2 ^ 14 % 2 ^ 6) 6 ∧
      twos_complement (elem % 2 ^ 32 / 2 ^ 14 % 2 ^ 6) 6 ≤ 15)
    (hd : -15 ≤ twos_complement (elem % 2 ^ 32 / 2 ^ 8 % 2 ^ 6) 6 ∧
      twos_complement (elem % 2 ^ 32 / 2 ^ 8 % 2 ^ 6) 6 ≤ 15) :
    ∃ r, unpack_block chroma_of elem = .ok r := by
  rw [unpack_block_eq, dequantize_dct_ok hb.1 hb.2, dequantize_dct_ok hc.1 hc.2,
    dequantize_dct_ok hd.1 hd.2, except_bind_ok, except_bind_ok, except_bind_ok]
  exact ⟨_, rfl⟩

theorem unpack_block_error (chroma_of : Nat → ℚ) (elem : Nat)
    (h : ¬ ((-15 ≤ twos_complement (elem % 2 ^ 32 / 2 ^ 20 % 2 ^ 6) 6 ∧
        twos_complement (elem % 2 ^ 32 / 2 ^ 20 % 2 ^ 6) 6 ≤ 15) ∧
      (-15 ≤ twos_complement (elem % 2 ^ 32 / 2 ^ 14 % 2 ^ 6) 6 ∧
        twos_complement (elem % 2 ^ 32 / 2 ^ 14 % 2 ^ 6) 6 ≤ 15) ∧
      (-15 ≤ twos_complement (elem % 2 ^ 32 / 2 ^ 8 % 2 ^ 6) 6 ∧
        twos_complement (elem % 2 ^ 32 / 2 ^ 8 % 2 ^ 6) 6 ≤ 15))) :
    unpack_block chroma_of elem = .error .Assert_Failed := by
  rw [unpack_block_eq]
  by_cases hb : -15 ≤ twos_complement (elem % 2 ^ 32 / 2 ^ 20 % 2 ^ 6) 6 ∧
      twos_complement (elem % 2 ^ 32 / 2 ^ 20 % 2 ^ 6) 6 ≤ 15
  · rw [dequantize_dct_ok hb.1 hb.2, except_bind_ok]
    by_cases hc : -15 ≤ twos_complement (elem % 2 ^ 32 / 2 ^ 14 % 2 ^ 6) 6 ∧
        twos_complement (elem % 2 ^ 32 / 2 ^ 14 % 2 ^ 6) 6 ≤ 15
    · rw [dequantize_dct_ok hc.1 hc.2, except_bind_ok]
      by_cases hd : -15 ≤ twos_complement (elem % 2 ^ 32 / 2 ^ 8 % 2 ^ 6) 6 ∧
          twos_complement (elem % 2 ^ 32 / 2 ^ 8 % 2 ^ 6) 6 ≤ 15
      · exact absurd ⟨hb, hc, hd⟩ h
      · rw [dequantize_dct_error hd]
        rfl
    · rw [dequantize_dct_error hc]
      rfl
  · rw [dequantize_dct_error hb]
    rfl

/-! ## The claim about decoding one word -/

/-- C29: decoding one word succeeds exactly when its detail fields are quantizer codes. For
every 32-bit word and every block position inside the destination image, the three signed
6-bit fields at lsb 20, 14 and 8 are read without error as values `b, c, d` in `[-32, 31]`;
`decompress_cb` returns (all assertions pass) if and only if each of `b, c, d` lies in
`[-15, 15]`, and otherwise stops on a failed assertion; and every word that `pack_pixel`
stores, at any position of any closure, decodes. -/
theorem C29_decode_iff_detail_codes (chroma_of : Nat → ℚ) (word col row : Nat)
    (pixmap : Pnm_ppm) (hword : word < 2 ^ 32) (hcol : col * 2 + 1 < pixmap.width)
    (hrow : row * 2 + 1 < pixmap.height) :
    ∃ b c d : Int,
      Bitpack_gets word B_WIDTH b_lsb = .ok b ∧ Bitpack_gets word C_WIDTH c_lsb = .ok c ∧
      Bitpack_gets word D_WIDTH d_lsb = .ok d ∧
      (-32 ≤ b ∧ b ≤ 31) ∧ (-32 ≤ c ∧ c ≤ 31) ∧ (-32 ≤ d ∧ d ≤ 31) ∧
      ((∃ p, decompress_cb chroma_of col row word pixmap = .ok p) ↔
        ((-15 ≤ b ∧ b ≤ 15) ∧ (-15 ≤ c ∧ c ≤ 15) ∧ (-15 ≤ d ∧ d ≤ 15))) ∧
      (¬ ((-15 ≤ b ∧ b ≤ 15) ∧ (-15 ≤ c ∧ c ≤ 15) ∧ (-15 ≤ d ∧ d ≤ 15)) →
        decompress_cb chroma_of col row word pixmap = .error .Assert_Failed) ∧
      (∀ (index_of : ℚ → Nat) (c_info c_info' : Compression_Info) (ecol erow : Nat),
        pack_pixel index_of c_info ecol erow = .ok c_info' →
        ∃ p, decompress_cb chroma_of col row
          (c_info'.compressed.elems (ecol / 2) (erow / 2)) pixmap = .ok p) := by
  have hm : word % 2 ^ 32 = word := Nat.mod_eq_of_lt hword
  have herr : ¬ ((-15 ≤ twos_complement (word / 2 ^ 20 % 2 ^ 6) 6 ∧
        twos_complement (word / 2 ^ 20 % 2 ^ 6) 6 ≤ 15) ∧
      (-15 ≤ twos_complement (word / 2 ^ 14 % 2 ^ 6) 6 ∧
        twos_complement (word / 2 ^ 14 % 2 ^ 6) 6 ≤ 15) ∧
      (-15 ≤ twos_complement (word / 2 ^ 8 % 2 ^ 6) 6 ∧
        twos_complement (word / 2 ^ 8 % 2 ^ 6) 6 ≤ 15)) →
      decompress_cb chroma_of col row word pixmap = .error .Assert_Failed := by
    intro h
    unfold decompress_cb
    rw [unpack_block_error chroma_of word (by rw [hm]; exact h)]
    rfl
  refine ⟨twos_complement (word / 2 ^ 20 % 2 ^ 6) 6, twos_complement (word / 2 ^ 14 % 2 ^ 6) 6,
    twos_complement (word / 2 ^ 8 % 2 ^ 6) 6,
    gets_eq (by decide) (by decide) (by decide), gets_eq (by decide) (by decide) (by decide),
    gets_eq (by decide) (by decide) (by decide),
    twos_complement_six_bounds _, twos_complement_six_bounds _, twos_complement_six_bounds _,
    ⟨?_, ?_⟩, herr, ?_⟩
  · intro hp
    by_contra hn
    obtain ⟨p, hp⟩ := hp
    rw [herr hn] at hp
    cases hp
  · intro h
    obtain ⟨r, hr⟩ := unpack_block_ok chroma_of word (by rw [hm]; exact h.1)
      (by rw [hm]; exact h.2.1) (by rw [hm]; exact h.2.2)
    unfold decompress_cb
    rw [hr, except_bind_ok, decompress_pixel_ok _ _ _ _ _ _ hcol hrow]
    exact ⟨_, rfl⟩
  · intro index_of c_info c_info' ecol erow hpack
    obtain ⟨a, pb, pr, b, c, d, ha, hb, hc, hd, hpb, hpr, hw⟩ := pack_pixel_word hpack
    unfold decompress_cb
    rw [hw, unpack_block_packed chroma_of ha hb hc hd hpb hpr, except_bind_ok,
      decompress_pixel_ok _ _ _ _ _ _ hcol hrow]
    exact ⟨_, rfl⟩

/-- Witness for C29: the word `16 * 2 ^ 20` (detail field `b = 16`) on a 2 by 2 image. -/
theorem C29_decode_iff_detail_codes_witness :
    (16 * 2 ^ 20 < 2 ^ 32 ∧ 0 * 2 + 1 < (Pnm_ppm.mk 2 2 255 fun _ _ => ⟨0, 0, 0⟩).width ∧
      0 * 2 + 1 < (Pnm_ppm.mk 2 2 255 fun _ _ => ⟨0, 0, 0⟩).height) ∧
    ∃ b c d : Int,
      Bitpack_gets (16 * 2 ^ 20) B_WIDTH b_lsb = .ok b ∧
      Bitpack_gets (16 * 2 ^ 20) C_WIDTH c_lsb = .ok c ∧
      Bitpack_gets (16 * 2 ^ 20) D_WIDTH d_lsb = .ok d ∧
      (-32 ≤ b ∧ b ≤ 31) ∧ (-32 ≤ c ∧ c ≤ 31) ∧ (-32 ≤ d ∧ d ≤ 31) ∧
      ((∃ p, decompress_cb (fun _ => 0) 0 0 (16 * 2 ^ 20)
          (Pnm_ppm.mk 2 2 255 fun _ _ => ⟨0, 0, 0⟩) = .ok p) ↔
        ((-15 ≤ b ∧ b ≤ 15) ∧ (-15 ≤ c ∧ c ≤ 15) ∧ (-15 ≤ d ∧ d ≤ 15))) :=
  ⟨⟨by decide, by decide, by decide⟩,
    match C29_decode_iff_detail_codes (fun _ => 0) (16 * 2 ^ 20) 0 0
      (Pnm_ppm.mk 2 2 255 fun _ _ => ⟨0, 0, 0⟩) (by decide) (by decide) (by decide) with
    | ⟨b, c, d, h1, h2, h3, h4, h5, h6, h7, _⟩ => ⟨b, c, d, h1, h2, h3, h4, h5, h6, h7⟩⟩

/-! ## Decoding a grid of words -/

theorem map_row_major_cols_succ {σ : Type} (a : UArray2)
    (apply : Nat → Nat → Nat → σ → Except Err σ) (row k col : Nat) (cl : σ) :
    map_row_major_cols a apply row (k + 1) col cl
      = ((apply col row (a.elems col row) cl).bind fun cl1 =>
          map_row_major_cols a apply row k (col + 1) cl1) := rfl

/-- One row of the decoder's traversal: the two pixel rows of the blocks from column `col` on
receive their decoded pixels, every other pixel is kept. -/
theorem decode_cols (chroma_of : Nat → ℚ) (a : UArray2) (row : Nat)
    (hall : ∀ c, c < a.width → ∃ r, unpack_block chroma_of (a.elems c row) = .ok r) :
    ∀ (k col w h D : Nat) (px : Nat → Nat → Pnm_rgb), col + k = a.width → w = a.width * 2 →
      row * 2 + 1 < h →
      map_row_major_cols a (decompress_cb chroma_of) row k col ⟨w, h, D, px⟩
        = .ok ⟨w, h, D, fun x y =>
            if y / 2 = row ∧ col ≤ x / 2 ∧ x / 2 < a.width then decoded_pixel chroma_of a D x y
            else px x y⟩ := by
  intro k
  induction k with
  | zero =>
    intro col w h D px hk _ _
    refine congrArg Except.ok ?_
    congr 1
    funext x y
    rw [if_neg (by omega)]
  | succ k ih =>
    intro col w h D px hk hw hh
    obtain ⟨r, hr⟩ := hall col (by omega)
    have step : decompress_cb chroma_of col row (a.elems col row) ⟨w, h, D, px⟩
        = .ok ⟨w, h, D, fun x y =>
            if x / 2 = col ∧ y / 2 = row then sample_pixel r.1 r.2.1 (r.2.2 (y_val_pos x y)) D
            else px x y⟩ := by
      unfold decompress_cb
      rw [hr, except_bind_ok,
        decompress_pixel_ok r.1 r.2.1 r.2.2 ⟨w, h, D, px⟩ col row
          (show col * 2 + 1 < w by omega) (show row * 2 + 1 < h from hh)]
    rw [map_row_major_cols_succ, step, except_bind_ok, ih (col + 1) w h D _ (by omega) hw hh]
    refine congrArg Except.ok ?_
    congr 1
    funext x y
    by_cases h1 : y / 2 = row ∧ col + 1 ≤ x / 2 ∧ x / 2 < a.width
    · simp only [if_pos h1,
        if_pos (show y / 2 = row ∧ col ≤ x / 2 ∧ x / 2 < a.width from ⟨h1.1, by omega, h1.2.2⟩)]
    · by_cases h2 : x / 2 = col ∧ y / 2 = row
      · simp only [if_neg h1, if_pos h2,
          if_pos (show y / 2 = row ∧ col ≤ x / 2 ∧ x / 2 < a.width from
            ⟨h2.2, by omega, by omega⟩)]
        unfold decoded_pixel
        rw [h2.1, h2.2, hr]
      · simp only [if_neg h1, if_neg h2,
          if_neg (show ¬ (y / 2 = row ∧ col ≤ x / 2 ∧ x / 2 < a.width) by omega)]

/-- The rows of the decoder's traversal from row `row` on. -/
theorem decode_rows (chroma_of : Nat → ℚ) (a : UArray2)
    (hall : ∀ c r, c < a.width → r < a.height →
      ∃ u, unpack_block chroma_of (a.elems c r) = .ok u) :
    ∀ (k row w h D : Nat) (px : Nat → Nat → Pnm_rgb), row + k = a.height → w = a.width * 2 →
      h = a.height * 2 →
      map_row_major_rows a (decompress_cb chroma_of) k row ⟨w, h, D, px⟩
        = .ok ⟨w, h, D, fun x y =>
            if row ≤ y / 2 ∧ y / 2 < a.height ∧ x / 2 < a.width then
              decoded_pixel chroma_of a D x y
            else px x y⟩ := by
  intro k
  induction k with
  | zero =>
    intro row w h D px hk _ _
    refine congrArg Except.ok ?_
    congr 1
    funext x y
    rw [if_neg (by omega)]
  | succ k ih =>
    intro row w h D px hk hw hh
    rw [map_row_major_rows_succ,
      decode_cols chroma_of a row (fun c hc => hall c row hc (by omega)) a.width 0 w h D px
        (by omega) hw (by omega),
      except_bind_ok, ih (row + 1) w h D _ (by omega) hw hh]
    refine congrArg Except.ok ?_
    congr 1
    funext x y
    by_cases h1 : row + 1 ≤ y / 2 ∧ y / 2 < a.height ∧ x / 2 < a.width
    · rw [if_pos h1, if_pos ⟨by omega, h1.2.1, h1.2.2⟩]
    · rw [if_neg h1]
      by_cases h2 : y / 2 = row ∧ 0 ≤ x / 2 ∧ x / 2 < a.width
      · rw [if_pos h2, if_pos ⟨by omega, by omega, h2.2.2⟩]
      · rw [if_neg h2, if_neg (by omega)]

/-- The decoder's traversal of a grid whose words all decode, into an image of twice the
grid's dimensions: it returns, and every pixel of the image is the decoded pixel of its
position. -/
theorem decode_grid (chroma_of : Nat → ℚ) (a : UArray2)
    (hall : ∀ c r, c < a.width → r < a.height →
      ∃ u, unpack_block chroma_of (a.elems c r) = .ok u)
    (D : Nat) (px : Nat → Nat → Pnm_rgb) :
    UArray2_map_row_major a (decompress_cb chroma_of) ⟨a.width * 2, a.height * 2, D, px⟩
      = .ok ⟨a.width * 2, a.height * 2, D, fun x y =>
          if x < a.width * 2 ∧ y < a.height * 2 then decoded_pixel chroma_of a D x y
          else px x y⟩ := by
  unfold UArray2_map_row_major
  rw [decode_rows chroma_of a hall a.height 0 _ _ D px (by omega) rfl rfl]
  refine congrArg Except.ok ?_
  congr 1
  funext x y
  by_cases h1 : x < a.width * 2 ∧ y < a.height * 2
  · rw [if_pos h1, if_pos ⟨by omega, by omega, by omega⟩]
  · rw [if_neg h1, if_neg (by omega)]

/-! ## The claim about sample positions -/

theorem sample_position_inv (c r i : Nat) (hi : i < 4) :
    (sample_position c r i).1 / 2 = c ∧ (sample_position c r i).2 / 2 = r ∧
      y_val_pos (sample_position c r i).1 (sample_position c r i).2 = i := by
  unfold sample_position y_val_pos
  simp only
  omega

theorem y_val_pos_inv (col row : Nat) :
    y_val_pos col row < 4 ∧
      sample_position (col / 2) (row / 2) (y_val_pos col row) = (col, row) := by
  unfold sample_position y_val_pos
  refine ⟨by omega, ?_⟩
  refine Prod.ext ?_ ?_
  · show col / 2 * 2 + (row % 2 * 2 + col % 2) % 2 = col
    omega
  · show row / 2 * 2 + (row % 2 * 2 + col % 2) / 2 = row
    omega

/-- The part of `compress_cb` before the call of `pack_pixel`, on a cell of the even crop: the
luma goes to index `y_val_pos col row`, the other lumas and the grid are kept. -/
theorem compress_cb_luma (index_of : ℚ → Nat) (col row : Nat) (elem : Pnm_rgb)
    (cl : Compression_Info)
    (hin : ¬ (col ≥ cl.orig_width - cl.orig_width % 2 ∨
      row ≥ cl.orig_height - cl.orig_height % 2)) :
    ∃ cl1 : Compression_Info,
      cl1.y_vals (y_val_pos col row) = (rgb_to_cv (scale_rgb elem cl.denominator)).1 ∧
      (∀ i, i ≠ y_val_pos col row → cl1.y_vals i = cl.y_vals i) ∧
      cl1.compressed = cl.compressed ∧
      compress_cb index_of col row elem cl
        = if row % 2 = 1 ∧ col % 2 = 1 then pack_pixel index_of cl1 col row else .ok cl1 := by
  refine ⟨{ cl with
      avg_pb := cl.avg_pb + (rgb_to_cv (scale_rgb elem cl.denominator)).2.1,
      avg_pr := cl.avg_pr + (rgb_to_cv (scale_rgb elem cl.denominator)).2.2,
      y_vals := fun i =>
        if i = y_val_pos col row then (rgb_to_cv (scale_rgb elem cl.denominator)).1
        else cl.y_vals i }, ?_, ?_, rfl, ?_⟩
  · show (if y_val_pos col row = y_val_pos col row then _ else _) = _
    rw [if_pos rfl]
  · intro i hi
    show (if i = y_val_pos col row then _ else _) = _
    rw [if_neg hi]
  · unfold compress_cb
    rw [if_neg hin]
    rfl

theorem pack_pixel_eq (index_of : ℚ → Nat) (c_info : Compression_Info) (col row : Nat) :
    pack_pixel index_of c_info col row
      = (quantize_avg_brightness (pix_to_dct c_info.y_vals).1).bind fun a =>
          (bitpack_pixels a (toInt (toUnsigned (quantize_dct (pix_to_dct c_info.y_vals).2.1)))
            (toInt (toUnsigned (quantize_dct (pix_to_dct c_info.y_vals).2.2.1)))
            (toInt (toUnsigned (quantize_dct (pix_to_dct c_info.y_vals).2.2.2)))
            (index_of (c_info.avg_pb / 4)) (index_of (c_info.avg_pr / 4))).bind fun word =>
            (UArray2_store c_info.compressed (col / 2) (row / 2) word).bind fun compressed =>
              .ok { c_info with compressed := compressed, avg_pb := 0, avg_pr := 0 } := rfl

/-- The store of `pack_pixel` goes to the block position `(col / 2, row / 2)` only. -/
theorem pack_pixel_frame {index_of : ℚ → Nat} {c_info c_info' : Compression_Info}
    {col row : Nat} (h : pack_pixel index_of c_info col row = .ok c_info') (c r : Nat)
    (hne : ¬ (c = col / 2 ∧ r = row / 2)) :
    c_info'.compressed.elems c r = c_info.compressed.elems c r := by
  rw [pack_pixel_eq] at h
  cases hq : quantize_avg_brightness (pix_to_dct c_info.y_vals).1 with
  | error e =>
    rw [hq, except_bind_error] at h
    cases h
  | ok a =>
    rw [hq, except_bind_ok] at h
    cases hw : bitpack_pixels a
        (toInt (toUnsigned (quantize_dct (pix_to_dct c_info.y_vals).2.1)))
        (toInt (toUnsigned (quantize_dct (pix_to_dct c_info.y_vals).2.2.1)))
        (toInt (toUnsigned (quantize_dct (pix_to_dct c_info.y_vals).2.2.2)))
        (index_of (c_info.avg_pb / 4)) (index_of (c_info.avg_pr / 4)) with
    | error e =>
      rw [hw, except_bind_error] at h
      cases h
    | ok word =>
      rw [hw, except_bind_ok] at h
      by_cases hst : col / 2 < c_info.compressed.width ∧ row / 2 < c_info.compressed.height
      · rw [UArray2_store_ok _ hst.1 hst.2, except_bind_ok] at h
        injection h with h
        subst h
        show (if c = col / 2 ∧ r = row / 2 then word else _) = _
        rw [if_neg hne]
      · unfold UArray2_store at h
        rw [if_neg hst, except_bind_error] at h
        cases h

/-- C26: sample positions agree between encode and decode and the output is fully covered.
(1) `decompress_pixel` on a block `(c, r)` inside the image returns, writes sample `i` to the
pixel `(2c + i mod 2, 2r + i div 2)` and keeps every pixel outside the block. (2) On a cell of
the even crop `compress_cb` puts the luma of `(col, row)` at index
`(row mod 2) * 2 + (col mod 2)` of the luma array and, at the cell with odd column and odd
row, hands that array to `pack_pixel`, whose store goes to block `(col div 2, row div 2)` only.
(3) The two mappings are mutually inverse. (4) For a grid of `w` by `h` words every pixel of
the `2w` by `2h` raster is the destination of exactly one (word, sample) pair, and the
traversal of a grid whose words decode gives every pixel `(x, y)` its decoded sample. (5) Index
0 is top-left, 1 top-right, 2 bottom-left, 3 bottom-right. -/
theorem C26_sample_positions :
    (∀ (avg_pb avg_pr : ℚ) (y_vals : Nat → ℚ) (pixmap : Pnm_ppm) (c r : Nat),
      c * 2 + 1 < pixmap.width → r * 2 + 1 < pixmap.height →
      ∃ p, decompress_pixel avg_pb avg_pr y_vals pixmap c r = .ok p ∧
        (∀ i, i < 4 → p.pixels (2 * c + i % 2) (2 * r + i / 2)
          = sample_pixel avg_pb avg_pr (y_vals i) pixmap.denominator) ∧
        (∀ x y, ¬ (x / 2 = c ∧ y / 2 = r) → p.pixels x y = pixmap.pixels x y)) ∧
    (∀ (index_of : ℚ → Nat) (col row : Nat) (elem : Pnm_rgb) (cl : Compression_Info),
      ¬ (col ≥ cl.orig_width - cl.orig_width % 2 ∨
        row ≥ cl.orig_height - cl.orig_height % 2) →
      y_val_pos col row = (row % 2) * 2 + (col % 2) ∧
      ∃ cl1 : Compression_Info,
        cl1.y_vals (y_val_pos col row) = (rgb_to_cv (scale_rgb elem cl.denominator)).1 ∧
        (∀ i, i ≠ y_val_pos col row → cl1.y_vals i = cl.y_vals i) ∧
        compress_cb index_of col row elem cl
          = (if row % 2 = 1 ∧ col % 2 = 1 then pack_pixel index_of cl1 col row else .ok cl1) ∧
        ∀ cl2, pack_pixel index_of cl1 col row = .ok cl2 →
          ∀ c r, ¬ (c = col / 2 ∧ r = row / 2) →
            cl2.compressed.elems c r = cl.compressed.elems c r) ∧
    (∀ c r i, i < 4 →
      (sample_position c r i).1 / 2 = c ∧ (sample_position c r i).2 / 2 = r ∧
        y_val_pos (sample_position c r i).1 (sample_position c r i).2 = i) ∧
    (∀ col row, y_val_pos col row < 4 ∧
      sample_position (col / 2) (row / 2) (y_val_pos col row) = (col, row)) ∧
    (∀ w h x y, x < 2 * w → y < 2 * h →
      ∃! t : Nat × Nat × Nat, t.1 < w ∧ t.2.1 < h ∧ t.2.2 < 4 ∧
        sample_position t.1 t.2.1 t.2.2 = (x, y)) ∧
    (∀ (chroma_of : Nat → ℚ) (a : UArray2) (D : Nat) (px : Nat → Nat → Pnm_rgb),
      (∀ c r, c < a.width → r < a.height →
        ∃ u, unpack_block chroma_of (a.elems c r) = .ok u) →
      ∃ p, UArray2_map_row_major a (decompress_cb chroma_of)
          ⟨a.width * 2, a.height * 2, D, px⟩ = .ok p ∧
        ∀ x y, x < a.width * 2 → y < a.height * 2 →
          p.pixels x y = decoded_pixel chroma_of a D x y) ∧
    (∀ c r, sample_position c r 0 = (2 * c, 2 * r) ∧
      sample_position c r 1 = (2 * c + 1, 2 * r) ∧
      sample_position c r 2 = (2 * c, 2 * r + 1) ∧
      sample_position c r 3 = (2 * c + 1, 2 * r + 1)) := by
  refine ⟨?_, ?_, sample_position_inv, y_val_pos_inv, ?_, ?_, ?_⟩
  · intro avg_pb avg_pr y_vals pixmap c r hc hr
    refine ⟨_, decompress_pixel_ok avg_pb avg_pr y_vals pixmap c r hc hr, ?_, ?_⟩
    · intro i hi
      have hpos : y_val_pos (2 * c + i % 2) (2 * r + i / 2) = i := by
        unfold y_val_pos
        omega
      show (if (2 * c + i % 2) / 2 = c ∧ (2 * r + i / 2) / 2 = r then _ else _) = _
      rw [if_pos ⟨by omega, by omega⟩, hpos]
    · intro x y hne
      show (if x / 2 = c ∧ y / 2 = r then _ else _) = _
      rw [if_neg hne]
  · intro index_of col row elem cl hin
    obtain ⟨cl1, h1, h2, h3, h4⟩ := compress_cb_luma index_of col row elem cl hin
    refine ⟨rfl, cl1, h1, h2, h4, ?_⟩
    intro cl2 hp c r hne
    rw [pack_pixel_frame hp c r hne, h3]
  · intro w h x y hx hy
    refine ⟨(x / 2, y / 2, y_val_pos x y), ⟨by show x / 2 < w; omega, by show y / 2 < h; omega,
      (y_val_pos_inv x y).1, (y_val_pos_inv x y).2⟩, ?_⟩
    rintro ⟨c, r, i⟩ ⟨-, -, hi, hpos⟩
    have hinv := sample_position_inv c r i hi
    simp only at hpos
    rw [hpos] at hinv
    simp only at hinv
    rw [hinv.1, hinv.2.1, hinv.2.2]
  · intro chroma_of a D px hall
    refine ⟨_, decode_grid chroma_of a hall D px, ?_⟩
    intro x y hx hy
    show (if x < a.width * 2 ∧ y < a.height * 2 then _ else _) = _
    rw [if_pos ⟨hx, hy⟩]
  · intro c r
    unfold sample_position
    refine ⟨?_, ?_, ?_, ?_⟩ <;> refine Prod.ext ?_ ?_ <;> simp <;> omega

/-! ## The per-pixel callback against the per-block encoding -/

theorem map_cells_cons {σ : Type} (pixels : Nat → Nat → Pnm_rgb)
    (apply : Nat → Nat → Pnm_rgb → σ → Except Err σ) (p : Nat × Nat) (rest : List (Nat × Nat))
    (cl : σ) :
    map_cells pixels apply (p :: rest) cl
      = (apply p.1 p.2 (pixels p.1 p.2) cl).bind fun cl =>
          map_cells pixels apply rest cl := rfl

theorem map_cells_append {σ : Type} (pixels : Nat → Nat → Pnm_rgb)
    (apply : Nat → Nat → Pnm_rgb → σ → Except Err σ) (l1 l2 : List (Nat × Nat)) :
    ∀ cl : σ, map_cells pixels apply (l1 ++ l2) cl
      = (map_cells pixels apply l1 cl).bind fun cl => map_cells pixels apply l2 cl := by
  induction l1 with
  | nil =>
    intro cl
    rfl
  | cons p l1 ih =>
    intro cl
    rw [List.cons_append, map_cells_cons, map_cells_cons, except_bind_assoc]
    cases apply p.1 p.2 (pixels p.1 p.2) cl with
    | error e => rfl
    | ok cl1 =>
      rw [except_bind_ok, except_bind_ok, ih]

/-- The callback `compress_cb` on a cell outside the even crop: nothing changes. -/
theorem compress_cb_skip (index_of : ℚ → Nat) (col row : Nat) (elem : Pnm_rgb)
    (cl : Compression_Info)
    (h : col ≥ cl.orig_width - cl.orig_width % 2 ∨ row ≥ cl.orig_height - cl.orig_height % 2) :
    compress_cb index_of col row elem cl = .ok cl := by
  unfold compress_cb
  rw [if_pos h]

/-- The callback `compress_cb` on a cell of the even crop that is not the last of its block:
the chromas are added to the accumulators and the luma is stored. -/
theorem compress_cb_acc (index_of : ℚ → Nat) (col row : Nat) (elem : Pnm_rgb) (cm : UArray2)
    (yv : Nat → ℚ) (pr pb : ℚ) (D ow oh : Nat)
    (hin : ¬ (col ≥ ow - ow % 2 ∨ row ≥ oh - oh % 2)) (hl : ¬ (row % 2 = 1 ∧ col % 2 = 1)) :
    compress_cb index_of col row elem ⟨cm, yv, pr, pb, D, ow, oh⟩
      = .ok ⟨cm, fun k => if k = y_val_pos col row then (rgb_to_cv (scale_rgb elem D)).1
          else yv k, pr + (rgb_to_cv (scale_rgb elem D)).2.2,
          pb + (rgb_to_cv (scale_rgb elem D)).2.1, D, ow, oh⟩ := by
  unfold compress_cb
  simp only
  rw [if_neg hin, if_neg hl]
  rfl

/-- The callback `compress_cb` on the cell at odd column and odd row of a block of the even
crop: after the accumulation `pack_pixel` is called. -/
theorem compress_cb_last (index_of : ℚ → Nat) (col row : Nat) (elem : Pnm_rgb) (cm : UArray2)
    (yv : Nat → ℚ) (pr pb : ℚ) (D ow oh : Nat)
    (hin : ¬ (col ≥ ow - ow % 2 ∨ row ≥ oh - oh % 2)) (hl : row % 2 = 1 ∧ col % 2 = 1) :
    compress_cb index_of col row elem ⟨cm, yv, pr, pb, D, ow, oh⟩
      = pack_pixel index_of ⟨cm, fun k => if k = y_val_pos col row then
            (rgb_to_cv (scale_rgb elem D)).1 else yv k,
          pr + (rgb_to_cv (scale_rgb elem D)).2.2,
          pb + (rgb_to_cv (scale_rgb elem D)).2.1, D, ow, oh⟩ col row := by
  unfold compress_cb
  simp only
  rw [if_neg hin, if_pos hl]
  rfl

/-- The function `pack_pixel` on a closure that holds the lumas and the chroma sums of four
pixels: it stores the block encoding of the four pixels and clears the accumulators. -/
theorem pack_pixel_block (index_of : ℚ → Nat) (cm : UArray2) (yv : Nat → ℚ) (pr pb : ℚ)
    (D ow oh col row : Nat) (p0 p1 p2 p3 : Pnm_rgb)
    (h0 : yv 0 = (rgb_to_cv (scale_rgb p0 D)).1) (h1 : yv 1 = (rgb_to_cv (scale_rgb p1 D)).1)
    (h2 : yv 2 = (rgb_to_cv (scale_rgb p2 D)).1) (h3 : yv 3 = (rgb_to_cv (scale_rgb p3 D)).1)
    (hpb : pb = (rgb_to_cv (scale_rgb p0 D)).2.1 + (rgb_to_cv (scale_rgb p1 D)).2.1
      + (rgb_to_cv (scale_rgb p2 D)).2.1 + (rgb_to_cv (scale_rgb p3 D)).2.1)
    (hpr : pr = (rgb_to_cv (scale_rgb p0 D)).2.2 + (rgb_to_cv (scale_rgb p1 D)).2.2
      + (rgb_to_cv (scale_rgb p2 D)).2.2 + (rgb_to_cv (scale_rgb p3 D)).2.2) :
    pack_pixel index_of ⟨cm, yv, pr, pb, D, ow, oh⟩ col row
      = (encode_block index_of D p0 p1 p2 p3).bind fun word =>
          (UArray2_store cm (col / 2) (row / 2) word).bind fun compressed =>
            .ok ⟨compressed, yv, 0, 0, D, ow, oh⟩ := by
  have hrt : ∀ x : ℚ, toInt (toUnsigned (quantize_dct x)) = quantize_dct x := fun x =>
    toInt_toUnsigned (by have := quantize_dct_bounds x; omega)
      (by have := quantize_dct_bounds x; omega)
  rw [pack_pixel_eq]
  unfold encode_block pix_to_dct
  simp only [hrt, h0, h1, h2, h3, hpb, hpr]
  rw [except_bind_assoc]

theorem except_bind_ok_id {α : Type} (m : Except Err α) :
    (m.bind fun a => (Except.ok a : Except Err α)) = m := by
  cases m with
  | error e => rfl
  | ok a => rfl

/-- One block of the traversal: the four cells of block `(i, j)` of the even crop, visited in
any order that ends with the cell at odd column and odd row, starting with zero
accumulators. The callback stores the block encoding of the four pixels at `(i, j)`, leaves
the four lumas in the luma array and the accumulators at zero. -/
theorem compress_block (index_of : ℚ → Nat) (px : Nat → Nat → Pnm_rgb) (cm : UArray2)
    (yv : Nat → ℚ) (D ow oh i j : Nat) (ord : List (Nat × Nat)) (hord : ord ∈ block_orders i j)
    (hi : 2 * i + 1 < ow - ow % 2) (hj : 2 * j + 1 < oh - oh % 2)
    (rest : List (Nat × Nat)) :
    map_cells px (compress_cb index_of) (ord ++ rest) ⟨cm, yv, 0, 0, D, ow, oh⟩
      = (encode_block index_of D (px (2 * i) (2 * j)) (px (2 * i + 1) (2 * j))
          (px (2 * i) (2 * j + 1)) (px (2 * i + 1) (2 * j + 1))).bind fun word =>
          (UArray2_store cm i j word).bind fun compressed =>
            map_cells px (compress_cb index_of) rest
              ⟨compressed, block_y_vals D (px (2 * i) (2 * j)) (px (2 * i + 1) (2 * j))
                (px (2 * i) (2 * j + 1)) (px (2 * i + 1) (2 * j + 1)) yv, 0, 0, D, ow, oh⟩ := by
  have e0 : y_val_pos (2 * i) (2 * j) = 0 := by unfold y_val_pos; omega
  have e1 : y_val_pos (2 * i + 1) (2 * j) = 1 := by unfold y_val_pos; omega
  have e2 : y_val_pos (2 * i) (2 * j + 1) = 2 := by unfold y_val_pos; omega
  have e3 : y_val_pos (2 * i + 1) (2 * j + 1) = 3 := by unfold y_val_pos; omega
  have half_i : (2 * i + 1) / 2 = i := by omega
  have half_j : (2 * j + 1) / 2 = j := by omega
  rw [map_cells_append]
  have key : map_cells px (compress_cb index_of) ord ⟨cm, yv, 0, 0, D, ow, oh⟩
      = (encode_block index_of D (px (2 * i) (2 * j)) (px (2 * i + 1) (2 * j))
          (px (2 * i) (2 * j + 1)) (px (2 * i + 1) (2 * j + 1))).bind fun word =>
          (UArray2_store cm i j word).bind fun compressed =>
            .ok ⟨compressed, block_y_vals D (px (2 * i) (2 * j)) (px (2 * i + 1) (2 * j))
              (px (2 * i) (2 * j + 1)) (px (2 * i + 1) (2 * j + 1)) yv, 0, 0, D, ow, oh⟩ := by
    have fin : ∀ (f : Nat → ℚ),
        (∀ k, f k = block_y_vals D (px (2 * i) (2 * j)) (px (2 * i + 1) (2 * j))
          (px (2 * i) (2 * j + 1)) (px (2 * i + 1) (2 * j + 1)) yv k) →
        ((encode_block index_of D (px (2 * i) (2 * j)) (px (2 * i + 1) (2 * j))
          (px (2 * i) (2 * j + 1)) (px (2 * i + 1) (2 * j + 1))).bind fun word =>
          (UArray2_store cm i j word).bind fun compressed =>
            (Except.ok ⟨compressed, f, 0, 0, D, ow, oh⟩ : Except Err Compression_Info))
        = (encode_block index_of D (px (2 * i) (2 * j)) (px (2 * i + 1) (2 * j))
          (px (2 * i) (2 * j + 1)) (px (2 * i + 1) (2 * j + 1))).bind fun word =>
          (UArray2_store cm i j word).bind fun compressed =>
            .ok ⟨compressed, block_y_vals D (px (2 * i) (2 * j)) (px (2 * i + 1) (2 * j))
              (px (2 * i) (2 * j + 1)) (px (2 * i + 1) (2 * j + 1)) yv, 0, 0, D, ow, oh⟩ := by
      intro f hf
      have : f = block_y_vals D (px (2 * i) (2 * j)) (px (2 * i + 1) (2 * j))
          (px (2 * i) (2 * j + 1)) (px (2 * i + 1) (2 * j + 1)) yv := funext hf
      rw [this]
    have step : ∀ (c1 c2 c3 : Nat × Nat),
        (c1 = (2 * i, 2 * j) ∨ c1 = (2 * i + 1, 2 * j) ∨ c1 = (2 * i, 2 * j + 1)) →
        (c2 = (2 * i, 2 * j) ∨ c2 = (2 * i + 1, 2 * j) ∨ c2 = (2 * i, 2 * j + 1)) →
        (c3 = (2 * i, 2 * j) ∨ c3 = (2 * i + 1, 2 * j) ∨ c3 = (2 * i, 2 * j + 1)) →
        c1 ≠ c2 → c1 ≠ c3 → c2 ≠ c3 →
        map_cells px (compress_cb index_of) [c1, c2, c3, (2 * i + 1, 2 * j + 1)]
            ⟨cm, yv, 0, 0, D, ow, oh⟩
          = (encode_block index_of D (px (2 * i) (2 * j)) (px (2 * i + 1) (2 * j))
              (px (2 * i) (2 * j + 1)) (px (2 * i + 1) (2 * j + 1))).bind fun word =>
              (UArray2_store cm i j word).bind fun compressed =>
                .ok ⟨compressed, block_y_vals D (px (2 * i) (2 * j)) (px (2 * i + 1) (2 * j))
                  (px (2 * i) (2 * j + 1)) (px (2 * i + 1) (2 * j + 1)) yv,
                  0, 0, D, ow, oh⟩ := by
      intro c1 c2 c3 h1 h2 h3 n12 n13 n23
      have hin : ∀ c : Nat × Nat,
          (c = (2 * i, 2 * j) ∨ c = (2 * i + 1, 2 * j) ∨ c = (2 * i, 2 * j + 1)) →
          ¬ (c.1 ≥ ow - ow % 2 ∨ c.2 ≥ oh - oh % 2) ∧ ¬ (c.2 % 2 = 1 ∧ c.1 % 2 = 1) := by
        intro c hc
        rcases hc with rfl | rfl | rfl <;> constructor <;> simp only <;> omega
      rw [map_cells_cons,
        compress_cb_acc index_of _ _ _ cm yv 0 0 D ow oh (hin c1 h1).1 (hin c1 h1).2,
        except_bind_ok, map_cells_cons,
        compress_cb_acc index_of _ _ _ cm _ _ _ D ow oh (hin c2 h2).1 (hin c2 h2).2,
        except_bind_ok, map_cells_cons,
        compress_cb_acc index_of _ _ _ cm _ _ _ D ow oh (hin c3 h3).1 (hin c3 h3).2,
        except_bind_ok, map_cells_cons,
        compress_cb_last index_of (2 * i + 1) (2 * j + 1) _ cm _ _ _ D ow oh
          (by omega) (by omega)]
      have hnil : (fun cl => map_cells px (compress_cb index_of) [] cl)
          = fun cl => Except.ok cl := rfl
      rw [hnil, except_bind_ok_id]
      rw [pack_pixel_block index_of cm _ _ _ D ow oh _ _ (px (2 * i) (2 * j))
          (px (2 * i + 1) (2 * j)) (px (2 * i) (2 * j + 1)) (px (2 * i + 1) (2 * j + 1))
          ?_ ?_ ?_ ?_ ?_ ?_, half_i, half_j]
      · refine fin _ ?_
        intro k
        unfold block_y_vals
        rcases h1 with rfl | rfl | rfl <;> rcases h2 with rfl | rfl | rfl <;>
          rcases h3 with rfl | rfl | rfl <;>
          first
          | exact absurd rfl n12
          | exact absurd rfl n13
          | exact absurd rfl n23
          | (simp only [e0, e1, e2, e3]
             by_cases k0 : k = 0
             · subst k0
               norm_num
             by_cases k1 : k = 1
             · subst k1
               norm_num
             by_cases k2 : k = 2
             · subst k2
               norm_num
             by_cases k3 : k = 3
             · subst k3
               norm_num
             simp only [k0, k1, k2, k3, if_false])
      all_goals
        rcases h1 with rfl | rfl | rfl <;> rcases h2 with rfl | rfl | rfl <;>
          rcases h3 with rfl | rfl | rfl <;>
          first
          | exact absurd rfl n12
          | exact absurd rfl n13
          | exact absurd rfl n23
          | (simp only [zero_add]
             ring1)
          | (simp only [e0, e1, e2, e3]
             norm_num)
    unfold block_orders at hord
    simp only [List.mem_cons, List.mem_singleton, List.not_mem_nil, or_false] at hord
    rcases hord with rfl | rfl | rfl | rfl | rfl | rfl
    · exact step _ _ _ (Or.inl rfl) (Or.inr (Or.inl rfl)) (Or.inr (Or.inr rfl))
        (by simp) (by simp) (by simp)
    · exact step _ _ _ (Or.inl rfl) (Or.inr (Or.inr rfl)) (Or.inr (Or.inl rfl))
        (by simp) (by simp) (by simp)
    · exact step _ _ _ (Or.inr (Or.inl rfl)) (Or.inl rfl) (Or.inr (Or.inr rfl))
        (by simp) (by simp) (by simp)
    · exact step _ _ _ (Or.inr (Or.inl rfl)) (Or.inr (Or.inr rfl)) (Or.inl rfl)
        (by simp) (by simp) (by simp)
    · exact step _ _ _ (Or.inr (Or.inr rfl)) (Or.inl rfl) (Or.inr (Or.inl rfl))
        (by simp) (by simp) (by simp)
    · exact step _ _ _ (Or.inr (Or.inr rfl)) (Or.inr (Or.inl rfl)) (Or.inl rfl)
        (by simp) (by simp) (by simp)
  rw [key, except_bind_assoc]
  cases encode_block index_of D (px (2 * i) (2 * j)) (px (2 * i + 1) (2 * j))
      (px (2 * i) (2 * j + 1)) (px (2 * i + 1) (2 * j + 1)) with
  | error e => rfl
  | ok word =>
    rw [except_bind_ok, except_bind_ok, except_bind_assoc]
    cases UArray2_store cm i j word with
    | error e => rfl
    | ok compressed => rfl

theorem encode_blocks_cons (index_of : ℚ → Nat) (pixels : Nat → Nat → Pnm_rgb) (b : Nat × Nat)
    (bs : List (Nat × Nat)) (cm : UArray2) (yv : Nat → ℚ) (pr pb : ℚ) (D ow oh : Nat) :
    encode_blocks index_of pixels (b :: bs) ⟨cm, yv, pr, pb, D, ow, oh⟩
      = (encode_block index_of D (pixels (2 * b.1) (2 * b.2)) (pixels (2 * b.1 + 1) (2 * b.2))
          (pixels (2 * b.1) (2 * b.2 + 1)) (pixels (2 * b.1 + 1) (2 * b.2 + 1))).bind
          fun word => (UArray2_store cm b.1 b.2 word).bind fun compressed =>
            encode_blocks index_of pixels bs
              ⟨compressed, block_y_vals D (pixels (2 * b.1) (2 * b.2))
                (pixels (2 * b.1 + 1) (2 * b.2)) (pixels (2 * b.1) (2 * b.2 + 1))
                (pixels (2 * b.1 + 1) (2 * b.2 + 1)) yv, 0, 0, D, ow, oh⟩ := rfl

/-- The fold of `compress_cb` over a traversal that visits block after block, the four cells
of each block together and the cell at odd column and odd row last, is the block-by-block
encoder. -/
theorem compress_blocks (index_of : ℚ → Nat) (px : Nat → Nat → Pnm_rgb)
    (ord : Nat × Nat → List (Nat × Nat)) (D ow oh : Nat) :
    ∀ (bs : List (Nat × Nat)) (cm : UArray2) (yv : Nat → ℚ),
      (∀ b ∈ bs, ord b ∈ block_orders b.1 b.2 ∧ 2 * b.1 + 1 < ow - ow % 2 ∧
        2 * b.2 + 1 < oh - oh % 2) →
      map_cells px (compress_cb index_of) (bs.flatMap ord) ⟨cm, yv, 0, 0, D, ow, oh⟩
        = encode_blocks index_of px bs ⟨cm, yv, 0, 0, D, ow, oh⟩ := by
  intro bs
  induction bs with
  | nil =>
    intro cm yv _
    rfl
  | cons b bs ih =>
    intro cm yv hb
    obtain ⟨h1, h2, h3⟩ := hb b (List.mem_cons_self _ _)
    rw [List.flatMap_cons, compress_block index_of px cm yv D ow oh b.1 b.2 (ord b) h1 h2 h3,
      encode_blocks_cons]
    cases encode_block index_of D (px (2 * b.1) (2 * b.2)) (px (2 * b.1 + 1) (2 * b.2))
        (px (2 * b.1) (2 * b.2 + 1)) (px (2 * b.1 + 1) (2 * b.2 + 1)) with
    | error e => rfl
    | ok word =>
      rw [except_bind_ok, except_bind_ok]
      cases UArray2_store cm b.1 b.2 word with
      | error e => rfl
      | ok compressed =>
        rw [except_bind_ok, except_bind_ok]
        exact ih compressed _ (fun b' hb' => hb b' (List.mem_cons_of_mem _ hb'))

/-- The block encoding of four pixels with samples at most the denominator, for a chroma
index function with values below 16: it returns a word in the packed layout. -/
theorem encode_block_ok (index_of : ℚ → Nat) (hidx : ∀ x, index_of x ≤ 15) {D : Nat}
    (hD : 0 < D) {p0 p1 p2 p3 : Pnm_rgb}
    (h0 : p0.red ≤ D ∧ p0.green ≤ D ∧ p0.blue ≤ D)
    (h1 : p1.red ≤ D ∧ p1.green ≤ D ∧ p1.blue ≤ D)
    (h2 : p2.red ≤ D ∧ p2.green ≤ D ∧ p2.blue ≤ D)
    (h3 : p3.red ≤ D ∧ p3.green ≤ D ∧ p3.blue ≤ D) :
    ∃ (a pb pr : Nat) (b c d : Int), a ≤ 63 ∧ (-15 ≤ b ∧ b ≤ 15) ∧ (-15 ≤ c ∧ c ≤ 15) ∧
      (-15 ≤ d ∧ d ≤ 15) ∧ pb ≤ 15 ∧ pr ≤ 15 ∧
      encode_block index_of D p0 p1 p2 p3
        = .ok (a * 2 ^ 26 + (b % 64).toNat * 2 ^ 20 + (c % 64).toNat * 2 ^ 14
          + (d % 64).toNat * 2 ^ 8 + pb * 2 ^ 4 + pr) := by
  have l0 := pixel_luma_bounds hD h0
  have l1 := pixel_luma_bounds hD h1
  have l2 := pixel_luma_bounds hD h2
  have l3 := pixel_luma_bounds hD h3
  obtain ⟨a, hqa, ha63, -⟩ := quantize_avg_brightness_ok
    (a := ((rgb_to_cv (scale_rgb p3 D)).1 + (rgb_to_cv (scale_rgb p2 D)).1
      + (rgb_to_cv (scale_rgb p1 D)).1 + (rgb_to_cv (scale_rgb p0 D)).1) / 4)
    (by linarith [l0.1, l1.1, l2.1, l3.1]) (by linarith [l0.2, l1.2, l2.2, l3.2])
  have hb := quantize_dct_bounds (((rgb_to_cv (scale_rgb p3 D)).1 + (rgb_to_cv (scale_rgb p2 D)).1
      - (rgb_to_cv (scale_rgb p1 D)).1 - (rgb_to_cv (scale_rgb p0 D)).1) / 4)
  have hc := quantize_dct_bounds (((rgb_to_cv (scale_rgb p3 D)).1 - (rgb_to_cv (scale_rgb p2 D)).1
      + (rgb_to_cv (scale_rgb p1 D)).1 - (rgb_to_cv (scale_rgb p0 D)).1) / 4)
  have hd := quantize_dct_bounds (((rgb_to_cv (scale_rgb p3 D)).1 - (rgb_to_cv (scale_rgb p2 D)).1
      - (rgb_to_cv (scale_rgb p1 D)).1 + (rgb_to_cv (scale_rgb p0 D)).1) / 4)
  have hpb := hidx (((rgb_to_cv (scale_rgb p0 D)).2.1 + (rgb_to_cv (scale_rgb p1 D)).2.1
    + (rgb_to_cv (scale_rgb p2 D)).2.1 + (rgb_to_cv (scale_rgb p3 D)).2.1) / 4)
  have hpr := hidx (((rgb_to_cv (scale_rgb p0 D)).2.2 + (rgb_to_cv (scale_rgb p1 D)).2.2
    + (rgb_to_cv (scale_rgb p2 D)).2.2 + (rgb_to_cv (scale_rgb p3 D)).2.2) / 4)
  refine ⟨a, _, _, _, _, _, ha63, hb, hc, hd, hpb, hpr, ?_⟩
  unfold encode_block
  simp only
  rw [hqa, except_bind_ok, bitpack_pixels_eq_word,
    bitpack_pixels_word_eq ha63 ⟨by omega, by omega⟩ ⟨by omega, by omega⟩ ⟨by omega, by omega⟩
      hpb hpr]
  refine congrArg Except.ok ?_
  exact Nat.mod_eq_of_lt (by omega)

/-- The block-by-block encoder on blocks that lie in the packed grid and in an image whose
samples are at most the denominator: it returns; the grid keeps its dimensions; the word at
every visited block is the block encoding of its four pixels; the other words are kept; the
accumulators are zero. -/
theorem encode_blocks_ok (index_of : ℚ → Nat) (hidx : ∀ x, index_of x ≤ 15)
    (px : Nat → Nat → Pnm_rgb) {D : Nat} (hD : 0 < D) (W H ow oh : Nat)
    (hpx : ∀ x y, x < W → y < H → (px x y).red ≤ D ∧ (px x y).green ≤ D ∧ (px x y).blue ≤ D) :
    ∀ (bs : List (Nat × Nat)) (cm : UArray2) (yv : Nat → ℚ),
      (∀ b ∈ bs, b.1 < cm.width ∧ b.2 < cm.height ∧ 2 * b.1 + 1 < W ∧ 2 * b.2 + 1 < H) →
      ∃ cl', encode_blocks index_of px bs ⟨cm, yv, 0, 0, D, ow, oh⟩ = .ok cl' ∧
        cl'.compressed.width = cm.width ∧ cl'.compressed.height = cm.height ∧
        cl'.avg_pb = 0 ∧ cl'.avg_pr = 0 ∧
        (∀ c r, (c, r) ∈ bs →
          encode_block index_of D (px (2 * c) (2 * r)) (px (2 * c + 1) (2 * r))
            (px (2 * c) (2 * r + 1)) (px (2 * c + 1) (2 * r + 1))
            = .ok (cl'.compressed.elems c r)) ∧
        (∀ c r, (c, r) ∉ bs → cl'.compressed.elems c r = cm.elems c r) := by
  intro bs
  induction bs with
  | nil =>
    intro cm yv _
    exact ⟨_, rfl, rfl, rfl, rfl, rfl, fun c r h => absurd h (List.not_mem_nil _),
      fun _ _ _ => rfl⟩
  | cons b bs ih =>
    intro cm yv hb
    obtain ⟨hb1, hb2, hb3, hb4⟩ := hb b (List.mem_cons_self _ _)
    obtain ⟨a, pb, pr, qb, qc, qd, -, -, -, -, -, -, hword⟩ :=
      encode_block_ok index_of hidx hD
        (hpx (2 * b.1) (2 * b.2) (by omega) (by omega))
        (hpx (2 * b.1 + 1) (2 * b.2) (by omega) (by omega))
        (hpx (2 * b.1) (2 * b.2 + 1) (by omega) (by omega))
        (hpx (2 * b.1 + 1) (2 * b.2 + 1) (by omega) (by omega))
    obtain ⟨cl', hcl, hw, hh, hpb0, hpr0, hin, hout⟩ := ih
      { cm with elems := fun c r => if c = b.1 ∧ r = b.2 then
          a * 2 ^ 26 + (qb % 64).toNat * 2 ^ 20 + (qc % 64).toNat * 2 ^ 14
            + (qd % 64).toNat * 2 ^ 8 + pb * 2 ^ 4 + pr else cm.elems c r }
      (block_y_vals D (px (2 * b.1) (2 * b.2)) (px (2 * b.1 + 1) (2 * b.2))
        (px (2 * b.1) (2 * b.2 + 1)) (px (2 * b.1 + 1) (2 * b.2 + 1)) yv)
      (fun b' hb' => hb b' (List.mem_cons_of_mem _ hb'))
    refine ⟨cl', ?_, hw, hh, hpb0, hpr0, ?_, ?_⟩
    · rw [encode_blocks_cons, hword, except_bind_ok, UArray2_store_ok _ hb1 hb2, except_bind_ok]
      exact hcl
    · intro c r hcr
      by_cases hmem : (c, r) ∈ bs
      · exact hin c r hmem
      · have hbe : (c, r) = b := by
          rcases List.mem_cons.mp hcr with h | h
          · exact h
          · exact absurd h hmem
        have hc : c = b.1 := by rw [← hbe]
        have hr : r = b.2 := by rw [← hbe]
        rw [hout c r hmem]
        show _ = Except.ok (if c = b.1 ∧ r = b.2 then _ else _)
        rw [if_pos ⟨hc, hr⟩, hc, hr]
        exact hword
    · intro c r hcr
      have hne : ¬ (c = b.1 ∧ r = b.2) := by
        intro h
        exact hcr (List.mem_cons.mpr (Or.inl (Prod.ext h.1 h.2)))
      rw [hout c r (fun h => hcr (List.mem_cons_of_mem _ h))]
      show (if c = b.1 ∧ r = b.2 then _ else _) = _
      rw [if_neg hne]

theorem block_y_vals_cells (D : Nat) (p0 p1 p2 p3 : Pnm_rgb) (old : Nat → ℚ) :
    block_y_vals D p0 p1 p2 p3 old 0 = (rgb_to_cv (scale_rgb p0 D)).1 ∧
    block_y_vals D p0 p1 p2 p3 old 1 = (rgb_to_cv (scale_rgb p1 D)).1 ∧
    block_y_vals D p0 p1 p2 p3 old 2 = (rgb_to_cv (scale_rgb p2 D)).1 ∧
    block_y_vals D p0 p1 p2 p3 old 3 = (rgb_to_cv (scale_rgb p3 D)).1 := by
  unfold block_y_vals
  refine ⟨?_, ?_, ?_, ?_⟩ <;> norm_num

theorem row_order_mem (b : Nat × Nat) : row_order b ∈ block_orders b.1 b.2 := by
  unfold row_order block_orders
  exact List.mem_cons_self _ _

/-! ## The odd trailing row and column -/

theorem except_map_ok {α β : Type} (f : α → β) (a : α) :
    (Except.ok a : Except Err α).map f = .ok (f a) := rfl

theorem except_map_error {α β : Type} (f : α → β) (e : Err) :
    (Except.error e : Except Err α).map f = .error e := rfl

theorem pack_pixel_crop (index_of : ℚ → Nat) (cm : UArray2) (yv : Nat → ℚ) (pr pb : ℚ)
    (D ow oh col row : Nat) :
    pack_pixel index_of (crop_info ⟨cm, yv, pr, pb, D, ow, oh⟩) col row
      = (pack_pixel index_of ⟨cm, yv, pr, pb, D, ow, oh⟩ col row).map crop_info := by
  show pack_pixel index_of ⟨cm, yv, pr, pb, D, ow - ow % 2, oh - oh % 2⟩ col row = _
  rw [pack_pixel_eq, pack_pixel_eq]
  dsimp only
  generalize quantize_avg_brightness (pix_to_dct yv).1 = q
  cases q with
  | error e => rfl
  | ok a =>
    rw [except_bind_ok, except_bind_ok]
    generalize bitpack_pixels a (toInt (toUnsigned (quantize_dct (pix_to_dct yv).2.1)))
        (toInt (toUnsigned (quantize_dct (pix_to_dct yv).2.2.1)))
        (toInt (toUnsigned (quantize_dct (pix_to_dct yv).2.2.2)))
        (index_of (pb / 4)) (index_of (pr / 4)) = w
    cases w with
    | error e => rfl
    | ok word =>
      rw [except_bind_ok, except_bind_ok]
      generalize UArray2_store cm (col / 2) (row / 2) word = st
      cases st with
      | error e => rfl
      | ok compressed => rfl

/-- The callback `compress_cb` does the same on the closure of an image and on the closure of
its even crop. -/
theorem compress_cb_crop (index_of : ℚ → Nat) (col row : Nat) (elem : Pnm_rgb)
    (cl : Compression_Info) :
    compress_cb index_of col row elem (crop_info cl)
      = (compress_cb index_of col row elem cl).map crop_info := by
  obtain ⟨cm, yv, pr, pb, D, ow, oh⟩ := cl
  have tw : (ow - ow % 2) - (ow - ow % 2) % 2 = ow - ow % 2 := by omega
  have th : (oh - oh % 2) - (oh - oh % 2) % 2 = oh - oh % 2 := by omega
  by_cases hg : col ≥ ow - ow % 2 ∨ row ≥ oh - oh % 2
  · have hgc : col ≥ (ow - ow % 2) - (ow - ow % 2) % 2 ∨
        row ≥ (oh - oh % 2) - (oh - oh % 2) % 2 := by
      rw [tw, th]
      exact hg
    rw [compress_cb_skip index_of col row elem ⟨cm, yv, pr, pb, D, ow, oh⟩ hg,
      compress_cb_skip index_of col row elem (crop_info ⟨cm, yv, pr, pb, D, ow, oh⟩) hgc]
    rfl
  · have hg' : ¬ (col ≥ (ow - ow % 2) - (ow - ow % 2) % 2 ∨
        row ≥ (oh - oh % 2) - (oh - oh % 2) % 2) := by
      rw [tw, th]
      exact hg
    by_cases hl : row % 2 = 1 ∧ col % 2 = 1
    · rw [compress_cb_last index_of col row elem cm yv pr pb D ow oh hg hl]
      show compress_cb index_of col row elem
        ⟨cm, yv, pr, pb, D, ow - ow % 2, oh - oh % 2⟩ = _
      rw [compress_cb_last index_of col row elem cm yv pr pb D _ _ hg' hl]
      exact pack_pixel_crop index_of cm _ _ _ D ow oh col row
    · rw [compress_cb_acc index_of col row elem cm yv pr pb D ow oh hg hl]
      show compress_cb index_of col row elem
        ⟨cm, yv, pr, pb, D, ow - ow % 2, oh - oh % 2⟩ = _
      rw [compress_cb_acc index_of col row elem cm yv pr pb D _ _ hg' hl]
      rfl

/-- The callback `compress_cb` keeps the dimensions held in the closure. -/
theorem compress_cb_dims {index_of : ℚ → Nat} {col row : Nat} {elem : Pnm_rgb}
    {cl cl1 : Compression_Info} (h : compress_cb index_of col row elem cl = .ok cl1) :
    cl1.orig_width = cl.orig_width ∧ cl1.orig_height = cl.orig_height := by
  obtain ⟨cm, yv, pr, pb, D, ow, oh⟩ := cl
  by_cases hg : col ≥ ow - ow % 2 ∨ row ≥ oh - oh % 2
  · rw [compress_cb_skip index_of col row elem _ hg] at h
    injection h with h
    subst h
    exact ⟨rfl, rfl⟩
  · by_cases hl : row % 2 = 1 ∧ col % 2 = 1
    · rw [compress_cb_last index_of col row elem cm yv pr pb D ow oh hg hl, pack_pixel_eq] at h
      revert h
      cases quantize_avg_brightness (pix_to_dct fun k =>
          if k = y_val_pos col row then (rgb_to_cv (scale_rgb elem D)).1 else yv k).1 with
      | error e =>
        intro h
        cases h
      | ok a =>
        rw [except_bind_ok]
        cases bitpack_pixels a _ _ _ _ _ with
        | error e =>
          intro h
          cases h
        | ok word =>
          rw [except_bind_ok]
          cases UArray2_store cm (col / 2) (row / 2) word with
          | error e =>
            intro h
            cases h
          | ok compressed =>
            intro h
            injection h with h
            subst h
            exact ⟨rfl, rfl⟩
    · rw [compress_cb_acc index_of col row elem cm yv pr pb D ow oh hg hl] at h
      injection h with h
      subst h
      exact ⟨rfl, rfl⟩

/-- The fold of `compress_cb` over the cells of an image, against the fold over those of the
cells that lie in the even crop, on an image that agrees with the first on the crop. -/
theorem map_cells_crop (index_of : ℚ → Nat) (px px' : Nat → Nat → Pnm_rgb) (W H : Nat)
    (hpx : ∀ x y, x < W - W % 2 → y < H - H % 2 → px' x y = px x y) :
    ∀ (cells : List (Nat × Nat)) (cl : Compression_Info), cl.orig_width = W →
      cl.orig_height = H →
      map_cells px' (compress_cb index_of) (cells.filter (in_crop W H)) (crop_info cl)
        = (map_cells px (compress_cb index_of) cells cl).map crop_info := by
  intro cells
  induction cells with
  | nil =>
    intro cl _ _
    rfl
  | cons p cells ih =>
    intro cl hw hh
    by_cases hp : in_crop W H p = true
    · have hp' := hp
      unfold in_crop at hp'
      rw [Bool.and_eq_true, decide_eq_true_eq, decide_eq_true_eq] at hp'
      rw [List.filter_cons_of_pos hp, map_cells_cons, map_cells_cons, hpx p.1 p.2 hp'.1 hp'.2,
        compress_cb_crop]
      cases hstep : compress_cb index_of p.1 p.2 (px p.1 p.2) cl with
      | error e => rfl
      | ok cl1 =>
        obtain ⟨d1, d2⟩ := compress_cb_dims hstep
        rw [except_map_ok, except_bind_ok, except_bind_ok]
        exact ih cl1 (d1.trans hw) (d2.trans hh)
    · have hp' : p.1 ≥ cl.orig_width - cl.orig_width % 2 ∨
          p.2 ≥ cl.orig_height - cl.orig_height % 2 := by
        rw [hw, hh]
        unfold in_crop at hp
        rw [Bool.and_eq_true, decide_eq_true_eq, decide_eq_true_eq] at hp
        omega
      rw [List.filter_cons_of_neg hp, map_cells_cons,
        compress_cb_skip index_of p.1 p.2 _ cl hp', except_bind_ok]
      exact ih cl hw hh

theorem block_cells_filter_crop (W H bi bj : Nat) :
    (block_cells W H bi bj).filter (in_crop W H) = block_cells (W - W % 2) (H - H % 2) bi bj := by
  unfold block_cells
  rw [List.filter_filter]
  refine List.filter_congr ?_
  intro p _
  unfold in_crop
  by_cases h1 : p.1 < W - W % 2 <;> by_cases h2 : p.2 < H - H % 2
  · have h3 : p.1 < W := by omega
    have h4 : p.2 < H := by omega
    simp [h1, h2, h3, h4]
  · simp [h1, h2]
  · simp [h1, h2]
  · simp [h1, h2]

theorem block_cells_nil_col (W H bj : Nat) : block_cells (W - W % 2) H (W / 2) bj = [] := by
  unfold block_cells
  rw [List.filter_eq_nil_iff]
  intro p hp
  have hcol : 2 * (W / 2) ≤ p.1 := by
    simp only [List.mem_cons, List.mem_singleton, List.not_mem_nil, or_false] at hp
    rcases hp with rfl | rfl | rfl | rfl <;> simp
  have hn : ¬ p.1 < W - W % 2 := by omega
  simp [hn]

theorem block_cells_nil_row (W H bi : Nat) : block_cells W (H - H % 2) bi (H / 2) = [] := by
  unfold block_cells
  rw [List.filter_eq_nil_iff]
  intro p hp
  have hrow : 2 * (H / 2) ≤ p.2 := by
    simp only [List.mem_cons, List.mem_singleton, List.not_mem_nil, or_false] at hp
    rcases hp with rfl | rfl | rfl | rfl <;> simp
  have hn : ¬ p.2 < H - H % 2 := by omega
  simp [hn]

theorem range_half_succ (n : Nat) :
    List.range ((n + 1) / 2) = List.range (n / 2) ∨
      List.range ((n + 1) / 2) = List.range (n / 2) ++ [n / 2] := by
  by_cases h : n % 2 = 0
  · left
    have : (n + 1) / 2 = n / 2 := by omega
    rw [this]
  · right
    have : (n + 1) / 2 = (n / 2).succ := by omega
    rw [this, List.range_succ]

/-- The block-major order of an image, restricted to the cells of the even crop, is the
block-major order of the crop. -/
theorem block_major_cells_crop (W H : Nat) :
    (block_major_cells W H).filter (in_crop W H) = block_major_cells (W - W % 2) (H - H % 2) := by
  have hw : (W - W % 2 + 1) / 2 = W / 2 := by omega
  have hh : (H - H % 2 + 1) / 2 = H / 2 := by omega
  have inner : ∀ bj, ((List.range ((W + 1) / 2)).flatMap fun bi =>
        block_cells (W - W % 2) (H - H % 2) bi bj)
      = (List.range (W / 2)).flatMap fun bi => block_cells (W - W % 2) (H - H % 2) bi bj := by
    intro bj
    rcases range_half_succ W with h | h
    · rw [h]
    · rw [h, List.flatMap_append]
      show _ ++ (block_cells (W - W % 2) (H - H % 2) (W / 2) bj ++ []) = _
      rw [block_cells_nil_col, List.append_nil, List.append_nil]
  unfold block_major_cells
  rw [List.filter_flatMap, hw, hh]
  have step : ∀ bj, List.filter (in_crop W H)
        ((List.range ((W + 1) / 2)).flatMap fun bi => block_cells W H bi bj)
      = (List.range (W / 2)).flatMap fun bi => block_cells (W - W % 2) (H - H % 2) bi bj := by
    intro bj
    rw [List.filter_flatMap, ← inner bj]
    exact List.flatMap_congr fun bi _ => block_cells_filter_crop W H bi bj
  rw [List.flatMap_congr fun bj _ => step bj]
  rcases range_half_succ H with h | h
  · rw [h]
  · rw [h, List.flatMap_append]
    have hnil : ([H / 2].flatMap fun bj =>
        (List.range (W / 2)).flatMap fun bi => block_cells (W - W % 2) (H - H % 2) bi bj)
        = [] := by
      rw [List.flatMap_eq_nil_iff]
      intro bj hbj
      rw [List.mem_singleton] at hbj
      subst hbj
      rw [List.flatMap_eq_nil_iff]
      intro bi _
      exact block_cells_nil_row _ H bi
    rw [hnil, List.append_nil]

/-- The encoder on an image and on an image that agrees with it on its even crop and has the
dimensions of the crop: the same result for any order of the cells. -/
theorem compress_image_crop (index_of : ℚ → Nat) (image crop : Pnm_ppm)
    (cells : List (Nat × Nat)) (y_vals : Nat → ℚ)
    (hcw : crop.width = image.width - image.width % 2)
    (hch : crop.height = image.height - image.height % 2)
    (hD : crop.denominator = image.denominator)
    (hpx : ∀ x y, x < image.width - image.width % 2 → y < image.height - image.height % 2 →
      crop.pixels x y = image.pixels x y) :
    compress_image index_of crop (cells.filter (in_crop image.width image.height)) y_vals
      = compress_image index_of image cells y_vals := by
  have hinit : initial_info crop y_vals = crop_info (initial_info image y_vals) := by
    unfold initial_info crop_info
    have h1 : crop.width / 2 = image.width / 2 := by rw [hcw]; omega
    have h2 : crop.height / 2 = image.height / 2 := by rw [hch]; omega
    rw [h1, h2, hD, hcw, hch]
  unfold compress_image
  rw [hinit, map_cells_crop index_of image.pixels crop.pixels image.width image.height hpx cells
    (initial_info image y_vals) rfl rfl]
  cases map_cells image.pixels (compress_cb index_of) cells (initial_info image y_vals) with
  | error e => rfl
  | ok cl => rfl

/-! ## The claim about the odd trailing row and column -/

/-- C22: the odd trailing row and column are ignored. For every image of width `W` and height
`H`, every image of `W - W mod 2` by `H - H mod 2` pixels with the same denominator that
agrees with it on those pixels (its top-left crop), and every content of the luma array at the
start: (1) for any order `cells` of the cells of the image, the encoder gives the same result
(the same packed grid, word for word, or the same error) on the image with `cells` and on the
crop with the cells of `cells` that lie in the crop; (2) the block-major order of the image
restricted to the crop is the block-major order of the crop; (3) so the two block-major
encodings agree; (4) the 3 by 3 image `sample_image` and its 2 by 2 crop give the same grid of
one word. -/
theorem C22_odd_edges_ignored (index_of : ℚ → Nat) (image crop : Pnm_ppm)
    (y_vals : Nat → ℚ)
    (hcw : crop.width = image.width - image.width % 2)
    (hch : crop.height = image.height - image.height % 2)
    (hD : crop.denominator = image.denominator)
    (hpx : ∀ x y, x < image.width - image.width % 2 → y < image.height - image.height % 2 →
      crop.pixels x y = image.pixels x y) :
    (∀ cells : List (Nat × Nat),
      compress_image index_of image cells y_vals
        = compress_image index_of crop (cells.filter (in_crop image.width image.height))
            y_vals) ∧
    (block_major_cells image.width image.height).filter (in_crop image.width image.height)
      = block_major_cells crop.width crop.height ∧
    compress_image index_of image (block_major_cells image.width image.height) y_vals
      = compress_image index_of crop (block_major_cells crop.width crop.height) y_vals ∧
    (compress_image const_index sample_image (block_major_cells 3 3) y_vals
      = compress_image const_index sample_crop (block_major_cells 2 2) y_vals ∧
     ∃ g, compress_image const_index sample_crop (block_major_cells 2 2) y_vals = .ok g ∧
       g.width = 1 ∧ g.height = 1) := by
  have h1 : ∀ cells : List (Nat × Nat),
      compress_image index_of image cells y_vals
        = compress_image index_of crop (cells.filter (in_crop image.width image.height))
            y_vals :=
    fun cells => (compress_image_crop index_of image crop cells y_vals hcw hch hD hpx).symm
  have h2 : (block_major_cells image.width image.height).filter
      (in_crop image.width image.height) = block_major_cells crop.width crop.height := by
    rw [hcw, hch]
    exact block_major_cells_crop image.width image.height
  refine ⟨h1, h2, ?_, ?_, ?_⟩
  · rw [h1, h2]
  · have e := compress_image_crop const_index sample_image sample_crop (block_major_cells 3 3)
      y_vals rfl rfl rfl (fun _ _ _ _ => rfl)
    have f : (block_major_cells 3 3).filter (in_crop sample_image.width sample_image.height)
        = block_major_cells 2 2 := by decide
    rw [f] at e
    exact e.symm
  · have hmem : ∀ b ∈ [((0 : Nat), (0 : Nat))], row_order b ∈ block_orders b.1 b.2 ∧
        2 * b.1 + 1 < 2 - 2 % 2 ∧ 2 * b.2 + 1 < 2 - 2 % 2 := by
      intro b hb
      rw [List.mem_singleton] at hb
      subst hb
      exact ⟨row_order_mem _, by decide, by decide⟩
    have hbm : block_major_cells 2 2 = [((0 : Nat), (0 : Nat))].flatMap row_order := by decide
    have href := compress_blocks const_index sample_crop.pixels row_order 255 2 2
      [((0 : Nat), (0 : Nat))] (UArray2_new 1 1) y_vals hmem
    obtain ⟨cl', hcl, hw, hh, -⟩ := encode_blocks_ok const_index
      (fun _ => (by show (7 : Nat) ≤ 15; decide)) sample_crop.pixels
      (show 0 < 255 by decide) 2 2 2 2
      (fun x y hx hy => by
        show 80 * x + 10 * y ≤ 255 ∧ 30 * x + 100 ≤ 255 ∧ 90 * y + 5 ≤ 255
        omega)
      [((0 : Nat), (0 : Nat))] (UArray2_new 1 1) y_vals
      (fun b hb => by
        rw [List.mem_singleton] at hb
        subst hb
        decide)
    refine ⟨cl'.compressed, ?_, hw, hh⟩
    unfold compress_image
    rw [hbm]
    show (map_cells sample_crop.pixels (compress_cb const_index)
      ([((0 : Nat), (0 : Nat))].flatMap row_order)
      ⟨UArray2_new 1 1, y_vals, 0, 0, 255, 2, 2⟩).bind _ = _
    rw [href, hcl]
    rfl

/-- Witness for C22: the 3 by 3 image `sample_image` and its crop `sample_crop`, in block-major
order. -/
theorem C22_odd_edges_ignored_witness :
    (sample_crop.width = sample_image.width - sample_image.width % 2 ∧
      sample_crop.height = sample_image.height - sample_image.height % 2 ∧
      sample_crop.denominator = sample_image.denominator ∧
      ∀ x y, x < sample_image.width - sample_image.width % 2 →
        y < sample_image.height - sample_image.height % 2 →
        sample_crop.pixels x y = sample_image.pixels x y) ∧
    compress_image const_index sample_image
        (block_major_cells sample_image.width sample_image.height) (fun _ => 0)
      = compress_image const_index sample_crop
          (block_major_cells sample_crop.width sample_crop.height) (fun _ => 0) :=
  ⟨⟨rfl, rfl, rfl, fun _ _ _ _ => rfl⟩,
    (C22_odd_edges_ignored const_index sample_image sample_crop (fun _ => 0) rfl rfl rfl
      (fun _ _ _ _ => rfl)).2.2.1⟩

/-! ## Solid gray blocks -/

theorem rgb_to_cv_gray (g D : Nat) :
    rgb_to_cv (scale_rgb ⟨g, g, g⟩ D) = ((g : ℚ) / D, 0, 0) := by
  unfold rgb_to_cv scale_rgb
  simp only
  refine Prod.ext ?_ (Prod.ext ?_ ?_)
  · show 299 / 1000 * ((g : ℚ) / D) + 587 / 1000 * ((g : ℚ) / D) + 114 / 1000 * ((g : ℚ) / D)
      = (g : ℚ) / D
    ring
  · show -(168736 / 1000000) * ((g : ℚ) / D) - 331264 / 1000000 * ((g : ℚ) / D)
      + 5 / 10 * ((g : ℚ) / D) = 0
    ring
  · show 5 / 10 * ((g : ℚ) / D) - 418688 / 1000000 * ((g : ℚ) / D)
      - 81312 / 1000000 * ((g : ℚ) / D) = 0
    ring

theorem quantize_dct_zero : quantize_dct 0 = 0 := by
  unfold quantize_dct
  rw [if_neg (by norm_num), if_neg (by norm_num), zero_mul, c_round_zero]

theorem gray_ratio_bounds {g D : Nat} (hD : 0 < D) (hg : g ≤ D) :
    0 ≤ (g : ℚ) / D ∧ (g : ℚ) / D ≤ 1 := by
  have hDq : (0 : ℚ) < D := by exact_mod_cast hD
  have hgq : (g : ℚ) ≤ D := by exact_mod_cast hg
  exact ⟨div_nonneg (by positivity) (le_of_lt hDq), (div_le_one hDq).mpr hgq⟩

/-- The block encoding of four equal gray pixels. -/
theorem encode_block_gray (index_of : ℚ → Nat) (hidx : index_of 0 ≤ 15) {g D a : Nat}
    (ha : quantize_avg_brightness ((g : ℚ) / D) = .ok a) (ha63 : a ≤ 63) :
    encode_block index_of D ⟨g, g, g⟩ ⟨g, g, g⟩ ⟨g, g, g⟩ ⟨g, g, g⟩
      = .ok (a * 2 ^ 26 + index_of 0 * 2 ^ 4 + index_of 0) := by
  unfold encode_block
  simp only [rgb_to_cv_gray]
  have e1 : ((g : ℚ) / D + (g : ℚ) / D + (g : ℚ) / D + (g : ℚ) / D) / 4 = (g : ℚ) / D := by ring
  have e2 : ((g : ℚ) / D + (g : ℚ) / D - (g : ℚ) / D - (g : ℚ) / D) / 4 = 0 := by ring
  have e3 : ((g : ℚ) / D - (g : ℚ) / D + (g : ℚ) / D - (g : ℚ) / D) / 4 = 0 := by ring
  have e4 : ((g : ℚ) / D - (g : ℚ) / D - (g : ℚ) / D + (g : ℚ) / D) / 4 = 0 := by ring
  have e5 : ((0 : ℚ) + 0 + 0 + 0) / 4 = 0 := by norm_num
  rw [e1, e2, e3, e4, e5, ha, except_bind_ok, quantize_dct_zero, bitpack_pixels_eq_word,
    bitpack_pixels_word_eq ha63 ⟨by norm_num, by norm_num⟩ ⟨by norm_num, by norm_num⟩
      ⟨by norm_num, by norm_num⟩ hidx hidx]
  refine congrArg Except.ok ?_
  show (a * 2 ^ 26 + ((0 : Int) % 64).toNat * 2 ^ 20 + ((0 : Int) % 64).toNat * 2 ^ 14
    + ((0 : Int) % 64).toNat * 2 ^ 8 + index_of 0 * 2 ^ 4 + index_of 0) % 2 ^ 32 = _
  have h0 : ((0 : Int) % 64).toNat = 0 := by decide
  rw [h0]
  omega

/-- The fold of `compress_cb` over the four cells of a 2 by 2 image of equal gray pixels. -/
theorem gray_fold (index_of : ℚ → Nat) (hidx : index_of 0 ≤ 15) {g D a : Nat}
    (ha : quantize_avg_brightness ((g : ℚ) / D) = .ok a) (ha63 : a ≤ 63) (y_vals : Nat → ℚ) :
    ∃ cl', map_cells (fun _ _ => ⟨g, g, g⟩) (compress_cb index_of) (block_major_cells 2 2)
        (initial_info ⟨2, 2, D, fun _ _ => ⟨g, g, g⟩⟩ y_vals) = .ok cl' ∧
      cl'.compressed.elems 0 0 = a * 2 ^ 26 + index_of 0 * 2 ^ 4 + index_of 0 ∧
      cl'.avg_pb = 0 ∧ cl'.avg_pr = 0 := by
  have henc := encode_block_gray index_of hidx ha ha63
  have hmem : ∀ b ∈ [((0 : Nat), (0 : Nat))], row_order b ∈ block_orders b.1 b.2 ∧
      2 * b.1 + 1 < 2 - 2 % 2 ∧ 2 * b.2 + 1 < 2 - 2 % 2 := by
    intro b hb
    rw [List.mem_singleton] at hb
    subst hb
    exact ⟨row_order_mem _, by decide, by decide⟩
  have hbm : block_major_cells 2 2 = [((0 : Nat), (0 : Nat))].flatMap row_order := by decide
  have href := compress_blocks index_of (fun _ _ => (⟨g, g, g⟩ : Pnm_rgb)) row_order D 2 2
    [((0 : Nat), (0 : Nat))] (UArray2_new 1 1) y_vals hmem
  have hst : UArray2_store (UArray2_new 1 1) 0 0 (a * 2 ^ 26 + index_of 0 * 2 ^ 4 + index_of 0)
      = .ok ⟨1, 1, fun c r => if c = 0 ∧ r = 0 then
          a * 2 ^ 26 + index_of 0 * 2 ^ 4 + index_of 0 else 0⟩ :=
    UArray2_store_ok _ (show 0 < (UArray2_new 1 1).width from Nat.one_pos)
      (show 0 < (UArray2_new 1 1).height from Nat.one_pos)
  have hres : map_cells (fun _ _ => (⟨g, g, g⟩ : Pnm_rgb)) (compress_cb index_of)
      ([((0 : Nat), (0 : Nat))].flatMap row_order) ⟨UArray2_new 1 1, y_vals, 0, 0, D, 2, 2⟩
      = .ok ⟨⟨1, 1, fun c r => if c = 0 ∧ r = 0 then
            a * 2 ^ 26 + index_of 0 * 2 ^ 4 + index_of 0 else 0⟩,
          block_y_vals D ⟨g, g, g⟩ ⟨g, g, g⟩ ⟨g, g, g⟩ ⟨g, g, g⟩ y_vals, 0, 0, D, 2, 2⟩ := by
    rw [href, encode_blocks_cons]
    show (encode_block index_of D ⟨g, g, g⟩ ⟨g, g, g⟩ ⟨g, g, g⟩ ⟨g, g, g⟩).bind _ = _
    rw [henc, except_bind_ok]
    show (UArray2_store (UArray2_new 1 1) 0 0 _).bind _ = _
    rw [hst, except_bind_ok]
    rfl
  have hinit : initial_info ⟨2, 2, D, fun _ _ => (⟨g, g, g⟩ : Pnm_rgb)⟩ y_vals
      = ⟨UArray2_new 1 1, y_vals, 0, 0, D, 2, 2⟩ := by
    unfold initial_info
    norm_num
  rw [hbm, hinit, hres]
  have he : (if (0 : Nat) = 0 ∧ (0 : Nat) = 0 then
      a * 2 ^ 26 + index_of 0 * 2 ^ 4 + index_of 0 else (0 : Nat))
      = a * 2 ^ 26 + index_of 0 * 2 ^ 4 + index_of 0 := if_pos ⟨rfl, rfl⟩
  exact ⟨_, rfl, he, rfl, rfl⟩

theorem gray_word_eq (a i0 : Nat) :
    a * 2 ^ 26 + i0 * 2 ^ 4 + i0
      = a * 2 ^ 26 + ((0 : Int) % 64).toNat * 2 ^ 20 + ((0 : Int) % 64).toNat * 2 ^ 14
        + ((0 : Int) % 64).toNat * 2 ^ 8 + i0 * 2 ^ 4 + i0 := by
  have h0 : ((0 : Int) % 64).toNat = 0 := by decide
  rw [h0]
  omega

theorem gray_gets {a i0 lsb : Nat} (hi : i0 ≤ 15)
    (hl : lsb = 20 ∨ lsb = 14 ∨ lsb = 8) :
    Bitpack_gets (a * 2 ^ 26 + i0 * 2 ^ 4 + i0) 6 lsb = .ok 0 := by
  have h0 : ((0 : Int) % 64).toNat = 0 := by decide
  have d20 : (a * 2 ^ 26 + i0 * 2 ^ 4 + i0) / 2 ^ 20 = a * 64 := by omega
  have d14 : (a * 2 ^ 26 + i0 * 2 ^ 4 + i0) / 2 ^ 14 = a * 64 * 64 := by omega
  have d8 : (a * 2 ^ 26 + i0 * 2 ^ 4 + i0) / 2 ^ 8 = a * 4096 * 64 := by omega
  rcases hl with rfl | rfl | rfl
  · exact gets_six_of_field (by norm_num) (by norm_num) (by norm_num) (by rw [h0, d20]; omega)
  · exact gets_six_of_field (by norm_num) (by norm_num) (by norm_num) (by rw [h0, d14]; omega)
  · exact gets_six_of_field (by norm_num) (by norm_num) (by norm_num) (by rw [h0, d8]; omega)

/-- Decoding the word of a gray block. -/
theorem gray_decode (chroma_of : Nat → ℚ) {a i0 : Nat} (ha : a ≤ 63) (hi : i0 ≤ 15) :
    ∃ y : Nat → ℚ,
      unpack_block chroma_of (a * 2 ^ 26 + i0 * 2 ^ 4 + i0)
        = .ok (chroma_of i0, chroma_of i0, y) ∧
      (∀ i, i < 4 → y i = (a : ℚ) / 63) ∧
      ∀ (pixmap : Pnm_ppm) (col row : Nat), col * 2 + 1 < pixmap.width →
        row * 2 + 1 < pixmap.height →
        ∃ p, decompress_cb chroma_of col row (a * 2 ^ 26 + i0 * 2 ^ 4 + i0) pixmap = .ok p ∧
          ∀ i, i < 4 → p.pixels (2 * col + i % 2) (2 * row + i / 2)
            = sample_pixel (chroma_of i0) (chroma_of i0) ((a : ℚ) / 63) pixmap.denominator := by
  have hunpack : unpack_block chroma_of (a * 2 ^ 26 + i0 * 2 ^ 4 + i0)
      = .ok (chroma_of i0, chroma_of i0,
          dct_to_brightness ((a : ℚ) / 63, ((0 : Int) : ℚ) / 50, ((0 : Int) : ℚ) / 50,
            ((0 : Int) : ℚ) / 50)) := by
    rw [gray_word_eq]
    exact unpack_block_packed chroma_of ha ⟨by norm_num, by norm_num⟩
      ⟨by norm_num, by norm_num⟩ ⟨by norm_num, by norm_num⟩ hi hi
  have hy : ∀ i, i < 4 → dct_to_brightness ((a : ℚ) / 63, ((0 : Int) : ℚ) / 50,
      ((0 : Int) : ℚ) / 50, ((0 : Int) : ℚ) / 50) i = (a : ℚ) / 63 := by
    intro i hi
    unfold dct_to_brightness
    simp only
    have : i = 0 ∨ i = 1 ∨ i = 2 ∨ i = 3 := by omega
    rcases this with rfl | rfl | rfl | rfl <;> norm_num
  refine ⟨_, hunpack, hy, ?_⟩
  intro pixmap col row hc hr
  have hdec : decompress_cb chroma_of col row (a * 2 ^ 26 + i0 * 2 ^ 4 + i0) pixmap
      = decompress_pixel (chroma_of i0) (chroma_of i0)
          (dct_to_brightness ((a : ℚ) / 63, ((0 : Int) : ℚ) / 50, ((0 : Int) : ℚ) / 50,
            ((0 : Int) : ℚ) / 50)) pixmap col row := by
    unfold decompress_cb
    rw [hunpack, except_bind_ok]
  rw [hdec, decompress_pixel_ok _ _ _ pixmap col row hc hr]
  refine ⟨_, rfl, ?_⟩
  intro i hi
  have hpos : y_val_pos (2 * col + i % 2) (2 * row + i / 2) = i := by
    unfold y_val_pos
    omega
  show (if (2 * col + i % 2) / 2 = col ∧ (2 * row + i / 2) / 2 = row then _ else _) = _
  rw [if_pos ⟨by omega, by omega⟩, hpos, hy i hi]

theorem gray_tolerance {g D a : Nat} (hD : 0 < D)
    (hround : (a : Int) = c_round ((g : ℚ) / D * 63)) :
    |(a : ℚ) / 63 - (g : ℚ) / D| ≤ 1 / 126 := by
  have hDq : (0 : ℚ) < D := by exact_mod_cast hD
  have hy0 : (0 : ℚ) ≤ (g : ℚ) / D * 63 := by positivity
  obtain ⟨h1, h2⟩ := (c_round_spec ((g : ℚ) / D * 63)).1 hy0
  have hcast : ((a : Int) : ℚ) = (a : ℚ) := Int.cast_natCast a
  rw [← hround, hcast] at h1 h2
  rw [abs_le]
  constructor <;> linarith

/-- C23: solid gray survives within quantization tolerance. For a denominator `D > 0`, a gray
level `g ≤ D` and a chroma index function with `index_of 0 ≤ 15`: every pixel `(g, g, g)` has
luma `g / D` and zero chromas; the four chromas sum to zero; the block transform of the four
lumas is `(g / D, 0, 0, 0)` and the detail code of `0` is `0`; the average code is
`a = round (63 g / D)`, at most 63; the block encoding is the word with the fields
`a, 0, 0, 0, index_of 0, index_of 0`, and it is also what the fold of `compress_cb` over the
four cells stores. Decoding that word returns the chromas of `index_of 0` and four lumas
equal to `a / 63`, hence four identical pixels, and `|a / 63 - g / D| ≤ 1 / 126`. -/
theorem C23_solid_gray (index_of : ℚ → Nat) (chroma_of : Nat → ℚ) (D g : Nat) (hD : 0 < D)
    (hg : g ≤ D) (hidx : index_of 0 ≤ 15) :
    rgb_to_cv (scale_rgb ⟨g, g, g⟩ D) = ((g : ℚ) / D, 0, 0) ∧
    (rgb_to_cv (scale_rgb ⟨g, g, g⟩ D)).2.1 + (rgb_to_cv (scale_rgb ⟨g, g, g⟩ D)).2.1
      + (rgb_to_cv (scale_rgb ⟨g, g, g⟩ D)).2.1 + (rgb_to_cv (scale_rgb ⟨g, g, g⟩ D)).2.1 = 0 ∧
    (rgb_to_cv (scale_rgb ⟨g, g, g⟩ D)).2.2 + (rgb_to_cv (scale_rgb ⟨g, g, g⟩ D)).2.2
      + (rgb_to_cv (scale_rgb ⟨g, g, g⟩ D)).2.2 + (rgb_to_cv (scale_rgb ⟨g, g, g⟩ D)).2.2 = 0 ∧
    pix_to_dct (fun _ => (g : ℚ) / D) = ((g : ℚ) / D, 0, 0, 0) ∧
    quantize_dct 0 = 0 ∧
    ∃ a : Nat, quantize_avg_brightness ((g : ℚ) / D) = .ok a ∧
      (a : Int) = c_round (63 * (g : ℚ) / D) ∧ a ≤ 63 ∧
      encode_block index_of D ⟨g, g, g⟩ ⟨g, g, g⟩ ⟨g, g, g⟩ ⟨g, g, g⟩
        = .ok (a * 2 ^ 26 + index_of 0 * 2 ^ 4 + index_of 0) ∧
      (∀ y_vals : Nat → ℚ,
        ∃ cl', map_cells (fun _ _ => ⟨g, g, g⟩) (compress_cb index_of) (block_major_cells 2 2)
            (initial_info ⟨2, 2, D, fun _ _ => ⟨g, g, g⟩⟩ y_vals) = .ok cl' ∧
          cl'.compressed.elems 0 0 = a * 2 ^ 26 + index_of 0 * 2 ^ 4 + index_of 0 ∧
          cl'.avg_pb = 0 ∧ cl'.avg_pr = 0) ∧
      Bitpack_gets (a * 2 ^ 26 + index_of 0 * 2 ^ 4 + index_of 0) B_WIDTH b_lsb = .ok 0 ∧
      Bitpack_gets (a * 2 ^ 26 + index_of 0 * 2 ^ 4 + index_of 0) C_WIDTH c_lsb = .ok 0 ∧
      Bitpack_gets (a * 2 ^ 26 + index_of 0 * 2 ^ 4 + index_of 0) D_WIDTH d_lsb = .ok 0 ∧
      (∃ y : Nat → ℚ,
        unpack_block chroma_of (a * 2 ^ 26 + index_of 0 * 2 ^ 4 + index_of 0)
          = .ok (chroma_of (index_of 0), chroma_of (index_of 0), y) ∧
        (∀ i, i < 4 → y i = (a : ℚ) / 63) ∧
        ∀ (pixmap : Pnm_ppm) (col row : Nat), col * 2 + 1 < pixmap.width →
          row * 2 + 1 < pixmap.height →
          ∃ p, decompress_cb chroma_of col row
              (a * 2 ^ 26 + index_of 0 * 2 ^ 4 + index_of 0) pixmap = .ok p ∧
            ∀ i, i < 4 → p.pixels (2 * col + i % 2) (2 * row + i / 2)
              = sample_pixel (chroma_of (index_of 0)) (chroma_of (index_of 0))
                  ((a : ℚ) / 63) pixmap.denominator) ∧
      |(a : ℚ) / 63 - (g : ℚ) / D| ≤ 1 / 126 := by
  obtain ⟨hlo, hhi⟩ := gray_ratio_bounds hD hg
  obtain ⟨a, hqa, ha63, hround⟩ := quantize_avg_brightness_ok hlo hhi
  have hgray := rgb_to_cv_gray g D
  refine ⟨hgray, ?_, ?_, ?_, quantize_dct_zero, a, hqa, ?_, ha63,
    encode_block_gray index_of hidx hqa ha63, gray_fold index_of hidx hqa ha63,
    gray_gets hidx (Or.inl rfl), gray_gets hidx (Or.inr (Or.inl rfl)),
    gray_gets hidx (Or.inr (Or.inr rfl)), gray_decode chroma_of ha63 hidx,
    gray_tolerance hD hround⟩
  · rw [hgray]
    norm_num
  · rw [hgray]
    norm_num
  · unfold pix_to_dct
    refine Prod.ext ?_ (Prod.ext ?_ (Prod.ext ?_ ?_)) <;> simp only <;> ring
  · rw [hround]
    congr 1
    ring

/-- Witness for C23: gray level `128` at denominator `255`, with the constant chroma index. -/
theorem C23_solid_gray_witness :
    (0 < 255 ∧ 128 ≤ 255 ∧ const_index 0 ≤ 15) ∧
    rgb_to_cv (scale_rgb ⟨128, 128, 128⟩ 255) = (((128 : Nat) : ℚ) / ((255 : Nat) : ℚ), 0, 0) ∧
    quantize_dct 0 = 0 :=
  have hidx : const_index 0 ≤ 15 := by
    show (7 : Nat) ≤ 15
    decide
  have h := C23_solid_gray const_index (fun _ => 0) 255 128 (by decide) (by decide) hidx
  ⟨⟨by decide, by decide, hidx⟩, h.1, h.2.2.2.2.1⟩

/-! ## Reading back the header that `write_compressed` prints -/

theorem toDigitsCore_append (fuel : Nat) :
    ∀ (n : Nat) (ds : List Char),
      Nat.toDigitsCore 10 fuel n ds = Nat.toDigitsCore 10 fuel n [] ++ ds := by
  induction fuel with
  | zero =>
    intro n ds
    rfl
  | succ fuel ih =>
    intro n ds
    show (if n / 10 = 0 then (n % 10).digitChar :: ds
        else Nat.toDigitsCore 10 fuel (n / 10) ((n % 10).digitChar :: ds))
      = (if n / 10 = 0 then [(n % 10).digitChar]
        else Nat.toDigitsCore 10 fuel (n / 10) [(n % 10).digitChar]) ++ ds
    by_cases h : n / 10 = 0
    · rw [if_pos h, if_pos h]
      rfl
    · rw [if_neg h, if_neg h, ih (n / 10) ((n % 10).digitChar :: ds),
        ih (n / 10) [(n % 10).digitChar], List.append_assoc]
      rfl

theorem toDigitsCore_fuel (fuel1 : Nat) :
    ∀ (fuel2 n : Nat) (ds : List Char), n < fuel1 → n < fuel2 →
      Nat.toDigitsCore 10 fuel1 n ds = Nat.toDigitsCore 10 fuel2 n ds := by
  induction fuel1 with
  | zero =>
    intro fuel2 n ds h1 _
    omega
  | succ fuel1 ih =>
    intro fuel2 n ds h1 h2
    obtain ⟨f2, rfl⟩ : ∃ f2, fuel2 = f2 + 1 := ⟨fuel2 - 1, by omega⟩
    show (if n / 10 = 0 then (n % 10).digitChar :: ds
        else Nat.toDigitsCore 10 fuel1 (n / 10) ((n % 10).digitChar :: ds))
      = (if n / 10 = 0 then (n % 10).digitChar :: ds
        else Nat.toDigitsCore 10 f2 (n / 10) ((n % 10).digitChar :: ds))
    by_cases h : n / 10 = 0
    · rw [if_pos h, if_pos h]
    · rw [if_neg h, if_neg h]
      exact ih f2 (n / 10) _ (by omega) (by omega)

theorem digitChar_toNat : ∀ d, d < 10 → (Nat.digitChar d).toNat = 48 + d := by decide

/-- The numeral of a number below ten is its digit. -/
theorem decimal_small {n : Nat} (h : n < 10) : decimal n = [48 + n] := by
  unfold decimal Nat.toDigits
  show List.map Char.toNat (if n / 10 = 0 then [(n % 10).digitChar]
    else Nat.toDigitsCore 10 n (n / 10) [(n % 10).digitChar]) = _
  rw [if_pos (by omega), Nat.mod_eq_of_lt h]
  show [(Nat.digitChar n).toNat] = _
  rw [digitChar_toNat n h]

/-- The numeral of a number from ten on is the numeral of its tenth followed by its last
digit. -/
theorem decimal_large {n : Nat} (h : 10 ≤ n) :
    decimal n = decimal (n / 10) ++ [48 + n % 10] := by
  unfold decimal Nat.toDigits
  show List.map Char.toNat (if n / 10 = 0 then [(n % 10).digitChar]
    else Nat.toDigitsCore 10 n (n / 10) [(n % 10).digitChar]) = _
  rw [if_neg (by omega), toDigitsCore_append,
    toDigitsCore_fuel n (n / 10 + 1) (n / 10) [] (by omega) (by omega), List.map_append]
  show _ ++ [(Nat.digitChar (n % 10)).toNat] = _
  rw [digitChar_toNat (n % 10) (by omega)]

/-- Every character of a decimal numeral is a digit, the numeral is not empty, and its digits
read from the left give the number back. -/
theorem decimal_spec (n : Nat) :
    (∀ c ∈ decimal n, isdigit c = true) ∧ decimal n ≠ [] ∧
      (decimal n).foldl (fun a c => a * 10 + (c - 48)) 0 = n := by
  induction n using Nat.strong_induction_on with
  | _ n ih =>
    by_cases h : n < 10
    · rw [decimal_small h]
      refine ⟨?_, by simp, ?_⟩
      · intro c hc
        rw [List.mem_singleton] at hc
        subst hc
        unfold isdigit
        simp only [Bool.and_eq_true, decide_eq_true_eq]
        omega
      · show 0 * 10 + (48 + n - 48) = n
        omega
    · obtain ⟨h1, h2, h3⟩ := ih (n / 10) (by omega)
      rw [decimal_large (by omega)]
      refine ⟨?_, by simp, ?_⟩
      · intro c hc
        rcases List.mem_append.mp hc with hc | hc
        · exact h1 c hc
        · rw [List.mem_singleton] at hc
          subst hc
          unfold isdigit
          simp only [Bool.and_eq_true, decide_eq_true_eq]
          omega
      · rw [List.foldl_append, h3]
        show n / 10 * 10 + (48 + n % 10 - 48) = n
        omega

theorem isdigit_not_space {c : Nat} (h : isdigit c = true) : isspace c = false := by
  unfold isdigit at h
  unfold isspace
  simp only [Bool.and_eq_true, decide_eq_true_eq] at h
  have h1 : ¬ c = 32 := by omega
  have h2 : ¬ c ≤ 13 := by omega
  simp [h1, h2]

/-- The digit loop of `%u` on a run of digits followed by something that is not a digit. -/
theorem scan_digits_append (L : List Nat) (hL : ∀ c ∈ L, isdigit c = true) (rest : List Nat)
    (hrest : ∀ c tl, rest = c :: tl → isdigit c = false) :
    ∀ acc, scan_digits acc (L ++ rest)
      = (L.foldl (fun a c => a * 10 + (c - 48)) acc, rest) := by
  induction L with
  | nil =>
    intro acc
    cases rest with
    | nil => rfl
    | cons c tl =>
      show (if isdigit c then scan_digits (acc * 10 + (c - 48)) tl else (acc, c :: tl)) = _
      rw [hrest c tl rfl]
      rfl
  | cons d L ih =>
    intro acc
    show (if isdigit d then scan_digits (acc * 10 + (d - 48)) (L ++ rest)
      else (acc, d :: (L ++ rest))) = _
    rw [hL d (List.mem_cons_self _ _), if_pos rfl,
      ih (fun c hc => hL c (List.mem_cons_of_mem _ hc))]
    rfl

theorem skip_space_digit {c : Nat} (h : isdigit c = true) (tl : List Nat) :
    skip_space (c :: tl) = c :: tl := by
  show (if isspace c then skip_space tl else c :: tl) = _
  rw [isdigit_not_space h]
  rfl

/-- The `%u` conversion on a decimal numeral followed by something that is not a digit. -/
theorem scan_unsigned_decimal (n : Nat) (rest : List Nat)
    (hrest : ∀ c tl, rest = c :: tl → isdigit c = false) :
    scan_unsigned (decimal n ++ rest) = some (n % 2 ^ 32, rest) := by
  obtain ⟨h1, h2, h3⟩ := decimal_spec n
  have hscan := scan_digits_append (decimal n) h1 rest hrest 0
  rw [h3] at hscan
  cases hd : decimal n with
  | nil => exact absurd hd h2
  | cons c tl =>
    rw [hd] at hscan
    have hc : isdigit c = true := h1 c (by rw [hd]; exact List.mem_cons_self _ _)
    unfold scan_unsigned
    rw [List.cons_append, skip_space_digit hc]
    simp only [hc, if_true]
    rw [← List.cons_append, hscan]

theorem skip_space_decimal (n : Nat) (rest : List Nat) :
    skip_space (decimal n ++ rest) = decimal n ++ rest := by
  obtain ⟨h1, h2, -⟩ := decimal_spec n
  cases hd : decimal n with
  | nil => exact absurd hd h2
  | cons c tl =>
    have hc : isdigit c = true := h1 c (by rw [hd]; exact List.mem_cons_self _ _)
    rw [List.cons_append, skip_space_digit hc]

theorem scan_tag (input : List Nat) :
    scan_literal (tag_string.toList.map Char.toNat ++ [10])
        (tag_string.toList.map Char.toNat ++ 10 :: input)
      = some (skip_space input) := rfl

/-- The header that `write_compressed` prints is read back by the `fscanf` call of
`read_header`: both numbers are stored, reduced to 32 bits, and the stream is left at the
newline that ends the header. -/
theorem fscanf_printf_header (w h : Nat) (body : List Nat) :
    fscanf_header (printf_header w h ++ body) = some (w % 2 ^ 32, h % 2 ^ 32, 10 :: body) := by
  have e : printf_header w h ++ body
      = tag_string.toList.map Char.toNat ++ 10 :: (decimal w ++ 32 :: (decimal h ++ 10 :: body)) := by
    unfold printf_header
    simp only [List.append_assoc, List.singleton_append, List.cons_append, List.nil_append]
  have n32 : ∀ c tl, (32 :: (decimal h ++ 10 :: body)) = c :: tl → isdigit c = false := by
    intro c tl hc
    injection hc with hc _
    subst hc
    rfl
  have n10 : ∀ c tl, (10 :: body) = c :: tl → isdigit c = false := by
    intro c tl hc
    injection hc with hc _
    subst hc
    rfl
  have hsp : scan_literal [32] (32 :: (decimal h ++ 10 :: body))
      = some (decimal h ++ 10 :: body) := by
    have h1 : scan_literal [32] (32 :: (decimal h ++ 10 :: body))
        = some (skip_space (decimal h ++ 10 :: body)) := rfl
    rw [h1, skip_space_decimal]
  unfold fscanf_header
  rw [e, scan_tag, skip_space_decimal, Option.some_bind, scan_unsigned_decimal w _ n32,
    Option.some_bind]
  show (scan_literal [32] (32 :: (decimal h ++ 10 :: body))).bind _ = _
  rw [hsp, Option.some_bind, scan_unsigned_decimal h _ n10, Option.some_bind]

theorem read_header_zero {input : FILE} {w h : Nat} {rest : List Nat}
    (hs : fscanf_header input.rest = some (w, h, rest)) (hz : w = 0 ∨ h = 0) :
    read_header input = .error .Invalid_Dimensions := by
  unfold read_header
  rw [hs]
  simp only
  rw [if_pos hz]

theorem read_header_ok {input : FILE} {w h : Nat} {body : List Nat}
    (hs : fscanf_header input.rest = some (w, h, 10 :: body)) (hw : w ≠ 0) (hh : h ≠ 0) :
    read_header input = .ok (w, h, { input with rest := body }) := by
  unfold read_header
  rw [hs]
  simp only
  rw [if_neg (by omega)]
  rfl

/-! ## The claim about zero dimensions -/

/-- C24: zero dimensions are rejected. For every input on which the `fscanf` call of
`read_header` stores both numbers (the tag is matched and a width and a height are declared)
and the width or the height is 0, `read_header` stops with the invalid-dimensions error, and
so do `read_compressed` and `decompress40`, which therefore returns no raster. In particular
this is what happens on the header that `write_compressed` prints for a grid with a zero
dimension, whatever follows it. -/
theorem C24_zero_dimensions_rejected (chroma_of : Nat → ℚ) (input : FILE) (w h : Nat)
    (rest : List Nat) (hs : fscanf_header input.rest = some (w, h, rest))
    (hz : w = 0 ∨ h = 0) :
    read_header input = .error .Invalid_Dimensions ∧
    read_compressed input = .error .Invalid_Dimensions ∧
    decompress40 chroma_of input = .error .Invalid_Dimensions ∧
    (∀ (w1 h1 : Nat) (body : List Nat) (eof : Bool), w1 = 0 ∨ h1 = 0 → w1 < 2 ^ 32 →
      h1 < 2 ^ 32 →
      fscanf_header (printf_header w1 h1 ++ body) = some (w1, h1, 10 :: body) ∧
      decompress40 chroma_of ⟨printf_header w1 h1 ++ body, eof⟩
        = .error .Invalid_Dimensions) := by
  have gen : ∀ (inp : FILE) (w1 h1 : Nat) (r : List Nat),
      fscanf_header inp.rest = some (w1, h1, r) → (w1 = 0 ∨ h1 = 0) →
      read_compressed inp = .error .Invalid_Dimensions ∧
      decompress40 chroma_of inp = .error .Invalid_Dimensions := by
    intro inp w1 h1 r hs1 hz1
    have hrc : read_compressed inp = .error .Invalid_Dimensions := by
      unfold read_compressed
      rw [read_header_zero hs1 hz1]
      rfl
    refine ⟨hrc, ?_⟩
    unfold decompress40
    rw [hrc]
    rfl
  refine ⟨read_header_zero hs hz, (gen input w h rest hs hz).1, (gen input w h rest hs hz).2, ?_⟩
  intro w1 h1 body eof hz1 hw1 hh1
  have hp : fscanf_header (printf_header w1 h1 ++ body) = some (w1, h1, 10 :: body) := by
    rw [fscanf_printf_header, Nat.mod_eq_of_lt hw1, Nat.mod_eq_of_lt hh1]
  exact ⟨hp, (gen ⟨printf_header w1 h1 ++ body, eof⟩ w1 h1 (10 :: body) hp hz1).2⟩

/-- Witness for C24: the header `COMP40 Compressed image format 2\n0 5\n` followed by three
bytes. -/
theorem C24_zero_dimensions_rejected_witness :
    (fscanf_header (FILE.mk (printf_header 0 5 ++ [1, 2, 3]) false).rest
        = some (0, 5, [10, 1, 2, 3]) ∧ ((0 : Nat) = 0 ∨ (5 : Nat) = 0)) ∧
    read_header (FILE.mk (printf_header 0 5 ++ [1, 2, 3]) false) = .error .Invalid_Dimensions :=
  have hs : fscanf_header (FILE.mk (printf_header 0 5 ++ [1, 2, 3]) false).rest
      = some (0, 5, [10, 1, 2, 3]) := by decide
  ⟨⟨hs, Or.inl rfl⟩,
    (C24_zero_dimensions_rejected (fun _ => 0) (FILE.mk (printf_header 0 5 ++ [1, 2, 3]) false)
      0 5 [10, 1, 2, 3] hs (Or.inl rfl)).1⟩

/-! ## Encoding and then decoding an image -/

theorem decompress40_zero (chroma_of : Nat → ℚ) {input : FILE} {w h : Nat} {rest : List Nat}
    (hs : fscanf_header input.rest = some (w, h, rest)) (hz : w = 0 ∨ h = 0) :
    decompress40 chroma_of input = .error .Invalid_Dimensions := by
  unfold decompress40 read_compressed
  rw [read_header_zero hs hz]
  rfl

theorem unpack_block_zero (chroma_of : Nat → ℚ) : ∃ u, unpack_block chroma_of 0 = .ok u :=
  unpack_block_ok chroma_of 0 (by decide) (by decide) (by decide)

/-- The decoder on the stream that `write_compressed` prints for a grid of 32-bit words that
all decode: it returns an image of twice the grid's dimensions and denominator 255 whose
pixels are the decoded pixels. -/
theorem decompress40_written (chroma_of : Nat → ℚ) (cm : UArray2) (hw0 : 0 < cm.width)
    (hh0 : 0 < cm.height) (hw32 : cm.width < 2 ^ 32) (hh32 : cm.height < 2 ^ 32)
    (hwords : ∀ c r, c < cm.width → r < cm.height →
      cm.elems c r < 2 ^ 32 ∧ ∃ u, unpack_block chroma_of (cm.elems c r) = .ok u) :
    ∃ out, write_compressed cm [] = .ok out ∧
      ∃ p, decompress40 chroma_of ⟨out, false⟩ = .ok p ∧ p.width = cm.width * 2 ∧
        p.height = cm.height * 2 ∧ p.denominator = 255 ∧
        ∀ x y, x < cm.width * 2 → y < cm.height * 2 →
          p.pixels x y = decoded_pixel chroma_of cm 255 x y := by
  obtain ⟨body, hout, hlen, hlt, hidx⟩ := write_compressed_eq cm []
  rw [List.nil_append] at hout
  obtain ⟨g, hg, hgw, hgh, helems⟩ := read_exact_body hw32 hh32 hw0 hlt hlen
  have hge : ∀ c r, c < cm.width → r < cm.height → g.elems c r = cm.elems c r := by
    intro c r hc hr
    rw [helems c r hc hr, hidx c r hc hr, be_value_be_bytes (hwords c r hc hr).1]
  have hp : fscanf_header (printf_header cm.width cm.height ++ body)
      = some (cm.width, cm.height, 10 :: body) := by
    rw [fscanf_printf_header, Nat.mod_eq_of_lt hw32, Nat.mod_eq_of_lt hh32]
  have hrh : read_header ⟨printf_header cm.width cm.height ++ body, false⟩
      = .ok (cm.width, cm.height, ⟨body, false⟩) :=
    @read_header_ok ⟨printf_header cm.width cm.height ++ body, false⟩ cm.width cm.height body
      hp (by omega) (by omega)
  have hrc : read_compressed ⟨printf_header cm.width cm.height ++ body, false⟩ = .ok g := by
    unfold read_compressed
    rw [hrh, except_bind_ok]
    exact hg
  obtain ⟨gw, gh, ge⟩ := g
  simp only at hgw hgh hge
  subst hgw
  subst hgh
  have hall : ∀ c r, c < (UArray2.mk cm.width cm.height ge).width →
      r < (UArray2.mk cm.width cm.height ge).height →
      ∃ u, unpack_block chroma_of ((UArray2.mk cm.width cm.height ge).elems c r) = .ok u := by
    intro c r hc hr
    show ∃ u, unpack_block chroma_of (ge c r) = .ok u
    rw [hge c r hc hr]
    exact (hwords c r hc hr).2
  have hdec := decode_grid chroma_of ⟨cm.width, cm.height, ge⟩ hall 255
    (fun _ _ => { red := 0, green := 0, blue := 0 })
  have hd40 : decompress40 chroma_of ⟨printf_header cm.width cm.height ++ body, false⟩
      = .ok ⟨cm.width * 2, cm.height * 2, 255, fun x y =>
          if x < cm.width * 2 ∧ y < cm.height * 2 then
            decoded_pixel chroma_of ⟨cm.width, cm.height, ge⟩ 255 x y
          else { red := 0, green := 0, blue := 0 }⟩ := by
    unfold decompress40
    rw [hrc, except_bind_ok]
    exact hdec
  refine ⟨_, hout, _, hd40, rfl, rfl, rfl, ?_⟩
  intro x y hx hy
  show (if x < cm.width * 2 ∧ y < cm.height * 2 then
    decoded_pixel chroma_of ⟨cm.width, cm.height, ge⟩ 255 x y else _) = _
  rw [if_pos ⟨hx, hy⟩]
  unfold decoded_pixel
  show (match unpack_block chroma_of (ge (x / 2) (y / 2)) with
    | .ok r => _
    | .error _ => _) = _
  rw [hge (x / 2) (y / 2) (by omega) (by omega)]

theorem block_cells_full {W H bi bj : Nat} (hi : 2 * bi + 1 < W) (hj : 2 * bj + 1 < H) :
    block_cells W H bi bj = row_order (bi, bj) := by
  unfold block_cells row_order
  rw [List.filter_eq_self]
  intro p hp
  simp only [List.mem_cons, List.mem_singleton, List.not_mem_nil, or_false] at hp
  rcases hp with rfl | rfl | rfl | rfl <;> simp <;> omega

theorem mem_block_list {w h : Nat} {b : Nat × Nat} (hb : b ∈ block_list w h) :
    b.1 < w ∧ b.2 < h := by
  unfold block_list at hb
  rw [List.mem_flatMap] at hb
  obtain ⟨bj, hbj, hm⟩ := hb
  rw [List.mem_map] at hm
  obtain ⟨bi, hbi, rfl⟩ := hm
  exact ⟨List.mem_range.mp hbi, List.mem_range.mp hbj⟩

/-- The block-major order of an image, restricted to the even crop, visits the blocks of the
packed grid row by row and the four cells of each block row by row. -/
theorem block_major_cells_blocks (W H : Nat) :
    (block_major_cells W H).filter (in_crop W H)
      = (block_list (W / 2) (H / 2)).flatMap row_order := by
  rw [block_major_cells_crop]
  have hw : (W - W % 2 + 1) / 2 = W / 2 := by omega
  have hh : (H - H % 2 + 1) / 2 = H / 2 := by omega
  unfold block_major_cells block_list
  rw [hw, hh, List.flatMap_assoc]
  refine List.flatMap_congr ?_
  intro bj hbj
  rw [List.flatMap_map]
  refine List.flatMap_congr ?_
  intro bi hbi
  have h1 := List.mem_range.mp hbi
  have h2 := List.mem_range.mp hbj
  exact block_cells_full (by omega) (by omega)

/-- The encoder on an image with samples at most the denominator, for a chroma index function
below 16 and a traversal whose cells in the even crop come block after block: it returns a
grid of `W / 2` by `H / 2` words that are 32-bit words, decode, and are the block encodings at
the visited blocks. -/
theorem compress_image_ok (index_of : ℚ → Nat) (hidx : ∀ x, index_of x ≤ 15)
    (chroma_of : Nat → ℚ) (image : Pnm_ppm) (hD : 0 < image.denominator)
    (hpx : ∀ x y, x < image.width → y < image.height →
      (image.pixels x y).red ≤ image.denominator ∧
      (image.pixels x y).green ≤ image.denominator ∧
      (image.pixels x y).blue ≤ image.denominator)
    (cells bs : List (Nat × Nat)) (ord : Nat × Nat → List (Nat × Nat))
    (hcells : cells.filter (in_crop image.width image.height) = bs.flatMap ord)
    (hord : ∀ b ∈ bs, ord b ∈ block_orders b.1 b.2 ∧
      2 * b.1 + 1 < image.width - image.width % 2 ∧
      2 * b.2 + 1 < image.height - image.height % 2)
    (y_vals : Nat → ℚ) :
    ∃ cm, compress_image index_of image cells y_vals = .ok cm ∧
      cm.width = image.width / 2 ∧ cm.height = image.height / 2 ∧
      (∀ c r, cm.elems c r < 2 ^ 32 ∧ ∃ u, unpack_block chroma_of (cm.elems c r) = .ok u) ∧
      (∀ c r, (c, r) ∈ bs →
        encode_block index_of image.denominator (image.pixels (2 * c) (2 * r))
          (image.pixels (2 * c + 1) (2 * r)) (image.pixels (2 * c) (2 * r + 1))
          (image.pixels (2 * c + 1) (2 * r + 1)) = .ok (cm.elems c r)) := by
  have hcrop := map_cells_crop index_of image.pixels image.pixels image.width image.height
    (fun _ _ _ _ => rfl) cells (initial_info image y_vals) rfl rfl
  have hci : crop_info (initial_info image y_vals)
      = ⟨UArray2_new (image.width / 2) (image.height / 2), y_vals, 0, 0, image.denominator,
          image.width - image.width % 2, image.height - image.height % 2⟩ := rfl
  have hord' : ∀ b ∈ bs, ord b ∈ block_orders b.1 b.2 ∧
      2 * b.1 + 1 < (image.width - image.width % 2) - (image.width - image.width % 2) % 2 ∧
      2 * b.2 + 1
        < (image.height - image.height % 2) - (image.height - image.height % 2) % 2 := by
    intro b hb
    obtain ⟨h1, h2, h3⟩ := hord b hb
    exact ⟨h1, by omega, by omega⟩
  rw [hcells, hci, compress_blocks index_of image.pixels ord image.denominator _ _ bs _ y_vals
    hord'] at hcrop
  obtain ⟨cl', hcl, hw, hh, -, -, hwords, hrest⟩ :=
    encode_blocks_ok index_of hidx image.pixels hD image.width image.height
      (image.width - image.width % 2) (image.height - image.height % 2) hpx bs
      (UArray2_new (image.width / 2) (image.height / 2)) y_vals
      (fun b hb => by
        obtain ⟨-, h2, h3⟩ := hord b hb
        refine ⟨?_, ?_, by omega, by omega⟩
        · show b.1 < image.width / 2
          omega
        · show b.2 < image.height / 2
          omega)
  rw [hcl] at hcrop
  cases hm : map_cells image.pixels (compress_cb index_of) cells (initial_info image y_vals) with
  | error e =>
    rw [hm] at hcrop
    cases hcrop
  | ok cl0 =>
    rw [hm, except_map_ok] at hcrop
    injection hcrop with hcrop
    have hcomp : cl0.compressed = cl'.compressed := by
      rw [hcrop]
      rfl
    refine ⟨cl0.compressed, ?_, ?_, ?_, ?_, ?_⟩
    · unfold compress_image
      rw [hm]
      rfl
    · rw [hcomp, hw]
      rfl
    · rw [hcomp, hh]
      rfl
    · intro c r
      rw [hcomp]
      by_cases hmem : (c, r) ∈ bs
      · obtain ⟨-, h2, h3⟩ := hord (c, r) hmem
        obtain ⟨a, pb, pr, qb, qc, qd, ha, hb, hc, hd, hpb, hpr, hword⟩ :=
          encode_block_ok index_of hidx hD
            (hpx (2 * c) (2 * r) (by simp only at h2; omega) (by simp only at h3; omega))
            (hpx (2 * c + 1) (2 * r) (by simp only at h2; omega) (by simp only at h3; omega))
            (hpx (2 * c) (2 * r + 1) (by simp only at h2; omega) (by simp only at h3; omega))
            (hpx (2 * c + 1) (2 * r + 1) (by simp only at h2; omega)
              (by simp only at h3; omega))
        have he := hwords c r hmem
        rw [hword] at he
        injection he with he
        rw [← he]
        exact ⟨by omega, _, unpack_block_packed chroma_of ha hb hc hd hpb hpr⟩
      · rw [hrest c r hmem]
        exact ⟨by show (0 : Nat) < 2 ^ 32; norm_num, unpack_block_zero chroma_of⟩
    · intro c r hmem
      rw [hcomp]
      exact hwords c r hmem

/-- Encoding an image of at least 2 by 2 pixels and decoding the stream: both return, and the
decoded image has the dimensions of the even crop and denominator 255. -/
theorem roundtrip_size (index_of : ℚ → Nat) (hidx : ∀ x, index_of x ≤ 15)
    (chroma_of : Nat → ℚ) (image : Pnm_ppm) (hD : 0 < image.denominator)
    (hpx : ∀ x y, x < image.width → y < image.height →
      (image.pixels x y).red ≤ image.denominator ∧
      (image.pixels x y).green ≤ image.denominator ∧
      (image.pixels x y).blue ≤ image.denominator)
    (hW : 2 ≤ image.width) (hH : 2 ≤ image.height) (hW32 : image.width < 2 ^ 32)
    (hH32 : image.height < 2 ^ 32)
    (cells bs : List (Nat × Nat)) (ord : Nat × Nat → List (Nat × Nat))
    (hcells : cells.filter (in_crop image.width image.height) = bs.flatMap ord)
    (hord : ∀ b ∈ bs, ord b ∈ block_orders b.1 b.2 ∧
      2 * b.1 + 1 < image.width - image.width % 2 ∧
      2 * b.2 + 1 < image.height - image.height % 2)
    (y_vals : Nat → ℚ) :
    ∃ out, compress40 index_of image cells y_vals = .ok out ∧
      ∃ p, decompress40 chroma_of ⟨out, false⟩ = .ok p ∧
        p.width = image.width - image.width % 2 ∧
        p.height = image.height - image.height % 2 ∧ p.denominator = 255 := by
  obtain ⟨cm, hcm, hw, hh, hwords, -⟩ := compress_image_ok index_of hidx chroma_of image hD hpx
    cells bs ord hcells hord y_vals
  obtain ⟨out, hout, p, hp, hpw, hph, hpd, -⟩ := decompress40_written chroma_of cm
    (by omega) (by omega) (by omega) (by omega) (fun c r _ _ => hwords c r)
  refine ⟨out, ?_, p, hp, ?_, ?_, hpd⟩
  · unfold compress40
    rw [hcm, except_bind_ok]
    exact hout
  · rw [hpw, hw]
    omega
  · rw [hph, hh]
    omega

/-- Encoding an image with fewer than two columns or rows gives a stream that the decoder
rejects for its dimensions. -/
theorem roundtrip_small (index_of : ℚ → Nat) (chroma_of : Nat → ℚ) (image : Pnm_ppm)
    (hsmall : image.width < 2 ∨ image.height < 2) (hW32 : image.width < 2 ^ 32)
    (hH32 : image.height < 2 ^ 32) (cells : List (Nat × Nat)) (y_vals : Nat → ℚ) :
    ∃ out, compress40 index_of image cells y_vals = .ok out ∧
      decompress40 chroma_of ⟨out, false⟩ = .error .Invalid_Dimensions := by
  have hskip : ∀ (l : List (Nat × Nat)) (cl : Compression_Info),
      cl.orig_width = image.width → cl.orig_height = image.height →
      map_cells image.pixels (compress_cb index_of) l cl = .ok cl := by
    intro l
    induction l with
    | nil =>
      intro cl _ _
      rfl
    | cons c l ih =>
      intro cl h1 h2
      rw [map_cells_cons, compress_cb_skip index_of c.1 c.2 _ cl (by rw [h1, h2]; omega),
        except_bind_ok]
      exact ih cl h1 h2
  have hci : compress_image index_of image cells y_vals
      = .ok (UArray2_new (image.width / 2) (image.height / 2)) := by
    unfold compress_image
    rw [hskip cells (initial_info image y_vals) rfl rfl]
    rfl
  obtain ⟨body, hout, -, -, -⟩ :=
    write_compressed_eq (UArray2_new (image.width / 2) (image.height / 2)) []
  rw [List.nil_append] at hout
  refine ⟨printf_header (image.width / 2) (image.height / 2) ++ body, ?_, ?_⟩
  · unfold compress40
    rw [hci, except_bind_ok]
    exact hout
  · have hp : fscanf_header (FILE.mk (printf_header (image.width / 2) (image.height / 2)
        ++ body) false).rest
        = some (image.width / 2, image.height / 2, 10 :: body) := by
      show fscanf_header (printf_header (image.width / 2) (image.height / 2) ++ body) = _
      rw [fscanf_printf_header, Nat.mod_eq_of_lt (by omega), Nat.mod_eq_of_lt (by omega)]
    exact decompress40_zero chroma_of hp (by omega)

/-! ## The claim about the decoded size -/

/-- C21 (as stated, refuted): the image of one pixel is encoded to the stream
`COMP40 Compressed image format 2\n0 0\n`, and decoding this stream does not return a raster
of 0 by 0 pixels but stops with the invalid-dimensions error. -/
theorem C21_one_pixel_not_decoded :
    compress40 const_index one_pixel_image (block_major_cells 1 1) (fun _ => 0)
      = .ok (printf_header 0 0) ∧
    decompress40 (fun _ => 0) ⟨printf_header 0 0, false⟩ = .error .Invalid_Dimensions := by
  refine ⟨rfl, ?_⟩
  have hp : fscanf_header (FILE.mk (printf_header 0 0) false).rest = some (0, 0, [10]) := by
    decide
  exact decompress40_zero (fun _ => 0) hp (Or.inl rfl)

/-- C21 (amended): decoded size after encoding. For every source image of width `W ≥ 2` and
height `H ≥ 2` (both `unsigned` values) with a positive denominator and samples at most the
denominator, every chroma index function with values below 16, and every traversal whose
cells in the even crop come block after block with the cell at odd column and odd row last in
its block (the block-major traversal is one): `compress40` returns a stream, `decompress40`
returns on it, and the raster has width `W - W mod 2`, height `H - H mod 2` and denominator
255. For an image of the same kind with `W < 2` or `H < 2` the encoder still returns a stream,
but the decoder rejects it with the invalid-dimensions error. The products `width * 2` and
`height * 2` of `decompress40` are taken without overflow. -/
theorem C21_decoded_size (index_of : ℚ → Nat) (hidx : ∀ x, index_of x ≤ 15)
    (chroma_of : Nat → ℚ) (image : Pnm_ppm) (hD : 0 < image.denominator)
    (hpx : ∀ x y, x < image.width → y < image.height →
      (image.pixels x y).red ≤ image.denominator ∧
      (image.pixels x y).green ≤ image.denominator ∧
      (image.pixels x y).blue ≤ image.denominator)
    (hW32 : image.width < 2 ^ 32) (hH32 : image.height < 2 ^ 32) (y_vals : Nat → ℚ) :
    (2 ≤ image.width → 2 ≤ image.height →
      (∀ (cells bs : List (Nat × Nat)) (ord : Nat × Nat → List (Nat × Nat)),
        cells.filter (in_crop image.width image.height) = bs.flatMap ord →
        (∀ b ∈ bs, ord b ∈ block_orders b.1 b.2 ∧
          2 * b.1 + 1 < image.width - image.width % 2 ∧
          2 * b.2 + 1 < image.height - image.height % 2) →
        ∃ out, compress40 index_of image cells y_vals = .ok out ∧
          ∃ p, decompress40 chroma_of ⟨out, false⟩ = .ok p ∧
            p.width = image.width - image.width % 2 ∧
            p.height = image.height - image.height % 2 ∧ p.denominator = 255) ∧
      ∃ out, compress40 index_of image (block_major_cells image.width image.height) y_vals
          = .ok out ∧
        ∃ p, decompress40 chroma_of ⟨out, false⟩ = .ok p ∧
          p.width = image.width - image.width % 2 ∧
          p.height = image.height - image.height % 2 ∧ p.denominator = 255) ∧
    (image.width < 2 ∨ image.height < 2 →
      ∀ cells : List (Nat × Nat),
        ∃ out, compress40 index_of image cells y_vals = .ok out ∧
          decompress40 chroma_of ⟨out, false⟩ = .error .Invalid_Dimensions) := by
  refine ⟨fun hW hH => ⟨?_, ?_⟩, ?_⟩
  · intro cells bs ord hcells hord
    exact roundtrip_size index_of hidx chroma_of image hD hpx hW hH hW32 hH32 cells bs ord
      hcells hord y_vals
  · refine roundtrip_size index_of hidx chroma_of image hD hpx hW hH hW32 hH32
      (block_major_cells image.width image.height)
      (block_list (image.width / 2) (image.height / 2)) row_order
      (block_major_cells_blocks image.width image.height) ?_ y_vals
    intro b hb
    obtain ⟨h1, h2⟩ := mem_block_list hb
    exact ⟨row_order_mem b, by omega, by omega⟩
  · intro hsmall cells
    exact roundtrip_small index_of chroma_of image hsmall hW32 hH32 cells y_vals

/-- Witness for C21 (amended): the 3 by 3 image `sample_image` in block-major order, with the
constant chroma index; the decoded raster is 2 by 2. -/
theorem C21_decoded_size_witness :
    ((∀ x : ℚ, const_index x ≤ 15) ∧ 0 < sample_image.denominator ∧
      (∀ x y, x < sample_image.width → y < sample_image.height →
        (sample_image.pixels x y).red ≤ sample_image.denominator ∧
        (sample_image.pixels x y).green ≤ sample_image.denominator ∧
        (sample_image.pixels x y).blue ≤ sample_image.denominator) ∧
      sample_image.width < 2 ^ 32 ∧ sample_image.height < 2 ^ 32 ∧
      2 ≤ sample_image.width ∧ 2 ≤ sample_image.height) ∧
    ∃ out, compress40 const_index sample_image
        (block_major_cells sample_image.width sample_image.height) (fun _ => 0) = .ok out ∧
      ∃ p, decompress40 (fun _ => 0) ⟨out, false⟩ = .ok p ∧
        p.width = sample_image.width - sample_image.width % 2 ∧
        p.height = sample_image.height - sample_image.height % 2 ∧ p.denominator = 255 :=
  have hidx : ∀ x : ℚ, const_index x ≤ 15 := fun _ => by
    show (7 : Nat) ≤ 15
    decide
  have hpx : ∀ x y, x < sample_image.width → y < sample_image.height →
      (sample_image.pixels x y).red ≤ sample_image.denominator ∧
      (sample_image.pixels x y).green ≤ sample_image.denominator ∧
      (sample_image.pixels x y).blue ≤ sample_image.denominator := fun x y hx hy => by
    have hx3 : x < 3 := hx
    have hy3 : y < 3 := hy
    show 80 * x + 10 * y ≤ 255 ∧ 30 * x + 100 ≤ 255 ∧ 90 * y + 5 ≤ 255
    omega
  ⟨⟨hidx, by decide, hpx, by decide, by decide, by decide, by decide⟩,
    ((C21_decoded_size const_index hidx (fun _ => 0) sample_image (by decide) hpx (by decide)
      (by decide) (fun _ => 0)).1 (by decide) (by decide)).2⟩

/-! ## The decoded pixel -/

/-- The two assignments of `trim_normalized_rgbs` clamp a component to `[0, 1]`. -/
theorem trim_one_eq (x : ℚ) : trim_one x = min 1 (max 0 x) := by
  unfold trim_one
  by_cases h0 : x < 0
  · simp only [h0, if_true]
    rw [if_neg (by norm_num), max_eq_left (le_of_lt h0), min_eq_right (by norm_num)]
  · simp only [h0, if_false]
    have hx : 0 ≤ x := not_lt.mp h0
    rw [max_eq_right hx]
    by_cases h1 : x > 1
    · rw [if_pos h1, min_eq_left (le_of_lt h1)]
    · rw [if_neg h1, min_eq_right (not_lt.mp h1)]

theorem trim_one_bounds (x : ℚ) : 0 ≤ trim_one x ∧ trim_one x ≤ 1 := by
  rw [trim_one_eq]
  exact ⟨le_min (by norm_num) (le_max_left 0 x), min_le_left 1 _⟩

theorem trim_one_id {x : ℚ} (h0 : 0 ≤ x) (h1 : x ≤ 1) : trim_one x = x := by
  rw [trim_one_eq, max_eq_right h0, min_eq_right h1]

/-- The conversion of a scaled component in `[0, 1]` to `unsigned`: the floor of the product,
which is at most the denominator. -/
theorem float_to_unsigned_scaled {t : ℚ} (h0 : 0 ≤ t) (h1 : t ≤ 1) {D : Nat} (hD : D < 2 ^ 32) :
    ((float_to_unsigned (t * D) : Nat) : Int) = ⌊t * D⌋ ∧ float_to_unsigned (t * D) ≤ D := by
  have hDq : (0 : ℚ) ≤ D := by positivity
  have hnn : 0 ≤ ⌊t * (D : ℚ)⌋ := Int.floor_nonneg.mpr (mul_nonneg h0 hDq)
  have hle : ⌊t * (D : ℚ)⌋ ≤ (D : Int) := by
    have h2 : ((⌊t * (D : ℚ)⌋ : Int) : ℚ) ≤ t * D := Int.floor_le _
    have h3 : t * (D : ℚ) ≤ D := by nlinarith
    have h4 : ((⌊t * (D : ℚ)⌋ : Int) : ℚ) ≤ ((D : Int) : ℚ) := by
      rw [Int.cast_natCast]
      exact le_trans h2 h3
    exact_mod_cast h4
  unfold float_to_unsigned
  omega

/-! ## Quantizing and dequantizing -/

theorem c_round_err (y : ℚ) : |(c_round y : ℚ) - y| ≤ 1 / 2 := by
  rw [abs_le]
  by_cases h : 0 ≤ y
  · obtain ⟨h1, h2⟩ := (c_round_spec y).1 h
    constructor <;> linarith
  · obtain ⟨h1, h2⟩ := (c_round_spec y).2 (not_le.mp h)
    constructor <;> linarith

theorem dequantize_avg_brightness_ok {q : Nat} (hq : q ≤ 511) :
    dequantize_avg_brightness q = .ok ((q : ℚ) / 63) := by
  unfold dequantize_avg_brightness
  rw [if_pos hq]

/-- The brightness code of a dequantized code is the code. -/
theorem quantize_dequantize_avg {q : Nat} (hq : q ≤ 63) :
    quantize_avg_brightness ((q : ℚ) / 63) = .ok q := by
  have hq0 : (0 : ℚ) ≤ (q : ℚ) / 63 := by positivity
  have hq1 : (q : ℚ) / 63 ≤ 1 := by
    rw [div_le_one (by norm_num)]
    exact_mod_cast hq
  obtain ⟨q1, h1, -, h3⟩ := quantize_avg_brightness_ok hq0 hq1
  have e : (q : ℚ) / 63 * 63 = ((q : Int) : ℚ) := by
    rw [Int.cast_natCast]
    field_simp
  rw [e, c_round_intCast] at h3
  have : q1 = q := by exact_mod_cast h3
  rw [h1, this]

/-- The detail code of a dequantized code is the code. -/
theorem quantize_dequantize_dct {k : Int} (hlo : -15 ≤ k) (hhi : k ≤ 15) :
    quantize_dct ((k : ℚ) / 50) = k := by
  unfold quantize_dct
  by_cases h1 : k = -15
  · subst h1
    rw [if_pos (by norm_num)]
  · have hk1 : (-14 : ℚ) ≤ (k : ℚ) := by
      have : (-14 : Int) ≤ k := by omega
      exact_mod_cast this
    rw [if_neg (by
      intro h
      have : (k : ℚ) ≤ -15 := by linarith
      linarith)]
    by_cases h2 : k = 15
    · subst h2
      rw [if_pos (by norm_num)]
    · have hk2 : (k : ℚ) ≤ 14 := by
        have : k ≤ (14 : Int) := by omega
        exact_mod_cast this
      rw [if_neg (by
        intro h
        have : (15 : ℚ) ≤ (k : ℚ) := by linarith
        linarith)]
      have e : (k : ℚ) / 50 * 50 = (k : ℚ) := by field_simp
      rw [e, c_round_intCast]

/-- The error of the brightness quantizer. -/
theorem avg_tolerance {a : ℚ} {q : Nat} (hround : (q : Int) = c_round (a * 63)) :
    |(q : ℚ) / 63 - a| ≤ 1 / 126 := by
  have h := c_round_err (a * 63)
  have hcast : ((q : Int) : ℚ) = (q : ℚ) := Int.cast_natCast q
  rw [← hround, hcast, abs_le] at h
  rw [abs_le]
  constructor <;> linarith [h.1, h.2]

/-- The error of the detail quantizer on `[-0.3, 0.3]`. -/
theorem dct_tolerance {x : ℚ} (hlo : -(3 / 10) ≤ x) (hhi : x ≤ 3 / 10) :
    |(quantize_dct x : ℚ) / 50 - x| ≤ 1 / 100 := by
  unfold quantize_dct
  rw [abs_le]
  by_cases h1 : x ≤ -(3 / 10)
  · rw [if_pos h1]
    have : x = -(3 / 10) := le_antisymm h1 hlo
    rw [this]
    norm_num
  · rw [if_neg h1]
    by_cases h2 : x ≥ 3 / 10
    · rw [if_pos h2]
      have : x = 3 / 10 := le_antisymm hhi h2
      rw [this]
      norm_num
    · rw [if_neg h2]
      have h := c_round_err (x * 50)
      rw [abs_le] at h
      constructor <;> linarith [h.1, h.2]

/-! ## The claim about the quantizers -/

/-- C32: quantizer codes are fixed points and the quantization error is bounded (arithmetic
exact). For every brightness code `q` in `[0, 63]`, `dequantize_avg_brightness q` returns
`q / 63` and `quantize_avg_brightness` of it returns `q`; for every detail code `k` in
`[-15, 15]`, `dequantize_dct k` returns `k / 50` and `quantize_dct` of it is `k`; for every
`a` in `[0, 1]` the code of `a` dequantizes to a value within `1 / 126` of `a`; and for every
`x` in `[-0.3, 0.3]` the code of `x` dequantizes to a value within `1 / 100` of `x`. -/
theorem C32_quantizer_fixed_points (q : Nat) (hq : q ≤ 63) (k : Int) (hk : -15 ≤ k ∧ k ≤ 15)
    (a : ℚ) (ha : 0 ≤ a ∧ a ≤ 1) (x : ℚ) (hx : -(3 / 10) ≤ x ∧ x ≤ 3 / 10) :
    (dequantize_avg_brightness q = .ok ((q : ℚ) / 63) ∧
      (dequantize_avg_brightness q).bind quantize_avg_brightness = .ok q) ∧
    (dequantize_dct k = .ok ((k : ℚ) / 50) ∧
      (dequantize_dct k).map quantize_dct = .ok k) ∧
    (∃ (c : Nat) (d : ℚ), quantize_avg_brightness a = .ok c ∧
      dequantize_avg_brightness c = .ok d ∧ |d - a| ≤ 1 / 126) ∧
    (∃ d : ℚ, dequantize_dct (quantize_dct x) = .ok d ∧ |d - x| ≤ 1 / 100) := by
  refine ⟨⟨dequantize_avg_brightness_ok (by omega), ?_⟩,
    ⟨dequantize_dct_ok hk.1 hk.2, ?_⟩, ?_, ?_⟩
  · rw [dequantize_avg_brightness_ok (by omega), except_bind_ok]
    exact quantize_dequantize_avg hq
  · rw [dequantize_dct_ok hk.1 hk.2, except_map_ok, quantize_dequantize_dct hk.1 hk.2]
  · obtain ⟨c, hc, hc63, hround⟩ := quantize_avg_brightness_ok ha.1 ha.2
    exact ⟨c, (c : ℚ) / 63, hc, dequantize_avg_brightness_ok (by omega), avg_tolerance hround⟩
  · obtain ⟨hlo, hhi⟩ := quantize_dct_bounds x
    exact ⟨_, dequantize_dct_ok hlo hhi, dct_tolerance hx.1 hx.2⟩

/-- Witness for C32: the codes `q = 19` and `k = -7`, the brightness `1 / 3` and the detail
value `1 / 7`. -/
theorem C32_quantizer_fixed_points_witness :
    (19 ≤ 63 ∧ (-15 ≤ (-7 : Int) ∧ (-7 : Int) ≤ 15) ∧ ((0 : ℚ) ≤ 1 / 3 ∧ (1 / 3 : ℚ) ≤ 1) ∧
      (-(3 / 10) ≤ (1 / 7 : ℚ) ∧ (1 / 7 : ℚ) ≤ 3 / 10)) ∧
    (dequantize_avg_brightness 19).bind quantize_avg_brightness = .ok 19 ∧
    (dequantize_dct (-7)).map quantize_dct = .ok (-7) ∧
    ∃ d : ℚ, dequantize_dct (quantize_dct (1 / 7)) = .ok d ∧ |d - 1 / 7| ≤ 1 / 100 :=
  have h19 : 19 ≤ 63 := by decide
  have h7 : -15 ≤ (-7 : Int) ∧ (-7 : Int) ≤ 15 := by decide
  have ha : (0 : ℚ) ≤ 1 / 3 ∧ (1 / 3 : ℚ) ≤ 1 := by norm_num
  have hx : -(3 / 10) ≤ (1 / 7 : ℚ) ∧ (1 / 7 : ℚ) ≤ 3 / 10 := by norm_num
  have h := C32_quantizer_fixed_points 19 h19 (-7) h7 (1 / 3) ha (1 / 7) hx
  ⟨⟨h19, h7, ha, hx⟩, h.1.2, h.2.1.2, h.2.2.2⟩

/-! ## Rounding to a binary format

Facts about `round_to`: it is odd, monotone and idempotent, it fixes the integers of at most
24 bits in binary32, and the binary32 product of a `float` in `[0, 1]` with 255 has the same
integer part as the exact product. -/

theorem pow2q_eq (e : Int) : pow2q e = (2 : ℚ) ^ e := by
  unfold pow2q
  split_ifs with h
  · obtain ⟨n, rfl⟩ := Int.eq_ofNat_of_zero_le h
    simp
  · push_neg at h
    obtain ⟨n, hn⟩ := Int.exists_eq_neg_ofNat (le_of_lt h)
    subst hn
    simp

theorem pow2q_pos (e : Int) : 0 < pow2q e := by
  rw [pow2q_eq]; positivity

theorem nlog2_aux_spec : ∀ (f n : Nat), 0 < n → n ≤ f →
    2 ^ nlog2_aux f n ≤ n ∧ n < 2 ^ (nlog2_aux f n + 1)
  | 0, n, h0, hf => by omega
  | f + 1, n, h0, hf => by
    unfold nlog2_aux
    split_ifs with h
    · have : n = 1 := by omega
      subst this
      simp
    · have hn2 : 0 < n / 2 := by omega
      have hle : n / 2 ≤ f := by omega
      obtain ⟨h1, h2⟩ := nlog2_aux_spec f (n / 2) hn2 hle
      rw [pow_succ, pow_succ]
      generalize 2 ^ nlog2_aux f (n / 2) = k at h1 h2 ⊢
      rw [pow_succ] at h2
      constructor <;> omega

theorem nlog2_spec {n : Nat} (h : 0 < n) : 2 ^ nlog2 n ≤ n ∧ n < 2 ^ (nlog2 n + 1) :=
  nlog2_aux_spec n n h le_rfl

theorem ilog2_spec {x : ℚ} (hx : x ≠ 0) :
    (2 : ℚ) ^ ilog2 x ≤ |x| ∧ |x| < (2 : ℚ) ^ (ilog2 x + 1) := by
  have hnum : 0 < x.num.natAbs := Int.natAbs_pos.mpr (Rat.num_ne_zero.mpr hx)
  have hden : 0 < x.den := x.den_pos
  obtain ⟨a1, a2⟩ := nlog2_spec hnum
  obtain ⟨b1, b2⟩ := nlog2_spec hden
  have habs : |x| = (x.num.natAbs : ℚ) / (x.den : ℚ) := by
    conv_lhs => rw [← Rat.num_div_den x]
    rw [abs_div, Nat.abs_cast, Nat.cast_natAbs, Int.cast_abs]
  have hB : (0 : ℚ) < (x.den : ℚ) := by exact_mod_cast hden
  have a1q : (2 : ℚ) ^ (nlog2 x.num.natAbs : Int) ≤ (x.num.natAbs : ℚ) := by
    rw [zpow_natCast]; exact_mod_cast a1
  have a2q : (x.num.natAbs : ℚ) < (2 : ℚ) ^ ((nlog2 x.num.natAbs : Int) + 1) := by
    have : ((nlog2 x.num.natAbs : Int) + 1) = ((nlog2 x.num.natAbs + 1 : Nat) : Int) := by
      push_cast; rfl
    rw [this, zpow_natCast]; exact_mod_cast a2
  have b1q : (2 : ℚ) ^ (nlog2 x.den : Int) ≤ (x.den : ℚ) := by
    rw [zpow_natCast]; exact_mod_cast b1
  have b2q : (x.den : ℚ) < (2 : ℚ) ^ ((nlog2 x.den : Int) + 1) := by
    have : ((nlog2 x.den : Int) + 1) = ((nlog2 x.den + 1 : Nat) : Int) := by
      push_cast; rfl
    rw [this, zpow_natCast]; exact_mod_cast b2
  have hil : ilog2 x = if pow2q ((nlog2 x.num.natAbs : Int) - (nlog2 x.den : Int)) ≤ |x|
      then (nlog2 x.num.natAbs : Int) - (nlog2 x.den : Int)
      else (nlog2 x.num.natAbs : Int) - (nlog2 x.den : Int) - 1 := rfl
  rw [hil]
  generalize (nlog2 x.num.natAbs : Int) = a at a1q a2q ⊢
  generalize (nlog2 x.den : Int) = b at b1q b2q ⊢
  generalize (x.num.natAbs : ℚ) = A at habs a1q a2q
  generalize (x.den : ℚ) = B at habs hB b1q b2q
  have two : (2 : ℚ) ≠ 0 := by norm_num
  have lo : (2 : ℚ) ^ (a - b - 1) ≤ |x| := by
    rw [habs, le_div_iff₀ hB]
    have e1 : (2 : ℚ) ^ a = 2 ^ (a - b - 1) * 2 ^ (b + 1) := by
      rw [← zpow_add₀ two]; congr 1; ring
    have p1 : (0 : ℚ) < 2 ^ (a - b - 1) := by positivity
    nlinarith
  have hi : |x| < (2 : ℚ) ^ (a - b + 1) := by
    rw [habs, div_lt_iff₀ hB]
    have e1 : (2 : ℚ) ^ (a + 1) = 2 ^ (a - b + 1) * 2 ^ b := by
      rw [← zpow_add₀ two]; congr 1; ring
    have p1 : (0 : ℚ) < 2 ^ (a - b + 1) := by positivity
    nlinarith
  split_ifs with h
  · rw [pow2q_eq] at h
    exact ⟨h, hi⟩
  · rw [pow2q_eq] at h
    push_neg at h
    refine ⟨lo, ?_⟩
    have : a - b - 1 + 1 = a - b := by ring
    rw [this]; exact h

theorem two_zpow_pos (e : Int) : (0 : ℚ) < 2 ^ e := by positivity

theorem ilog2_lt {x : ℚ} {a : Int} (hx : x ≠ 0) (h : |x| < (2 : ℚ) ^ a) : ilog2 x < a :=
  (zpow_lt_zpow_iff_right₀ (by norm_num : (1 : ℚ) < 2)).mp
    (lt_of_le_of_lt (ilog2_spec hx).1 h)

theorem le_ilog2 {x : ℚ} {a : Int} (hx : x ≠ 0) (h : (2 : ℚ) ^ a ≤ |x|) : a ≤ ilog2 x := by
  have h2 := (zpow_lt_zpow_iff_right₀ (by norm_num : (1 : ℚ) < 2)).mp
    (lt_of_le_of_lt h (ilog2_spec hx).2)
  omega

theorem ilog2_neg (x : ℚ) : ilog2 (-x) = ilog2 x := by
  unfold ilog2
  simp

theorem rne_floor_le (x : ℚ) : ⌊x⌋ ≤ rne x := by
  unfold rne
  split_ifs <;> omega

theorem rne_le_floor_add_one (x : ℚ) : rne x ≤ ⌊x⌋ + 1 := by
  unfold rne
  split_ifs <;> omega

theorem rne_intCast (k : Int) : rne (k : ℚ) = k := by
  unfold rne
  simp

theorem rne_mono {x y : ℚ} (h : x ≤ y) : rne x ≤ rne y := by
  rcases lt_or_eq_of_le (Int.floor_mono h) with hlt | heq
  · calc rne x ≤ ⌊x⌋ + 1 := rne_le_floor_add_one x
      _ ≤ ⌊y⌋ := hlt
      _ ≤ rne y := rne_floor_le y
  · unfold rne
    rw [← heq]
    split_ifs <;> first | omega | (exfalso; linarith)

theorem rne_le_of_le {z : ℚ} {n : Int} (h : z ≤ n) : rne z ≤ n := by
  have h2 := rne_mono h
  rwa [rne_intCast] at h2

theorem le_rne_of_le {z : ℚ} {n : Int} (h : (n : ℚ) ≤ z) : n ≤ rne z := by
  have h2 := rne_mono h
  rwa [rne_intCast] at h2

theorem rne_lt_of_lt {z : ℚ} {n : Int} (h : z < n - 1 / 2) : rne z < n := by
  by_cases hf : z - ⌊z⌋ < 1 / 2
  · have : rne z = ⌊z⌋ := by unfold rne; rw [if_pos hf]
    rw [this, Int.floor_lt]
    linarith
  · have h1 := rne_le_floor_add_one z
    have h2 : ((⌊z⌋ + 1 : Int) : ℚ) < n := by push_cast; linarith
    have h3 : ⌊z⌋ + 1 < n := by exact_mod_cast h2
    omega

theorem rne_neg (x : ℚ) : rne (-x) = -rne x := by
  by_cases hint : x = (⌊x⌋ : ℚ)
  · rw [hint, ← Int.cast_neg, rne_intCast, rne_intCast]
  · have h1 : (⌊x⌋ : ℚ) < x := lt_of_le_of_ne (Int.floor_le x) (Ne.symm hint)
    have h2 : x < (⌊x⌋ : ℚ) + 1 := Int.lt_floor_add_one x
    have hfl : ⌊-x⌋ = -⌊x⌋ - 1 := by
      rw [Int.floor_eq_iff]
      push_cast
      constructor <;> linarith
    unfold rne
    rw [hfl]
    push_cast
    split_ifs <;> first | omega | (exfalso; linarith)

theorem round_to_zero (p : Nat) (emin : Int) : round_to p emin 0 = 0 := by
  unfold round_to
  rw [if_pos rfl]

theorem round_to_of_ne (p : Nat) (emin : Int) {x : ℚ} (hx : x ≠ 0) :
    round_to p emin x =
      (rne (x / (2 : ℚ) ^ (max (ilog2 x) emin - ((p : Int) - 1))) : ℚ) *
        (2 : ℚ) ^ (max (ilog2 x) emin - ((p : Int) - 1)) := by
  unfold round_to
  rw [if_neg hx]
  simp only [pow2q_eq]

theorem round_to_neg (p : Nat) (emin : Int) (x : ℚ) :
    round_to p emin (-x) = -round_to p emin x := by
  by_cases hx : x = 0
  · subst hx
    simp [round_to_zero]
  · rw [round_to_of_ne p emin hx, round_to_of_ne p emin (neg_ne_zero.mpr hx), ilog2_neg,
      neg_div, rne_neg]
    push_cast
    ring

theorem round_to_nonneg (p : Nat) (emin : Int) {x : ℚ} (hx : 0 ≤ x) : 0 ≤ round_to p emin x := by
  by_cases h0 : x = 0
  · subst h0
    rw [round_to_zero]
  · rw [round_to_of_ne p emin h0]
    have hq := two_zpow_pos (max (ilog2 x) emin - ((p : Int) - 1))
    have h1 : (0 : Int) ≤ rne (x / (2 : ℚ) ^ (max (ilog2 x) emin - ((p : Int) - 1))) :=
      le_trans (Int.floor_nonneg.mpr (div_nonneg hx hq.le)) (rne_floor_le _)
    have h2 : (0 : ℚ) ≤ (rne (x / (2 : ℚ) ^ (max (ilog2 x) emin - ((p : Int) - 1))) : ℚ) := by
      exact_mod_cast h1
    exact mul_nonneg h2 hq.le

theorem abs_lt_quantum (emin : Int) {x : ℚ} (hx : x ≠ 0) :
    |x| < (2 : ℚ) ^ (max (ilog2 x) emin + 1) :=
  lt_of_lt_of_le (ilog2_spec hx).2
    (zpow_le_zpow_right₀ (by norm_num) (by have := le_max_left (ilog2 x) emin; omega))

theorem two_zpow_split (E : Int) (p : Nat) :
    (2 : ℚ) ^ (E + 1) = ((2 ^ p : Int) : ℚ) * (2 : ℚ) ^ (E - ((p : Int) - 1)) := by
  push_cast
  rw [← zpow_natCast, ← zpow_add₀ (by norm_num : (2 : ℚ) ≠ 0)]
  congr 1
  ring

theorem two_zpow_split_low (E : Int) {p : Nat} (hp : 1 ≤ p) :
    (2 : ℚ) ^ E = ((2 ^ (p - 1) : Int) : ℚ) * (2 : ℚ) ^ (E - ((p : Int) - 1)) := by
  push_cast
  rw [← zpow_natCast, ← zpow_add₀ (by norm_num : (2 : ℚ) ≠ 0)]
  congr 1
  have : ((p - 1 : Nat) : Int) = (p : Int) - 1 := by omega
  rw [this]
  ring

theorem round_to_mono_pos {p : Nat} (hp : 1 ≤ p) (emin : Int) {x y : ℚ} (hx : 0 < x)
    (hxy : x ≤ y) : round_to p emin x ≤ round_to p emin y := by
  have hy : 0 < y := lt_of_lt_of_le hx hxy
  have hx0 : x ≠ 0 := ne_of_gt hx
  have hy0 : y ≠ 0 := ne_of_gt hy
  rw [round_to_of_ne p emin hx0, round_to_of_ne p emin hy0]
  have hexy : ilog2 x ≤ ilog2 y := by
    have h1 := (ilog2_spec hx0).1
    have h2 := (ilog2_spec hy0).2
    rw [abs_of_pos hx] at h1
    rw [abs_of_pos hy] at h2
    have := (zpow_lt_zpow_iff_right₀ (by norm_num : (1 : ℚ) < 2)).mp
      (lt_of_le_of_lt (le_trans h1 hxy) h2)
    omega
  have hE : max (ilog2 x) emin ≤ max (ilog2 y) emin := max_le_max hexy le_rfl
  rcases eq_or_lt_of_le hE with heq | hlt
  · rw [← heq]
    have hq := two_zpow_pos (max (ilog2 x) emin - ((p : Int) - 1))
    have h1 := rne_mono (div_le_div_of_nonneg_right hxy hq.le)
    have h2 : (rne (x / (2 : ℚ) ^ (max (ilog2 x) emin - ((p : Int) - 1))) : ℚ) ≤
        (rne (y / (2 : ℚ) ^ (max (ilog2 x) emin - ((p : Int) - 1))) : ℚ) := by
      exact_mod_cast h1
    exact mul_le_mul_of_nonneg_right h2 hq.le
  · have hEy : max (ilog2 y) emin = ilog2 y := by
      have := le_max_right (ilog2 x) emin
      rcases max_choice (ilog2 y) emin with h | h
      · exact h
      · omega
    generalize hEx : max (ilog2 x) emin = Ex at hlt ⊢
    rw [hEy] at hlt ⊢
    have hxlt : x < (2 : ℚ) ^ (Ex + 1) := by
      have := abs_lt_quantum emin hx0
      rwa [abs_of_pos hx, hEx] at this
    have hyge : (2 : ℚ) ^ ilog2 y ≤ y := by
      have := (ilog2_spec hy0).1
      rwa [abs_of_pos hy] at this
    have hqx := two_zpow_pos (Ex - ((p : Int) - 1))
    have hqy := two_zpow_pos (ilog2 y - ((p : Int) - 1))
    have hA : (rne (x / (2 : ℚ) ^ (Ex - ((p : Int) - 1))) : ℚ) *
        (2 : ℚ) ^ (Ex - ((p : Int) - 1)) ≤ (2 : ℚ) ^ (Ex + 1) := by
      rw [two_zpow_split Ex p]
      apply mul_le_mul_of_nonneg_right _ hqx.le
      have : rne (x / (2 : ℚ) ^ (Ex - ((p : Int) - 1))) ≤ (2 ^ p : Int) := by
        apply rne_le_of_le
        rw [div_le_iff₀ hqx, ← two_zpow_split Ex p]
        exact hxlt.le
      exact_mod_cast this
    have hB : (2 : ℚ) ^ ilog2 y ≤ (rne (y / (2 : ℚ) ^ (ilog2 y - ((p : Int) - 1))) : ℚ) *
        (2 : ℚ) ^ (ilog2 y - ((p : Int) - 1)) := by
      conv_lhs => rw [two_zpow_split_low (ilog2 y) hp]
      apply mul_le_mul_of_nonneg_right _ hqy.le
      have : (2 ^ (p - 1) : Int) ≤ rne (y / (2 : ℚ) ^ (ilog2 y - ((p : Int) - 1))) := by
        apply le_rne_of_le
        rw [le_div_iff₀ hqy, ← two_zpow_split_low (ilog2 y) hp]
        exact hyge
      exact_mod_cast this
    have hC : (2 : ℚ) ^ (Ex + 1) ≤ (2 : ℚ) ^ ilog2 y :=
      zpow_le_zpow_right₀ (by norm_num) (by omega)
    exact le_trans hA (le_trans hC hB)

theorem round_to_mono {p : Nat} (hp : 1 ≤ p) (emin : Int) {x y : ℚ} (hxy : x ≤ y) :
    round_to p emin x ≤ round_to p emin y := by
  rcases lt_trichotomy x 0 with hx | hx | hx
  · rcases lt_or_le y 0 with hy | hy
    · have h := round_to_mono_pos hp emin (neg_pos.mpr hy) (neg_le_neg hxy)
      rw [round_to_neg, round_to_neg] at h
      exact neg_le_neg_iff.mp h
    · have h1 := round_to_nonneg p emin (neg_pos.mpr hx).le
      rw [round_to_neg] at h1
      have h2 := round_to_nonneg p emin hy
      linarith
  · subst hx
    rw [round_to_zero]
    exact round_to_nonneg p emin hxy
  · exact round_to_mono_pos hp emin hx hxy

theorem round_to_grid {p : Nat} (hp : 1 ≤ p) {emin E : Int} (hE : emin ≤ E) {n : Int}
    (hn : |n| ≤ 2 ^ p) :
    round_to p emin ((n : ℚ) * (2 : ℚ) ^ (E - ((p : Int) - 1))) =
      (n : ℚ) * (2 : ℚ) ^ (E - ((p : Int) - 1)) := by
  have two : (2 : ℚ) ≠ 0 := by norm_num
  have hqpos := two_zpow_pos (E - ((p : Int) - 1))
  generalize hq : (2 : ℚ) ^ (E - ((p : Int) - 1)) = q at hqpos ⊢
  by_cases hy : (n : ℚ) * q = 0
  · rw [hy, round_to_zero]
  · rw [round_to_of_ne p emin hy]
    have habs : |(n : ℚ) * q| ≤ (2 : ℚ) ^ (E + 1) := by
      rw [abs_mul, abs_of_pos hqpos, two_zpow_split E p, hq]
      apply mul_le_mul_of_nonneg_right _ hqpos.le
      have : ((|n| : Int) : ℚ) ≤ ((2 ^ p : Int) : ℚ) := by exact_mod_cast hn
      rwa [Int.cast_abs] at this
    have he2 : ilog2 ((n : ℚ) * q) ≤ E + 1 :=
      (zpow_le_zpow_iff_right₀ (by norm_num : (1 : ℚ) < 2)).mp
        (le_trans (ilog2_spec hy).1 habs)
    have hE2 : max (ilog2 ((n : ℚ) * q)) emin ≤ E + 1 := max_le he2 (by omega)
    by_cases hle : max (ilog2 ((n : ℚ) * q)) emin ≤ E
    · generalize max (ilog2 ((n : ℚ) * q)) emin = E2 at hle ⊢
      obtain ⟨k, hk⟩ := Int.eq_ofNat_of_zero_le (by omega : 0 ≤ E - E2)
      have hqq : q = (2 : ℚ) ^ k * (2 : ℚ) ^ (E2 - ((p : Int) - 1)) := by
        rw [← hq, ← zpow_natCast, ← zpow_add₀ two]
        congr 1
        rw [← hk]
        ring
      have hdiv : (n : ℚ) * q / (2 : ℚ) ^ (E2 - ((p : Int) - 1)) = ((n * 2 ^ k : Int) : ℚ) := by
        rw [div_eq_iff (ne_of_gt (two_zpow_pos _)), hqq]
        push_cast
        ring
      rw [hdiv, rne_intCast, ← hdiv]
      exact div_mul_cancel₀ _ (ne_of_gt (two_zpow_pos _))
    · have hmax : max (ilog2 ((n : ℚ) * q)) emin = E + 1 := by omega
      have hil : ilog2 ((n : ℚ) * q) = E + 1 := by
        rcases max_choice (ilog2 ((n : ℚ) * q)) emin with h | h
        · rw [← h]; exact hmax
        · omega
      rw [hmax]
      have hlow : (2 : ℚ) ^ (E + 1) ≤ |(n : ℚ) * q| := by
        have := (ilog2_spec hy).1
        rwa [hil] at this
      have habs_eq : |(n : ℚ) * q| = (2 : ℚ) ^ (E + 1) := le_antisymm habs hlow
      have hnabs : (|n| : Int) = 2 ^ p := by
        rw [abs_mul, abs_of_pos hqpos, two_zpow_split E p, hq] at habs_eq
        have h3 := mul_right_cancel₀ (ne_of_gt hqpos) habs_eq
        rw [← Int.cast_abs] at h3
        exact_mod_cast h3
      obtain ⟨m, hm⟩ : ∃ m : Int, n = 2 * m := by
        have hpow : (2 : Int) ^ p = 2 * 2 ^ (p - 1) := by
          rw [← pow_succ']
          congr 1
          omega
        rcases (abs_eq (by positivity)).mp hnabs with h | h
        · exact ⟨2 ^ (p - 1), by rw [h, hpow]⟩
        · exact ⟨-2 ^ (p - 1), by rw [h, hpow]; ring⟩
      have hq2 : (2 : ℚ) ^ (E + 1 - ((p : Int) - 1)) = q * 2 := by
        rw [show E + 1 - ((p : Int) - 1) = E - ((p : Int) - 1) + 1 by ring,
          zpow_add_one₀ two, hq]
      have hdiv : (n : ℚ) * q / (q * 2) = (m : ℚ) := by
        rw [div_eq_iff (by positivity), hm]
        push_cast
        ring
      rw [hq2, hdiv, rne_intCast, hm]
      push_cast
      ring

theorem round_to_idem {p : Nat} (hp : 1 ≤ p) (emin : Int) (x : ℚ) :
    round_to p emin (round_to p emin x) = round_to p emin x := by
  by_cases hx : x = 0
  · subst hx
    rw [round_to_zero, round_to_zero]
  · rw [round_to_of_ne p emin hx]
    apply round_to_grid hp (le_max_right _ _)
    have hq := two_zpow_pos (max (ilog2 x) emin - ((p : Int) - 1))
    have hlt := abs_lt_quantum emin hx
    rw [two_zpow_split _ p] at hlt
    push_cast at hlt
    rw [abs_le]
    constructor
    · apply le_rne_of_le
      push_cast
      rw [le_div_iff₀ hq]
      have := neg_abs_le x
      linarith
    · apply rne_le_of_le
      push_cast
      rw [div_le_iff₀ hq]
      have := le_abs_self x
      linarith

theorem to_float_mono {x y : ℚ} (h : x ≤ y) : to_float x ≤ to_float y :=
  round_to_mono (by norm_num) _ h

theorem to_double_mono {x y : ℚ} (h : x ≤ y) : to_double x ≤ to_double y :=
  round_to_mono (by norm_num) _ h

theorem to_float_idem (x : ℚ) : to_float (to_float x) = to_float x :=
  round_to_idem (by norm_num) _ x

theorem to_float_nonneg {x : ℚ} (h : 0 ≤ x) : 0 ≤ to_float x :=
  round_to_nonneg _ _ h

theorem to_double_nonneg {x : ℚ} (h : 0 ≤ x) : 0 ≤ to_double x :=
  round_to_nonneg _ _ h

theorem to_float_int {k : Int} (hk : |k| ≤ 2 ^ 24) : to_float (k : ℚ) = k := by
  have h := @round_to_grid 24 (by norm_num) (-126) 23 (by norm_num) k hk
  simpa [to_float] using h

theorem scaled_255_gap (n κ : Int) (hn1 : 2 ^ 23 ≤ n) (hn2 : n < 2 ^ 24)
    (h : 255 * n < κ * 2 ^ 24) :
    (2 ^ 31 ≤ 255 * n → 255 * n + 128 < κ * 2 ^ 24) ∧
      (255 * n < 2 ^ 31 → 255 * n + 64 < κ * 2 ^ 24) := by
  have hκ : 128 ≤ κ := by omega
  by_cases hk : 257 ≤ κ
  · constructor <;> intro _ <;> omega
  · have hk2 : κ ≤ 256 := by omega
    interval_cases κ <;> constructor <;> intro _ <;> omega

theorem two_zpow_sub (a b : Nat) : (2 : ℚ) ^ ((a : Int) - (b : Int)) = (2 : ℚ) ^ a / (2 : ℚ) ^ b := by
  rw [zpow_sub₀ (by norm_num : (2 : ℚ) ≠ 0), zpow_natCast, zpow_natCast]

theorem to_float_of_ilog2 {z : ℚ} (hz : z ≠ 0) {a b : Nat} (hlo : -126 ≤ (a : Int) + 23 - (b : Int))
    (h1 : (2 : ℚ) ^ (a + 23) / (2 : ℚ) ^ b ≤ |z|) (h2 : |z| < (2 : ℚ) ^ (a + 24) / (2 : ℚ) ^ b) :
    to_float z = (rne (z / ((2 : ℚ) ^ a / (2 : ℚ) ^ b)) : ℚ) * ((2 : ℚ) ^ a / (2 : ℚ) ^ b) := by
  have hil : ilog2 z = ((a + 23 : Nat) : Int) - (b : Int) := by
    apply le_antisymm
    · have := @ilog2_lt z (((a + 24 : Nat) : Int) - (b : Int)) hz (by rw [two_zpow_sub]; exact h2)
      push_cast at this ⊢
      omega
    · exact le_ilog2 hz (by rw [two_zpow_sub]; exact h1)
  unfold to_float
  rw [round_to_of_ne _ _ hz, hil]
  have hmax : max (((a + 23 : Nat) : Int) - (b : Int)) (-126) - (((24 : Nat) : Int) - 1) =
      (a : Int) - (b : Int) := by
    push_cast
    rw [max_eq_left (by omega)]
    ring
  rw [hmax, two_zpow_sub]

theorem to_float_scaled_255_lt (n K : Int) (s : Nat) (hn1 : 2 ^ 23 ≤ n) (hn2 : n < 2 ^ 24)
    (hs : s ≤ 8) (hK : (255 * n : ℚ) / 2 ^ (24 + s) < K) :
    to_float ((255 * n : ℚ) / 2 ^ (24 + s)) < K := by
  have hD : (0 : ℚ) < 2 ^ (24 + s) := by positivity
  have hn1q : ((2 : ℚ) ^ 23) ≤ n := by exact_mod_cast hn1
  have hn2q : (n : ℚ) < (2 : ℚ) ^ 24 := by exact_mod_cast hn2
  have hzpos : (0 : ℚ) < (255 * n : ℚ) / 2 ^ (24 + s) := by
    apply div_pos _ hD
    linarith [show (0 : ℚ) < 2 ^ 23 by norm_num]
  have hz0 := ne_of_gt hzpos
  have hκ : 255 * n < K * 2 ^ s * 2 ^ 24 := by
    rw [div_lt_iff₀ hD] at hK
    have : ((255 * n : Int) : ℚ) < ((K * 2 ^ s * 2 ^ 24 : Int) : ℚ) := by
      push_cast
      rw [pow_add] at hK
      linarith
    exact_mod_cast this
  obtain ⟨g1, g2⟩ := scaled_255_gap n (K * 2 ^ s) hn1 hn2 hκ
  by_cases h31 : 2 ^ 31 ≤ 255 * n
  · have h31q : ((2 : ℚ) ^ 31) ≤ 255 * n := by exact_mod_cast h31
    rw [@to_float_of_ilog2 _ hz0 8 (24 + s) (by push_cast; omega)
      (by rw [abs_of_pos hzpos]; exact div_le_div_of_nonneg_right h31q hD.le)
      (by rw [abs_of_pos hzpos]; apply div_lt_div_of_pos_right _ hD; norm_num at hn2q ⊢; linarith)]
    have hq : (0 : ℚ) < 2 ^ 8 / 2 ^ (24 + s) := by positivity
    have hKN : (K : ℚ) = ((K * 2 ^ s * 2 ^ 16 : Int) : ℚ) * ((2 : ℚ) ^ 8 / 2 ^ (24 + s)) := by
      push_cast
      rw [pow_add]
      field_simp
      ring
    rw [hKN]
    apply mul_lt_mul_of_pos_right _ hq
    have hlt : rne ((255 * n : ℚ) / 2 ^ (24 + s) / ((2 : ℚ) ^ 8 / 2 ^ (24 + s))) <
        K * 2 ^ s * 2 ^ 16 := by
      apply rne_lt_of_lt
      have e1 : (255 * n : ℚ) / 2 ^ (24 + s) / ((2 : ℚ) ^ 8 / 2 ^ (24 + s)) =
          (255 * n : ℚ) / 256 := by
        field_simp
        ring
      rw [e1]
      have g := g1 h31
      have gq : ((255 * n + 128 : Int) : ℚ) < ((K * 2 ^ s * 2 ^ 24 : Int) : ℚ) := by
        exact_mod_cast g
      push_cast at gq ⊢
      rw [div_lt_iff₀ (by norm_num : (0 : ℚ) < 256)]
      linarith
    exact_mod_cast hlt
  · push_neg at h31
    have h31q : (255 * n : ℚ) < (2 : ℚ) ^ 31 := by exact_mod_cast h31
    rw [@to_float_of_ilog2 _ hz0 7 (24 + s) (by push_cast; omega)
      (by rw [abs_of_pos hzpos]; apply div_le_div_of_nonneg_right _ hD.le
          norm_num at hn1q ⊢; linarith)
      (by rw [abs_of_pos hzpos]; exact div_lt_div_of_pos_right h31q hD)]
    have hq : (0 : ℚ) < 2 ^ 7 / 2 ^ (24 + s) := by positivity
    have hKN : (K : ℚ) = ((K * 2 ^ s * 2 ^ 17 : Int) : ℚ) * ((2 : ℚ) ^ 7 / 2 ^ (24 + s)) := by
      push_cast
      rw [pow_add]
      field_simp
      ring
    rw [hKN]
    apply mul_lt_mul_of_pos_right _ hq
    have hlt : rne ((255 * n : ℚ) / 2 ^ (24 + s) / ((2 : ℚ) ^ 7 / 2 ^ (24 + s))) <
        K * 2 ^ s * 2 ^ 17 := by
      apply rne_lt_of_lt
      have e1 : (255 * n : ℚ) / 2 ^ (24 + s) / ((2 : ℚ) ^ 7 / 2 ^ (24 + s)) =
          (255 * n : ℚ) / 128 := by
        field_simp
        ring
      rw [e1]
      have g := g2 h31
      have gq : ((255 * n + 64 : Int) : ℚ) < ((K * 2 ^ s * 2 ^ 24 : Int) : ℚ) := by
        exact_mod_cast g
      push_cast at gq ⊢
      rw [div_lt_iff₀ (by norm_num : (0 : ℚ) < 128)]
      linarith
    exact_mod_cast hlt

theorem to_float_half : to_float (1 / 2) = 1 / 2 := by decide!

theorem to_float_mul_255_lt {t : ℚ} (ht : to_float t = t) (h0 : 0 ≤ t) (h1 : t ≤ 1) {K : Int}
    (hK : t * 255 < K) : to_float (t * 255) < K := by
  by_cases hsmall : t * 255 ≤ 1 / 2
  · have h := to_float_mono hsmall
    rw [to_float_half] at h
    have hKpos : (0 : ℚ) < K := lt_of_le_of_lt (by positivity) hK
    have hK1 : (1 : Int) ≤ K := by
      have : (0 : Int) < K := by exact_mod_cast hKpos
      omega
    have hK1q : (1 : ℚ) ≤ K := by exact_mod_cast hK1
    linarith
  · push_neg at hsmall
    rcases eq_or_lt_of_le h1 with h1e | h1l
    · have e : to_float (255 : ℚ) = 255 := by
        have := @to_float_int 255 (by norm_num)
        exact_mod_cast this
      rw [h1e] at hK ⊢
      rw [one_mul] at hK ⊢
      rw [e]
      exact hK
    · have ht0 : t ≠ 0 := by
        rintro rfl
        norm_num at hsmall
      have htpos : 0 < t := lt_of_le_of_ne h0 (Ne.symm ht0)
      have he1 : -9 ≤ ilog2 t := by
        apply le_ilog2 ht0
        rw [abs_of_pos htpos]
        norm_num
        linarith
      have he2 : ilog2 t < 0 := by
        apply ilog2_lt ht0
        rw [abs_of_pos htpos]
        simpa using h1l
      obtain ⟨s, hs⟩ := Int.eq_ofNat_of_zero_le (by omega : 0 ≤ -1 - ilog2 t)
      have hs8 : s ≤ 8 := by omega
      have hD : (0 : ℚ) < 2 ^ (24 + s) := by positivity
      have hexp : max (ilog2 t) (-126) - (((24 : Nat) : Int) - 1) = -((24 + s : Nat) : Int) := by
        rw [max_eq_left (by omega)]
        push_cast
        omega
      unfold to_float at ht
      rw [round_to_of_ne _ _ ht0, hexp, zpow_neg, zpow_natCast] at ht
      generalize rne (t / ((2 : ℚ) ^ (24 + s))⁻¹) = n at ht
      have hspec := ilog2_spec ht0
      rw [abs_of_pos htpos] at hspec
      have hlo : ilog2 t = ((23 : Nat) : Int) - ((24 + s : Nat) : Int) := by
        push_cast
        omega
      have hhi : ilog2 t + 1 = ((24 : Nat) : Int) - ((24 + s : Nat) : Int) := by
        push_cast
        omega
      rw [hhi, hlo, two_zpow_sub, two_zpow_sub, ← ht] at hspec
      have hn1 : (2 : Int) ^ 23 ≤ n := by
        have h := hspec.1
        rw [div_eq_mul_inv] at h
        have := le_of_mul_le_mul_right h (inv_pos.mpr hD)
        exact_mod_cast this
      have hn2 : n < (2 : Int) ^ 24 := by
        have h := hspec.2
        rw [div_eq_mul_inv] at h
        have := lt_of_mul_lt_mul_right h (inv_pos.mpr hD).le
        exact_mod_cast this
      have hz : t * 255 = (255 * n : ℚ) / 2 ^ (24 + s) := by
        rw [← ht]
        field_simp
        ring
      rw [hz] at hK ⊢
      exact to_float_scaled_255_lt n K s hn1 hn2 hs8 hK

theorem to_float_mul_255_floor {t : ℚ} (ht : to_float t = t) (h0 : 0 ≤ t) (h1 : t ≤ 1) :
    ⌊to_float (t * 255)⌋ = ⌊t * 255⌋ := by
  apply le_antisymm
  · rw [Int.floor_le_iff]
    have := @to_float_mul_255_lt t ht h0 h1 (⌊t * 255⌋ + 1)
      (by push_cast; exact Int.lt_floor_add_one _)
    exact_mod_cast this
  · rw [Int.le_floor]
    have hf0 : 0 ≤ ⌊t * 255⌋ := Int.floor_nonneg.mpr (by positivity)
    have hf1 : ⌊t * 255⌋ ≤ 255 := by
      have : ⌊t * 255⌋ ≤ ⌊(255 : ℚ)⌋ := Int.floor_mono (by linarith)
      simpa using this
    have hk := @to_float_int ⌊t * 255⌋ (by rw [abs_of_nonneg hf0]; omega)
    rw [← hk]
    exact to_float_mono (Int.floor_le _)

/-! ## The quantizers and the decoded pixel in binary32 -/

theorem to_float_neg (x : ℚ) : to_float (-x) = -to_float x := round_to_neg _ _ x

theorem to_float_zero : to_float 0 = 0 := round_to_zero _ _

theorem to_float_natCast {n : Nat} (h : n ≤ 2 ^ 24) : to_float (n : ℚ) = n := by
  have hk : |(n : Int)| ≤ 2 ^ 24 := by
    rw [abs_of_nonneg (by positivity)]
    exact_mod_cast h
  have := to_float_int hk
  exact_mod_cast this

theorem to_float_one : to_float 1 = 1 := by
  have := @to_float_natCast 1 (by norm_num)
  exact_mod_cast this

/-- The `double` constant `0.3` and the `float` nearest to it. -/
theorem to_double_three_tenths :
    to_double (3 / 10) = 5404319552844595 / 18014398509481984 ∧
    to_float (to_double (3 / 10)) = 5033165 / 16777216 := by decide!

/-- No `float` lies strictly between the `double` constant `0.3` and the number `3 / 10`. -/
theorem float_ge_three_tenths {x : ℚ} (hx : to_float x = x) :
    x ≥ to_double (3 / 10) ↔ x ≥ 3 / 10 := by
  constructor
  · intro h
    have h2 := to_float_mono h
    rw [to_double_three_tenths.2, hx] at h2
    linarith
  · intro h
    rw [to_double_three_tenths.1]
    linarith

theorem float_le_neg_three_tenths {x : ℚ} (hx : to_float x = x) :
    x ≤ -to_double (3 / 10) ↔ x ≤ -(3 / 10) := by
  constructor
  · intro h
    have h2 := to_float_mono h
    rw [to_float_neg, to_double_three_tenths.2, hx] at h2
    linarith
  · intro h
    rw [to_double_three_tenths.1]
    linarith

theorem quantize_dct_f32_bounds (x : ℚ) :
    -15 ≤ quantize_dct_f32 x ∧ quantize_dct_f32 x ≤ 15 := by
  unfold quantize_dct_f32
  by_cases h1 : x ≤ -to_double (3 / 10)
  · rw [if_pos h1]
    constructor <;> norm_num
  · rw [if_neg h1]
    by_cases h2 : x ≥ to_double (3 / 10)
    · rw [if_pos h2]
      constructor <;> norm_num
    · rw [if_neg h2]
      rw [to_double_three_tenths.1] at h1 h2
      push_neg at h1 h2
      have e15 : to_float (15 : ℚ) = 15 := by
        have := @to_float_natCast 15 (by norm_num)
        exact_mod_cast this
      have hhi : to_float (x * 50) ≤ 15 := by
        have := to_float_mono (show x * 50 ≤ 15 by linarith)
        rwa [e15] at this
      have hlo : -15 ≤ to_float (x * 50) := by
        have := to_float_mono (show -(15 : ℚ) ≤ x * 50 by linarith)
        rwa [to_float_neg, e15] at this
      exact c_round_bounds (n := 15) (by norm_num) (by push_cast; linarith)
        (by push_cast; linarith)

theorem quantize_avg_brightness_f32_ok {a : ℚ} (h0 : 0 ≤ a) (h1 : a ≤ 1) :
    ∃ q, quantize_avg_brightness_f32 a = .ok q ∧ q ≤ 63 ∧
      (q : Int) = c_round (to_float (a * 63)) := by
  have e63 : to_float (63 : ℚ) = 63 := by
    have := @to_float_natCast 63 (by norm_num)
    exact_mod_cast this
  have hhi : to_float (a * 63) ≤ 63 := by
    have := to_float_mono (show a * 63 ≤ 63 by linarith)
    rwa [e63] at this
  have hlo : 0 ≤ to_float (a * 63) := to_float_nonneg (by linarith)
  have hb := c_round_bounds (x := to_float (a * 63)) (n := 63) (by norm_num)
    (by push_cast; linarith) (by push_cast; linarith)
  have hnn : 0 ≤ c_round (to_float (a * 63)) := c_round_nonneg hlo
  refine ⟨toUnsigned (c_round (to_float (a * 63))), ?_, ?_, ?_⟩
  · unfold quantize_avg_brightness_f32
    rw [if_pos ⟨h0, h1⟩]
  · rw [toUnsigned_of_nonneg hnn (by omega)]
    omega
  · rw [toUnsigned_of_nonneg hnn (by omega)]
    omega

/-- A trimmed `float` is a `float`. -/
theorem trim_one_float {x : ℚ} (hx : to_float x = x) : to_float (trim_one x) = trim_one x := by
  unfold trim_one
  by_cases h0 : x < 0
  · simp only [h0, if_true]
    rw [if_neg (by norm_num)]
    exact to_float_zero
  · simp only [h0, if_false]
    by_cases h1 : x > 1
    · rw [if_pos h1]
      exact to_float_one
    · rw [if_neg h1]
      exact hx

/-- One sample of `unscale_rgb` at denominator 255 on a trimmed `float` channel: the binary32
product has the integer part of the exact product. -/
theorem unscale_channel_f32 {x : ℚ} (hx : to_float x = x) :
    ((float_to_unsigned (to_float (trim_one x * to_float ((255 : Nat) : ℚ))) : Nat) : Int)
        = ⌊255 * min 1 (max 0 x)⌋ ∧
      float_to_unsigned (to_float (trim_one x * to_float ((255 : Nat) : ℚ))) ≤ 255 := by
  obtain ⟨h0, h1⟩ := trim_one_bounds x
  have e255 : to_float ((255 : Nat) : ℚ) = 255 := by
    have := @to_float_natCast 255 (by norm_num)
    exact_mod_cast this
  have hfl := to_float_mul_255_floor (trim_one_float hx) h0 h1
  have heq : float_to_unsigned (to_float (trim_one x * to_float ((255 : Nat) : ℚ)))
      = float_to_unsigned (trim_one x * ((255 : Nat) : ℚ)) := by
    rw [e255]
    unfold float_to_unsigned
    rw [hfl]
    norm_num
  obtain ⟨e, hle⟩ := float_to_unsigned_scaled h0 h1 (D := 255) (by norm_num)
  rw [heq]
  refine ⟨?_, hle⟩
  rw [e, trim_one_eq, mul_comm]
  norm_num

theorem decompress_pixel_loop_f32_succ (avg_pb avg_pr : ℚ) (y_vals : Nat → ℚ)
    (col row n i : Nat) (pixmap : Pnm_ppm) :
    decompress_pixel_loop_f32 avg_pb avg_pr y_vals col row (n + 1) i pixmap
      = (Pnm_store pixmap (sample_position col row i).1 (sample_position col row i).2
          (sample_pixel_f32 avg_pb avg_pr (y_vals i) pixmap.denominator)).bind fun pixmap =>
            decompress_pixel_loop_f32 avg_pb avg_pr y_vals col row n (i + 1) pixmap := rfl

theorem decompress_pixel_f32_step (avg_pb avg_pr : ℚ) (y_vals : Nat → ℚ)
    (col row n i w h D : Nat) (px : Nat → Nat → Pnm_rgb) (hc : col * 2 + i % 2 < w)
    (hr : row * 2 + i / 2 < h) :
    decompress_pixel_loop_f32 avg_pb avg_pr y_vals col row (n + 1) i ⟨w, h, D, px⟩
      = decompress_pixel_loop_f32 avg_pb avg_pr y_vals col row n (i + 1)
          ⟨w, h, D, fun c r =>
            if c = col * 2 + i % 2 ∧ r = row * 2 + i / 2 then
              sample_pixel_f32 avg_pb avg_pr (y_vals i) D
            else px c r⟩ := by
  rw [decompress_pixel_loop_f32_succ]
  unfold Pnm_store sample_position
  simp only
  rw [if_pos ⟨hc, hr⟩]
  rfl

/-- On a block inside the image `decompress_pixel` returns, in floating point as well, and the
four cells of the block hold the four sample pixels. -/
theorem decompress_pixel_f32_ok (avg_pb avg_pr : ℚ) (y_vals : Nat → ℚ) (pixmap : Pnm_ppm)
    (col row : Nat) (hc : col * 2 + 1 < pixmap.width) (hr : row * 2 + 1 < pixmap.height) :
    decompress_pixel_f32 avg_pb avg_pr y_vals pixmap col row
      = .ok { pixmap with
          pixels := fun x y =>
            if x / 2 = col ∧ y / 2 = row then
              sample_pixel_f32 avg_pb avg_pr (y_vals (y_val_pos x y)) pixmap.denominator
            else pixmap.pixels x y } := by
  obtain ⟨w, h, D, px⟩ := pixmap
  simp only at hc hr
  unfold decompress_pixel_f32
  rw [decompress_pixel_f32_step avg_pb avg_pr y_vals col row 3 0 w h D _ (by omega) (by omega),
    decompress_pixel_f32_step avg_pb avg_pr y_vals col row 2 1 w h D _ (by omega) (by omega),
    decompress_pixel_f32_step avg_pb avg_pr y_vals col row 1 2 w h D _ (by omega) (by omega),
    decompress_pixel_f32_step avg_pb avg_pr y_vals col row 0 3 w h D _ (by omega) (by omega)]
  show Except.ok _ = Except.ok _
  refine congrArg Except.ok ?_
  show Pnm_ppm.mk _ _ _ _ = Pnm_ppm.mk _ _ _ _
  congr 1
  funext x y
  by_cases hb : x / 2 = col ∧ y / 2 = row
  · rw [if_pos hb]
    have hx : x = col * 2 ∨ x = col * 2 + 1 := by omega
    have hy : y = row * 2 ∨ y = row * 2 + 1 := by omega
    have e0 : y_val_pos (col * 2) (row * 2) = 0 := by unfold y_val_pos; omega
    have e1 : y_val_pos (col * 2 + 1) (row * 2) = 1 := by unfold y_val_pos; omega
    have e2 : y_val_pos (col * 2) (row * 2 + 1) = 2 := by unfold y_val_pos; omega
    have e3 : y_val_pos (col * 2 + 1) (row * 2 + 1) = 3 := by unfold y_val_pos; omega
    rcases hx with rfl | rfl <;> rcases hy with rfl | rfl
    · rw [e0]
      simp
    · rw [e2]
      simp
    · rw [e1]
      simp
    · rw [e3]
      simp
  · rw [if_neg hb]
    have h0 : ¬ (x = col * 2 + 0 % 2 ∧ y = row * 2 + 0 / 2) := by omega
    have h1 : ¬ (x = col * 2 + 1 % 2 ∧ y = row * 2 + 1 / 2) := by omega
    have h2 : ¬ (x = col * 2 + 2 % 2 ∧ y = row * 2 + 2 / 2) := by omega
    have h3 : ¬ (x = col * 2 + 3 % 2 ∧ y = row * 2 + 3 / 2) := by omega
    simp only [h0, h1, h2, h3, if_false]

theorem returned_eq_some {α : Type} {r : Except Err α} {a : α} (h : returned r = some a) :
    r = .ok a := by
  cases r with
  | error e => cases h
  | ok b =>
    have : some b = some a := h
    rw [Option.some.inj this]

/-! ## The claims about the quantizers, in binary32 -/

/-- C13 (counterexample): at the `float` nearest to `0.01`, which lies strictly
between `-0.3` and `0.3`, `quantize_dct` returns `1` although `round (50 * x) = 0`: the
product `50 * x = 0.4999999888...` is rounded to the `float` `0.5` before `round` is
applied. Likewise at the `float` nearest to `0.29` it returns `15` although
`round (50 * x) = 14`. -/
theorem C13_product_rounding_counterexample :
    float_0_01 = to_float (to_double (1 / 100)) ∧ to_float float_0_01 = float_0_01 ∧
    -(3 / 10) < float_0_01 ∧ float_0_01 < 3 / 10 ∧
    quantize_dct_f32 float_0_01 = 1 ∧ c_round (50 * float_0_01) = 0 ∧
    to_float (float_0_01 * 50) = 1 / 2 ∧
    float_0_29 = to_float (to_double (29 / 100)) ∧ -(3 / 10) < float_0_29 ∧
    float_0_29 < 3 / 10 ∧ quantize_dct_f32 float_0_29 = 15 ∧
    c_round (50 * float_0_29) = 14 := by decide!

/-- C13 (amended): `quantize_dct` is clamp-then-scale with results in `[-15, 15]`, the product
being rounded to `float` before `round`. For every `float` `x` it returns `-15` for
`x ≤ -0.3`, `15` for `x ≥ 0.3` and `round (fl (50 * x))` in between, where `fl` rounds to
binary32 and `round` is the nearest integer with halves away from zero (the last conjunct pins
`c_round` down); the result is always in `[-15, 15]`; the values at the `float`s nearest to
`-0.3` and `0.3` and at `0` are `-15`, `15` and `0`; and whenever the product `50 * x` is
itself a `float` the result is that of the reading with exact arithmetic, `round (50 * x)`
in the middle range. -/
theorem C13_quantize_dct_float (x : ℚ) (hx : to_float x = x) :
    (x ≤ -(3 / 10) → quantize_dct_f32 x = -15) ∧
    (x ≥ 3 / 10 → quantize_dct_f32 x = 15) ∧
    (-(3 / 10) < x → x < 3 / 10 → quantize_dct_f32 x = c_round (to_float (50 * x))) ∧
    (-15 ≤ quantize_dct_f32 x ∧ quantize_dct_f32 x ≤ 15) ∧
    quantize_dct_f32 (to_float (to_double (-(3 / 10)))) = -15 ∧
    quantize_dct_f32 (to_float (to_double (3 / 10))) = 15 ∧ quantize_dct_f32 0 = 0 ∧
    (to_float (50 * x) = 50 * x → quantize_dct_f32 x = quantize_dct x) ∧
    (∀ y : ℚ, (0 ≤ y → (c_round y : ℚ) ≤ y + 1 / 2 ∧ y + 1 / 2 < c_round y + 1) ∧
      (y < 0 → (c_round y : ℚ) - 1 < y - 1 / 2 ∧ y - 1 / 2 ≤ c_round y)) := by
  have hlow : x ≤ -(3 / 10) → quantize_dct_f32 x = -15 := by
    intro h
    unfold quantize_dct_f32
    rw [if_pos ((float_le_neg_three_tenths hx).mpr h)]
  have hhigh : x ≥ 3 / 10 → quantize_dct_f32 x = 15 := by
    intro h
    unfold quantize_dct_f32
    have hn : ¬ x ≤ -to_double (3 / 10) := by
      intro h2
      have := (float_le_neg_three_tenths hx).mp h2
      linarith
    rw [if_neg hn, if_pos ((float_ge_three_tenths hx).mpr h)]
  have hmid : -(3 / 10) < x → x < 3 / 10 →
      quantize_dct_f32 x = c_round (to_float (50 * x)) := by
    intro h1 h2
    unfold quantize_dct_f32
    rw [if_neg (fun h => absurd ((float_le_neg_three_tenths hx).mp h) (not_le.mpr h1)),
      if_neg (fun h => absurd ((float_ge_three_tenths hx).mp h) (not_le.mpr h2)), mul_comm]
  refine ⟨hlow, hhigh, hmid, quantize_dct_f32_bounds x, by decide!, by decide!, by decide!, ?_,
    c_round_spec⟩
  intro hex
  by_cases h1 : x ≤ -(3 / 10)
  · rw [hlow h1]
    unfold quantize_dct
    rw [if_pos h1]
  · by_cases h2 : x ≥ 3 / 10
    · rw [hhigh h2]
      unfold quantize_dct
      rw [if_neg h1, if_pos h2]
    · rw [hmid (not_le.mp h1) (not_le.mp h2), hex]
      unfold quantize_dct
      rw [if_neg h1, if_neg h2, mul_comm]

/-- Witness for C13 (amended): the `float` `0.25`, in the middle range. -/
theorem C13_quantize_dct_float_witness :
    to_float (1 / 4) = 1 / 4 ∧
    (-15 ≤ quantize_dct_f32 (1 / 4) ∧ quantize_dct_f32 (1 / 4) ≤ 15) ∧
    quantize_dct_f32 (1 / 4) = c_round (to_float (50 * (1 / 4))) :=
  have h : to_float (1 / 4) = 1 / 4 := by decide!
  ⟨h, (C13_quantize_dct_float (1 / 4) h).2.2.2.1,
    (C13_quantize_dct_float (1 / 4) h).2.2.1 (by norm_num) (by norm_num)⟩

/-- C14 (counterexample): at the `float` with bit pattern `0x3f041041`, which lies
in `[0, 1]`, `quantize_avg_brightness` returns `33` although `round (63 * a) = 32`: the
product `63 * a = 32.49999...` is rounded to the `float` `32.5` before `round` is applied. -/
theorem C14_product_rounding_counterexample :
    to_float float_3f041041 = float_3f041041 ∧ 0 ≤ float_3f041041 ∧ float_3f041041 ≤ 1 ∧
    quantize_avg_brightness_f32 float_3f041041 = .ok 33 ∧
    c_round (63 * float_3f041041) = 32 ∧ to_float (float_3f041041 * 63) = 65 / 2 :=
  ⟨by decide!, by decide!, by decide!, returned_eq_some (by decide!), by decide!, by decide!⟩

/-- C14 (amended): `quantize_avg_brightness` maps `[0, 1]` into `[0, 63]`, the product being
rounded to `float` before `round`. For `0 ≤ a ≤ 1` it returns `round (fl (63 * a))`, where
`fl` rounds to binary32, an integer in `[0, 63]`; it returns `0` at `0` and `63` at `1`; for
`a` outside `[0, 1]` its assertion fails; and whenever the product `63 * a` is itself a
`float` the result is that of the reading with exact arithmetic, `round (63 * a)`. -/
theorem C14_quantize_avg_brightness_float (a : ℚ) :
    (0 ≤ a → a ≤ 1 →
      ∃ q, quantize_avg_brightness_f32 a = .ok q ∧
        (q : Int) = c_round (to_float (63 * a)) ∧ q ≤ 63) ∧
    quantize_avg_brightness_f32 0 = .ok 0 ∧
    quantize_avg_brightness_f32 1 = .ok 63 ∧
    (¬ (0 ≤ a ∧ a ≤ 1) → quantize_avg_brightness_f32 a = .error .Assert_Failed) ∧
    (to_float (63 * a) = 63 * a →
      quantize_avg_brightness_f32 a = quantize_avg_brightness a) := by
  refine ⟨?_, returned_eq_some (by decide!), returned_eq_some (by decide!), ?_, ?_⟩
  · intro h0 h1
    obtain ⟨q, hq, h63, hr⟩ := quantize_avg_brightness_f32_ok h0 h1
    exact ⟨q, hq, by rw [hr, mul_comm], h63⟩
  · intro h
    unfold quantize_avg_brightness_f32
    rw [if_neg (by
      intro h2
      exact h ⟨h2.1, h2.2⟩)]
  · intro hex
    unfold quantize_avg_brightness_f32 quantize_avg_brightness
    rw [mul_comm a 63, hex]

/-! ## The claim about the decoded pixel -/

/-- C31: decoded pixels are valid for the output denominator, in the floating-point
arithmetic of the code. For every luma `y` and chroma pair `(pb, pr)` the pixel of one pass of
`decompress_pixel` at denominator 255 is
`unscale_rgb (trim_normalized_rgbs (cv_to_rgb (y, pb, pr))) 255`; each of its red, green and
blue samples is `floor (255 * min 1 (max 0 x))` for the corresponding converted channel `x`,
the `float` that `cv_to_rgb` returns (the product `255 * ...` and the floor are the exact
ones: rounding the product to `float` does not change its integer part), and lies in
`[0, 255]`; `trim_normalized_rgbs` clamps each component to `[0, 1]`, is the identity on
`[0, 1]^3` and is idempotent; and on a block inside an image of denominator 255
`decompress_pixel` returns and stores exactly these pixels. -/
theorem C31_decoded_pixels_valid_float (y pb pr : ℚ) :
    sample_pixel_f32 pb pr y 255
      = unscale_rgb_f32 (trim_normalized_rgbs (cv_to_rgb_f32 (y, pb, pr))) 255 ∧
    (((sample_pixel_f32 pb pr y 255).red : Nat) : Int)
      = ⌊255 * min 1 (max 0 (cv_to_rgb_f32 (y, pb, pr)).1)⌋ ∧
    (((sample_pixel_f32 pb pr y 255).green : Nat) : Int)
      = ⌊255 * min 1 (max 0 (cv_to_rgb_f32 (y, pb, pr)).2.1)⌋ ∧
    (((sample_pixel_f32 pb pr y 255).blue : Nat) : Int)
      = ⌊255 * min 1 (max 0 (cv_to_rgb_f32 (y, pb, pr)).2.2)⌋ ∧
    ((sample_pixel_f32 pb pr y 255).red ≤ 255 ∧ (sample_pixel_f32 pb pr y 255).green ≤ 255 ∧
      (sample_pixel_f32 pb pr y 255).blue ≤ 255) ∧
    (∀ n : ℚ × ℚ × ℚ,
      trim_normalized_rgbs n
        = (min 1 (max 0 n.1), min 1 (max 0 n.2.1), min 1 (max 0 n.2.2))) ∧
    (∀ n : ℚ × ℚ × ℚ, (0 ≤ n.1 ∧ n.1 ≤ 1) → (0 ≤ n.2.1 ∧ n.2.1 ≤ 1) →
      (0 ≤ n.2.2 ∧ n.2.2 ≤ 1) → trim_normalized_rgbs n = n) ∧
    (∀ n : ℚ × ℚ × ℚ,
      trim_normalized_rgbs (trim_normalized_rgbs n) = trim_normalized_rgbs n) ∧
    (∀ (y_vals : Nat → ℚ) (pixmap : Pnm_ppm) (col row : Nat), pixmap.denominator = 255 →
      col * 2 + 1 < pixmap.width → row * 2 + 1 < pixmap.height →
      ∃ p, decompress_pixel_f32 pb pr y_vals pixmap col row = .ok p ∧
        ∀ i, i < 4 → p.pixels (col * 2 + i % 2) (row * 2 + i / 2)
          = sample_pixel_f32 pb pr (y_vals i) 255) := by
  have hr : to_float (cv_to_rgb_f32 (y, pb, pr)).1 = (cv_to_rgb_f32 (y, pb, pr)).1 :=
    to_float_idem _
  have hg : to_float (cv_to_rgb_f32 (y, pb, pr)).2.1 = (cv_to_rgb_f32 (y, pb, pr)).2.1 :=
    to_float_idem _
  have hb : to_float (cv_to_rgb_f32 (y, pb, pr)).2.2 = (cv_to_rgb_f32 (y, pb, pr)).2.2 :=
    to_float_idem _
  refine ⟨rfl, (unscale_channel_f32 hr).1, (unscale_channel_f32 hg).1,
    (unscale_channel_f32 hb).1,
    ⟨(unscale_channel_f32 hr).2, (unscale_channel_f32 hg).2, (unscale_channel_f32 hb).2⟩,
    ?_, ?_, ?_, ?_⟩
  · intro n
    unfold trim_normalized_rgbs
    rw [trim_one_eq, trim_one_eq, trim_one_eq]
  · intro n hr hg hb
    unfold trim_normalized_rgbs
    rw [trim_one_id hr.1 hr.2, trim_one_id hg.1 hg.2, trim_one_id hb.1 hb.2]
  · intro n
    unfold trim_normalized_rgbs
    simp only
    rw [trim_one_id (trim_one_bounds n.1).1 (trim_one_bounds n.1).2,
      trim_one_id (trim_one_bounds n.2.1).1 (trim_one_bounds n.2.1).2,
      trim_one_id (trim_one_bounds n.2.2).1 (trim_one_bounds n.2.2).2]
  · intro y_vals pixmap col row hden hc hr
    rw [decompress_pixel_f32_ok pb pr y_vals pixmap col row hc hr]
    refine ⟨_, rfl, ?_⟩
    intro i hi
    have hpos : y_val_pos (col * 2 + i % 2) (row * 2 + i / 2) = i := by
      unfold y_val_pos
      omega
    show (if (col * 2 + i % 2) / 2 = col ∧ (row * 2 + i / 2) / 2 = row then _ else _) = _
    rw [if_pos ⟨by omega, by omega⟩, hpos, hden]

/-! ## The per-pixel callback against the per-block encoding, in binary32 -/

/-- The callback `compress_cb` on a cell outside the even crop: nothing changes. -/
theorem compress_cb_f32_skip (index_of : ℚ → Nat) (col row : Nat) (elem : Pnm_rgb)
    (cl : Compression_Info)
    (h : col ≥ cl.orig_width - cl.orig_width % 2 ∨ row ≥ cl.orig_height - cl.orig_height % 2) :
    compress_cb_f32 index_of col row elem cl = .ok cl := by
  unfold compress_cb_f32
  rw [if_pos h]

/-- The callback `compress_cb` on a cell of the even crop that is not the last of its block:
the chromas are added to the accumulators, each sum rounded to `float`, and the luma is
stored. -/
theorem compress_cb_f32_acc (index_of : ℚ → Nat) (col row : Nat) (elem : Pnm_rgb)
    (cm : UArray2) (yv : Nat → ℚ) (pr pb : ℚ) (D ow oh : Nat)
    (hin : ¬ (col ≥ ow - ow % 2 ∨ row ≥ oh - oh % 2)) (hl : ¬ (row % 2 = 1 ∧ col % 2 = 1)) :
    compress_cb_f32 index_of col row elem ⟨cm, yv, pr, pb, D, ow, oh⟩
      = .ok ⟨cm, fun k => if k = y_val_pos col row then (rgb_to_cv_f32 (scale_rgb_f32 elem D)).1
          else yv k, to_float (pr + (rgb_to_cv_f32 (scale_rgb_f32 elem D)).2.2),
          to_float (pb + (rgb_to_cv_f32 (scale_rgb_f32 elem D)).2.1), D, ow, oh⟩ := by
  unfold compress_cb_f32
  simp only
  rw [if_neg hin, if_neg hl]
  rfl

/-- The callback `compress_cb` on the cell at odd column and odd row of a block of the even
crop: after the accumulation `pack_pixel` is called. -/
theorem compress_cb_f32_last (index_of : ℚ → Nat) (col row : Nat) (elem : Pnm_rgb)
    (cm : UArray2) (yv : Nat → ℚ) (pr pb : ℚ) (D ow oh : Nat)
    (hin : ¬ (col ≥ ow - ow % 2 ∨ row ≥ oh - oh % 2)) (hl : row % 2 = 1 ∧ col % 2 = 1) :
    compress_cb_f32 index_of col row elem ⟨cm, yv, pr, pb, D, ow, oh⟩
      = pack_pixel_f32 index_of ⟨cm, fun k => if k = y_val_pos col row then
            (rgb_to_cv_f32 (scale_rgb_f32 elem D)).1 else yv k,
          to_float (pr + (rgb_to_cv_f32 (scale_rgb_f32 elem D)).2.2),
          to_float (pb + (rgb_to_cv_f32 (scale_rgb_f32 elem D)).2.1), D, ow, oh⟩ col row := by
  unfold compress_cb_f32
  simp only
  rw [if_neg hin, if_pos hl]
  rfl

theorem pack_pixel_f32_eq (index_of : ℚ → Nat) (c_info : Compression_Info) (col row : Nat) :
    pack_pixel_f32 index_of c_info col row
      = (quantize_avg_brightness_f32 (pix_to_dct_f32 c_info.y_vals).1).bind fun a =>
          (bitpack_pixels a
            (toInt (toUnsigned (quantize_dct_f32 (pix_to_dct_f32 c_info.y_vals).2.1)))
            (toInt (toUnsigned (quantize_dct_f32 (pix_to_dct_f32 c_info.y_vals).2.2.1)))
            (toInt (toUnsigned (quantize_dct_f32 (pix_to_dct_f32 c_info.y_vals).2.2.2)))
            (index_of (to_float (to_double (c_info.avg_pb / 4))))
            (index_of (to_float (to_double (c_info.avg_pr / 4))))).bind fun word =>
            (UArray2_store c_info.compressed (col / 2) (row / 2) word).bind fun compressed =>
              .ok { c_info with compressed := compressed, avg_pb := 0, avg_pr := 0 } := rfl

/-- The function `pack_pixel` on a closure that holds the lumas of four pixels and the
binary32 chroma sums of the pixels `visit`: it stores the block encoding and clears the
accumulators. -/
theorem pack_pixel_f32_block (index_of : ℚ → Nat) (cm : UArray2) (yv : Nat → ℚ) (pr pb : ℚ)
    (D ow oh col row : Nat) (p0 p1 p2 p3 : Pnm_rgb) (visit : List Pnm_rgb)
    (h0 : yv 0 = (rgb_to_cv_f32 (scale_rgb_f32 p0 D)).1)
    (h1 : yv 1 = (rgb_to_cv_f32 (scale_rgb_f32 p1 D)).1)
    (h2 : yv 2 = (rgb_to_cv_f32 (scale_rgb_f32 p2 D)).1)
    (h3 : yv 3 = (rgb_to_cv_f32 (scale_rgb_f32 p3 D)).1)
    (hpb : pb = block_sum_f32 (visit.map fun p => (rgb_to_cv_f32 (scale_rgb_f32 p D)).2.1))
    (hpr : pr = block_sum_f32 (visit.map fun p => (rgb_to_cv_f32 (scale_rgb_f32 p D)).2.2)) :
    pack_pixel_f32 index_of ⟨cm, yv, pr, pb, D, ow, oh⟩ col row
      = (encode_block_f32 index_of D p0 p1 p2 p3 visit).bind fun word =>
          (UArray2_store cm (col / 2) (row / 2) word).bind fun compressed =>
            .ok ⟨compressed, yv, 0, 0, D, ow, oh⟩ := by
  have hrt : ∀ x : ℚ, toInt (toUnsigned (quantize_dct_f32 x)) = quantize_dct_f32 x := fun x =>
    toInt_toUnsigned (by have := quantize_dct_f32_bounds x; omega)
      (by have := quantize_dct_f32_bounds x; omega)
  rw [pack_pixel_f32_eq]
  unfold encode_block_f32 pix_to_dct_f32
  simp only [hrt, h0, h1, h2, h3, hpb, hpr]
  rw [except_bind_assoc]

/-- One block of the traversal in binary32: the four cells of block `(i, j)` of the even crop,
visited in any order that ends with the cell at odd column and odd row, starting with zero
accumulators. The callback stores at `(i, j)` the block encoding of the four pixels with the
chromas accumulated in the order of the visit, leaves the four lumas in the luma array and
the accumulators at zero. -/
theorem compress_block_f32 (index_of : ℚ → Nat) (px : Nat → Nat → Pnm_rgb) (cm : UArray2)
    (yv : Nat → ℚ) (D ow oh i j : Nat) (ord : List (Nat × Nat)) (hord : ord ∈ block_orders i j)
    (hi : 2 * i + 1 < ow - ow % 2) (hj : 2 * j + 1 < oh - oh % 2)
    (rest : List (Nat × Nat)) :
    map_cells px (compress_cb_f32 index_of) (ord ++ rest) ⟨cm, yv, 0, 0, D, ow, oh⟩
      = (encode_block_f32 index_of D (px (2 * i) (2 * j)) (px (2 * i + 1) (2 * j))
          (px (2 * i) (2 * j + 1)) (px (2 * i + 1) (2 * j + 1))
          (ord.map fun c => px c.1 c.2)).bind fun word =>
          (UArray2_store cm i j word).bind fun compressed =>
            map_cells px (compress_cb_f32 index_of) rest
              ⟨compressed, block_y_vals_f32 D (px (2 * i) (2 * j)) (px (2 * i + 1) (2 * j))
                (px (2 * i) (2 * j + 1)) (px (2 * i + 1) (2 * j + 1)) yv, 0, 0, D, ow, oh⟩ := by
  have e0 : y_val_pos (2 * i) (2 * j) = 0 := by unfold y_val_pos; omega
  have e1 : y_val_pos (2 * i + 1) (2 * j) = 1 := by unfold y_val_pos; omega
  have e2 : y_val_pos (2 * i) (2 * j + 1) = 2 := by unfold y_val_pos; omega
  have e3 : y_val_pos (2 * i + 1) (2 * j + 1) = 3 := by unfold y_val_pos; omega
  have half_i : (2 * i + 1) / 2 = i := by omega
  have half_j : (2 * j + 1) / 2 = j := by omega
  rw [map_cells_append]
  have key : map_cells px (compress_cb_f32 index_of) ord ⟨cm, yv, 0, 0, D, ow, oh⟩
      = (encode_block_f32 index_of D (px (2 * i) (2 * j)) (px (2 * i + 1) (2 * j))
          (px (2 * i) (2 * j + 1)) (px (2 * i + 1) (2 * j + 1))
          (ord.map fun c => px c.1 c.2)).bind fun word =>
          (UArray2_store cm i j word).bind fun compressed =>
            .ok ⟨compressed, block_y_vals_f32 D (px (2 * i) (2 * j)) (px (2 * i + 1) (2 * j))
              (px (2 * i) (2 * j + 1)) (px (2 * i + 1) (2 * j + 1)) yv, 0, 0, D, ow, oh⟩ := by
    have fin : ∀ (f : Nat → ℚ) (visit : List Pnm_rgb),
        (∀ k, f k = block_y_vals_f32 D (px (2 * i) (2 * j)) (px (2 * i + 1) (2 * j))
          (px (2 * i) (2 * j + 1)) (px (2 * i + 1) (2 * j + 1)) yv k) →
        ((encode_block_f32 index_of D (px (2 * i) (2 * j)) (px (2 * i + 1) (2 * j))
          (px (2 * i) (2 * j + 1)) (px (2 * i + 1) (2 * j + 1)) visit).bind fun word =>
          (UArray2_store cm i j word).bind fun compressed =>
            (Except.ok ⟨compressed, f, 0, 0, D, ow, oh⟩ : Except Err Compression_Info))
        = (encode_block_f32 index_of D (px (2 * i) (2 * j)) (px (2 * i + 1) (2 * j))
          (px (2 * i) (2 * j + 1)) (px (2 * i + 1) (2 * j + 1)) visit).bind fun word =>
          (UArray2_store cm i j word).bind fun compressed =>
            .ok ⟨compressed, block_y_vals_f32 D (px (2 * i) (2 * j)) (px (2 * i + 1) (2 * j))
              (px (2 * i) (2 * j + 1)) (px (2 * i + 1) (2 * j + 1)) yv, 0, 0, D, ow, oh⟩ := by
      intro f visit hf
      have : f = block_y_vals_f32 D (px (2 * i) (2 * j)) (px (2 * i + 1) (2 * j))
          (px (2 * i) (2 * j + 1)) (px (2 * i + 1) (2 * j + 1)) yv := funext hf
      rw [this]
    have step : ∀ (c1 c2 c3 : Nat × Nat),
        (c1 = (2 * i, 2 * j) ∨ c1 = (2 * i + 1, 2 * j) ∨ c1 = (2 * i, 2 * j + 1)) →
        (c2 = (2 * i, 2 * j) ∨ c2 = (2 * i + 1, 2 * j) ∨ c2 = (2 * i, 2 * j + 1)) →
        (c3 = (2 * i, 2 * j) ∨ c3 = (2 * i + 1, 2 * j) ∨ c3 = (2 * i, 2 * j + 1)) →
        c1 ≠ c2 → c1 ≠ c3 → c2 ≠ c3 →
        map_cells px (compress_cb_f32 index_of) [c1, c2, c3, (2 * i + 1, 2 * j + 1)]
            ⟨cm, yv, 0, 0, D, ow, oh⟩
          = (encode_block_f32 index_of D (px (2 * i) (2 * j)) (px (2 * i + 1) (2 * j))
              (px (2 * i) (2 * j + 1)) (px (2 * i + 1) (2 * j + 1))
              ([c1, c2, c3, (2 * i + 1, 2 * j + 1)].map fun c => px c.1 c.2)).bind fun word =>
              (UArray2_store cm i j word).bind fun compressed =>
                .ok ⟨compressed, block_y_vals_f32 D (px (2 * i) (2 * j))
                  (px (2 * i + 1) (2 * j)) (px (2 * i) (2 * j + 1))
                  (px (2 * i + 1) (2 * j + 1)) yv, 0, 0, D, ow, oh⟩ := by
      intro c1 c2 c3 h1 h2 h3 n12 n13 n23
      have hin : ∀ c : Nat × Nat,
          (c = (2 * i, 2 * j) ∨ c = (2 * i + 1, 2 * j) ∨ c = (2 * i, 2 * j + 1)) →
          ¬ (c.1 ≥ ow - ow % 2 ∨ c.2 ≥ oh - oh % 2) ∧ ¬ (c.2 % 2 = 1 ∧ c.1 % 2 = 1) := by
        intro c hc
        rcases hc with rfl | rfl | rfl <;> constructor <;> simp only <;> omega
      rw [map_cells_cons,
        compress_cb_f32_acc index_of _ _ _ cm yv 0 0 D ow oh (hin c1 h1).1 (hin c1 h1).2,
        except_bind_ok, map_cells_cons,
        compress_cb_f32_acc index_of _ _ _ cm _ _ _ D ow oh (hin c2 h2).1 (hin c2 h2).2,
        except_bind_ok, map_cells_cons,
        compress_cb_f32_acc index_of _ _ _ cm _ _ _ D ow oh (hin c3 h3).1 (hin c3 h3).2,
        except_bind_ok, map_cells_cons,
        compress_cb_f32_last index_of (2 * i + 1) (2 * j + 1) _ cm _ _ _ D ow oh
          (by omega) (by omega)]
      have hnil : (fun cl => map_cells px (compress_cb_f32 index_of) [] cl)
          = fun cl => Except.ok cl := rfl
      rw [hnil, except_bind_ok_id]
      rw [pack_pixel_f32_block index_of cm _ _ _ D ow oh _ _ (px (2 * i) (2 * j))
          (px (2 * i + 1) (2 * j)) (px (2 * i) (2 * j + 1)) (px (2 * i + 1) (2 * j + 1))
          ([c1, c2, c3, (2 * i + 1, 2 * j + 1)].map fun c => px c.1 c.2)
          ?_ ?_ ?_ ?_ ?_ ?_, half_i, half_j]
      · refine fin _ _ ?_
        intro k
        unfold block_y_vals_f32
        rcases h1 with rfl | rfl | rfl <;> rcases h2 with rfl | rfl | rfl <;>
          rcases h3 with rfl | rfl | rfl <;>
          first
          | exact absurd rfl n12
          | exact absurd rfl n13
          | exact absurd rfl n23
          | (simp only [e0, e1, e2, e3]
             by_cases k0 : k = 0
             · subst k0
               norm_num
             by_cases k1 : k = 1
             · subst k1
               norm_num
             by_cases k2 : k = 2
             · subst k2
               norm_num
             by_cases k3 : k = 3
             · subst k3
               norm_num
             simp only [k0, k1, k2, k3, if_false])
      all_goals
        first
        | rfl
        | (rcases h1 with rfl | rfl | rfl <;> rcases h2 with rfl | rfl | rfl <;>
            rcases h3 with rfl | rfl | rfl <;>
            first
            | exact absurd rfl n12
            | exact absurd rfl n13
            | exact absurd rfl n23
            | (simp only [e0, e1, e2, e3]
               norm_num))
    unfold block_orders at hord
    simp only [List.mem_cons, List.mem_singleton, List.not_mem_nil, or_false] at hord
    rcases hord with rfl | rfl | rfl | rfl | rfl | rfl
    · exact step _ _ _ (Or.inl rfl) (Or.inr (Or.inl rfl)) (Or.inr (Or.inr rfl))
        (by simp) (by simp) (by simp)
    · exact step _ _ _ (Or.inl rfl) (Or.inr (Or.inr rfl)) (Or.inr (Or.inl rfl))
        (by simp) (by simp) (by simp)
    · exact step _ _ _ (Or.inr (Or.inl rfl)) (Or.inl rfl) (Or.inr (Or.inr rfl))
        (by simp) (by simp) (by simp)
    · exact step _ _ _ (Or.inr (Or.inl rfl)) (Or.inr (Or.inr rfl)) (Or.inl rfl)
        (by simp) (by simp) (by simp)
    · exact step _ _ _ (Or.inr (Or.inr rfl)) (Or.inl rfl) (Or.inr (Or.inl rfl))
        (by simp) (by simp) (by simp)
    · exact step _ _ _ (Or.inr (Or.inr rfl)) (Or.inr (Or.inl rfl)) (Or.inl rfl)
        (by simp) (by simp) (by simp)
  rw [key, except_bind_assoc]
  cases encode_block_f32 index_of D (px (2 * i) (2 * j)) (px (2 * i + 1) (2 * j))
      (px (2 * i) (2 * j + 1)) (px (2 * i + 1) (2 * j + 1)) (ord.map fun c => px c.1 c.2) with
  | error e => rfl
  | ok word =>
    rw [except_bind_ok, except_bind_ok, except_bind_assoc]
    cases UArray2_store cm i j word with
    | error e => rfl
    | ok compressed => rfl

theorem encode_blocks_f32_cons (index_of : ℚ → Nat) (pixels : Nat → Nat → Pnm_rgb)
    (ord : Nat × Nat → List (Nat × Nat)) (b : Nat × Nat)
    (bs : List (Nat × Nat)) (cm : UArray2) (yv : Nat → ℚ) (pr pb : ℚ) (D ow oh : Nat) :
    encode_blocks_f32 index_of pixels ord (b :: bs) ⟨cm, yv, pr, pb, D, ow, oh⟩
      = (encode_block_f32 index_of D (pixels (2 * b.1) (2 * b.2))
          (pixels (2 * b.1 + 1) (2 * b.2)) (pixels (2 * b.1) (2 * b.2 + 1))
          (pixels (2 * b.1 + 1) (2 * b.2 + 1)) ((ord b).map fun c => pixels c.1 c.2)).bind
          fun word => (UArray2_store cm b.1 b.2 word).bind fun compressed =>
            encode_blocks_f32 index_of pixels ord bs
              ⟨compressed, block_y_vals_f32 D (pixels (2 * b.1) (2 * b.2))
                (pixels (2 * b.1 + 1) (2 * b.2)) (pixels (2 * b.1) (2 * b.2 + 1))
                (pixels (2 * b.1 + 1) (2 * b.2 + 1)) yv, 0, 0, D, ow, oh⟩ := rfl

/-- The fold of `compress_cb`, in binary32, over a traversal that visits block after block,
the four cells of each block together and the cell at odd column and odd row last, is the
block-by-block encoder with the chromas of each block accumulated in the order of the
traversal. -/
theorem compress_blocks_f32 (index_of : ℚ → Nat) (px : Nat → Nat → Pnm_rgb)
    (ord : Nat × Nat → List (Nat × Nat)) (D ow oh : Nat) :
    ∀ (bs : List (Nat × Nat)) (cm : UArray2) (yv : Nat → ℚ),
      (∀ b ∈ bs, ord b ∈ block_orders b.1 b.2 ∧ 2 * b.1 + 1 < ow - ow % 2 ∧
        2 * b.2 + 1 < oh - oh % 2) →
      map_cells px (compress_cb_f32 index_of) (bs.flatMap ord) ⟨cm, yv, 0, 0, D, ow, oh⟩
        = encode_blocks_f32 index_of px ord bs ⟨cm, yv, 0, 0, D, ow, oh⟩ := by
  intro bs
  induction bs with
  | nil =>
    intro cm yv _
    rfl
  | cons b bs ih =>
    intro cm yv hb
    obtain ⟨h1, h2, h3⟩ := hb b (List.mem_cons_self _ _)
    rw [List.flatMap_cons, compress_block_f32 index_of px cm yv D ow oh b.1 b.2 (ord b) h1 h2 h3,
      encode_blocks_f32_cons]
    cases encode_block_f32 index_of D (px (2 * b.1) (2 * b.2)) (px (2 * b.1 + 1) (2 * b.2))
        (px (2 * b.1) (2 * b.2 + 1)) (px (2 * b.1 + 1) (2 * b.2 + 1))
        ((ord b).map fun c => px c.1 c.2) with
    | error e => rfl
    | ok word =>
      rw [except_bind_ok, except_bind_ok]
      cases UArray2_store cm b.1 b.2 word with
      | error e => rfl
      | ok compressed =>
        rw [except_bind_ok, except_bind_ok]
        exact ih compressed _ (fun b' hb' => hb b' (List.mem_cons_of_mem _ hb'))

/-! ## Ranges in binary32 -/

theorem scale_rgb_f32_bounds {pixel : Pnm_rgb} {D : Nat} (hD : 0 < D)
    (hp : pixel.red ≤ D ∧ pixel.green ≤ D ∧ pixel.blue ≤ D) :
    (0 ≤ (scale_rgb_f32 pixel D).1 ∧ (scale_rgb_f32 pixel D).1 ≤ 1) ∧
    (0 ≤ (scale_rgb_f32 pixel D).2.1 ∧ (scale_rgb_f32 pixel D).2.1 ≤ 1) ∧
    (0 ≤ (scale_rgb_f32 pixel D).2.2 ∧ (scale_rgb_f32 pixel D).2.2 ≤ 1) := by
  have hD1 : (1 : ℚ) ≤ to_float (D : ℚ) := by
    have h : (1 : ℚ) ≤ (D : ℚ) := by exact_mod_cast hD
    have := to_float_mono h
    rwa [to_float_one] at this
  have hDpos : (0 : ℚ) < to_float (D : ℚ) := by linarith
  have key : ∀ n : Nat, n ≤ D →
      0 ≤ to_float (to_float (n : ℚ) / to_float (D : ℚ)) ∧
        to_float (to_float (n : ℚ) / to_float (D : ℚ)) ≤ 1 := by
    intro n hn
    have hnq : (n : ℚ) ≤ D := by exact_mod_cast hn
    have h1 : to_float (n : ℚ) ≤ to_float (D : ℚ) := to_float_mono hnq
    have h0 : 0 ≤ to_float (n : ℚ) := to_float_nonneg (Nat.cast_nonneg n)
    have hq0 : 0 ≤ to_float (n : ℚ) / to_float (D : ℚ) := div_nonneg h0 hDpos.le
    have hq1 : to_float (n : ℚ) / to_float (D : ℚ) ≤ 1 := (div_le_one hDpos).mpr h1
    refine ⟨to_float_nonneg hq0, ?_⟩
    have := to_float_mono hq1
    rwa [to_float_one] at this
  exact ⟨key _ hp.1, key _ hp.2.1, key _ hp.2.2⟩

/-- The luma of the colour `(1, 1, 1)` and the average of four lumas `1`, in floating
point. -/
theorem luma_f32_top :
    to_float (to_double (to_double (to_double (to_double (299 / 1000) * 1)
      + to_double (to_double (587 / 1000) * 1)) + to_double (to_double (114 / 1000) * 1))) = 1 ∧
    to_float (to_double (to_float (to_float (to_float ((1 : ℚ) + 1) + 1) + 1) / 4)) = 1 := by
  decide!

theorem luma_f32_bounds {n : ℚ × ℚ × ℚ} (hr : 0 ≤ n.1 ∧ n.1 ≤ 1) (hg : 0 ≤ n.2.1 ∧ n.2.1 ≤ 1)
    (hb : 0 ≤ n.2.2 ∧ n.2.2 ≤ 1) : 0 ≤ (rgb_to_cv_f32 n).1 ∧ (rgb_to_cv_f32 n).1 ≤ 1 := by
  have c1 : 0 ≤ to_double (299 / 1000) := to_double_nonneg (by norm_num)
  have c2 : 0 ≤ to_double (587 / 1000) := to_double_nonneg (by norm_num)
  have c3 : 0 ≤ to_double (114 / 1000) := to_double_nonneg (by norm_num)
  constructor
  · exact to_float_nonneg (to_double_nonneg (add_nonneg
      (to_double_nonneg (add_nonneg (to_double_nonneg (mul_nonneg c1 hr.1))
        (to_double_nonneg (mul_nonneg c2 hg.1))))
      (to_double_nonneg (mul_nonneg c3 hb.1))))
  · have h := to_float_mono (to_double_mono (add_le_add
      (to_double_mono (add_le_add
        (to_double_mono (mul_le_mul_of_nonneg_left hr.2 c1))
        (to_double_mono (mul_le_mul_of_nonneg_left hg.2 c2))))
      (to_double_mono (mul_le_mul_of_nonneg_left hb.2 c3))))
    rw [luma_f32_top.1] at h
    exact h

theorem pixel_luma_f32_bounds {pixel : Pnm_rgb} {D : Nat} (hD : 0 < D)
    (hp : pixel.red ≤ D ∧ pixel.green ≤ D ∧ pixel.blue ≤ D) :
    0 ≤ (rgb_to_cv_f32 (scale_rgb_f32 pixel D)).1 ∧
      (rgb_to_cv_f32 (scale_rgb_f32 pixel D)).1 ≤ 1 := by
  obtain ⟨hr, hg, hb⟩ := scale_rgb_f32_bounds hD hp
  exact luma_f32_bounds hr hg hb

/-- The luma average of four lumas in `[0, 1]` lies in `[0, 1]`, in floating point as well. -/
theorem average_f32_bounds {y0 y1 y2 y3 : ℚ} (h0 : 0 ≤ y0 ∧ y0 ≤ 1) (h1 : 0 ≤ y1 ∧ y1 ≤ 1)
    (h2 : 0 ≤ y2 ∧ y2 ≤ 1) (h3 : 0 ≤ y3 ∧ y3 ≤ 1) :
    0 ≤ to_float (to_double (to_float (to_float (to_float (y3 + y2) + y1) + y0) / 4)) ∧
      to_float (to_double (to_float (to_float (to_float (y3 + y2) + y1) + y0) / 4)) ≤ 1 := by
  constructor
  · exact to_float_nonneg (to_double_nonneg (div_nonneg
      (to_float_nonneg (add_nonneg (to_float_nonneg (add_nonneg
        (to_float_nonneg (add_nonneg h3.1 h2.1)) h1.1)) h0.1)) (by norm_num)))
  · have h := to_float_mono (to_double_mono (div_le_div_of_nonneg_right
      (to_float_mono (add_le_add (to_float_mono (add_le_add
        (to_float_mono (add_le_add h3.2 h2.2)) h1.2)) h0.2))
      (show (0 : ℚ) ≤ 4 by norm_num)))
    rw [luma_f32_top.2] at h
    exact h

/-- The block encoding, in floating point, of four pixels with samples at most the
denominator, for a chroma index function with values below 16: it returns a word in the
packed layout. -/
theorem encode_block_f32_ok (index_of : ℚ → Nat) (hidx : ∀ x, index_of x ≤ 15) {D : Nat}
    (hD : 0 < D) {p0 p1 p2 p3 : Pnm_rgb}
    (h0 : p0.red ≤ D ∧ p0.green ≤ D ∧ p0.blue ≤ D)
    (h1 : p1.red ≤ D ∧ p1.green ≤ D ∧ p1.blue ≤ D)
    (h2 : p2.red ≤ D ∧ p2.green ≤ D ∧ p2.blue ≤ D)
    (h3 : p3.red ≤ D ∧ p3.green ≤ D ∧ p3.blue ≤ D) (visit : List Pnm_rgb) :
    ∃ (a pb pr : Nat) (b c d : Int), a ≤ 63 ∧ (-15 ≤ b ∧ b ≤ 15) ∧ (-15 ≤ c ∧ c ≤ 15) ∧
      (-15 ≤ d ∧ d ≤ 15) ∧ pb ≤ 15 ∧ pr ≤ 15 ∧
      encode_block_f32 index_of D p0 p1 p2 p3 visit
        = .ok (a * 2 ^ 26 + (b % 64).toNat * 2 ^ 20 + (c % 64).toNat * 2 ^ 14
          + (d % 64).toNat * 2 ^ 8 + pb * 2 ^ 4 + pr) := by
  have l0 := pixel_luma_f32_bounds hD h0
  have l1 := pixel_luma_f32_bounds hD h1
  have l2 := pixel_luma_f32_bounds hD h2
  have l3 := pixel_luma_f32_bounds hD h3
  have hav := average_f32_bounds l0 l1 l2 l3
  obtain ⟨a, hqa, ha63, -⟩ := quantize_avg_brightness_f32_ok hav.1 hav.2
  have hb := quantize_dct_f32_bounds (to_float (to_double (to_float (to_float (to_float
    ((rgb_to_cv_f32 (scale_rgb_f32 p3 D)).1 + (rgb_to_cv_f32 (scale_rgb_f32 p2 D)).1)
    - (rgb_to_cv_f32 (scale_rgb_f32 p1 D)).1) - (rgb_to_cv_f32 (scale_rgb_f32 p0 D)).1) / 4)))
  have hc := quantize_dct_f32_bounds (to_float (to_double (to_float (to_float (to_float
    ((rgb_to_cv_f32 (scale_rgb_f32 p3 D)).1 - (rgb_to_cv_f32 (scale_rgb_f32 p2 D)).1)
    + (rgb_to_cv_f32 (scale_rgb_f32 p1 D)).1) - (rgb_to_cv_f32 (scale_rgb_f32 p0 D)).1) / 4)))
  have hd := quantize_dct_f32_bounds (to_float (to_double (to_float (to_float (to_float
    ((rgb_to_cv_f32 (scale_rgb_f32 p3 D)).1 - (rgb_to_cv_f32 (scale_rgb_f32 p2 D)).1)
    - (rgb_to_cv_f32 (scale_rgb_f32 p1 D)).1) + (rgb_to_cv_f32 (scale_rgb_f32 p0 D)).1) / 4)))
  have hpb := hidx (to_float (to_double (block_sum_f32
    (visit.map fun p => (rgb_to_cv_f32 (scale_rgb_f32 p D)).2.1) / 4)))
  have hpr := hidx (to_float (to_double (block_sum_f32
    (visit.map fun p => (rgb_to_cv_f32 (scale_rgb_f32 p D)).2.2) / 4)))
  refine ⟨a, _, _, _, _, _, ha63, hb, hc, hd, hpb, hpr, ?_⟩
  unfold encode_block_f32
  simp only
  rw [hqa, except_bind_ok, bitpack_pixels_eq_word,
    bitpack_pixels_word_eq ha63 ⟨by omega, by omega⟩ ⟨by omega, by omega⟩ ⟨by omega, by omega⟩
      hpb hpr]
  refine congrArg Except.ok ?_
  exact Nat.mod_eq_of_lt (by omega)

/-- The block-by-block encoder, in floating point, on blocks that lie in the packed grid and
in an image whose samples are at most the denominator: it returns; the grid keeps its
dimensions; the word at every visited block is the block encoding of its four pixels; the
other words are kept; the accumulators are zero. -/
theorem encode_blocks_f32_ok (index_of : ℚ → Nat) (hidx : ∀ x, index_of x ≤ 15)
    (px : Nat → Nat → Pnm_rgb) (ord : Nat × Nat → List (Nat × Nat)) {D : Nat} (hD : 0 < D)
    (W H ow oh : Nat)
    (hpx : ∀ x y, x < W → y < H → (px x y).red ≤ D ∧ (px x y).green ≤ D ∧ (px x y).blue ≤ D) :
    ∀ (bs : List (Nat × Nat)) (cm : UArray2) (yv : Nat → ℚ),
      (∀ b ∈ bs, b.1 < cm.width ∧ b.2 < cm.height ∧ 2 * b.1 + 1 < W ∧ 2 * b.2 + 1 < H) →
      ∃ cl', encode_blocks_f32 index_of px ord bs ⟨cm, yv, 0, 0, D, ow, oh⟩ = .ok cl' ∧
        cl'.compressed.width = cm.width ∧ cl'.compressed.height = cm.height ∧
        cl'.avg_pb = 0 ∧ cl'.avg_pr = 0 ∧
        (∀ c r, (c, r) ∈ bs →
          encode_block_f32 index_of D (px (2 * c) (2 * r)) (px (2 * c + 1) (2 * r))
            (px (2 * c) (2 * r + 1)) (px (2 * c + 1) (2 * r + 1))
            ((ord (c, r)).map fun p => px p.1 p.2)
            = .ok (cl'.compressed.elems c r)) ∧
        (∀ c r, (c, r) ∉ bs → cl'.compressed.elems c r = cm.elems c r) := by
  intro bs
  induction bs with
  | nil =>
    intro cm yv _
    exact ⟨_, rfl, rfl, rfl, rfl, rfl, fun c r h => absurd h (List.not_mem_nil _),
      fun _ _ _ => rfl⟩
  | cons b bs ih =>
    intro cm yv hb
    obtain ⟨hb1, hb2, hb3, hb4⟩ := hb b (List.mem_cons_self _ _)
    obtain ⟨a, pb, pr, qb, qc, qd, -, -, -, -, -, -, hword⟩ :=
      encode_block_f32_ok index_of hidx hD
        (hpx (2 * b.1) (2 * b.2) (by omega) (by omega))
        (hpx (2 * b.1 + 1) (2 * b.2) (by omega) (by omega))
        (hpx (2 * b.1) (2 * b.2 + 1) (by omega) (by omega))
        (hpx (2 * b.1 + 1) (2 * b.2 + 1) (by omega) (by omega))
        ((ord b).map fun p => px p.1 p.2)
    obtain ⟨cl', hcl, hw, hh, hpb0, hpr0, hin, hout⟩ := ih
      { cm with elems := fun c r => if c = b.1 ∧ r = b.2 then
          a * 2 ^ 26 + (qb % 64).toNat * 2 ^ 20 + (qc % 64).toNat * 2 ^ 14
            + (qd % 64).toNat * 2 ^ 8 + pb * 2 ^ 4 + pr else cm.elems c r }
      (block_y_vals_f32 D (px (2 * b.1) (2 * b.2)) (px (2 * b.1 + 1) (2 * b.2))
        (px (2 * b.1) (2 * b.2 + 1)) (px (2 * b.1 + 1) (2 * b.2 + 1)) yv)
      (fun b' hb' => hb b' (List.mem_cons_of_mem _ hb'))
    refine ⟨cl', ?_, hw, hh, hpb0, hpr0, ?_, ?_⟩
    · rw [encode_blocks_f32_cons, hword, except_bind_ok, UArray2_store_ok _ hb1 hb2,
        except_bind_ok]
      exact hcl
    · intro c r hcr
      by_cases hmem : (c, r) ∈ bs
      · exact hin c r hmem
      · have hbe : (c, r) = b := by
          rcases List.mem_cons.mp hcr with h | h
          · exact h
          · exact absurd h hmem
        have hc : c = b.1 := by rw [← hbe]
        have hr : r = b.2 := by rw [← hbe]
        rw [hout c r hmem]
        show _ = Except.ok (if c = b.1 ∧ r = b.2 then _ else _)
        rw [if_pos ⟨hc, hr⟩, hbe, hc, hr]
        exact hword
    · intro c r hcr
      have hne : ¬ (c = b.1 ∧ r = b.2) := by
        intro h
        exact hcr (List.mem_cons.mpr (Or.inl (Prod.ext h.1 h.2)))
      rw [hout c r (fun h => hcr (List.mem_cons_of_mem _ h))]
      show (if c = b.1 ∧ r = b.2 then _ else _) = _
      rw [if_neg hne]

theorem block_y_vals_f32_cells (D : Nat) (p0 p1 p2 p3 : Pnm_rgb) (old : Nat → ℚ) :
    block_y_vals_f32 D p0 p1 p2 p3 old 0 = (rgb_to_cv_f32 (scale_rgb_f32 p0 D)).1 ∧
    block_y_vals_f32 D p0 p1 p2 p3 old 1 = (rgb_to_cv_f32 (scale_rgb_f32 p1 D)).1 ∧
    block_y_vals_f32 D p0 p1 p2 p3 old 2 = (rgb_to_cv_f32 (scale_rgb_f32 p2 D)).1 ∧
    block_y_vals_f32 D p0 p1 p2 p3 old 3 = (rgb_to_cv_f32 (scale_rgb_f32 p3 D)).1 := by
  unfold block_y_vals_f32
  refine ⟨?_, ?_, ?_, ?_⟩ <;> norm_num

theorem col_order_mem (b : Nat × Nat) : col_order b ∈ block_orders b.1 b.2 := by
  unfold col_order block_orders
  exact List.mem_cons_of_mem _ (List.mem_cons_self _ _)

/-! ## The claim about the stateful callback -/

/-- C25 (counterexample). (a) On the 2 by 2 image `tie_image` (denominator 10),
visited row by row, the callback stores the word `0x88008077`, whose detail code `c` is `2`,
while the block encoding of the four pixels with exact arithmetic is `0x8800C077`, with
`c = 3`: the exact coefficient is `0.05`, a tie of `round (50 * x)`, and the `float`
coefficient lies below it. (b) On the 2 by 2 image `order_image` (denominator 3), with a
chroma index function that tells the sign, the word stored depends on the order of the first
three cells: row by row the `float` sum of the four `pb` is `0` and the index `8`, column by
column the sum is `-2 ^ (-27)` and the index `7`. So the accumulators do not hold one sum of
the four chromas, and the word stored is not a function of the four pixels alone. -/
theorem C25_float_accumulation_counterexample :
    stored_word (map_cells tie_image.pixels (compress_cb_f32 const_index) (row_order (0, 0))
      (initial_info tie_image (fun _ => 0))) 0 0 = some 2281734263 ∧
    encode_block const_index 10 (tie_image.pixels 0 0) (tie_image.pixels 1 0)
      (tie_image.pixels 0 1) (tie_image.pixels 1 1) = .ok 2281750647 ∧
    row_order (0, 0) ∈ block_orders 0 0 ∧ col_order (0, 0) ∈ block_orders 0 0 ∧
    stored_word (map_cells order_image.pixels (compress_cb_f32 sign_index) (row_order (0, 0))
      (initial_info order_image (fun _ => 0))) 0 0 = some 1749089928 ∧
    stored_word (map_cells order_image.pixels (compress_cb_f32 sign_index) (col_order (0, 0))
      (initial_info order_image (fun _ => 0))) 0 0 = some 1749089912 ∧
    block_sum_f32 ((row_order (0, 0)).map fun c =>
      (rgb_to_cv_f32 (scale_rgb_f32 (order_image.pixels c.1 c.2) 3)).2.1) = 0 ∧
    block_sum_f32 ((col_order (0, 0)).map fun c =>
      (rgb_to_cv_f32 (scale_rgb_f32 (order_image.pixels c.1 c.2) 3)).2.1) = -1 / 134217728 :=
  ⟨by decide!, returned_eq_some (by decide!), row_order_mem (0, 0), col_order_mem (0, 0),
    by decide!, by decide!, by decide!, by decide!⟩

/-- C25 (amended): the stateful per-pixel callback computes the per-block encoding of the
code's floating-point arithmetic, with the chromas accumulated in the order of the visit.
Take an image with a positive denominator and a traversal that visits block after block of
its even crop, the four cells of each block together in any order with the cell at odd column
and odd row last.
(1) Folding `compress_cb` over the traversal from the closure of `compress40` is the
block-by-block encoder `encode_blocks_f32`, which stores at `(i, j)` the block encoding of the
pixels at `(2i, 2j)`, `(2i+1, 2j)`, `(2i, 2j+1)`, `(2i+1, 2j+1)` with their chromas summed in
binary32 in the order in which the traversal meets them. (2) For a chroma index function
below 16 and samples at most the denominator the fold returns, both accumulators are
zero again, every visited block `(i, j)` holds that block encoding of its own four pixels and
every other word of the grid is untouched. (3) From any closure with zero accumulators, the
cells of one block leave the four lumas in the luma array, the accumulators at zero, and only
the word `(i, j)` changed. (4) The luma of the cell `(col, row)` is at index
`(row mod 2) * 2 + (col mod 2)`. (5) The accumulated sum of four values is the chain of four
`float` additions from zero. -/
theorem C25_callback_block_encoding_float (index_of : ℚ → Nat) (image : Pnm_ppm)
    (hD : 0 < image.denominator)
    (y_vals : Nat → ℚ) (bs : List (Nat × Nat)) (ord : Nat × Nat → List (Nat × Nat))
    (hord : ∀ b ∈ bs, ord b ∈ block_orders b.1 b.2)
    (hin : ∀ b ∈ bs, 2 * b.1 + 1 < image.width - image.width % 2 ∧
      2 * b.2 + 1 < image.height - image.height % 2) :
    map_cells image.pixels (compress_cb_f32 index_of) (bs.flatMap ord)
        (initial_info image y_vals)
      = encode_blocks_f32 index_of image.pixels ord bs (initial_info image y_vals) ∧
    ((∀ x, index_of x ≤ 15) →
      (∀ x y, x < image.width → y < image.height →
        (image.pixels x y).red ≤ image.denominator ∧
        (image.pixels x y).green ≤ image.denominator ∧
        (image.pixels x y).blue ≤ image.denominator) →
      ∃ cl', map_cells image.pixels (compress_cb_f32 index_of) (bs.flatMap ord)
            (initial_info image y_vals) = .ok cl' ∧
        cl'.avg_pb = 0 ∧ cl'.avg_pr = 0 ∧
        cl'.compressed.width = image.width / 2 ∧ cl'.compressed.height = image.height / 2 ∧
        (∀ i j, (i, j) ∈ bs →
          encode_block_f32 index_of image.denominator (image.pixels (2 * i) (2 * j))
            (image.pixels (2 * i + 1) (2 * j)) (image.pixels (2 * i) (2 * j + 1))
            (image.pixels (2 * i + 1) (2 * j + 1))
            ((ord (i, j)).map fun c => image.pixels c.1 c.2)
            = .ok (cl'.compressed.elems i j)) ∧
        (∀ i j, (i, j) ∉ bs → cl'.compressed.elems i j = 0)) ∧
    (∀ b ∈ bs, ∀ (cm : UArray2) (yv : Nat → ℚ) (rest : List (Nat × Nat)),
      map_cells image.pixels (compress_cb_f32 index_of) (ord b ++ rest)
          ⟨cm, yv, 0, 0, image.denominator, image.width, image.height⟩
        = (encode_block_f32 index_of image.denominator (image.pixels (2 * b.1) (2 * b.2))
            (image.pixels (2 * b.1 + 1) (2 * b.2)) (image.pixels (2 * b.1) (2 * b.2 + 1))
            (image.pixels (2 * b.1 + 1) (2 * b.2 + 1))
            ((ord b).map fun c => image.pixels c.1 c.2)).bind fun word =>
            (UArray2_store cm b.1 b.2 word).bind fun compressed =>
              map_cells image.pixels (compress_cb_f32 index_of) rest
                ⟨compressed, block_y_vals_f32 image.denominator
                  (image.pixels (2 * b.1) (2 * b.2))
                  (image.pixels (2 * b.1 + 1) (2 * b.2)) (image.pixels (2 * b.1) (2 * b.2 + 1))
                  (image.pixels (2 * b.1 + 1) (2 * b.2 + 1)) yv, 0, 0, image.denominator,
                  image.width, image.height⟩) ∧
    (∀ (i j col row : Nat) (old : Nat → ℚ), col / 2 = i → row / 2 = j →
      block_y_vals_f32 image.denominator (image.pixels (2 * i) (2 * j))
          (image.pixels (2 * i + 1) (2 * j)) (image.pixels (2 * i) (2 * j + 1))
          (image.pixels (2 * i + 1) (2 * j + 1)) old ((row % 2) * 2 + (col % 2))
        = (rgb_to_cv_f32 (scale_rgb_f32 (image.pixels col row) image.denominator)).1) ∧
    (∀ x0 x1 x2 x3 : ℚ, block_sum_f32 [x0, x1, x2, x3]
      = to_float (to_float (to_float (to_float (0 + x0) + x1) + x2) + x3)) := by
  have hall : ∀ b ∈ bs, ord b ∈ block_orders b.1 b.2 ∧
      2 * b.1 + 1 < image.width - image.width % 2 ∧
      2 * b.2 + 1 < image.height - image.height % 2 :=
    fun b hb => ⟨hord b hb, (hin b hb).1, (hin b hb).2⟩
  have href : map_cells image.pixels (compress_cb_f32 index_of) (bs.flatMap ord)
      (initial_info image y_vals)
        = encode_blocks_f32 index_of image.pixels ord bs (initial_info image y_vals) :=
    compress_blocks_f32 index_of image.pixels ord image.denominator image.width image.height bs
      (UArray2_new (image.width / 2) (image.height / 2)) y_vals hall
  refine ⟨href, ?_, ?_, ?_, fun _ _ _ _ => rfl⟩
  · intro hidx hpx
    obtain ⟨cl', hcl, hw, hh, hpb, hpr, hwords, hrest⟩ :=
      encode_blocks_f32_ok index_of hidx image.pixels ord hD image.width image.height
        image.width image.height hpx bs (UArray2_new (image.width / 2) (image.height / 2))
        y_vals
        (fun b hb => by
          have h1 := (hin b hb).1
          have h2 := (hin b hb).2
          refine ⟨?_, ?_, by omega, by omega⟩
          · show b.1 < image.width / 2
            omega
          · show b.2 < image.height / 2
            omega)
    refine ⟨cl', href.trans hcl, hpb, hpr, hw, hh, hwords, ?_⟩
    intro i j hij
    rw [hrest i j hij]
    rfl
  · intro b hb cm yv rest
    exact compress_block_f32 index_of image.pixels cm yv image.denominator image.width
      image.height b.1 b.2 (ord b) (hord b hb) (hin b hb).1 (hin b hb).2 rest
  · intro i j col row old hi hj
    have hc : col = 2 * i ∨ col = 2 * i + 1 := by omega
    have hr : row = 2 * j ∨ row = 2 * j + 1 := by omega
    obtain ⟨e0, e1, e2, e3⟩ := block_y_vals_f32_cells image.denominator
      (image.pixels (2 * i) (2 * j)) (image.pixels (2 * i + 1) (2 * j))
      (image.pixels (2 * i) (2 * j + 1)) (image.pixels (2 * i + 1) (2 * j + 1)) old
    rcases hc with rfl | rfl <;> rcases hr with rfl | rfl
    · have : (2 * j) % 2 * 2 + (2 * i) % 2 = 0 := by omega
      rw [this, e0]
    · have : (2 * j + 1) % 2 * 2 + (2 * i) % 2 = 2 := by omega
      rw [this, e2]
    · have : (2 * j) % 2 * 2 + (2 * i + 1) % 2 = 1 := by omega
      rw [this, e1]
    · have : (2 * j + 1) % 2 * 2 + (2 * i + 1) % 2 = 3 := by omega
      rw [this, e3]

/-- Witness for C25 (amended): the single block of the 2 by 2 image `sample_crop`, its cells
row by row. -/
theorem C25_callback_block_encoding_float_witness :
    (0 < sample_crop.denominator ∧
      (∀ b ∈ [((0 : Nat), (0 : Nat))], row_order b ∈ block_orders b.1 b.2) ∧
      (∀ b ∈ [((0 : Nat), (0 : Nat))], 2 * b.1 + 1 < sample_crop.width - sample_crop.width % 2 ∧
        2 * b.2 + 1 < sample_crop.height - sample_crop.height % 2)) ∧
    map_cells sample_crop.pixels (compress_cb_f32 const_index) ([(0, 0)].flatMap row_order)
        (initial_info sample_crop (fun _ => 0))
      = encode_blocks_f32 const_index sample_crop.pixels row_order [(0, 0)]
          (initial_info sample_crop (fun _ => 0)) :=
  have h1 : ∀ b ∈ [((0 : Nat), (0 : Nat))], row_order b ∈ block_orders b.1 b.2 :=
    fun b _ => row_order_mem b
  have h2 : ∀ b ∈ [((0 : Nat), (0 : Nat))],
      2 * b.1 + 1 < sample_crop.width - sample_crop.width % 2 ∧
      2 * b.2 + 1 < sample_crop.height - sample_crop.height % 2 := by
    intro b hb
    rw [List.mem_singleton] at hb
    subst hb
    decide
  ⟨⟨by decide, h1, h2⟩,
    (C25_callback_block_encoding_float const_index sample_crop (by decide) (fun _ => 0)
      [(0, 0)] row_order h1 h2).1⟩

end Arith
